import Mathlib

/-!
# The red-black tree of `src/Tree.cc`, with `src/Disjoint.h` and `src/todo/Hash.h`

A shallow embedding of `RBTree` (`lookup`, `modify`, `insert`, `remove`, `isSane` and the
checks it calls) over an explicit heap, and the proofs of its contracts.  The loop of
`Disjoint::r_rw_transaction` and the bucket index of `HashTable` follow, in the namespaces
`DisjointBench` and `HashTable`.

* Nodes live in a heap `Nat → Option RBNode`; a pointer is an `Option Nat`, `none` being
  `NULL`.  A read or write through `NULL`, through a freed address, or of `m_child[i]`
  with `i` other than 0 and 1 has no result (`none`).
* Loops and recursive functions take a fuel argument and have no result when it runs out.
* `int` values are integers between `INT_MIN` and `INT_MAX`; arithmetic on them wraps
  (`wrap32`).
* The second part relates heaps to tree shapes (`Tr`, `Rep`, `RepZ`) and follows every
  pointer update of `insert` and `remove` on shapes; the third part proves the red-black
  invariants on shapes; the last part states the contracts on heaps.
-/

set_option autoImplicit false
set_option linter.unusedTactic false
set_option linter.unreachableTactic false
set_option linter.unusedVariables false
set_option linter.unnecessarySeqFocus false

namespace RBTree

/-- Modelled from the spec: the node colours of `Tree.h`, which is not among the
sources; `Tree.cc` uses the two constants `RED` and `BLACK`. -/
inductive Color where
  | RED
  | BLACK
  deriving DecidableEq

export Color (RED BLACK)

/-- Modelled from the spec: the node record `RBNode` of `Tree.h`, which is not among the
sources, with the fields that `Tree.cc` reads and writes: colour, value, parent pointer,
index in the parent (`m_ID`), and the two child pointers `m_child[0]`, `m_child[1]`. -/
structure RBNode where
  m_color : Color
  m_val : Int
  m_parent : Option Nat
  m_ID : Int
  m_child0 : Option Nat
  m_child1 : Option Nat
  deriving DecidableEq

/-- The heap: which node is stored at each allocated address. -/
abbrev Heap := Nat → Option RBNode

/-- Smallest machine `int`. -/
def INT_MIN : Int := -2147483648

/-- Largest machine `int`. -/
def INT_MAX : Int := 2147483647

/-- Two's complement wrap-around of a 32-bit `int` result. -/
def wrap32 (z : Int) : Int := (z + 2147483648) % 4294967296 - 2147483648

/-- Read of `m_child[i]`; an index other than 0 and 1 is out of bounds. -/
def RBNode.child (n : RBNode) (i : Int) : Option (Option Nat) :=
  if i = 0 then some n.m_child0 else if i = 1 then some n.m_child1 else none

/-- Store into `m_child[i]`; an index other than 0 and 1 is out of bounds. -/
def RBNode.setChild (n : RBNode) (i : Int) (x : Option Nat) : Option RBNode :=
  if i = 0 then some { n with m_child0 := x }
  else if i = 1 then some { n with m_child1 := x } else none

/-- Heap with the node at address `a` replaced. -/
def Heap.set (h : Heap) (a : Nat) (n : RBNode) : Heap :=
  fun b => if b = a then some n else h b

/-- Heap with address `a` released. -/
def Heap.free (h : Heap) (a : Nat) : Heap :=
  fun b => if b = a then none else h b

/-- Dereference of a pointer: `*p`. -/
def rd (h : Heap) (p : Option Nat) : Option RBNode :=
  match p with
  | none => none
  | some a => h a

/-- `TM_WRITE(p->m_color, c)`. -/
def wColor (h : Heap) (p : Option Nat) (c : Color) : Option Heap :=
  match p with
  | none => none
  | some a =>
    match h a with
    | none => none
    | some n => some (h.set a { n with m_color := c })

/-- `TM_WRITE(p->m_val, v)`. -/
def wVal (h : Heap) (p : Option Nat) (v : Int) : Option Heap :=
  match p with
  | none => none
  | some a =>
    match h a with
    | none => none
    | some n => some (h.set a { n with m_val := v })

/-- `TM_WRITE(p->m_parent, q)`. -/
def wParent (h : Heap) (p : Option Nat) (q : Option Nat) : Option Heap :=
  match p with
  | none => none
  | some a =>
    match h a with
    | none => none
    | some n => some (h.set a { n with m_parent := q })

/-- `TM_WRITE(p->m_ID, i)`. -/
def wID (h : Heap) (p : Option Nat) (i : Int) : Option Heap :=
  match p with
  | none => none
  | some a =>
    match h a with
    | none => none
    | some n => some (h.set a { n with m_ID := i })

/-- `TM_WRITE(p->m_child[i], q)`. -/
def wChild (h : Heap) (p : Option Nat) (i : Int) (q : Option Nat) : Option Heap :=
  match p with
  | none => none
  | some a =>
    match h a with
    | none => none
    | some n =>
      match n.setChild i q with
      | none => none
      | some n1 => some (h.set a n1)

/-- Sequencing of two steps of which the first may fail. -/
@[noinline]
def andThen {α β : Type} (x : Option α) (f : α → Option β) : Option β :=
  match x with
  | none => none
  | some a => f a

end RBTree

/-- Modelled from the spec: the class `RBTree` of `Tree.h`, which is not among the
sources; `Tree.cc` uses its one data member `sentinel`.  The heap that the pointers of
the tree refer to is part of the state. -/
structure RBTree where
  sentinel : Nat
  heap : RBTree.Heap

namespace RBTree

/-- Modelled from the spec: the node constructor `RBNode()` of `Tree.h`, which is not
among the sources; the sentinel it builds is BLACK and has no children, and here no
parent, index 0 and value -1. -/
def RBNode.fresh : RBNode :=
  { m_color := BLACK, m_val := -1, m_parent := none, m_ID := 0,
    m_child0 := none, m_child1 := none }

/-- The constructor `RBTree::RBTree()`: `sentinel(new RBNode())`, the new node being
placed at address `s`. -/
def new (s : Nat) : RBTree :=
  { sentinel := s, heap := fun b => if b = s then some RBNode.fresh else none }

/-- The loop of `RBTree::lookup` (lines 11-18), started at node `x`. -/
def lookupLoop (h : Heap) (v : Int) : Nat → Option Nat → Option Bool
  | 0, _ => none
  | _ + 1, none => some false
  | fuel + 1, some a =>
    match h a with
    | none => none
    | some x =>
      let xval := x.m_val
      if xval = v then some true
      else
        match x.child (if v < xval then 0 else 1) with
        | none => none
        | some c => lookupLoop h v fuel c

/-- `RBTree::lookup` (lines 7-19). -/
def lookup (fuel : Nat) (t : RBTree) (v : Int) : Option Bool :=
  andThen (rd t.heap (some t.sentinel)) fun sn =>
  lookupLoop t.heap v fuel sn.m_child0

/-- The search loop of `RBTree::insert` (lines 37-44): the result is `none` inside
when the key exists, and otherwise the node `curr` and the index `cID` of its
empty child slot. -/
def insertFind (h : Heap) (v : Int) :
    Nat → Nat → Int → Option Nat → Option (Option (Nat × Int))
  | 0, _, _, _ => none
  | _ + 1, curr, cID, none => some (some (curr, cID))
  | fuel + 1, _, _, some c =>
    match h c with
    | none => none
    | some child =>
      let cval := child.m_val
      if cval = v then some none
      else
        let cID := if v < cval then 0 else 1
        match child.child cID with
        | none => none
        | some next => insertFind h v fuel c cID next

/-- The guarded update of lines 95-99, 123-127, 192-196, 270-274 and 306-310: when
`x` is not `NULL`, its parent is set to `p` and its index to `i`. -/
def setParentOf (h : Heap) (x : Option Nat) (p : Option Nat) (i : Int) : Option Heap :=
  match x with
  | none => some h
  | some _ =>
    andThen (wParent h x p) fun h =>
    wID h x i

/-- Lines 90-112 of `RBTree::insert`: the child is promoted over its parent; the
result is the heap with the new `child_r` and `parent_w`. -/
def promoteChild (h : Heap) (child_r parent_w gparent_w : Option Nat) (cID pID : Int) :
    Option (Heap × Option Nat × Option Nat) :=
  let child_rw := child_r
  andThen (rd h child_rw) fun cn =>
  andThen (cn.child (1 - cID)) fun baby =>
  andThen (wChild h parent_w cID baby) fun h =>
  andThen (setParentOf h baby parent_w cID) fun h =>
  andThen (wChild h child_rw (1 - cID) parent_w) fun h =>
  andThen (wParent h parent_w child_rw) fun h =>
  andThen (wID h parent_w (1 - cID)) fun h =>
  andThen (wChild h gparent_w pID child_rw) fun h =>
  andThen (wParent h child_rw gparent_w) fun h =>
  andThen (wID h child_rw pID) fun h =>
  some (h, parent_w, child_rw)

/-- Lines 115-135 of `RBTree::insert`: the parent is painted BLACK, the grandparent
RED, and the parent is promoted over the grandparent. -/
def promoteParent (h : Heap) (parent_w gparent_w : Option Nat) (pID : Int) :
    Option Heap :=
  andThen (wColor h parent_w BLACK) fun h =>
  andThen (wColor h gparent_w RED) fun h =>
  andThen (rd h gparent_w) fun gn =>
  let ggparent_w := gn.m_parent
  let gID := gn.m_ID
  andThen (rd h parent_w) fun pn =>
  andThen (pn.child (1 - pID)) fun ochild =>
  andThen (wChild h gparent_w pID ochild) fun h =>
  andThen (setParentOf h ochild gparent_w pID) fun h =>
  andThen (wChild h parent_w (1 - pID) gparent_w) fun h =>
  andThen (wParent h gparent_w parent_w) fun h =>
  andThen (wID h gparent_w (1 - pID)) fun h =>
  andThen (wChild h ggparent_w gID parent_w) fun h =>
  andThen (wParent h parent_w ggparent_w) fun h =>
  wID h parent_w gID

/-- The test `(x != NULL) && (RED == (x->m_color))` of lines 77, 251 and 288. -/
def isRedPtr (h : Heap) (x : Option Nat) : Option Bool :=
  match x with
  | none => some false
  | some _ =>
    andThen (rd h x) fun n =>
    some (decide (RED = n.m_color))

/-- One iteration of the balancing loop of `RBTree::insert` (lines 61-136): the
result is the heap and, unless the loop is left by `break`, the `child_r` of the
next iteration. -/
def insertFixStep (sen : Nat) (h : Heap) (child_r : Option Nat) :
    Option (Heap × Option (Option Nat)) :=
  andThen (rd h child_r) fun cn =>
  let parent_r := cn.m_parent
  andThen (rd h parent_r) fun pn =>
  let gparent_r := pn.m_parent
  if gparent_r = some sen ∨ BLACK = pn.m_color then
    some (h, none)
  else
    let pID := pn.m_ID
    andThen (rd h gparent_r) fun gn =>
    andThen (gn.child (1 - pID)) fun aunt_r =>
    let gparent_w := gparent_r
    let parent_w := parent_r
    andThen (isRedPtr h aunt_r) fun auntRed =>
    if auntRed = true then
      andThen (wColor h parent_w BLACK) fun h =>
      andThen (wColor h aunt_r BLACK) fun h =>
      andThen (wColor h gparent_w RED) fun h =>
      some (h, some gparent_w)
    else
      let cID := cn.m_ID
      andThen
        (if cID ≠ pID then promoteChild h child_r parent_w gparent_w cID pID
         else some (h, child_r, parent_w)) fun r =>
      andThen (promoteParent r.1 r.2.2 gparent_w pID) fun h =>
      some (h, some r.2.1)

/-- The balancing loop of `RBTree::insert` (lines 60-137), started at `child_r`. -/
def insertFix (sen : Nat) : Nat → Heap → Option Nat → Option Heap
  | 0, _, _ => none
  | fuel + 1, h, child_r =>
    match insertFixStep sen h child_r with
    | none => none
    | some (h, none) => some h
    | some (h, some c) => insertFix sen fuel h c

/-- `RBTree::insert` (lines 30-147); `a` is the address that `malloc` returns. -/
def insert (fuel : Nat) (t : RBTree) (a : Nat) (v : Int) : Option (RBTree × Bool) :=
  andThen (rd t.heap (some t.sentinel)) fun sn =>
  andThen (insertFind t.heap v fuel t.sentinel 0 sn.m_child0) fun found =>
  match found with
  | none => some (t, false)
  | some (curr, cID) =>
    let child : Option Nat := some a
    let h := t.heap.set a
      { m_color := RED, m_val := v, m_parent := some curr, m_ID := cID,
        m_child0 := none, m_child1 := none }
    andThen (wChild h (some curr) cID child) fun h =>
    andThen (insertFix t.sentinel fuel h child) fun h =>
    andThen (rd h (some t.sentinel)) fun sentinel_r =>
    let root_r := sentinel_r.m_child0
    andThen (rd h root_r) fun rn =>
    andThen (if rn.m_color ≠ BLACK then wColor h root_r BLACK else some h) fun h =>
    some ({ t with heap := h }, true)

/-- The search loop of `RBTree::remove` (lines 157-162): the node holding `v`, or
`NULL`. -/
def removeFind (h : Heap) (v : Int) : Nat → Option Nat → Option (Option Nat)
  | 0, _ => none
  | _ + 1, none => some none
  | fuel + 1, some a =>
    match h a with
    | none => none
    | some x =>
      let xval := x.m_val
      if xval = v then some (some a)
      else
        match x.child (if v < xval then 0 else 1) with
        | none => none
        | some c => removeFind h v fuel c

/-- The loop of lines 178-179: follow index-0 children from `leftmost_r` as long as
there is one. -/
def leftmost (h : Heap) : Nat → Option Nat → Option (Option Nat)
  | 0, _ => none
  | fuel + 1, leftmost_r =>
    match rd h leftmost_r with
    | none => none
    | some n =>
      match n.m_child0 with
      | none => some leftmost_r
      | some c => leftmost h fuel (some c)

/-- Lines 227-246 of `RBTree::remove`: the sibling is RED; it is promoted over the
parent and the near nephew becomes the sibling. -/
def siblingRed (h : Heap) (parent_rw sibling_w : Option Nat) (cID : Int) :
    Option (Heap × Option Nat) :=
  andThen (wColor h parent_rw RED) fun h =>
  andThen (wColor h sibling_w BLACK) fun h =>
  andThen (rd h parent_rw) fun pn =>
  let gparent_w := pn.m_parent
  let pID := pn.m_ID
  andThen (rd h sibling_w) fun sn =>
  andThen (sn.child cID) fun nephew_w =>
  andThen (wChild h parent_rw (1 - cID) nephew_w) fun h =>
  andThen (wParent h nephew_w parent_rw) fun h =>
  andThen (wID h nephew_w (1 - cID)) fun h =>
  andThen (wChild h sibling_w cID parent_rw) fun h =>
  andThen (wParent h parent_rw sibling_w) fun h =>
  andThen (wID h parent_rw cID) fun h =>
  andThen (wChild h gparent_w pID sibling_w) fun h =>
  andThen (wParent h sibling_w gparent_w) fun h =>
  andThen (wID h sibling_w pID) fun h =>
  some (h, nephew_w)

/-- The promotion of `sibling_w` over `parent_rw` when the far nephew is red
(lines 261-282, repeated as lines 323-344), `n_rw` being the node painted BLACK. -/
def farNephewRed (h : Heap) (parent_rw sibling_w n_rw : Option Nat) (cID : Int) :
    Option Heap :=
  andThen (rd h parent_rw) fun pn =>
  andThen (wColor h sibling_w pn.m_color) fun h =>
  andThen (wColor h parent_rw BLACK) fun h =>
  andThen (wColor h n_rw BLACK) fun h =>
  andThen (rd h parent_rw) fun pn =>
  let gparent_w := pn.m_parent
  let pID := pn.m_ID
  andThen (rd h sibling_w) fun sn =>
  andThen (sn.child cID) fun nephew =>
  andThen (wChild h parent_rw (1 - cID) nephew) fun h =>
  andThen (setParentOf h nephew parent_rw (1 - cID)) fun h =>
  andThen (wChild h sibling_w cID parent_rw) fun h =>
  andThen (wParent h parent_rw sibling_w) fun h =>
  andThen (wID h parent_rw cID) fun h =>
  andThen (wChild h gparent_w pID sibling_w) fun h =>
  andThen (wParent h sibling_w gparent_w) fun h =>
  wID h sibling_w pID

/-- Lines 298-320 of `RBTree::remove`: the near nephew `n_rw` is RED; it is promoted
over the sibling; the result is the heap with the new `sibling_w` and `n_rw`. -/
def nearNephewRed (h : Heap) (parent_rw sibling_w n_rw : Option Nat) (cID : Int) :
    Option (Heap × Option Nat × Option Nat) :=
  andThen (wColor h sibling_w RED) fun h =>
  andThen (wColor h n_rw BLACK) fun h =>
  let t := sibling_w
  andThen (rd h n_rw) fun nn =>
  andThen (nn.child (1 - cID)) fun gneph =>
  andThen (wChild h sibling_w cID gneph) fun h =>
  andThen (setParentOf h gneph sibling_w cID) fun h =>
  andThen (wChild h n_rw (1 - cID) sibling_w) fun h =>
  andThen (wParent h sibling_w n_rw) fun h =>
  andThen (wID h sibling_w (1 - cID)) fun h =>
  andThen (wChild h parent_rw (1 - cID) n_rw) fun h =>
  andThen (wParent h n_rw parent_rw) fun h =>
  andThen (wID h n_rw (1 - cID)) fun h =>
  some (h, n_rw, t)

/-- Lines 249-359 of `RBTree::remove`, the part of an iteration that follows the test
for a RED sibling: the far nephew is RED, or the near nephew is RED, or the sibling is
painted RED and `curr` moves to the parent.  The result is the heap, the value of
`curr`, and whether the loop goes on. -/
def blackSibling (h : Heap) (curr parent_rw sibling_w : Option Nat) (cID : Int) :
    Option (Heap × Option Nat × Bool) :=
  andThen (rd h sibling_w) fun sn =>
  andThen (sn.child (1 - cID)) fun n =>
  andThen (isRedPtr h n) fun farRed =>
  if farRed = true then
    andThen (farNephewRed h parent_rw sibling_w n cID) fun h =>
    some (h, curr, false)
  else
    andThen (sn.child cID) fun n =>
    andThen (isRedPtr h n) fun nearRed =>
    if nearRed = true then
      andThen (nearNephewRed h parent_rw sibling_w n cID) fun r =>
      andThen (farNephewRed r.1 parent_rw r.2.1 r.2.2 cID) fun h =>
      some (h, curr, false)
    else
      andThen (wColor h sibling_w RED) fun h =>
      some (h, parent_rw, true)

/-- One iteration of the rebalancing loop of `RBTree::remove` (lines 211-359): the
result is the heap, the value of `curr`, and whether the loop goes on. -/
def removeFixStep (sen : Nat) (h : Heap) (curr : Option Nat) :
    Option (Heap × Option Nat × Bool) :=
  andThen (rd h curr) fun cn =>
  let parent_rw := cn.m_parent
  if parent_rw = some sen ∨ RED = cn.m_color then
    some (h, curr, false)
  else
    let cID := cn.m_ID
    andThen (rd h parent_rw) fun pn =>
    andThen (pn.child (1 - cID)) fun sibling_w =>
    andThen (rd h sibling_w) fun sn =>
    andThen
      (if RED = sn.m_color then siblingRed h parent_rw sibling_w cID
       else some (h, sibling_w)) fun r =>
    blackSibling r.1 curr parent_rw r.2 cID

/-- The rebalancing loop of `RBTree::remove` (lines 210-360), started at `curr`; the
result is the heap and the final `curr`. -/
def removeFix (sen : Nat) : Nat → Heap → Option Nat → Option (Heap × Option Nat)
  | 0, _, _ => none
  | fuel + 1, h, curr =>
    match removeFixStep sen h curr with
    | none => none
    | some (h, curr, false) => some (h, curr)
    | some (h, curr, true) => removeFix sen fuel h curr

/-- Lines 172-183 of `RBTree::remove`: when `x_rw` has two children, the value of the
leftmost node of its right subtree is copied into it and that node becomes `x_rw`. -/
def swapWithSuccessor (fuel : Nat) (h : Heap) (x_rw : Option Nat) :
    Option (Heap × Option Nat) :=
  andThen (rd h x_rw) fun xn =>
  let xrchild := xn.m_child1
  if xrchild ≠ none ∧ xn.m_child0 ≠ none then
    andThen (leftmost h fuel xn.m_child1) fun leftmost_r =>
    andThen (rd h leftmost_r) fun ln =>
    andThen (wVal h x_rw ln.m_val) fun h =>
    some (h, leftmost_r)
  else some (h, x_rw)

/-- Lines 186-206 of `RBTree::remove`: `x_rw` is taken out of the tree, its child
taking its place, and a RED child of a BLACK `x_rw` is painted BLACK. -/
def unlink (h : Heap) (x_rw : Option Nat) : Option Heap :=
  andThen (rd h x_rw) fun xn =>
  let parent_rw := xn.m_parent
  let cID : Int := if xn.m_child0 ≠ none then 0 else 1
  andThen (xn.child cID) fun child =>
  let xID := xn.m_ID
  andThen (wChild h parent_rw xID child) fun h =>
  andThen (setParentOf h child parent_rw xID) fun h =>
  andThen (rd h x_rw) fun xn =>
  if BLACK = xn.m_color ∧ child ≠ none then
    let c_r := child
    andThen (rd h c_r) fun cn =>
    if RED = cn.m_color then
      andThen (wColor h x_rw RED) fun h =>
      wColor h c_r BLACK
    else some h
  else some h

/-- Release of the storage at `x`: `free(x)`. -/
def release (h : Heap) (x : Option Nat) : Option Heap :=
  match x with
  | none => none
  | some a =>
    match h a with
    | none => none
    | some _ => some (h.free a)

/-- `RBTree::remove` (lines 150-368). -/
def remove (fuel : Nat) (t : RBTree) (v : Int) : Option (RBTree × Bool) :=
  andThen (rd t.heap (some t.sentinel)) fun sentinel_r =>
  andThen (removeFind t.heap v fuel sentinel_r.m_child0) fun x_r =>
  match x_r with
  | none => some (t, false)
  | some _ =>
    andThen (swapWithSuccessor fuel t.heap x_r) fun r =>
    let x_rw := r.2
    andThen (unlink r.1 x_rw) fun h =>
    andThen (removeFix t.sentinel fuel h x_rw) fun r =>
    andThen (wColor r.1 r.2 BLACK) fun h =>
    andThen (release h x_rw) fun h =>
    some ({ t with heap := h }, true)

/-- `RBTree::modify` (lines 21-27); `a` is the address that `malloc` returns if
`insert` is called. -/
def modify (fuel : Nat) (t : RBTree) (a : Nat) (v : Int) : Option RBTree :=
  andThen (lookup fuel t v) fun b =>
  if b = true then
    andThen (remove fuel t v) fun r => some r.1
  else
    andThen (insert fuel t a v) fun r => some r.1

/-- `RBTree::blackHeight` (lines 372-383); the fuel bounds the recursion depth. -/
def blackHeight (h : Heap) : Nat → Option Nat → Option Int
  | 0, _ => none
  | _ + 1, none => some 0
  | fuel + 1, some a =>
    match h a with
    | none => none
    | some x_r =>
      match blackHeight h fuel x_r.m_child0 with
      | none => none
      | some bh0 =>
        match blackHeight h fuel x_r.m_child1 with
        | none => none
        | some bh1 =>
          if bh0 ≥ 0 ∧ bh1 = bh0 then
            some (if BLACK = x_r.m_color then wrap32 (1 + bh0) else bh0)
          else some (-1)

/-- `RBTree::redViolation` (lines 386-394), with the short-circuit of `||`. -/
def redViolation (h : Heap) : Nat → Option Nat → Option Nat → Option Bool
  | 0, _, _ => none
  | _ + 1, _, none => some false
  | fuel + 1, p_r, some a =>
    match h a with
    | none => none
    | some x_r =>
      match rd h p_r with
      | none => none
      | some pn =>
        if RED = pn.m_color ∧ RED = x_r.m_color then some true
        else
          match redViolation h fuel (some a) x_r.m_child0 with
          | none => none
          | some true => some true
          | some false => redViolation h fuel (some a) x_r.m_child1

/-- `RBTree::validParents` (lines 397-406), with the short-circuit of `&&`. -/
def validParents (h : Heap) : Nat → Option Nat → Int → Option Nat → Option Bool
  | 0, _, _, _ => none
  | _ + 1, _, _, none => some true
  | fuel + 1, p, xID, some a =>
    match h a with
    | none => none
    | some x_r =>
      if x_r.m_parent = p ∧ x_r.m_ID = xID then
        match validParents h fuel (some a) 0 x_r.m_child0 with
        | none => none
        | some false => some false
        | some true => validParents h fuel (some a) 1 x_r.m_child1
      else some false

/-- `RBTree::inOrder` (lines 409-418), with the short-circuit of `&&`; the bounds
`m_val - 1` and `m_val + 1` are computed in `int`. -/
def inOrder (h : Heap) : Nat → Option Nat → Int → Int → Option Bool
  | 0, _, _, _ => none
  | _ + 1, none, _, _ => some true
  | fuel + 1, some a, lowerBound, upperBound =>
    match h a with
    | none => none
    | some x_r =>
      if lowerBound ≤ x_r.m_val ∧ x_r.m_val ≤ upperBound then
        match inOrder h fuel x_r.m_child0 lowerBound (wrap32 (x_r.m_val - 1)) with
        | none => none
        | some false => some false
        | some true => inOrder h fuel x_r.m_child1 (wrap32 (x_r.m_val + 1)) upperBound
      else some false

/-- `RBTree::isSane` (lines 424-438), with the short-circuit of `&&`. -/
def isSane (fuel : Nat) (t : RBTree) : Option Bool :=
  andThen (rd t.heap (some t.sentinel)) fun sentinel_r =>
  let root := sentinel_r.m_child0
  match root with
  | none => some true
  | some _ =>
    andThen (rd t.heap root) fun root_r =>
    if BLACK = root_r.m_color then
      andThen (blackHeight t.heap fuel root) fun bh =>
      if bh ≥ 0 then
        andThen (redViolation t.heap fuel (some t.sentinel) root) fun rv =>
        if rv = false then
          andThen (validParents t.heap fuel (some t.sentinel) 0 root) fun vp =>
          if vp = true then inOrder t.heap fuel root INT_MIN INT_MAX
          else some false
        else some false
      else some false
    else some false

/-! # Shape of the heap: trees, contexts and the representation relation -/

/-- The shape of a (sub)tree laid out in the heap: each node with its address,
colour, index-0 subtree, value and index-1 subtree. -/
inductive Tr where
  | nil
  | node (a : Nat) (c : Color) (l : Tr) (v : Int) (r : Tr)

namespace Tr

/-- The pointer to a subtree: `NULL` for the empty one, the root's address otherwise. -/
def ptr : Tr → Option Nat
  | nil => none
  | node a _ _ _ _ => some a

/-- The addresses of the nodes of a subtree. -/
def addrs : Tr → Multiset Nat
  | nil => 0
  | node a _ l _ r => {a} + (addrs l + addrs r)

/-- The values of a subtree from left to right. -/
def keys : Tr → List Int
  | nil => []
  | node _ _ l v r => keys l ++ v :: keys r

/-- The colour of the root; an absent subtree counts as BLACK. -/
def color : Tr → Color
  | nil => BLACK
  | node _ c _ _ _ => c

/-- The subtree with its root painted `c`. -/
def paint (c : Color) : Tr → Tr
  | nil => nil
  | node a _ l v r => node a c l v r

/-- The number of nodes on the longest path down. -/
def depth : Tr → Nat
  | nil => 0
  | node _ _ l _ r => max (depth l) (depth r) + 1

end Tr

open Tr

/-- The child index as stored in `m_ID`: 0 for `false`, 1 for `true`. -/
def toID (d : Bool) : Int := if d then 1 else 0

/-- The node record with its two children given relative to a side `d`: `x` is the
child on side `d` and `y` the child on the other side. -/
def nodeOf (c : Color) (v : Int) (p : Option Nat) (i : Int) (d : Bool)
    (x y : Option Nat) : RBNode :=
  if d then ⟨c, v, p, i, y, x⟩ else ⟨c, v, p, i, x, y⟩

/-- The tree with root `a` whose subtree on side `d` is `x` and on the other side `y`. -/
def mkT (d : Bool) (a : Nat) (c : Color) (v : Int) (x y : Tr) : Tr :=
  if d then node a c y v x else node a c x v y

/-- The heap `h` holds the subtree `t` as the child on side `d` of the node at `p`. -/
def Rep (h : Heap) : Option Nat → Bool → Tr → Prop
  | _, _, nil => True
  | p, d, node a c l v r =>
    h a = some ⟨c, v, p, toID d, l.ptr, r.ptr⟩ ∧
      Rep h (some a) false l ∧ Rep h (some a) true r

/-- One step of a path from a subtree up to the root: the node passed, the side `d` on
which the path arrived, and the subtree `s` on the other side. -/
structure Frame where
  a : Nat
  c : Color
  v : Int
  d : Bool
  s : Tr

/-- The frame closed over the subtree `t`. -/
def Frame.fill (f : Frame) (t : Tr) : Tr := mkT f.d f.a f.c f.v t f.s

/-- The whole tree around `t`, the frames being listed from `t` upwards. -/
def plug : List Frame → Tr → Tr
  | [], t => t
  | f :: rest, t => plug rest (f.fill t)

/-- The address of the node above the hole of a context (the sentinel at the top). -/
def hp (sen : Nat) : List Frame → Nat
  | [] => sen
  | f :: _ => f.a

/-- The side of the hole of a context. -/
def hd : List Frame → Bool
  | [] => false
  | f :: _ => f.d

/-- The addresses of the nodes of a context. -/
def addrsC : List Frame → Multiset Nat
  | [] => 0
  | f :: rest => {f.a} + (f.s.addrs + addrsC rest)

/-- The record of the node above the hole when the hole holds the pointer `x`. -/
def topNode (sen : Nat) : List Frame → Option Nat → RBNode
  | [], x => nodeOf BLACK (-1) none 0 false x none
  | f :: rest, x => nodeOf f.c f.v (some (hp sen rest)) (toID (hd rest)) f.d x f.s.ptr

/-- The heap `h` holds the context `ctx` below the sentinel `sen`, the hole holding
the pointer `x`. -/
def RepC (h : Heap) (sen : Nat) : List Frame → Option Nat → Prop
  | [], x => h sen = some (topNode sen [] x)
  | f :: rest, x =>
    h f.a = some (topNode sen (f :: rest) x) ∧
      Rep h (some f.a) (!f.d) f.s ∧ RepC h sen rest (some f.a)

/-- The heap `h` holds the tree `plug ctx t` below the sentinel `sen`, all addresses
being distinct. -/
structure RepZ (h : Heap) (sen : Nat) (ctx : List Frame) (t : Tr) : Prop where
  hc : RepC h sen ctx t.ptr
  hs : Rep h (some (hp sen ctx)) (hd ctx) t
  hn : (({sen} : Multiset Nat) + (addrsC ctx + t.addrs)).Nodup

/-! # Pointer updates and the balancing loop of `insert` -/

/-- The heap after the guarded update `setParentOf`. -/
def reroot (h : Heap) (x : Option Nat) (q : Option Nat) (i : Int) : Heap :=
  match x with
  | none => h
  | some a =>
    match h a with
    | none => h
    | some n => h.set a { n with m_parent := q, m_ID := i }

/-- The pointer is `NULL` or points to an allocated node. -/
def Alloc (h : Heap) (x : Option Nat) : Prop :=
  ∀ a, x = some a → h a ≠ none

/-- The child on side `d` of the root. -/
def Tr.side : Tr → Bool → Tr
  | nil, _ => nil
  | node _ _ l _ r, d => if d then r else l

/-- The tree that the balancing loop of `insert` leaves, the loop being started at the
root of `X` below the context `ctx`. -/
def insFix : List Frame → Tr → Tr
  | [], X => X
  | [P], X => P.fill X
  | P :: G :: rest, X =>
    if P.c = BLACK then plug (P :: G :: rest) X
    else if G.s.color = RED then
      insFix rest (mkT G.d G.a RED G.v (mkT P.d P.a BLACK P.v X P.s) (G.s.paint BLACK))
    else if P.d = G.d then
      plug rest (mkT G.d P.a BLACK P.v X (mkT G.d G.a RED G.v P.s G.s))
    else
      match X with
      | nil => plug (P :: G :: rest) nil
      | node x cx l xv r =>
        plug rest (mkT G.d x BLACK xv
          (mkT G.d P.a P.c P.v P.s ((node x cx l xv r).side G.d))
          (mkT G.d G.a RED G.v ((node x cx l xv r).side (!G.d)) G.s))

/-! # The search path and `insert` on a represented tree -/

/-- The search path for `v`: the context and subtree at which the descent from `t`
below `ctx` stops, on the node holding `v` or on an absent child. -/
def find (v : Int) : List Frame → Tr → List Frame × Tr
  | ctx, nil => (ctx, nil)
  | ctx, node a c l x r =>
    if x = v then (ctx, node a c l x r)
    else if v < x then find v (⟨a, c, x, false, r⟩ :: ctx) l
    else find v (⟨a, c, x, true, l⟩ :: ctx) r

/-- The tree after `insert(v)` with the new node at address `a`. -/
def ins (T : Tr) (a : Nat) (v : Int) : Tr :=
  match find v [] T with
  | (ctx, nil) => (insFix ctx (node a RED nil v nil)).paint BLACK
  | (_, node _ _ _ _ _) => T

/-! # The red-black invariants on shapes -/

/-- The number of BLACK nodes on the paths down from the root of a balanced subtree,
the root included. -/
def Tr.bh : Tr → Nat
  | nil => 0
  | node _ c l _ r => max (bh l) (bh r) + (if c = BLACK then 1 else 0)

/-- Every path from a node down to an absent child passes the same number of BLACK
nodes. -/
def Tr.Bal : Tr → Prop
  | nil => True
  | node _ _ l _ r => Bal l ∧ Bal r ∧ bh l = bh r

/-- No RED node has a RED child. -/
def Tr.NoRR : Tr → Prop
  | nil => True
  | node _ c l _ r => NoRR l ∧ NoRR r ∧ (c = RED → l.color = BLACK ∧ r.color = BLACK)

/-- The shape is a valid red-black search tree over machine integers. -/
structure Valid (T : Tr) : Prop where
  root : T.color = BLACK
  bal : T.Bal
  norr : T.NoRR
  sorted : T.keys.Pairwise (· < ·)
  range : ∀ k ∈ T.keys, INT_MIN ≤ k ∧ k ≤ INT_MAX

/-- The context is balanced around a hole of black height `n`. -/
def BalC : List Frame → Nat → Prop
  | [], _ => True
  | f :: rest, n => f.s.Bal ∧ f.s.bh = n ∧ BalC rest (n + (if f.c = BLACK then 1 else 0))

/-- The colour of the node above the hole (the sentinel is BLACK). -/
def topColor : List Frame → Color
  | [] => BLACK
  | f :: _ => f.c

/-- No RED node of the context has a RED child off the path or a RED parent. -/
def NoRRC : List Frame → Prop
  | [] => True
  | f :: rest =>
    f.s.NoRR ∧ (f.c = RED → f.s.color = BLACK ∧ topColor rest = BLACK) ∧ NoRRC rest

/-- The topmost node of the context is BLACK. -/
def lastBlack : List Frame → Prop
  | [] => True
  | [f] => f.c = BLACK
  | _ :: g :: rest => lastBlack (g :: rest)

/-- The values to the left of the hole. -/
def keysL : List Frame → List Int
  | [] => []
  | f :: rest => keysL rest ++ (if f.d then f.s.keys ++ [f.v] else [])

/-- The values to the right of the hole. -/
def keysR : List Frame → List Int
  | [] => []
  | f :: rest => (if f.d then [] else f.v :: f.s.keys) ++ keysR rest

/-! # The rebalancing loop of `remove` -/

/-- Lines 249-359 on shapes: the node `p` above the hole has the BLACK sibling `S` on
the other side.  The result tells whether the loop goes on, and gives the context and
subtree it leaves. -/
def delCases (p : Nat) (cp : Color) (vp : Int) (d : Bool) (S : Tr) (rest : List Frame)
    (t : Tr) : Option (Bool × List Frame × Tr) :=
  match S with
  | nil => none
  | node s cs sl sv sr =>
    if ((node s cs sl sv sr).side (!d)).color = RED then
      some (false, rest,
        mkT d s cp sv (mkT d p BLACK vp t ((node s cs sl sv sr).side d))
          (((node s cs sl sv sr).side (!d)).paint BLACK))
    else if ((node s cs sl sv sr).side d).color = RED then
      match (node s cs sl sv sr).side d with
      | nil => none
      | node n cn nl nv nr =>
        some (false, rest,
          mkT d n cp nv (mkT d p BLACK vp t ((node n cn nl nv nr).side d))
            (mkT d s BLACK sv ((node n cn nl nv nr).side (!d))
              ((node s cs sl sv sr).side (!d))))
    else some (true, rest, mkT d p cp vp t (node s RED sl sv sr))

/-- One iteration of the rebalancing loop of `remove` on shapes, below the frame `P`. -/
def delStep (P : Frame) (rest : List Frame) (t : Tr) : Option (Bool × List Frame × Tr) :=
  match P.s with
  | nil => none
  | node s cs sl sv sr =>
    if cs = RED then
      match (node s cs sl sv sr).side P.d with
      | nil => none
      | node n cn nl nv nr =>
        delCases P.a RED P.v P.d (node n cn nl nv nr)
          (⟨s, BLACK, sv, P.d, (node s cs sl sv sr).side (!P.d)⟩ :: rest) t
    else delCases P.a P.c P.v P.d P.s rest t

/-- The rebalancing loop of `remove` on shapes, with the final painting of `curr`:
`det` tells that `curr` is the node taken out of the tree, `cc` is the colour of
`curr`, and the hole of `ctx` holds `t`. -/
def delLoop : Nat → Bool → Color → List Frame → Tr → Option Tr
  | 0, _, _, _, _ => none
  | _ + 1, det, _, [], t => some (if det then t else t.paint BLACK)
  | fuel + 1, det, cc, P :: rest, t =>
    if cc = RED then some (plug (P :: rest) (if det then t else t.paint BLACK))
    else
      match delStep P rest t with
      | none => none
      | some (false, ctx1, t1) => some (plug ctx1 t1)
      | some (true, ctx1, t1) => delLoop fuel false t1.color ctx1 t1

/-- The path to the leftmost node of `t`, above it the context `ctx`. -/
def findMin : List Frame → Tr → List Frame × Tr
  | ctx, nil => (ctx, nil)
  | ctx, node a c nil v r => (ctx, node a c nil v r)
  | ctx, node a c (node a2 c2 l2 v2 r2) v r =>
    findMin (⟨a, c, v, false, r⟩ :: ctx) (node a2 c2 l2 v2 r2)

/-- The value at the root (0 for an absent subtree). -/
def Tr.val : Tr → Int
  | nil => 0
  | node _ _ _ v _ => v

/-- Lines 172-183 on shapes: the context and subtree of the node to take out. -/
def succZ (ctx : List Frame) (x : Nat) (c : Color) (l : Tr) (xv : Int) (r : Tr) :
    List Frame × Tr :=
  if r.ptr ≠ none ∧ l.ptr ≠ none then
    ((findMin [] r).1 ++ ⟨x, c, (findMin [] r).2.val, true, l⟩ :: ctx, (findMin [] r).2)
  else (ctx, node x c l xv r)

/-- Lines 186-206 on shapes: the colour left on the node taken out, and the subtree
that takes its place. -/
def unlinkZ : Tr → Color × Tr
  | nil => (BLACK, nil)
  | node _ cm ml _ mr =>
    if cm = BLACK ∧ (if ml.ptr ≠ none then ml else mr).color = RED then
      (RED, (if ml.ptr ≠ none then ml else mr).paint BLACK)
    else (cm, if ml.ptr ≠ none then ml else mr)

/-- The tree after `remove(v)`. -/
def del (fuel : Nat) (T : Tr) (v : Int) : Option Tr :=
  match find v [] T with
  | (_, nil) => some T
  | (ctx, node x c l xv r) =>
    delLoop fuel true (unlinkZ (succZ ctx x c l xv r).2).1 (succZ ctx x c l xv r).1
      (unlinkZ (succZ ctx x c l xv r).2).2

/-! # Stored values and reachable states -/

/-- Specification side: the values of the nodes reachable from `x` through child
pointers, from left to right; the fuel bounds the depth. -/
def valuesFrom (h : Heap) : Nat → Option Nat → Option (List Int)
  | 0, _ => none
  | _ + 1, none => some []
  | fuel + 1, some a =>
    match h a with
    | none => none
    | some n =>
      match valuesFrom h fuel n.m_child0 with
      | none => none
      | some l =>
        match valuesFrom h fuel n.m_child1 with
        | none => none
        | some r => some (l ++ n.m_val :: r)

/-- Specification side: the values stored in the tree, those of the nodes reachable from
the index-0 child of the sentinel. -/
def storedValues (fuel : Nat) (t : RBTree) : Option (List Int) :=
  andThen (rd t.heap (some t.sentinel)) fun sn => valuesFrom t.heap fuel sn.m_child0

/-- The tree states reached from the empty tree by calls of `insert` and `remove` that
return; `insert` is given an address that is not in use, as `malloc` does, and a value of
type `int`. -/
inductive Reach : RBTree → Prop
  | empty (s : Nat) : Reach (new s)
  | insert {t t1 : RBTree} {fuel a : Nat} {v : Int} {r : Bool} :
      Reach t → t.heap a = none → INT_MIN ≤ v ∧ v ≤ INT_MAX →
      insert fuel t a v = some (t1, r) → Reach t1
  | remove {t t1 : RBTree} {fuel : Nat} {v : Int} {r : Bool} :
      Reach t → remove fuel t v = some (t1, r) → Reach t1

/-! # A sample tree, and `modify` -/

/-- The state after a call of `insert` with fuel 8 (the state before if it does not
return). -/
def afterInsert (t : RBTree) (a : Nat) (v : Int) : RBTree :=
  match insert 8 t a v with
  | some r => r.1
  | none => t

/-- The tree built by `insert(2)`, `insert(1)`, `insert(3)` on the empty tree, the nodes
being placed at the addresses 1, 2 and 3 and the sentinel at 0. -/
def sample : RBTree := afterInsert (afterInsert (afterInsert (new 0) 1 2) 2 1) 3 3

/-! # The numbers of BLACK nodes on the paths -/

/-- Specification side: for each path from `x` down to an absent-child position, the
number of BLACK nodes it passes through; the fuel bounds the depth. -/
def blackCounts (h : Heap) : Nat → Option Nat → Option (List Nat)
  | 0, _ => none
  | _ + 1, none => some [0]
  | fuel + 1, some a =>
    match h a with
    | none => none
    | some n =>
      match blackCounts h fuel n.m_child0 with
      | none => none
      | some l =>
        match blackCounts h fuel n.m_child1 with
        | none => none
        | some r => some ((l ++ r).map fun k => k + (if n.m_color = BLACK then 1 else 0))

/-! # The checks on arbitrary heaps -/

/-- Specification side: the pointer `x` is not `NULL` and the node it points to has the
colour `c`. -/
def colorAt (h : Heap) (c : Color) (x : Option Nat) : Bool :=
  match x with
  | none => false
  | some a =>
    match h a with
    | none => false
    | some n => decide (n.m_color = c)

/-- Specification side: some node of the subtree at `x` is RED and has a RED child; the
fuel bounds the depth. -/
def redRedIn (h : Heap) : Nat → Option Nat → Option Bool
  | 0, _ => none
  | _ + 1, none => some false
  | fuel + 1, some a =>
    match h a with
    | none => none
    | some n =>
      match redRedIn h fuel n.m_child0 with
      | none => none
      | some b0 =>
        match redRedIn h fuel n.m_child1 with
        | none => none
        | some b1 =>
          some ((decide (n.m_color = RED) &&
            (colorAt h RED n.m_child0 || colorAt h RED n.m_child1)) || b0 || b1)

/-- Specification side: the glossary's black-height of `x`, taken on every path: for each
path from `x` down to an absent-child position, the number of BLACK nodes it passes
through, `x` itself excluded; the fuel bounds the depth. -/
def blackCountsBelow (h : Heap) : Nat → Option Nat → Option (List Nat)
  | 0, _ => none
  | _ + 1, none => some [0]
  | fuel + 1, some a =>
    match h a with
    | none => none
    | some n =>
      match blackCounts h fuel n.m_child0 with
      | none => none
      | some l =>
        match blackCounts h fuel n.m_child1 with
        | none => none
        | some r => some (l ++ r)

/-- A heap with a tree that is not in order: the root, at address 1, holds `INT_MIN` and
its index-0 child, at address 2, holds 5. -/
def misordered : Heap := fun b =>
  if b = 1 then
    some { m_color := BLACK, m_val := INT_MIN, m_parent := some 0, m_ID := 0,
           m_child0 := some 2, m_child1 := none }
  else if b = 2 then
    some { m_color := RED, m_val := 5, m_parent := some 1, m_ID := 0,
           m_child0 := none, m_child1 := none }
  else none

/-! # Scenarios from the empty tree -/

/-- The state after the calls of `insert` for the listed addresses and values, one after
the other, each with fuel 8. -/
def afterInserts (t : RBTree) : List (Nat × Int) → RBTree
  | [] => t
  | (a, v) :: rest => afterInserts (afterInsert t a v) rest

/-! # The search of `insert` -/

/-- Lines 33-44 of `RBTree::insert`, the part of the call that only reads: the search for
the insertion point.  The result is `none` inside when the key exists, and otherwise the
node `curr` and the index `cID` of its empty child slot. -/
def insertSearch (fuel : Nat) (t : RBTree) (v : Int) : Option (Option (Nat × Int)) :=
  andThen (rd t.heap (some t.sentinel)) fun sn =>
  insertFind t.heap v fuel t.sentinel 0 sn.m_child0

/-! # The node that `remove` frees -/

/-- The addresses of the nodes of a subtree, each with the value it holds. -/
def Tr.pairs : Tr → Multiset (Nat × Int)
  | nil => 0
  | node a _ l v r => {(a, v)} + (Tr.pairs l + Tr.pairs r)

/-- The addresses of the nodes of a context, each with the value it holds. -/
def pairsC : List Frame → Multiset (Nat × Int)
  | [] => 0
  | f :: rest => {(f.a, f.v)} + (f.s.pairs + pairsC rest)

/-- The addresses of the nodes of a subtree from left to right. -/
def Tr.nodes : Tr → List Nat
  | nil => []
  | node a _ l _ r => Tr.nodes l ++ a :: Tr.nodes r

/-- Specification side: the addresses of the nodes reachable from `x` through child
pointers, `x` included, from left to right; the fuel bounds the depth. -/
def nodesFrom (h : Heap) : Nat → Option Nat → Option (List Nat)
  | 0, _ => none
  | _ + 1, none => some []
  | fuel + 1, some a =>
    match h a with
    | none => none
    | some n =>
      match nodesFrom h fuel n.m_child0 with
      | none => none
      | some l =>
        match nodesFrom h fuel n.m_child1 with
        | none => none
        | some r => some (l ++ a :: r)

/-- Lines 150-363 of `RBTree::remove`, the call up to the point where it frees a node:
the result is `none` inside when `v` is absent, and otherwise the heap at that point and
the node `x_rw` that line 366 frees. -/
def removeUnlinked (fuel : Nat) (t : RBTree) (v : Int) :
    Option (Option (Heap × Option Nat)) :=
  andThen (rd t.heap (some t.sentinel)) fun sentinel_r =>
  andThen (removeFind t.heap v fuel sentinel_r.m_child0) fun x_r =>
  match x_r with
  | none => some none
  | some _ =>
    andThen (swapWithSuccessor fuel t.heap x_r) fun r =>
    let x_rw := r.2
    andThen (unlink r.1 x_rw) fun h =>
    andThen (removeFix t.sentinel fuel h x_rw) fun r =>
    andThen (wColor r.1 r.2 BLACK) fun h =>
    some (some (h, x_rw))

/-- The tree built by `insert(10)`, `insert(5)`, `insert(15)`, `insert(12)` on the empty
tree, the nodes at the addresses 1 to 4: the node of 10 has two children, and the node of
12 is the index-0 child of the node of 15. -/
def fourNodes : RBTree := afterInserts (new 0) [(1, 10), (2, 5), (3, 15), (4, 12)]

/-! # The iterations of the rebalancing loop of `remove` -/

/-- The states at the top of the iterations of the rebalancing loop of `RBTree::remove`
(line 210), in the order in which the loop goes through them: the heap and `curr`. -/
def removeFixStates (sen : Nat) : Nat → Heap → Option Nat → List (Heap × Option Nat)
  | 0, _, _ => []
  | fuel + 1, h, curr =>
    (h, curr) ::
      match removeFixStep sen h curr with
      | some (h1, curr1, true) => removeFixStates sen fuel h1 curr1
      | _ => []

/-- The state after a call of `remove` with fuel 8 (the state before if it does not
return). -/
def afterRemove (t : RBTree) (v : Int) : RBTree :=
  match remove 8 t v with
  | some r => r.1
  | none => t

/-- The tree built by `insert(1)`, `insert(2)`, `insert(3)`, `insert(4)` and `remove(4)` on
the empty tree: three BLACK nodes, holding 2 at the root and 1 and 3 below it. -/
def pruned : RBTree := afterRemove (afterInserts (new 0) [(1, 1), (2, 2), (3, 3), (4, 4)]) 4

/-- Specification side: the nodes that an iteration of the rebalancing loop dereferences
are present.  Either the iteration leaves the loop at its test, or the sibling
`parent->m_child[1 - cID]` is a node, and when that sibling is RED, the near nephew
`sibling->m_child[cID]` is a node, the sibling-RED case of lines 219-247 goes through, and
the sibling it ends with, that nephew, is a BLACK node. -/
def SiblingSafe (sen : Nat) (h : Heap) (curr : Option Nat) : Prop :=
  ∃ cn, rd h curr = some cn ∧
    (cn.m_parent = some sen ∨ RED = cn.m_color ∨
      ∃ pn s sn, rd h cn.m_parent = some pn ∧ pn.child (1 - cn.m_ID) = some (some s) ∧
        h s = some sn ∧
        (RED = sn.m_color →
          ∃ n h1 nn, sn.child cn.m_ID = some (some n) ∧ h n ≠ none ∧
            siblingRed h cn.m_parent (some s) cn.m_ID = some (h1, some n) ∧
            h1 n = some nn ∧ nn.m_color = BLACK))

/-- Specification side: at the top of an iteration of the rebalancing loop the index
`cID = curr->m_ID` is 0 or 1 and `parent->m_child[cID]` is the pointer `slot`. -/
def SlotAt (h : Heap) (curr : Option Nat) (slot : Option Nat) : Prop :=
  ∃ cn pn, rd h curr = some cn ∧ rd h cn.m_parent = some pn ∧
    (cn.m_ID = 0 ∨ cn.m_ID = 1) ∧ pn.child cn.m_ID = some slot

/-- The invariant of the rebalancing loop of `remove` at the top of an iteration: `curr`
is the node `c`, the heap holds a tree with a hole below the parent of `c`, the hole holds
`slot` and is one BLACK node short when `c` is BLACK; `det` tells that `c` is the node
taken out of the tree. -/
def RemInv (sen : Nat) (h : Heap) (c : Nat) (det : Bool) (slot : Option Nat) : Prop :=
  ∃ (ctx : List Frame) (t : Tr) (cn : RBNode),
    RepZ h sen ctx t ∧ h c = some cn ∧ cn.m_parent = some (hp sen ctx) ∧
    cn.m_ID = toID (hd ctx) ∧ c ∉ ({sen} : Multiset Nat) + addrsC ctx ∧
    (det = true → c ∉ t.addrs) ∧ (det = false → t.ptr = some c) ∧ t.ptr = slot ∧
    t.Bal ∧ NoRRC ctx ∧ lastBlack ctx ∧
    (det = true → t.NoRR ∧ t.color = BLACK ∧
      BalC ctx (t.bh + if cn.m_color = RED then 0 else 1)) ∧
    (det = false → cn.m_color = t.color ∧ (t.paint BLACK).NoRR ∧ BalC ctx (t.bh + 1))

/-! # The branches of the balancing loop of `insert` -/

/-- The ways an iteration of the balancing loop of `RBTree::insert` can go: it leaves the
loop at the test of line 66 (`exit`), it takes the aunt-RED branch of lines 78-87 and goes
on at the grandparent (`flip`), or it takes the rest of the body, lines 89-135, which
promotes the parent, after promoting the child first when `cID != pID` (`rotate`, with
whether the child was promoted). -/
inductive FixBranch where
  | exit : FixBranch
  | flip : FixBranch
  | rotate (double : Bool) : FixBranch
  deriving DecidableEq

/-- The number of promotions that a branch performs. -/
def FixBranch.rotations : FixBranch → Nat
  | .exit => 0
  | .flip => 0
  | .rotate double => if double then 2 else 1

/-- The branch that the iteration of the balancing loop of `RBTree::insert` started at
`child_r` takes: the tests of lines 66-67, 78 and 90, in that order. -/
def insertFixBranch (sen : Nat) (h : Heap) (child_r : Option Nat) : Option FixBranch :=
  andThen (rd h child_r) fun cn =>
  let parent_r := cn.m_parent
  andThen (rd h parent_r) fun pn =>
  let gparent_r := pn.m_parent
  if gparent_r = some sen ∨ BLACK = pn.m_color then
    some .exit
  else
    let pID := pn.m_ID
    andThen (rd h gparent_r) fun gn =>
    andThen (gn.child (1 - pID)) fun aunt_r =>
    andThen (isRedPtr h aunt_r) fun auntRed =>
    if auntRed = true then
      some .flip
    else
      let cID := cn.m_ID
      some (.rotate (decide (cID ≠ pID)))

/-- The branches taken by the iterations of the balancing loop of `RBTree::insert`
started at `child_r`, in order, for as many iterations as the loop runs within the fuel. -/
def insertFixTrace (sen : Nat) : Nat → Heap → Option Nat → List FixBranch
  | 0, _, _ => []
  | fuel + 1, h, child_r =>
    match insertFixBranch sen h child_r, insertFixStep sen h child_r with
    | some b, some (h1, some c) => b :: insertFixTrace sen fuel h1 c
    | some b, some (_, none) => [b]
    | _, _ => []

/-- The tree built by `insert(1)`, ..., `insert(7)` on the empty tree, the nodes at the
addresses 1 to 7. -/
def ladder : RBTree :=
  afterInserts (new 0) [(1, 1), (2, 2), (3, 3), (4, 4), (5, 5), (6, 6), (7, 7)]

end RBTree

namespace DisjointBench

/-! # The workload of `src/Disjoint.h` -/

/-- `Disjoint::DJBUFFER_SIZE` (line 27). -/
def DJBUFFER_SIZE : Nat := 1009

/-- `Disjoint::BUFFER_COUNT` (line 28). -/
def BUFFER_COUNT : Nat := 256

/-- Arithmetic in `unsigned` and `uint32_t` is modulo 2^32. -/
def wrapU (x : Nat) : Nat := x % 4294967296

/-- `Disjoint::PaddedBuffer` (lines 40-44): the `value` fields of the entries of `buffer`,
by index. -/
abbrev PaddedBuffer : Type := Nat → Nat

/-- `struct Disjoint` (lines 24-66): the private buffers by transaction id, the public
buffer and the execution parameters. -/
structure Disjoint where
  privateBuffers : Nat → PaddedBuffer
  publicBuffer : PaddedBuffer
  reads_per_ten : Nat
  writes_per_ten : Nat
  locations_per_transaction : Nat
  use_shared_read_buffer : Bool

/-- The local variables `index`, `writes`, `reads` and `buff` of
`Disjoint::r_rw_transaction` (line 105). -/
structure Locals where
  index : Nat
  writes : Nat
  reads : Nat
  buff : Nat
  deriving DecidableEq

/-- What an iteration of the loop of `Disjoint::r_rw_transaction` decides: the loop counter
`i`, the counters `writes` and `reads` after the reset of lines 110-111, and the value that
`should_write` has at line 123. -/
structure Decision where
  i : Nat
  writes : Nat
  reads : Nat
  should_write : Bool
  deriving DecidableEq

/-- Lines 113-120 of `Disjoint::r_rw_transaction`: the value of `should_write`.  The test
of line 117 is `i && 0x1`, the logical conjunction of `i != 0` and `0x1 != 0`. -/
def should_write (d : Disjoint) (i writes reads : Nat) : Bool :=
  if i ≠ 0 ∧ (0x1 : Nat) ≠ 0 then decide (writes < d.writes_per_ten)
  else !decide (reads < d.reads_per_ten)

/-- The body of the loop of `Disjoint::r_rw_transaction` (lines 108-135) at the loop
counter `i`: the buffers, the local variables and the decision taken.  An access to `buffer`
at an index outside the array has no result. -/
def r_rw_body (d : Disjoint) (id i : Nat) (s : Locals) : Option (Disjoint × Locals × Decision) :=
  let reset := decide (wrapU (s.writes + s.reads) = 10)
  let writes := if reset = true then 0 else s.writes
  let reads := if reset = true then 0 else s.reads
  let sw := should_write d i writes reads
  if s.index < DJBUFFER_SIZE then
    let next := wrapU (s.index + 1) % DJBUFFER_SIZE
    if sw = true then
      let oldval := d.privateBuffers id s.index
      some ({ d with
                privateBuffers := Function.update d.privateBuffers id
                  (Function.update (d.privateBuffers id) s.index (wrapU (oldval + 1))) },
        ⟨next, wrapU (writes + 1), reads, s.buff⟩, ⟨i, writes, reads, sw⟩)
    else
      let rBuffer := if d.use_shared_read_buffer = true then d.publicBuffer
        else d.privateBuffers id
      some (d, ⟨next, writes, wrapU (reads + 1), wrapU (s.buff + rBuffer s.index)⟩,
        ⟨i, writes, reads, sw⟩)
  else none

/-- The loop of `Disjoint::r_rw_transaction` (lines 107-136) from the loop counter `i` with
`n` iterations to go, `n` being `locations_per_transaction - i`: the final buffers and local
variables, and the decisions of the iterations in order. -/
def r_rw_loop (id : Nat) : Nat → Nat → Disjoint → Locals →
    Option (Disjoint × Locals × List Decision)
  | 0, _, d, s => some (d, s, [])
  | n + 1, i, d, s =>
    match r_rw_body d id i s with
    | none => none
    | some (d1, s1, dec) =>
      match r_rw_loop id n (i + 1) d1 s1 with
      | none => none
      | some (d2, s2, tr) => some (d2, s2, dec :: tr)

/-- Lines 102-136 of `Disjoint::r_rw_transaction`: the run of the loop from `i = 0`,
`index = startpoint` and the counters at 0.  There is no result when `id` is outside
`privateBuffers`. -/
def r_rw_run (d : Disjoint) (id startpoint : Nat) : Option (Disjoint × Locals × List Decision) :=
  if id < BUFFER_COUNT then r_rw_loop id d.locations_per_transaction 0 d ⟨startpoint, 0, 0, 0⟩
  else none

/-- `Disjoint::r_rw_transaction` (lines 100-138): the buffers afterwards and the value
`buff & 1` returned. -/
def r_rw_transaction (d : Disjoint) (id startpoint : Nat) : Option (Disjoint × Bool) :=
  match r_rw_run d id startpoint with
  | none => none
  | some r => some (r.1, decide (r.2.1.buff % 2 = 1))

/-- A workload with `reads_per_ten = 8`, `writes_per_ten = 2` and three locations per
transaction, all buffers zero. -/
def threeLocations : Disjoint :=
  { privateBuffers := fun _ _ => 0, publicBuffer := fun _ => 0, reads_per_ten := 8,
    writes_per_ten := 2, locations_per_transaction := 3, use_shared_read_buffer := false }

end DisjointBench

namespace HashTable

/-! # The bucket index of `src/todo/Hash.h` -/

/-- `HashTable::N_BUCKETS` (line 21), an `int`. -/
def N_BUCKETS : Int := 256

/-- The conversion of an `int` to `uint32_t`, as at a call of `verify_hash_function` with
`int` arguments: the value modulo 2^32. -/
def toUInt32 (x : Int) : Nat := (x % 4294967296).toNat

/-- `HashTable::verify_hash_function` (lines 28-31).  The arguments are `uint32_t`, and
`N_BUCKETS` is converted to `unsigned` for the remainder. -/
def verify_hash_function (val bucket : Nat) : Bool :=
  decide (val % N_BUCKETS.toNat = bucket)

/-- The subscript `val % N_BUCKETS` of lines 42, 48 and 54: the remainder of `int`
division, which truncates toward zero and so has the sign of `val`. -/
def bucketIndex (val : Int) : Int := Int.tmod val N_BUCKETS

/-- `HashTable` (lines 19-37): the array `bucket` of `N_BUCKETS` lists, by index.  The
type `L` stands for `List`, whose file `List.hpp` is not in the repository. -/
structure Table (L : Type) where
  bucket : Nat → L

/-- The element `bucket[i]` for an `int` subscript; there is none outside the array. -/
def Table.bucketAt {L : Type} (t : Table L) (i : Int) : Option L :=
  if 0 ≤ i ∧ i < N_BUCKETS then some (t.bucket i.toNat) else none

/-- `HashTable::insert` (lines 40-43); `ins` stands for `List::insert`. -/
def insert {L : Type} (ins : L → Int → L) (t : Table L) (val : Int) : Option (Table L) :=
  match t.bucketAt (bucketIndex val) with
  | none => none
  | some l => some ⟨Function.update t.bucket (bucketIndex val).toNat (ins l val)⟩

/-- `HashTable::lookup` (lines 46-49); `look` stands for `List::lookup`. -/
def lookup {L : Type} (look : L → Int → Bool) (t : Table L) (val : Int) : Option Bool :=
  match t.bucketAt (bucketIndex val) with
  | none => none
  | some l => some (look l val)

/-- `HashTable::remove` (lines 52-55); `rem` stands for `List::remove`. -/
def remove {L : Type} (rem : L → Int → L) (t : Table L) (val : Int) : Option (Table L) :=
  match t.bucketAt (bucketIndex val) with
  | none => none
  | some l => some ⟨Function.update t.bucket (bucketIndex val).toNat (rem l val)⟩

end HashTable

/-! # Theorems -/

namespace RBTree
open Tr

/-! # Shape of the heap: trees, contexts and the representation relation -/

/-! ### Node records -/

@[simp] theorem toID_false : toID false = 0 := rfl

@[simp] theorem toID_true : toID true = 1 := rfl

@[simp] theorem one_sub_toID (d : Bool) : 1 - toID d = toID (!d) := by
  cases d <;> rfl

theorem toID_inj {d e : Bool} : toID d = toID e ↔ d = e := by
  cases d <;> cases e <;> simp

@[simp] theorem toID_eq_iff (d e : Bool) : (toID d = toID e) = (d = e) :=
  propext toID_inj

@[simp] theorem nodeOf_color (c v p i d x y) : (nodeOf c v p i d x y).m_color = c := by
  cases d <;> rfl

@[simp] theorem nodeOf_val (c v p i d x y) : (nodeOf c v p i d x y).m_val = v := by
  cases d <;> rfl

@[simp] theorem nodeOf_parent (c v p i d x y) : (nodeOf c v p i d x y).m_parent = p := by
  cases d <;> rfl

@[simp] theorem nodeOf_ID (c v p i d x y) : (nodeOf c v p i d x y).m_ID = i := by
  cases d <;> rfl

@[simp] theorem nodeOf_child (c v p i d x y) :
    (nodeOf c v p i d x y).child (toID d) = some x := by
  cases d <;> rfl

@[simp] theorem nodeOf_child_not (c v p i d x y) :
    (nodeOf c v p i d x y).child (toID (!d)) = some y := by
  cases d <;> rfl

@[simp] theorem nodeOf_setChild (c v p i d x y z) :
    (nodeOf c v p i d x y).setChild (toID d) z = some (nodeOf c v p i d z y) := by
  cases d <;> rfl

@[simp] theorem nodeOf_setChild_not (c v p i d x y z) :
    (nodeOf c v p i d x y).setChild (toID (!d)) z = some (nodeOf c v p i d x z) := by
  cases d <;> rfl

@[simp] theorem nodeOf_not (c v p i d x y) :
    nodeOf c v p i (!d) x y = nodeOf c v p i d y x := by
  cases d <;> rfl

@[simp] theorem nodeOf_child0 (c v p i d x y) :
    (nodeOf c v p i d x y).m_child0 = if d then y else x := by
  cases d <;> rfl

@[simp] theorem nodeOf_child1 (c v p i d x y) :
    (nodeOf c v p i d x y).m_child1 = if d then x else y := by
  cases d <;> rfl

@[simp] theorem nodeOf_with_color (c v p i d x y) (c1 : Color) :
    { nodeOf c v p i d x y with m_color := c1 } = nodeOf c1 v p i d x y := by
  cases d <;> rfl

@[simp] theorem nodeOf_with_val (c v p i d x y) (v1 : Int) :
    { nodeOf c v p i d x y with m_val := v1 } = nodeOf c v1 p i d x y := by
  cases d <;> rfl

@[simp] theorem nodeOf_with_parent (c v p i d x y) (p1 : Option Nat) :
    { nodeOf c v p i d x y with m_parent := p1 } = nodeOf c v p1 i d x y := by
  cases d <;> rfl

@[simp] theorem nodeOf_with_ID (c v p i d x y) (i1 : Int) :
    { nodeOf c v p i d x y with m_ID := i1 } = nodeOf c v p i1 d x y := by
  cases d <;> rfl

theorem nodeOf_fold (c v p i) (d : Bool) (x y : Option Nat) :
    RBNode.mk c v p i (if d then y else x) (if d then x else y) = nodeOf c v p i d x y := by
  cases d <;> rfl

theorem nodeOf_false (c v p i) (x y : Option Nat) :
    RBNode.mk c v p i x y = nodeOf c v p i false x y := rfl

/-! ### Heap accesses -/

@[simp] theorem andThen_some {α β : Type} (a : α) (f : α → Option β) :
    andThen (some a) f = f a := rfl

@[simp] theorem andThen_none {α β : Type} (f : α → Option β) :
    andThen (none : Option α) f = none := rfl

@[simp] theorem Heap.set_same (h : Heap) (a : Nat) (n : RBNode) : h.set a n a = some n := by
  simp [Heap.set]

theorem Heap.set_other (h : Heap) {a b : Nat} (n : RBNode) (hab : b ≠ a) :
    h.set a n b = h b := by
  simp [Heap.set, hab]

@[simp] theorem rd_some (h : Heap) (a : Nat) : rd h (some a) = h a := rfl

theorem wColor_eq {h : Heap} {a : Nat} {n : RBNode} (hn : h a = some n) (c : Color) :
    wColor h (some a) c = some (h.set a { n with m_color := c }) := by
  simp [wColor, hn]

theorem wVal_eq {h : Heap} {a : Nat} {n : RBNode} (hn : h a = some n) (v : Int) :
    wVal h (some a) v = some (h.set a { n with m_val := v }) := by
  simp [wVal, hn]

theorem wParent_eq {h : Heap} {a : Nat} {n : RBNode} (hn : h a = some n) (q : Option Nat) :
    wParent h (some a) q = some (h.set a { n with m_parent := q }) := by
  simp [wParent, hn]

theorem wID_eq {h : Heap} {a : Nat} {n : RBNode} (hn : h a = some n) (i : Int) :
    wID h (some a) i = some (h.set a { n with m_ID := i }) := by
  simp [wID, hn]

theorem wChild_eq {h : Heap} {a : Nat} {n n1 : RBNode} (hn : h a = some n) {i : Int}
    {q : Option Nat} (hs : n.setChild i q = some n1) :
    wChild h (some a) i q = some (h.set a n1) := by
  simp [wChild, hn, hs]

theorem Heap.set_set (h : Heap) (a : Nat) (n m : RBNode) :
    (h.set a n).set a m = h.set a m := by
  funext b; by_cases hb : b = a <;> simp [Heap.set, hb]

theorem Heap.set_self {h : Heap} {a : Nat} {n : RBNode} (hn : h a = some n) :
    h.set a n = h := by
  funext b; by_cases hb : b = a
  · subst hb; simp [hn]
  · simp [Heap.set, hb]

/-! ### Shapes -/

@[simp] theorem ptr_nil : Tr.nil.ptr = none := rfl

@[simp] theorem ptr_node (a c l v r) : (node a c l v r).ptr = some a := rfl

@[simp] theorem addrs_nil : Tr.nil.addrs = 0 := rfl

@[simp] theorem addrs_node (a c l v r) :
    (node a c l v r).addrs = {a} + (l.addrs + r.addrs) := rfl

@[simp] theorem color_nil : Tr.nil.color = BLACK := rfl

@[simp] theorem color_node (a c l v r) : (node a c l v r).color = c := rfl

@[simp] theorem paint_nil (c : Color) : Tr.nil.paint c = nil := rfl

@[simp] theorem paint_node (a c l v r) (c1 : Color) :
    (node a c l v r).paint c1 = node a c1 l v r := rfl

@[simp] theorem ptr_paint (t : Tr) (c : Color) : (t.paint c).ptr = t.ptr := by
  cases t <;> rfl

@[simp] theorem addrs_paint (t : Tr) (c : Color) : (t.paint c).addrs = t.addrs := by
  cases t <;> rfl

@[simp] theorem keys_paint (t : Tr) (c : Color) : (t.paint c).keys = t.keys := by
  cases t <;> rfl

theorem Rep_node {h : Heap} {p : Option Nat} {d : Bool} {a c l v r} :
    Rep h p d (node a c l v r) ↔
      h a = some ⟨c, v, p, toID d, l.ptr, r.ptr⟩ ∧
        Rep h (some a) false l ∧ Rep h (some a) true r := Iff.rfl

@[simp] theorem ptr_mk (d a c v x y) : (mkT d a c v x y).ptr = some a := by
  cases d <;> rfl

@[simp] theorem color_mk (d a c v x y) : (mkT d a c v x y).color = c := by
  cases d <;> rfl

@[simp] theorem paint_mk (d a c v x y c1) : (mkT d a c v x y).paint c1 = mkT d a c1 v x y := by
  cases d <;> rfl

@[simp] theorem mk_not (d a c v x y) : mkT (!d) a c v x y = mkT d a c v y x := by
  cases d <;> rfl

theorem addrs_mk (d a c v x y) : (mkT d a c v x y).addrs = {a} + (x.addrs + y.addrs) := by
  cases d <;> simp [mkT, addrs, add_comm]

theorem Rep_mk {h : Heap} {p : Option Nat} {e d : Bool} {a c v} {x y : Tr} :
    Rep h p e (mkT d a c v x y) ↔
      h a = some (nodeOf c v p (toID e) d x.ptr y.ptr) ∧
        Rep h (some a) d x ∧ Rep h (some a) (!d) y := by
  cases d <;> simp [mkT, Rep, nodeOf, and_comm, and_left_comm]

theorem node_eq_mk (a c l v r) : node a c l v r = mkT false a c v l r := rfl

theorem exists_mk (d : Bool) (a c l v r) :
    ∃ x y, node a c l v r = mkT d a c v x y := by
  cases d
  · exact ⟨l, r, rfl⟩
  · exact ⟨r, l, rfl⟩

/-- A heap update outside a subtree does not touch its representation. -/
theorem Rep_set {h : Heap} {a : Nat} (n : RBNode) :
    ∀ {t : Tr} {p : Option Nat} {d : Bool}, a ∉ t.addrs → Rep h p d t →
      Rep (h.set a n) p d t
  | nil, _, _, _, _ => trivial
  | node b c l v r, p, d, hb, hr => by
    simp only [addrs, Multiset.mem_add, Multiset.mem_singleton, not_or] at hb
    obtain ⟨h1, h2, h3⟩ := hr
    refine ⟨?_, Rep_set n hb.2.1 h2, Rep_set n hb.2.2 h3⟩
    rw [Heap.set_other _ _ (Ne.symm hb.1)]; exact h1

theorem nodup_node {a c l v r} :
    (node a c l v r).addrs.Nodup ↔
      a ∉ l.addrs ∧ a ∉ r.addrs ∧ l.addrs.Nodup ∧ r.addrs.Nodup ∧
        Disjoint l.addrs r.addrs := by
  simp only [addrs, Multiset.nodup_add, Multiset.nodup_singleton,
    Multiset.singleton_disjoint, Multiset.mem_add, not_or, true_and]
  tauto

/-- Updating the parent link and index of the root re-attaches a subtree. -/
theorem Rep_reroot {h : Heap} {p : Option Nat} {d : Bool} {t : Tr} (q : Option Nat)
    (e : Bool) (hnd : t.addrs.Nodup) (hr : Rep h p d t) :
    ∃ h1, setParentOf h t.ptr q (toID e) = some h1 ∧ Rep h1 q e t ∧
      (∀ b, b ∉ t.addrs → h1 b = h b) := by
  cases t with
  | nil => exact ⟨h, rfl, trivial, fun _ _ => rfl⟩
  | node a c l v r =>
    obtain ⟨h1, h2, h3⟩ := hr
    obtain ⟨hal, har, -⟩ := nodup_node.1 hnd
    refine ⟨h.set a ⟨c, v, q, toID e, l.ptr, r.ptr⟩, ?_, ?_, ?_⟩
    · simp [setParentOf, ptr, wParent_eq h1, wID_eq (Heap.set_same _ _ _), Heap.set_set]
    · exact ⟨Heap.set_same _ _ _, Rep_set _ hal h2, Rep_set _ har h3⟩
    · intro b hb
      simp only [addrs, Multiset.mem_add, Multiset.mem_singleton, not_or] at hb
      exact Heap.set_other _ _ hb.1

/-- Two heaps that agree on the addresses of a subtree represent it alike. -/
theorem Rep_congr {h h1 : Heap} :
    ∀ {t : Tr} {p : Option Nat} {d : Bool}, (∀ b, b ∈ t.addrs → h1 b = h b) →
      Rep h p d t → Rep h1 p d t
  | nil, _, _, _, _ => trivial
  | node a c l v r, _, _, hb, hr => by
    obtain ⟨h2, h3, h4⟩ := hr
    refine ⟨?_, Rep_congr (fun b hbl => hb b ?_) h3, Rep_congr (fun b hbr => hb b ?_) h4⟩
    · rw [hb a (by simp [addrs])]; exact h2
    · simp [addrs, hbl]
    · simp [addrs, hbr]

/-- Two heaps that agree on the sentinel and on the addresses of a context represent
it alike. -/
theorem RepC_congr {h h1 : Heap} {sen : Nat} :
    ∀ {ctx : List Frame} {x : Option Nat},
      (∀ b, b ∈ ({sen} : Multiset Nat) + addrsC ctx → h1 b = h b) →
      RepC h sen ctx x → RepC h1 sen ctx x
  | [], x, hb, hr => by
    simp only [RepC] at hr ⊢
    rw [hb sen (by simp)]; exact hr
  | f :: rest, x, hb, hr => by
    obtain ⟨h2, h3, h4⟩ := hr
    refine ⟨?_, Rep_congr (fun b hbs => hb b ?_) h3, RepC_congr (fun b hbr => hb b ?_) h4⟩
    · rw [hb f.a (by simp [addrsC])]; exact h2
    · simp [addrsC, hbs]
    · simp only [addrsC, Multiset.mem_add, Multiset.mem_singleton] at hbr ⊢
      tauto

theorem RepC_set {h : Heap} {sen a : Nat} (n : RBNode) {ctx : List Frame} {x : Option Nat}
    (ha : a ∉ ({sen} : Multiset Nat) + addrsC ctx) (hr : RepC h sen ctx x) :
    RepC (h.set a n) sen ctx x :=
  RepC_congr (fun b hb => Heap.set_other _ _ (fun hba => ha (hba ▸ hb))) hr

@[simp] theorem hp_nil (sen : Nat) : hp sen [] = sen := rfl

@[simp] theorem hp_cons (sen : Nat) (f : Frame) (rest : List Frame) :
    hp sen (f :: rest) = f.a := rfl

@[simp] theorem hd_nil : hd [] = false := rfl

@[simp] theorem hd_cons (f : Frame) (rest : List Frame) : hd (f :: rest) = f.d := rfl

@[simp] theorem addrsC_nil : addrsC [] = 0 := rfl

@[simp] theorem addrsC_cons (f : Frame) (rest : List Frame) :
    addrsC (f :: rest) = {f.a} + (f.s.addrs + addrsC rest) := rfl

@[simp] theorem topNode_cons (sen : Nat) (f : Frame) (rest : List Frame) (x : Option Nat) :
    topNode sen (f :: rest) x =
      nodeOf f.c f.v (some (hp sen rest)) (toID (hd rest)) f.d x f.s.ptr := rfl

@[simp] theorem topNode_parent_ne (sen : Nat) (ctx : List Frame) (x : Option Nat) (a : Nat)
    (ha : a ∉ ({sen} : Multiset Nat) + addrsC ctx) : (topNode sen ctx x).m_parent ≠ some a := by
  cases ctx with
  | nil => simp [topNode]
  | cons f rest =>
    simp only [topNode_cons, nodeOf_parent, ne_eq, Option.some.injEq]
    intro e
    cases rest with
    | nil => simp at e; subst e; simp at ha
    | cons f2 rest2 => simp at e; subst e; simp at ha

theorem RepC_cons {h : Heap} {sen : Nat} {f : Frame} {rest : List Frame} {x : Option Nat} :
    RepC h sen (f :: rest) x ↔
      h f.a = some (nodeOf f.c f.v (some (hp sen rest)) (toID (hd rest)) f.d x f.s.ptr) ∧
        Rep h (some f.a) (!f.d) f.s ∧ RepC h sen rest (some f.a) := Iff.rfl

theorem hp_ne {sen a : Nat} {ctx : List Frame} (h1 : a ≠ sen) (h2 : a ∉ addrsC ctx) :
    hp sen ctx ≠ a := by
  cases ctx with
  | nil => exact fun e => h1 e.symm
  | cons f rest =>
    simp only [addrsC_cons, Multiset.mem_add, Multiset.mem_singleton, not_or] at h2
    exact fun e => h2.1 e.symm

theorem hp_not_mem {sen : Nat} {ctx : List Frame} {M : Multiset Nat} (h1 : sen ∉ M)
    (h2 : Disjoint (addrsC ctx) M) : hp sen ctx ∉ M := by
  cases ctx with
  | nil => exact h1
  | cons f rest =>
    simp only [addrsC_cons, Multiset.disjoint_add_left, Multiset.singleton_disjoint] at h2
    exact h2.1

/-- The node above the hole of a context. -/
theorem RepC_top {h : Heap} {sen : Nat} {ctx : List Frame} {x : Option Nat}
    (hr : RepC h sen ctx x) : h (hp sen ctx) = some (topNode sen ctx x) := by
  cases ctx with
  | nil => exact hr
  | cons f rest => exact hr.1

theorem hp_mem (sen : Nat) (ctx : List Frame) :
    hp sen ctx ∈ ({sen} : Multiset Nat) + addrsC ctx := by
  cases ctx <;> simp [hp, addrsC]

@[simp] theorem topNode_child (sen ctx x) :
    (topNode sen ctx x).child (toID (hd ctx)) = some x := by
  cases ctx <;> simp [topNode, hd, ← toID_false]

@[simp] theorem topNode_setChild (sen ctx x y) :
    (topNode sen ctx x).setChild (toID (hd ctx)) y = some (topNode sen ctx y) := by
  cases ctx <;> simp [topNode, hd, ← toID_false]

/-- Storing a pointer into the hole of a context. -/
theorem RepC_hole {h : Heap} {sen : Nat} {ctx : List Frame} {x : Option Nat}
    (y : Option Nat) (hnd : (({sen} : Multiset Nat) + addrsC ctx).Nodup)
    (hr : RepC h sen ctx x) :
    RepC (h.set (hp sen ctx) (topNode sen ctx y)) sen ctx y := by
  cases ctx with
  | nil => simp [RepC, hp]
  | cons f rest =>
    obtain ⟨h2, h3, h4⟩ := hr
    simp only [addrsC, Multiset.nodup_add, Multiset.nodup_singleton,
      Multiset.singleton_disjoint, Multiset.disjoint_add_right, Multiset.mem_add,
      Multiset.mem_singleton, not_or, true_and] at hnd
    refine ⟨by simp [hp], Rep_set _ ?_ h3, RepC_set _ ?_ h4⟩
    · simp only [hp]; tauto
    · simp only [hp, Multiset.mem_add, Multiset.mem_singleton, not_or]
      tauto

/-- Moving the focus of a represented tree one node up or down. -/
theorem RepZ_cons {h : Heap} {sen : Nat} {f : Frame} {rest : List Frame} {t : Tr} :
    RepZ h sen (f :: rest) t ↔ RepZ h sen rest (f.fill t) := by
  constructor
  · rintro ⟨⟨h1, h2, h3⟩, h4, h5⟩
    refine ⟨by simpa [Frame.fill] using h3, ?_, ?_⟩
    · rw [Frame.fill, Rep_mk]
      exact ⟨h1, h4, h2⟩
    · rw [Frame.fill, addrs_mk]
      convert h5 using 1
      simp only [addrsC]; abel
  · rintro ⟨h1, h2, h3⟩
    rw [Frame.fill, Rep_mk] at h2
    refine ⟨⟨h2.1, h2.2.2, by simpa [Frame.fill] using h1⟩, h2.2.1, ?_⟩
    rw [Frame.fill, addrs_mk] at h3
    convert h3 using 1
    simp only [addrsC]; abel

/-- A represented tree seen from its root. -/
theorem RepZ_plug {h : Heap} {sen : Nat} :
    ∀ {ctx : List Frame} {t : Tr}, RepZ h sen ctx t ↔ RepZ h sen [] (plug ctx t)
  | [], _ => Iff.rfl
  | _ :: _, _ => RepZ_cons.trans RepZ_plug

/-! # Pointer updates and the balancing loop of `insert` -/

theorem setParentOf_eq {h : Heap} {x : Option Nat} (q : Option Nat) (i : Int)
    (hx : Alloc h x) : setParentOf h x q i = some (reroot h x q i) := by
  cases x with
  | none => rfl
  | some a =>
    cases hn : h a with
    | none => exact absurd hn (hx a rfl)
    | some n =>
      simp [setParentOf, reroot, hn, wParent_eq hn, wID_eq (Heap.set_same _ _ _),
        Heap.set_set]

theorem Alloc_of_Rep {h : Heap} {p : Option Nat} {d : Bool} {t : Tr} (hr : Rep h p d t) :
    Alloc h t.ptr := by
  cases t with
  | nil => intro a ha; simp [ptr] at ha
  | node a c l v r =>
    intro b hb
    simp only [ptr, Option.some.injEq] at hb
    subst hb
    rw [hr.1]; simp

theorem Alloc_set (h : Heap) (x : Option Nat) (a : Nat) (n : RBNode) :
    Alloc (h.set a n) x = (Alloc h x ∨ x = some a) := by
  apply propext
  constructor
  · intro hx
    by_cases hxa : x = some a
    · exact Or.inr hxa
    · refine Or.inl fun b hb => ?_
      have hba : b ≠ a := fun e => hxa (by rw [hb, e])
      rw [← Heap.set_other h n hba]; exact hx b hb
  · rintro (hx | hx) b hb
    · by_cases hba : b = a
      · subst hba; simp
      · rw [Heap.set_other _ _ hba]; exact hx b hb
    · rw [hx] at hb; cases hb; simp

theorem reroot_other {h : Heap} {x : Option Nat} {q : Option Nat} {i : Int} {b : Nat}
    (hb : x ≠ some b) : reroot h x q i b = h b := by
  cases x with
  | none => rfl
  | some a =>
    have hab : b ≠ a := fun e => hb (by rw [e])
    cases hn : h a with
    | none => simp [reroot, hn]
    | some n => simp [reroot, hn, Heap.set_other _ _ hab]

theorem ptr_ne {t : Tr} {a : Nat} (ha : a ∉ t.addrs) : t.ptr ≠ some a := by
  cases t with
  | nil => simp [ptr]
  | node b c l v r =>
    simp only [addrs, Multiset.mem_add, Multiset.mem_singleton, not_or] at ha
    simp only [ptr, ne_eq, Option.some.injEq]
    exact fun e => ha.1 e.symm

theorem Rep_rerooted {h : Heap} {p : Option Nat} {d : Bool} {t : Tr} (q : Option Nat)
    (e : Bool) (hnd : t.addrs.Nodup) (hr : Rep h p d t) :
    Rep (reroot h t.ptr q (toID e)) q e t := by
  cases t with
  | nil => trivial
  | node a c l v r =>
    obtain ⟨h1, h2, h3⟩ := hr
    obtain ⟨hal, har, -⟩ := nodup_node.1 hnd
    simp only [reroot, ptr, h1]
    exact ⟨Heap.set_same _ _ _, Rep_set _ hal h2, Rep_set _ har h3⟩

theorem reroot_set {h : Heap} {x : Option Nat} {q : Option Nat} {i : Int} {a : Nat}
    {n : RBNode} (hx : x ≠ some a) :
    reroot (h.set a n) x q i = (reroot h x q i).set a n := by
  cases x with
  | none => rfl
  | some b =>
    have hba : b ≠ a := fun e => hx (by rw [e])
    cases hm : h b with
    | none => simp [reroot, Heap.set_other _ _ hba, hm]
    | some m =>
      simp only [reroot, Heap.set_other _ _ hba, hm]
      funext c
      simp only [Heap.set]
      by_cases hca : c = a
      · subst hca; simp [hba.symm]
      · simp [hca]

theorem ne_of_mem_ctx {sen a b : Nat} {ctx : List Frame}
    (hb : b ∈ ({sen} : Multiset Nat) + addrsC ctx) (h1 : a ≠ sen) (h2 : a ∉ addrsC ctx) :
    b ≠ a := by
  rintro rfl
  rcases Multiset.mem_add.1 hb with hb | hb
  · exact h1 (Multiset.mem_singleton.1 hb)
  · exact h2 hb

theorem not_mem_of_mem_ctx {sen b : Nat} {ctx : List Frame} {M : Multiset Nat}
    (hb : b ∈ ({sen} : Multiset Nat) + addrsC ctx) (h1 : sen ∉ M)
    (h2 : Disjoint (addrsC ctx) M) : b ∉ M := by
  rcases Multiset.mem_add.1 hb with hb | hb
  · rw [Multiset.mem_singleton.1 hb]; exact h1
  · exact Multiset.disjoint_left.1 h2 hb

theorem nodup_ctx {sen : Nat} {ctx : List Frame} (h1 : sen ∉ addrsC ctx)
    (h2 : (addrsC ctx).Nodup) : (({sen} : Multiset Nat) + addrsC ctx).Nodup :=
  Multiset.nodup_add.2 ⟨Multiset.nodup_singleton _, h2, Multiset.singleton_disjoint.2 h1⟩

theorem promoteParent_spec {h : Heap} {sen : Nat} {p g : Nat} {cp cg : Color}
    {vp vg : Int} {d : Bool} {sp sg : Tr} {rest : List Frame}
    {X : Tr} (hz : RepZ h sen (⟨p, cp, vp, d, sp⟩ :: ⟨g, cg, vg, d, sg⟩ :: rest) X) :
    ∃ h1, promoteParent h (some p) (some g) (toID d) = some h1 ∧
      RepZ h1 sen (⟨p, BLACK, vp, d, mkT d g RED vg sp sg⟩ :: rest) X := by
  obtain ⟨⟨hP, hPs, hG, hGs, hR⟩, hX, hnd⟩ := hz
  simp only [topNode_cons, hp_cons, hd_cons] at hP hPs hG hGs hR hX
  have hT := RepC_top hR
  have hnd0 := hnd
  simp only [addrsC_cons, addrs_mk, addrs_node, addrs_nil, Multiset.nodup_add, Multiset.nodup_singleton,
      Multiset.singleton_disjoint, Multiset.disjoint_singleton, Multiset.disjoint_add_right,
      Multiset.disjoint_add_left, Multiset.mem_add, Multiset.mem_singleton, not_or, true_and,
      Multiset.nodup_zero, Multiset.not_mem_zero, not_false_eq_true, and_true,
      add_zero, zero_add] at hnd
  casesm* _ ∧ _
  have hpg : p ≠ g := by omega
  have hr_p : hp sen rest ≠ p := hp_ne (by omega) (by assumption)
  have hr_g : hp sen rest ≠ g := hp_ne (by omega) (by assumption)
  have hr_sp : hp sen rest ∉ sp.addrs := hp_not_mem (by assumption) (by first | assumption | exact Disjoint.symm (by assumption))
  have hsp_p : sp.ptr ≠ some p := ptr_ne (by assumption)
  have hsp_g : sp.ptr ≠ some g := ptr_ne (by assumption)
  have hsp_r : sp.ptr ≠ some (hp sen rest) := ptr_ne hr_sp
  have hA : Alloc h sp.ptr := Alloc_of_Rep hPs
  simp only [promoteParent, wColor, wChild, wParent, wID, wVal, rd_some,
    andThen_some, one_sub_toID, Bool.not_not,
    Heap.set_same, Heap.set_other, nodeOf_color, nodeOf_val, nodeOf_child0, nodeOf_child1,
    nodeOf_fold, nodeOf_child, nodeOf_child_not, nodeOf_setChild, nodeOf_setChild_not,
    nodeOf_parent, nodeOf_ID, topNode_setChild, ne_eq, not_false_eq_true,
    setParentOf_eq, Alloc_set, true_or, reroot_other,
    Option.some.injEq, Prod.mk.injEq, and_true, true_and, exists_eq_left', hP, hG, hT,
    hpg, hpg.symm, hr_p, hr_g, hr_p.symm, hr_g.symm, hA, hsp_p, hsp_g, hsp_r]
  refine ⟨RepC_cons.2 ⟨?_, Rep_mk.2 ⟨?_, ?_, ?_⟩, ?_⟩, ?_, ?_⟩
  · simp only [Heap.set_same, ptr_mk]
  · simp only [Heap.set_same, Heap.set_other, ne_eq, hpg.symm, hr_g.symm, not_false_eq_true,
      Bool.not_not]
  · refine Rep_congr (fun b hb => ?_) (Rep_rerooted (some g) d (by assumption) hPs)
    have h1 : b ≠ p := ne_of_mem_of_not_mem hb (by assumption)
    have h2 : b ≠ g := ne_of_mem_of_not_mem hb (by assumption)
    have h3 : b ≠ hp sen rest := ne_of_mem_of_not_mem hb hr_sp
    simp only [reroot_set hsp_p, reroot_set hsp_g, Heap.set_other _ _ h1,
      Heap.set_other _ _ h2, Heap.set_other _ _ h3]
  · refine Rep_congr (fun b hb => ?_) hGs
    have k0 : b ≠ p := ne_of_mem_of_not_mem hb (by assumption)
    have k1 : b ≠ g := ne_of_mem_of_not_mem hb (by assumption)
    have k2 : b ≠ hp sen rest := ne_of_mem_of_not_mem hb (hp_not_mem (by assumption) (by first | assumption | exact Disjoint.symm (by assumption)))
    have q0 : sp.ptr ≠ some b := ptr_ne (fun hbs => Multiset.disjoint_left.1 (by first | assumption | exact Disjoint.symm (by assumption)) hbs hb)
    simp only [Heap.set_other _ _ k0, Heap.set_other _ _ k1, Heap.set_other _ _ k2, reroot_other q0]
  · refine RepC_congr (fun b hb => ?_) (RepC_hole (some p)
      (nodup_ctx (by assumption) (by assumption)) hR)
    have k0 : b ≠ p := ne_of_mem_ctx hb (by omega) (by assumption)
    have k1 : b ≠ g := ne_of_mem_ctx hb (by omega) (by assumption)
    have q0 : sp.ptr ≠ some b := ptr_ne (fun hbs => not_mem_of_mem_ctx hb (by assumption) (by first | assumption | exact Disjoint.symm (by assumption)) hbs)
    by_cases h3 : b = hp sen rest
    · subst h3
      simp only [Heap.set_same, Heap.set_other _ _ k0]
    · simp only [Heap.set_other _ _ k0, Heap.set_other _ _ k1, reroot_other q0, Heap.set_other _ _ h3]
  · refine Rep_congr (fun b hb => ?_) hX
    have k0 : b ≠ p := ne_of_mem_of_not_mem hb (by assumption)
    have k1 : b ≠ g := ne_of_mem_of_not_mem hb (by assumption)
    have k2 : b ≠ hp sen rest := ne_of_mem_of_not_mem hb (hp_not_mem (by assumption) (by first | assumption | exact Disjoint.symm (by assumption)))
    have q0 : sp.ptr ≠ some b := ptr_ne (fun hbs => Multiset.disjoint_left.1 (by first | assumption | exact Disjoint.symm (by assumption)) hbs hb)
    simp only [Heap.set_other _ _ k0, Heap.set_other _ _ k1, Heap.set_other _ _ k2, reroot_other q0]
  · convert hnd0 using 1
    simp only [addrsC_cons, addrs_mk]
    abel

theorem promoteChild_spec {h : Heap} {sen : Nat} {x p g : Nat} {cx cp cg : Color}
    {xv vp vg : Int} {d : Bool} {A B sp sg : Tr} {rest : List Frame}
    (hz : RepZ h sen (⟨p, cp, vp, !d, sp⟩ :: ⟨g, cg, vg, d, sg⟩ :: rest)
      (mkT d x cx xv B A)) :
    ∃ h1, promoteChild h (some x) (some p) (some g) (toID (!d)) (toID d) =
        some (h1, some p, some x) ∧
      RepZ h1 sen (⟨x, cx, xv, d, A⟩ :: ⟨g, cg, vg, d, sg⟩ :: rest) (mkT d p cp vp sp B) := by
  obtain ⟨⟨hP, hPs, hG, hGs, hR⟩, hX, hnd⟩ := hz
  simp only [topNode_cons, hp_cons, hd_cons, Bool.not_not, ptr_mk, nodeOf_not]
    at hP hPs hG hGs hR hX
  obtain ⟨hXn, hB, hA⟩ := Rep_mk.1 hX
  have hnd0 := hnd
  simp only [addrsC_cons, addrs_mk, addrs_node, addrs_nil, Multiset.nodup_add, Multiset.nodup_singleton,
      Multiset.singleton_disjoint, Multiset.disjoint_singleton, Multiset.disjoint_add_right,
      Multiset.disjoint_add_left, Multiset.mem_add, Multiset.mem_singleton, not_or, true_and,
      Multiset.nodup_zero, Multiset.not_mem_zero, not_false_eq_true, and_true,
      add_zero, zero_add] at hnd
  casesm* _ ∧ _
  have hxp : x ≠ p := by omega
  have hxg : x ≠ g := by omega
  have hpg : p ≠ g := by omega
  have hB_x : B.ptr ≠ some x := ptr_ne (by assumption)
  have hB_p : B.ptr ≠ some p := ptr_ne (by assumption)
  have hB_g : B.ptr ≠ some g := ptr_ne (by assumption)
  have hAl : Alloc h B.ptr := Alloc_of_Rep hB
  simp only [promoteChild, wColor, wChild, wParent, wID, wVal, rd_some,
    andThen_some, one_sub_toID, Bool.not_not,
    Heap.set_same, Heap.set_other, nodeOf_color, nodeOf_val, nodeOf_child0, nodeOf_child1,
    nodeOf_fold, nodeOf_child, nodeOf_child_not, nodeOf_setChild, nodeOf_setChild_not,
    nodeOf_parent, nodeOf_ID, topNode_setChild, ne_eq, not_false_eq_true,
    setParentOf_eq, Alloc_set, true_or, reroot_other,
    Option.some.injEq, Prod.mk.injEq, and_true, true_and, exists_eq_left', hP, hG, hXn,
    hxp, hxp.symm, hxg, hxg.symm, hpg, hpg.symm, hAl, hB_x, hB_p, hB_g]
  refine ⟨RepC_cons.2 ⟨?_, ?_, RepC_cons.2 ⟨?_, ?_, ?_⟩⟩, Rep_mk.2 ⟨?_, ?_, ?_⟩, ?_⟩
  · simp only [Heap.set_same, ptr_mk, hp_cons, hd_cons]
  · refine Rep_congr (fun b hb => ?_) hA
    have k0 : b ≠ x := ne_of_mem_of_not_mem hb (by assumption)
    have k1 : b ≠ p := ne_of_mem_of_not_mem hb (by assumption)
    have k2 : b ≠ g := ne_of_mem_of_not_mem hb (by assumption)
    have q0 : B.ptr ≠ some b := ptr_ne (fun hbs => Multiset.disjoint_left.1 (by first | assumption | exact Disjoint.symm (by assumption)) hbs hb)
    simp only [Heap.set_other _ _ k0, Heap.set_other _ _ k1, Heap.set_other _ _ k2, reroot_other q0]
  · simp only [Heap.set_same, Heap.set_other, ne_eq, hxg.symm, not_false_eq_true]
  · refine Rep_congr (fun b hb => ?_) hGs
    have k0 : b ≠ x := ne_of_mem_of_not_mem hb (by assumption)
    have k1 : b ≠ p := ne_of_mem_of_not_mem hb (by assumption)
    have k2 : b ≠ g := ne_of_mem_of_not_mem hb (by assumption)
    have q0 : B.ptr ≠ some b := ptr_ne (fun hbs => Multiset.disjoint_left.1 (by first | assumption | exact Disjoint.symm (by assumption)) hbs hb)
    simp only [Heap.set_other _ _ k0, Heap.set_other _ _ k1, Heap.set_other _ _ k2, reroot_other q0]
  · refine RepC_congr (fun b hb => ?_) hR
    have k0 : b ≠ x := ne_of_mem_ctx hb (by omega) (by assumption)
    have k1 : b ≠ p := ne_of_mem_ctx hb (by omega) (by assumption)
    have k2 : b ≠ g := ne_of_mem_ctx hb (by omega) (by assumption)
    have q0 : B.ptr ≠ some b := ptr_ne (fun hbs => not_mem_of_mem_ctx hb (by assumption) (by first | assumption | exact Disjoint.symm (by assumption)) hbs)
    simp only [Heap.set_other _ _ k0, Heap.set_other _ _ k1, Heap.set_other _ _ k2, reroot_other q0]
  · simp only [Heap.set_same, Heap.set_other, ne_eq, hxp.symm, hpg, not_false_eq_true,
      hp_cons, hd_cons]
  · refine Rep_congr (fun b hb => ?_) hPs
    have k0 : b ≠ x := ne_of_mem_of_not_mem hb (by assumption)
    have k1 : b ≠ p := ne_of_mem_of_not_mem hb (by assumption)
    have k2 : b ≠ g := ne_of_mem_of_not_mem hb (by assumption)
    have q0 : B.ptr ≠ some b := ptr_ne (fun hbs => Multiset.disjoint_left.1 (by first | assumption | exact Disjoint.symm (by assumption)) hbs hb)
    simp only [Heap.set_other _ _ k0, Heap.set_other _ _ k1, Heap.set_other _ _ k2, reroot_other q0]
  · refine Rep_congr (fun b hb => ?_) (Rep_rerooted (some p) (!d) (by assumption) hB)
    have h1 : b ≠ x := ne_of_mem_of_not_mem hb (by assumption)
    have h2 : b ≠ p := ne_of_mem_of_not_mem hb (by assumption)
    have h3 : b ≠ g := ne_of_mem_of_not_mem hb (by assumption)
    simp only [reroot_set hB_x, reroot_set hB_p, reroot_set hB_g, Heap.set_other _ _ h1,
      Heap.set_other _ _ h2, Heap.set_other _ _ h3]
  · convert hnd0 using 1
    simp only [addrsC_cons, addrs_mk]
    abel

theorem node_eq_mkT (d : Bool) (a c l v r) :
    node a c l v r = mkT d a c v ((node a c l v r).side d) ((node a c l v r).side (!d)) := by
  cases d <;> rfl

/-- The record at the root of a represented subtree. -/
theorem Rep_root {h : Heap} {p : Option Nat} {d : Bool} {X : Tr} {x : Nat}
    (hr : Rep h p d X) (hx : X.ptr = some x) :
    ∃ n, h x = some n ∧ n.m_parent = p ∧ n.m_ID = toID d ∧ n.m_color = X.color ∧
      n.m_child0 = (X.side false).ptr ∧ n.m_child1 = (X.side true).ptr := by
  cases X with
  | nil => simp at hx
  | node a c l v r =>
    simp only [ptr_node, Option.some.injEq] at hx
    subst hx
    exact ⟨_, hr.1, rfl, rfl, rfl, rfl, rfl⟩

theorem insertFixStep_break {h : Heap} {sen : Nat} {ctx : List Frame} {x : Nat} {X : Tr}
    (hx : X.ptr = some x) (hz : RepZ h sen ctx X)
    (hb : ctx.length ≤ 1 ∨ ∃ P rest, ctx = P :: rest ∧ P.c = BLACK) :
    insertFixStep sen h (some x) = some (h, none) := by
  obtain ⟨hC, hX, hnd⟩ := hz
  obtain ⟨n, hXn, hnp, hni, -⟩ := Rep_root hX hx
  have hT := RepC_top hC
  match ctx, hb with
  | [], _ =>
    simp only [hp_nil, topNode] at hXn hT
    simp [insertFixStep, hXn, hT, hnp]
  | [P], _ =>
    simp only [hp_cons, topNode_cons, hp_nil] at hXn hT
    simp [insertFixStep, hXn, hT, hnp]
  | P :: G :: rest, Or.inr ⟨P1, rest1, he, hc⟩ =>
    simp only [List.cons.injEq] at he
    obtain ⟨rfl, rfl⟩ := he
    simp only [hp_cons, topNode_cons, hp_nil] at hXn hT
    simp [insertFixStep, hXn, hT, hc, hnp]

theorem insertFixStep_recolor {h : Heap} {sen : Nat} {p g u : Nat} {cg : Color}
    {vp vg uv : Int} {dp dg : Bool} {sp ul ur X : Tr} {rest : List Frame} {x : Nat}
    (hx : X.ptr = some x)
    (hz : RepZ h sen (⟨p, RED, vp, dp, sp⟩ :: ⟨g, cg, vg, dg, node u RED ul uv ur⟩ :: rest) X) :
    ∃ h1, insertFixStep sen h (some x) = some (h1, some (some g)) ∧
      RepZ h1 sen rest
        (mkT dg g RED vg (mkT dp p BLACK vp X sp) (node u BLACK ul uv ur)) := by
  obtain ⟨⟨hP, hPs, hG, hGs, hR⟩, hX, hnd⟩ := hz
  simp only [topNode_cons, hp_cons, hd_cons, ptr_node] at hP hPs hG hGs hR hX
  obtain ⟨n, hXn, hnp, hni, -⟩ := Rep_root hX hx
  obtain ⟨hU, hUl, hUr⟩ := hGs
  have hnd0 := hnd
  simp only [addrsC_cons, addrs_mk, addrs_node, addrs_nil, Multiset.nodup_add, Multiset.nodup_singleton,
      Multiset.singleton_disjoint, Multiset.disjoint_singleton, Multiset.disjoint_add_right,
      Multiset.disjoint_add_left, Multiset.mem_add, Multiset.mem_singleton, not_or, true_and,
      Multiset.nodup_zero, Multiset.not_mem_zero, not_false_eq_true, and_true,
      add_zero, zero_add] at hnd
  casesm* _ ∧ _
  have hpg : p ≠ g := by omega
  have hpu : p ≠ u := by omega
  have hgu : g ≠ u := by omega
  have hgs : g ≠ sen := by omega
  simp only [insertFixStep, isRedPtr, wColor, wChild, wParent, wID, wVal, rd_some,
    andThen_some, one_sub_toID, Bool.not_not,
    Heap.set_same, Heap.set_other, nodeOf_color, nodeOf_val, nodeOf_child0, nodeOf_child1,
    nodeOf_fold, nodeOf_child, nodeOf_child_not, nodeOf_setChild, nodeOf_setChild_not,
    nodeOf_parent, nodeOf_ID, topNode_setChild, ne_eq, not_false_eq_true,
    setParentOf_eq, Alloc_set, true_or, reroot_other,
    Option.some.injEq, Prod.mk.injEq, and_true, true_and, exists_eq_left', hP, hG, hXn, hU, hnp, hni,
    hpg, hpg.symm, hpu, hpu.symm, hgu, hgu.symm, hgs, false_or, reduceCtorEq,
    decide_True, if_true, if_false, ite_true, ite_false]
  refine ⟨?_, Rep_mk.2 ⟨?_, Rep_mk.2 ⟨?_, ?_, ?_⟩, ?_, ?_, ?_⟩, ?_⟩
  · rw [ptr_mk]
    refine RepC_congr (fun b hb => ?_) hR
    have k0 : b ≠ p := ne_of_mem_ctx hb (by omega) (by assumption)
    have k1 : b ≠ u := ne_of_mem_ctx hb (by omega) (by assumption)
    have k2 : b ≠ g := ne_of_mem_ctx hb (by omega) (by assumption)
    simp only [Heap.set_other _ _ k0, Heap.set_other _ _ k1, Heap.set_other _ _ k2]
  · simp only [Heap.set_same, ptr_mk, ptr_node]
  · simp only [Heap.set_same, Heap.set_other, ne_eq, hpg, hpu, not_false_eq_true, ptr_node, hx]
  · refine Rep_congr (fun b hb => ?_) hX
    have k0 : b ≠ p := ne_of_mem_of_not_mem hb (by assumption)
    have k1 : b ≠ u := ne_of_mem_of_not_mem hb (by assumption)
    have k2 : b ≠ g := ne_of_mem_of_not_mem hb (by assumption)
    simp only [Heap.set_other _ _ k0, Heap.set_other _ _ k1, Heap.set_other _ _ k2]
  · refine Rep_congr (fun b hb => ?_) hPs
    have k0 : b ≠ p := ne_of_mem_of_not_mem hb (by assumption)
    have k1 : b ≠ u := ne_of_mem_of_not_mem hb (by assumption)
    have k2 : b ≠ g := ne_of_mem_of_not_mem hb (by assumption)
    simp only [Heap.set_other _ _ k0, Heap.set_other _ _ k1, Heap.set_other _ _ k2]
  · simp only [Heap.set_same, Heap.set_other, ne_eq, hgu.symm, not_false_eq_true]
  · refine Rep_congr (fun b hb => ?_) hUl
    have k0 : b ≠ p := ne_of_mem_of_not_mem hb (by assumption)
    have k1 : b ≠ u := ne_of_mem_of_not_mem hb (by assumption)
    have k2 : b ≠ g := ne_of_mem_of_not_mem hb (by assumption)
    simp only [Heap.set_other _ _ k0, Heap.set_other _ _ k1, Heap.set_other _ _ k2]
  · refine Rep_congr (fun b hb => ?_) hUr
    have k0 : b ≠ p := ne_of_mem_of_not_mem hb (by assumption)
    have k1 : b ≠ u := ne_of_mem_of_not_mem hb (by assumption)
    have k2 : b ≠ g := ne_of_mem_of_not_mem hb (by assumption)
    simp only [Heap.set_other _ _ k0, Heap.set_other _ _ k1, Heap.set_other _ _ k2]
  · convert hnd0 using 1
    simp only [addrsC_cons, addrs_mk, addrs_node]
    abel

theorem isRedPtr_Rep {h : Heap} {p : Option Nat} {d : Bool} {t : Tr} (hr : Rep h p d t) :
    isRedPtr h t.ptr = some (decide (t.color = RED)) := by
  cases t with
  | nil => simp [isRedPtr]
  | node a c l v r =>
    simp only [isRedPtr, ptr_node, rd_some, hr.1, andThen_some, color_node]
    cases c <;> simp

theorem insertFixStep_zigzig {h : Heap} {sen : Nat} {p g : Nat} {cg : Color}
    {vp vg : Int} {d : Bool} {sp sg X : Tr} {rest : List Frame} {x : Nat}
    (hx : X.ptr = some x) (hsg : sg.color ≠ RED)
    (hz : RepZ h sen (⟨p, RED, vp, d, sp⟩ :: ⟨g, cg, vg, d, sg⟩ :: rest) X) :
    ∃ h1, insertFixStep sen h (some x) = some (h1, some (some x)) ∧
      RepZ h1 sen (⟨p, BLACK, vp, d, mkT d g RED vg sp sg⟩ :: rest) X := by
  obtain ⟨h1, e1, z1⟩ := promoteParent_spec hz
  refine ⟨h1, ?_, z1⟩
  obtain ⟨⟨hP, hPs, hG, hGs, hR⟩, hX, hnd⟩ := hz
  simp only [topNode_cons, hp_cons, hd_cons, ptr_node] at hP hPs hG hGs hR hX
  obtain ⟨n, hXn, hnp, hni, -⟩ := Rep_root hX hx
  simp only [addrsC_cons, addrs_mk, addrs_node, addrs_nil, Multiset.nodup_add, Multiset.nodup_singleton,
      Multiset.singleton_disjoint, Multiset.disjoint_singleton, Multiset.disjoint_add_right,
      Multiset.disjoint_add_left, Multiset.mem_add, Multiset.mem_singleton, not_or, true_and,
      Multiset.nodup_zero, Multiset.not_mem_zero, not_false_eq_true, and_true,
      add_zero, zero_add] at hnd
  casesm* _ ∧ _
  have hgs : g ≠ sen := by omega
  simp only [insertFixStep, isRedPtr_Rep hGs, wColor, wChild, wParent, wID, wVal, rd_some,
    andThen_some, one_sub_toID, Bool.not_not,
    Heap.set_same, Heap.set_other, nodeOf_color, nodeOf_val, nodeOf_child0, nodeOf_child1,
    nodeOf_fold, nodeOf_child, nodeOf_child_not, nodeOf_setChild, nodeOf_setChild_not,
    nodeOf_parent, nodeOf_ID, topNode_setChild, ne_eq, not_false_eq_true,
    setParentOf_eq, Alloc_set, true_or, reroot_other,
    Option.some.injEq, Prod.mk.injEq, and_true, true_and, exists_eq_left', hP, hG, hXn, hnp, hni,
    hgs, false_or, reduceCtorEq, hsg, decide_False, Bool.false_eq_true,
    decide_True, if_true, if_false, ite_true, ite_false, not_true_eq_false, e1]

theorem insertFixStep_zigzag {h : Heap} {sen : Nat} {x p g : Nat} {cx cg : Color}
    {xv vp vg : Int} {d : Bool} {A B sp sg : Tr} {rest : List Frame}
    (hsg : sg.color ≠ RED)
    (hz : RepZ h sen (⟨p, RED, vp, !d, sp⟩ :: ⟨g, cg, vg, d, sg⟩ :: rest)
      (mkT d x cx xv B A)) :
    ∃ h1, insertFixStep sen h (some x) = some (h1, some (some p)) ∧
      RepZ h1 sen (⟨x, BLACK, xv, d, mkT d g RED vg A sg⟩ :: rest) (mkT d p RED vp sp B) := by
  obtain ⟨h1, e1, z1⟩ := promoteChild_spec hz
  obtain ⟨h2, e2, z2⟩ := promoteParent_spec z1
  refine ⟨h2, ?_, z2⟩
  obtain ⟨⟨hP, hPs, hG, hGs, hR⟩, hX, hnd⟩ := hz
  simp only [topNode_cons, hp_cons, hd_cons, ptr_node] at hP hPs hG hGs hR hX
  obtain ⟨n, hXn, hnp, hni, -⟩ := Rep_root hX (ptr_mk _ _ _ _ _ _)
  simp only [addrsC_cons, addrs_mk, addrs_node, addrs_nil, Multiset.nodup_add, Multiset.nodup_singleton,
      Multiset.singleton_disjoint, Multiset.disjoint_singleton, Multiset.disjoint_add_right,
      Multiset.disjoint_add_left, Multiset.mem_add, Multiset.mem_singleton, not_or, true_and,
      Multiset.nodup_zero, Multiset.not_mem_zero, not_false_eq_true, and_true,
      add_zero, zero_add] at hnd
  casesm* _ ∧ _
  have hgs : g ≠ sen := by omega
  have hdd : ¬ ((!d) = d) := by cases d <;> simp
  simp only [insertFixStep, isRedPtr_Rep hGs, wColor, wChild, wParent, wID, wVal, rd_some,
    andThen_some, one_sub_toID, Bool.not_not,
    Heap.set_same, Heap.set_other, nodeOf_color, nodeOf_val, nodeOf_child0, nodeOf_child1,
    nodeOf_fold, nodeOf_child, nodeOf_child_not, nodeOf_setChild, nodeOf_setChild_not,
    nodeOf_parent, nodeOf_ID, topNode_setChild, ne_eq, not_false_eq_true,
    setParentOf_eq, Alloc_set, true_or, reroot_other,
    Option.some.injEq, Prod.mk.injEq, and_true, true_and, exists_eq_left', hP, hG, hXn, hnp, hni,
    hgs, false_or, reduceCtorEq, hsg, decide_False, Bool.false_eq_true, toID_eq_iff, hdd,
    decide_True, if_true, if_false, ite_true, ite_false, not_true_eq_false, e1, e2]

theorem insertFix_spec {sen : Nat} : ∀ (n : Nat) {ctx : List Frame} {X : Tr} {x : Nat}
    {h : Heap}, ctx.length ≤ n → X.ptr = some x → RepZ h sen ctx X →
    ∀ fuel, n < fuel →
      ∃ h1, insertFix sen fuel h (some x) = some h1 ∧ RepZ h1 sen [] (insFix ctx X) := by
  intro n
  induction n using Nat.strong_induction_on with
  | _ n ih =>
    intro ctx X x h hlen hx hz fuel hfuel
    obtain ⟨f, rfl⟩ : ∃ f, fuel = f + 1 := ⟨fuel - 1, by omega⟩
    match ctx, hlen with
    | [], _ =>
      refine ⟨h, ?_, hz⟩
      simp [insertFix, insertFixStep_break hx hz (Or.inl (by simp))]
    | [P], _ =>
      refine ⟨h, ?_, RepZ_cons.1 hz⟩
      simp [insertFix, insertFixStep_break hx hz (Or.inl (by simp))]
    | ⟨p, cp, vp, dp, sp⟩ :: ⟨g, cg, vg, dg, sg⟩ :: rest, hlen =>
      simp only [List.length_cons] at hlen
      by_cases hcp : cp = BLACK
      · refine ⟨h, ?_, ?_⟩
        · simp [insertFix, insertFixStep_break hx hz (Or.inr ⟨_, _, rfl, hcp⟩)]
        · subst hcp
          simp only [insFix, if_true]
          exact RepZ_plug.1 hz
      · have hred : cp = RED := by cases cp <;> simp_all
        subst hred
        by_cases hsg : sg.color = RED
        · -- the aunt is red
          cases sg with
          | nil => simp at hsg
          | node u cu ul uv ur =>
            simp only [color_node] at hsg
            subst hsg
            obtain ⟨h1, e1, z1⟩ := insertFixStep_recolor hx hz
            obtain ⟨h2, e2, z2⟩ := ih (n - 2) (by omega) (Nat.le_sub_of_add_le hlen)
              (ptr_mk _ _ _ _ _ _) z1 f (by omega)
            refine ⟨h2, ?_, ?_⟩
            · simp [insertFix, e1, e2]
            · simpa [insFix] using z2
        · obtain ⟨f2, rfl⟩ : ∃ f2, f = f2 + 1 := ⟨f - 1, by omega⟩
          by_cases hd : dp = dg
          · subst hd
            obtain ⟨h1, e1, z1⟩ := insertFixStep_zigzig hx hsg hz
            refine ⟨h1, ?_, ?_⟩
            · simp [insertFix, e1, insertFixStep_break hx z1 (Or.inr ⟨_, _, rfl, rfl⟩)]
            · simp only [insFix, reduceCtorEq, if_false, hsg, if_true]
              exact RepZ_plug.1 (RepZ_cons.1 z1)
          · have hdp : dp = !dg := by cases dp <;> cases dg <;> simp_all
            subst hdp
            cases X with
            | nil => simp at hx
            | node x1 cx l xv r =>
              simp only [ptr_node, Option.some.injEq] at hx
              subst hx
              rw [node_eq_mkT dg] at hz
              obtain ⟨h1, e1, z1⟩ := insertFixStep_zigzag hsg hz
              refine ⟨h1, ?_, ?_⟩
              · simp [insertFix, e1,
                  insertFixStep_break (ptr_mk _ _ _ _ _ _) z1 (Or.inr ⟨_, _, rfl, rfl⟩)]
              · simp only [insFix, reduceCtorEq, if_false, hsg, hd]
                exact RepZ_plug.1 (RepZ_cons.1 z1)

/-! # The search path and `insert` on a represented tree -/

theorem find_plug (v : Int) : ∀ (t : Tr) (ctx : List Frame),
    plug (find v ctx t).1 (find v ctx t).2 = plug ctx t
  | nil, ctx => rfl
  | node a c l x r, ctx => by
    unfold find
    split_ifs
    · rfl
    · rw [find_plug v l]; rfl
    · rw [find_plug v r]; rfl

theorem find_length (v : Int) : ∀ (t : Tr) (ctx : List Frame),
    (find v ctx t).1.length ≤ ctx.length + t.depth
  | nil, ctx => by simp [find]
  | node a c l x r, ctx => by
    unfold find
    split_ifs
    · simp
    · have := find_length v l (⟨a, c, x, false, r⟩ :: ctx)
      simp only [List.length_cons, depth] at this ⊢
      omega
    · have := find_length v r (⟨a, c, x, true, l⟩ :: ctx)
      simp only [List.length_cons, depth] at this ⊢
      omega

theorem RepZ_find {h : Heap} {sen : Nat} (v : Int) : ∀ (t : Tr) (ctx : List Frame),
    RepZ h sen ctx t → RepZ h sen (find v ctx t).1 (find v ctx t).2
  | nil, ctx, hz => hz
  | node a c l x r, ctx, hz => by
    unfold find
    split_ifs
    · exact hz
    · exact RepZ_find v l _ (RepZ_cons.2 hz)
    · refine RepZ_find v r _ (RepZ_cons.2 ?_)
      simpa [Frame.fill, mkT] using hz

/-- The descent of `insert` follows the search path. -/
theorem insertFind_spec {h : Heap} {sen : Nat} (v : Int) : ∀ (t : Tr) (ctx : List Frame)
    (fuel : Nat), RepZ h sen ctx t → t.depth < fuel →
    insertFind h v fuel (hp sen ctx) (toID (hd ctx)) t.ptr =
      some (match (find v ctx t).2 with
        | nil => some (hp sen (find v ctx t).1, toID (hd (find v ctx t).1))
        | node _ _ _ _ _ => none)
  | nil, ctx, fuel, hz, hf => by
    obtain ⟨f, rfl⟩ : ∃ f, fuel = f + 1 := ⟨fuel - 1, by simp [depth] at hf; omega⟩
    simp [insertFind, find]
  | node a c l x r, ctx, fuel, hz, hf => by
    obtain ⟨f, rfl⟩ : ∃ f, fuel = f + 1 := ⟨fuel - 1, by simp [depth] at hf; omega⟩
    simp only [depth] at hf
    have hn := hz.hs.1
    unfold find
    by_cases h1 : x = v
    · simp [insertFind, hn, h1]
    · by_cases h2 : v < x
      · have hz1 : RepZ h sen (⟨a, c, x, false, r⟩ :: ctx) l := RepZ_cons.2 hz
        have := insertFind_spec v l _ f hz1 (by omega)
        simp only [hp_cons, hd_cons, toID_false] at this
        simp [insertFind, hn, h1, h2, RBNode.child, this]
      · have hz1 : RepZ h sen (⟨a, c, x, true, l⟩ :: ctx) r :=
          RepZ_cons.2 (by simpa [Frame.fill, mkT] using hz)
        have := insertFind_spec v r _ f hz1 (by omega)
        simp only [hp_cons, hd_cons, toID_true] at this
        simp [insertFind, hn, h1, h2, RBNode.child, this]

theorem Rep_alloc {h : Heap} : ∀ {t : Tr} {p : Option Nat} {d : Bool} {b : Nat},
    Rep h p d t → b ∈ t.addrs → h b ≠ none
  | nil, _, _, _, _, hb => by simp at hb
  | node a c l v r, _, _, b, hr, hb => by
    simp only [addrs_node, Multiset.mem_add, Multiset.mem_singleton] at hb
    rcases hb with rfl | hb | hb
    · rw [hr.1]; simp
    · exact Rep_alloc hr.2.1 hb
    · exact Rep_alloc hr.2.2 hb

theorem RepC_alloc {h : Heap} {sen : Nat} : ∀ {ctx : List Frame} {x : Option Nat} {b : Nat},
    RepC h sen ctx x → b ∈ ({sen} : Multiset Nat) + addrsC ctx → h b ≠ none
  | [], x, b, hr, hb => by
    simp only [addrsC_nil, add_zero, Multiset.mem_singleton] at hb
    subst hb
    have := RepC_top hr
    simp only [hp_nil] at this
    rw [this]; simp
  | f :: rest, x, b, hr, hb => by
    simp only [addrsC_cons, Multiset.mem_add, Multiset.mem_singleton] at hb
    rcases hb with rfl | rfl | hb | hb
    · exact RepC_alloc hr.2.2 (by simp)
    · rw [hr.1]; simp
    · exact Rep_alloc hr.2.1 hb
    · exact RepC_alloc hr.2.2 (by simp [hb])

theorem RepZ_alloc {h : Heap} {sen : Nat} {ctx : List Frame} {t : Tr} {b : Nat}
    (hz : RepZ h sen ctx t) (hb : h b = none) :
    b ∉ ({sen} : Multiset Nat) + addrsC ctx ∧ b ∉ t.addrs :=
  ⟨fun hm => RepC_alloc hz.hc hm hb, fun hm => Rep_alloc hz.hs hm hb⟩

/-- Lines 47-57 of `insert`: the new node is linked below the node found. -/
theorem attach_spec {h : Heap} {sen : Nat} {ctx : List Frame} {a : Nat} (v : Int)
    (hz : RepZ h sen ctx nil) (ha : h a = none) :
    ∃ h1, wChild (h.set a ⟨RED, v, some (hp sen ctx), toID (hd ctx), none, none⟩)
        (some (hp sen ctx)) (toID (hd ctx)) (some a) = some h1 ∧
      RepZ h1 sen ctx (node a RED nil v nil) := by
  obtain ⟨hm, -⟩ := RepZ_alloc hz ha
  obtain ⟨hC, hX, hnd⟩ := hz
  have hT := RepC_top hC
  have hpa : hp sen ctx ≠ a := fun e => hm (e ▸ hp_mem sen ctx)
  have hnd1 : (({sen} : Multiset Nat) + addrsC ctx).Nodup := by simpa using hnd
  simp only [wChild, Heap.set_other _ _ hpa, hT, topNode_setChild, Option.some.injEq,
    exists_eq_left']
  refine ⟨?_, ?_, ?_⟩
  · refine RepC_congr (fun b hb => ?_) (RepC_hole (some a) hnd1 hC)
    have hba : b ≠ a := fun e => hm (e ▸ hb)
    by_cases hbp : b = hp sen ctx
    · subst hbp; simp
    · simp [Heap.set_other _ _ hbp, Heap.set_other _ _ hba]
  · refine ⟨?_, trivial, trivial⟩
    simp [Heap.set_other _ _ hpa.symm]
  · simp only [addrs_node, addrs_nil, add_zero]
    rw [← add_assoc]
    refine Multiset.nodup_add.2 ⟨hnd1, Multiset.nodup_singleton _, ?_⟩
    exact Multiset.disjoint_singleton.2 hm

/-- Lines 140-145 of `insert`: the root is painted BLACK unless it is BLACK already. -/
theorem blacken_spec {h : Heap} {sen : Nat} {T : Tr} (hT : T.ptr ≠ none)
    (hz : RepZ h sen [] T) :
    ∃ rn, rd h T.ptr = some rn ∧
      ∃ h1, (if rn.m_color ≠ BLACK then wColor h T.ptr BLACK else some h) = some h1 ∧
        RepZ h1 sen [] (T.paint BLACK) := by
  cases T with
  | nil => simp at hT
  | node a c l v r =>
    obtain ⟨hC, hX, hnd⟩ := hz
    have hnd0 := hnd
    have hn := hX.1
    refine ⟨_, hn, ?_⟩
    by_cases hc : c = BLACK
    · subst hc
      exact ⟨h, by simp, hC, hX, hnd0⟩
    · simp only [ne_eq, hc, not_false_eq_true, if_true, ptr_node, wColor, hn,
        Option.some.injEq, exists_eq_left', paint_node]
      simp only [addrsC_nil, addrs_node, Multiset.nodup_add, Multiset.nodup_singleton,
        Multiset.singleton_disjoint, Multiset.disjoint_singleton, Multiset.disjoint_add_right,
        Multiset.disjoint_add_left, Multiset.mem_add, Multiset.mem_singleton, not_or,
        true_and, zero_add] at hnd
      casesm* _ ∧ _
      refine ⟨?_, ⟨?_, ?_, ?_⟩, hnd0⟩
      · refine RepC_congr (fun b hb => ?_) hC
        have k0 : b ≠ a := by
          simp only [addrsC_nil, add_zero, Multiset.mem_singleton] at hb
          omega
        simp only [Heap.set_other _ _ k0]
      · simp
      · exact Rep_set _ (by assumption) hX.2.1
      · exact Rep_set _ (by assumption) hX.2.2

/-! # The red-black invariants on shapes -/

theorem color_cases (c : Color) : c = RED ∨ c = BLACK := by cases c <;> simp

@[simp] theorem not_black {c : Color} : (¬ c = BLACK) ↔ c = RED := by cases c <;> simp

@[simp] theorem not_red {c : Color} : (¬ c = RED) ↔ c = BLACK := by cases c <;> simp

@[simp] theorem bh_nil : Tr.nil.bh = 0 := rfl

@[simp] theorem Bal_nil : Tr.nil.Bal := trivial

@[simp] theorem NoRR_nil : Tr.nil.NoRR := trivial

@[simp] theorem keys_nil : Tr.nil.keys = [] := rfl

@[simp] theorem keys_node (a c l v r) : (node a c l v r).keys = l.keys ++ v :: r.keys := rfl

@[simp] theorem bh_mk (d a c v x y) :
    (mkT d a c v x y).bh = max x.bh y.bh + (if c = BLACK then 1 else 0) := by
  cases d <;> simp [mkT, bh, max_comm]

@[simp] theorem bh_node (a c l v r) :
    (node a c l v r).bh = max l.bh r.bh + (if c = BLACK then 1 else 0) := rfl

@[simp] theorem Bal_node (a c l v r) :
    (node a c l v r).Bal ↔ l.Bal ∧ r.Bal ∧ l.bh = r.bh := Iff.rfl

@[simp] theorem NoRR_node (a c l v r) :
    (node a c l v r).NoRR ↔
      l.NoRR ∧ r.NoRR ∧ (c = RED → l.color = BLACK ∧ r.color = BLACK) := Iff.rfl

@[simp] theorem Bal_mk (d a c v x y) :
    (mkT d a c v x y).Bal ↔ x.Bal ∧ y.Bal ∧ x.bh = y.bh := by
  cases d <;> simp [mkT, Bal] <;> tauto

@[simp] theorem NoRR_mk (d a c v x y) :
    (mkT d a c v x y).NoRR ↔
      x.NoRR ∧ y.NoRR ∧ (c = RED → x.color = BLACK ∧ y.color = BLACK) := by
  cases d <;> simp [mkT, NoRR] <;> tauto

theorem keys_mk (d a c v x y) :
    (mkT d a c v x y).keys = if d then y.keys ++ v :: x.keys else x.keys ++ v :: y.keys := by
  cases d <;> rfl

@[simp] theorem Bal_paint (t : Tr) (c : Color) : (t.paint c).Bal ↔ t.Bal := by
  cases t <;> simp [paint]

theorem NoRR_paint_black {t : Tr} (h : t.NoRR) : (t.paint BLACK).NoRR := by
  cases t with
  | nil => trivial
  | node a c l v r => simp only [paint_node, NoRR_node] at h ⊢; exact ⟨h.1, h.2.1, by simp⟩

@[simp] theorem color_paint (t : Tr) (c : Color) (h : t.ptr ≠ none) : (t.paint c).color = c := by
  cases t with
  | nil => simp at h
  | node a c l v r => rfl

theorem keys_plug : ∀ (ctx : List Frame) (t : Tr),
    (plug ctx t).keys = keysL ctx ++ t.keys ++ keysR ctx
  | [], t => by simp [plug, keysL, keysR]
  | f :: rest, t => by
    rw [plug, keys_plug rest, Frame.fill, keys_mk]
    cases hd : f.d <;> simp [keysL, keysR, hd]

theorem Bal_plug : ∀ (ctx : List Frame) (t : Tr),
    (plug ctx t).Bal ↔ t.Bal ∧ BalC ctx t.bh
  | [], t => by simp [plug, BalC]
  | f :: rest, t => by
    rw [plug, Bal_plug rest, Frame.fill, Bal_mk, bh_mk, BalC]
    constructor
    · rintro ⟨⟨h1, h2, h3⟩, h4⟩
      refine ⟨h1, h2, h3.symm, ?_⟩
      rwa [← h3, max_self] at h4
    · rintro ⟨h1, h2, h3, h4⟩
      refine ⟨⟨h1, h2, h3.symm⟩, ?_⟩
      rwa [h3, max_self]

theorem NoRR_plug : ∀ (ctx : List Frame) (t : Tr),
    (plug ctx t).NoRR ↔ t.NoRR ∧ NoRRC ctx ∧ (topColor ctx = RED → t.color = BLACK)
  | [], t => by simp [plug, NoRRC, topColor]
  | f :: rest, t => by
    rw [plug, NoRR_plug rest, Frame.fill, NoRR_mk, color_mk, NoRRC, topColor]
    rcases color_cases f.c with hc | hc <;> rcases color_cases (topColor rest) with ht | ht <;>
      simp [hc, ht] <;> tauto

theorem lastBlack_of_plug : ∀ (ctx : List Frame) (t : Tr),
    (plug ctx t).color = BLACK → ctx ≠ [] → lastBlack ctx
  | [], _, _, h => absurd rfl h
  | [f], t, h, _ => by simpa [plug, Frame.fill, lastBlack] using h
  | f :: g :: rest, t, h, _ => by
    rw [lastBlack]
    exact lastBlack_of_plug (g :: rest) _ h (by simp)

theorem lastBlack_tail {f : Frame} {rest : List Frame} (h : lastBlack (f :: rest)) :
    lastBlack rest := by
  cases rest with
  | nil => trivial
  | cons g rest => exact h

/-! # The balancing loop of `insert` on shapes -/

theorem plug_ptr : ∀ (ctx : List Frame) (t : Tr), t.ptr ≠ none → (plug ctx t).ptr ≠ none
  | [], _, h => h
  | f :: rest, t, _ => plug_ptr rest _ (by simp [Frame.fill])

theorem insFix_ptr (ctx : List Frame) (X : Tr) (hX : X.ptr ≠ none) :
    (insFix ctx X).ptr ≠ none := by
  induction ctx, X using insFix.induct with
  | case1 X => simpa [insFix] using hX
  | case2 P X => simp [insFix, Frame.fill]
  | case3 P G rest X hc =>
    simp only [insFix, hc, if_true]
    exact plug_ptr _ _ hX
  | case4 P G rest X hc hs ih =>
    simp only [insFix, hc, if_false, hs, if_true]
    exact ih (by simp)
  | case5 P G rest X hc hs hd =>
    simp only [insFix, hc, if_false, hs, hd, if_true]
    exact plug_ptr _ _ (by simp)
  | case6 P G rest hc hs hd => simp at hX
  | case7 P G rest hc hs hd x cx l xv r =>
    simp only [insFix, hc, if_false, hs, hd]
    exact plug_ptr _ _ (by simp)

theorem insFix_keys (ctx : List Frame) (X : Tr) (hX : X.ptr ≠ none) :
    (insFix ctx X).keys = (plug ctx X).keys := by
  induction ctx, X using insFix.induct with
  | case1 X => rfl
  | case2 P X => rfl
  | case3 P G rest X hc => simp only [insFix, hc, if_true]
  | case4 P G rest X hc hs ih =>
    simp only [insFix, hc, if_false, hs, if_true]
    rw [ih (by simp)]
    simp only [plug, keys_plug, Frame.fill, keys_mk, keys_paint]
  | case5 P G rest X hc hs hd =>
    simp only [insFix, hc, if_false, hs, hd, if_true]
    simp only [plug, keys_plug, Frame.fill, keys_mk, hd]
    cases G.d <;> simp
  | case6 P G rest hc hs hd => simp at hX
  | case7 P G rest hc hs hd x cx l xv r =>
    simp only [insFix, hc, if_false, hs, hd]
    simp only [plug, keys_plug, Frame.fill, keys_mk]
    have hpd : P.d = !G.d := by cases hp : P.d <;> cases hg : G.d <;> simp_all
    rw [hpd]
    cases G.d <;> simp [Tr.side]

/-- The balancing loop of `insert` restores the red-black invariants, up to the colour
of the root. -/
theorem insFix_valid (ctx : List Frame) (X : Tr) (hred : X.color = RED) (hn : X.NoRR)
    (hb : X.Bal) (hbc : BalC ctx X.bh) (hnc : NoRRC ctx) (hl : lastBlack ctx) :
    (insFix ctx X).Bal ∧ ((insFix ctx X).paint BLACK).NoRR := by
  induction ctx, X using insFix.induct with
  | case1 X => exact ⟨hb, NoRR_paint_black hn⟩
  | case2 P X =>
    simp only [lastBlack] at hl
    have h1 : (plug [P] X).Bal := (Bal_plug _ _).2 ⟨hb, hbc⟩
    have h2 : (plug [P] X).NoRR := (NoRR_plug _ _).2 ⟨hn, hnc, by simp [topColor, hl]⟩
    exact ⟨h1, NoRR_paint_black h2⟩
  | case3 P G rest X hc =>
    simp only [insFix, hc, if_true]
    have h1 := (Bal_plug (P :: G :: rest) X).2 ⟨hb, hbc⟩
    have h2 := (NoRR_plug (P :: G :: rest) X).2 ⟨hn, hnc, by simp [topColor, hc]⟩
    exact ⟨h1, NoRR_paint_black h2⟩
  | case4 P G rest X hc hs ih =>
    simp only [insFix, hc, if_false, hs, if_true]
    simp only [not_black] at hc
    simp only [BalC, hc, reduceCtorEq, if_false, add_zero] at hbc
    simp only [NoRRC, hc, true_implies, topColor] at hnc
    obtain ⟨hb1, hb2, hb3, hb4, hb5⟩ := hbc
    obtain ⟨hn1, ⟨hn2, hn3⟩, hn4, hn5, hn6⟩ := hnc
    have hsp : G.s.ptr ≠ none := by
      cases hG : G.s with
      | nil => rw [hG] at hs; simp at hs
      | node _ _ _ _ _ => simp
    refine ih (by simp) ?_ ?_ ?_ hn6 (lastBlack_tail (lastBlack_tail hl))
    · simp only [NoRR_mk, reduceCtorEq, false_implies, and_true, color_mk, true_implies]
      exact ⟨⟨hn, hn1⟩, NoRR_paint_black hn4, trivial, color_paint _ _ hsp⟩
    · simp only [Bal_mk, Bal_paint, bh_mk, if_true]
      refine ⟨⟨hb, hb1, hb2.symm⟩, hb3, ?_⟩
      cases hG : G.s with
      | nil => rw [hG] at hs; simp at hs
      | node u cu ul uv ur =>
        rw [hG] at hs hb4
        simp only [color_node] at hs
        subst hs
        simp only [bh_node, reduceCtorEq, if_false, add_zero] at hb4
        simp only [paint_node, bh_node, if_true]
        omega
    · simp only [bh_mk, reduceCtorEq, if_false, add_zero, if_true, hn3, if_true] at hb5 ⊢
      convert hb5 using 1
      cases hG : G.s with
      | nil => rw [hG] at hs; simp at hs
      | node u cu ul uv ur =>
        rw [hG] at hs hb4
        simp only [color_node] at hs
        subst hs
        simp only [bh_node, reduceCtorEq, if_false, add_zero] at hb4
        simp only [paint_node, bh_node, if_true]
        omega
  | case5 P G rest X hc hs hd =>
    simp only [insFix, hc, if_false, hs, hd, if_true]
    simp only [not_black] at hc
    simp only [not_red] at hs
    simp only [BalC, hc, reduceCtorEq, if_false, add_zero] at hbc
    simp only [NoRRC, hc, true_implies, topColor] at hnc
    obtain ⟨hb1, hb2, hb3, hb4, hb5⟩ := hbc
    obtain ⟨hn1, ⟨hn2, hn3⟩, hn4, hn5, hn6⟩ := hnc
    simp only [hn3, if_true] at hb5
    have h1 : (plug rest (mkT G.d P.a BLACK P.v X (mkT G.d G.a RED G.v P.s G.s))).Bal := by
      rw [Bal_plug]
      simp only [Bal_mk, bh_mk, reduceCtorEq, if_false, add_zero, if_true]
      refine ⟨⟨hb, ⟨hb1, hb3, by omega⟩, by omega⟩, ?_⟩
      convert hb5 using 2
      omega
    have h2 : (plug rest (mkT G.d P.a BLACK P.v X (mkT G.d G.a RED G.v P.s G.s))).NoRR := by
      rw [NoRR_plug]
      simp only [NoRR_mk, reduceCtorEq, false_implies, and_true, color_mk, implies_true,
        true_implies]
      exact ⟨⟨hn, hn1, hn4, hn2, hs⟩, hn6⟩
    exact ⟨h1, NoRR_paint_black h2⟩
  | case6 P G rest hc hs hd => simp at hred
  | case7 P G rest hc hs hd x cx l xv r =>
    simp only [insFix, hc, if_false, hs, hd]
    simp only [not_black] at hc
    simp only [not_red] at hs
    simp only [color_node] at hred
    subst hred
    simp only [BalC, hc, reduceCtorEq, if_false, add_zero, bh_node] at hbc
    simp only [NoRRC, hc, true_implies, topColor] at hnc
    simp only [NoRR_node, true_implies] at hn
    simp only [Bal_node] at hb
    obtain ⟨hb1, hb2, hb3, hb4, hb5⟩ := hbc
    obtain ⟨hn1, ⟨hn2, hn3⟩, hn4, hn5, hn6⟩ := hnc
    obtain ⟨hl1, hr1, hlc, hrc⟩ := hn
    obtain ⟨hl2, hr2, hlr⟩ := hb
    simp only [hn3, if_true] at hb5
    have hsd : ∀ e : Bool, ((node x RED l xv r).side e).Bal ∧ ((node x RED l xv r).side e).NoRR ∧
        ((node x RED l xv r).side e).color = BLACK ∧
        ((node x RED l xv r).side e).bh = l.bh := by
      intro e
      cases e
      · exact ⟨hl2, hl1, hlc, rfl⟩
      · exact ⟨hr2, hr1, hrc, hlr.symm⟩
    obtain ⟨s1, s2, s3, s4⟩ := hsd G.d
    obtain ⟨t1, t2, t3, t4⟩ := hsd (!G.d)
    refine ⟨?_, NoRR_paint_black ?_⟩
    · rw [Bal_plug]
      simp only [Bal_mk, bh_mk, reduceCtorEq, if_false, add_zero, if_true, hc]
      refine ⟨⟨⟨hb1, s1, by omega⟩, ⟨t1, hb3, by omega⟩, by omega⟩, ?_⟩
      convert hb5 using 2
      omega
    · rw [NoRR_plug]
      simp only [NoRR_mk, reduceCtorEq, false_implies, and_true, color_mk, implies_true,
        true_implies, hc]
      exact ⟨⟨⟨hn1, s2, hn2, s3⟩, t2, hn4, t3, hs⟩, hn6⟩

/-! # The search path -/

/-- Along the search path for `v` everything to the left of the hole is smaller than `v`
and everything to the right is larger; a node on which the search stops holds `v`. -/
theorem find_bounds (v : Int) : ∀ (t : Tr) (ctx : List Frame),
    (plug ctx t).keys.Pairwise (· < ·) →
    (∀ k ∈ keysL ctx, k < v) → (∀ k ∈ keysR ctx, v < k) →
    (∀ k ∈ keysL (find v ctx t).1, k < v) ∧ (∀ k ∈ keysR (find v ctx t).1, v < k) ∧
      ((find v ctx t).2 = nil ∨ ∃ a c l r, (find v ctx t).2 = node a c l v r)
  | nil, ctx, _, hL, hR => ⟨hL, hR, Or.inl rfl⟩
  | node a c l x r, ctx, hs, hL, hR => by
    unfold find
    have hs' := hs
    rw [keys_plug, keys_node, List.pairwise_append, List.pairwise_append] at hs'
    obtain ⟨⟨-, hin, -⟩, -, -⟩ := hs'
    rw [List.pairwise_append] at hin
    obtain ⟨-, hxr, hlx⟩ := hin
    simp only [List.pairwise_cons] at hxr
    by_cases h1 : x = v
    · subst h1
      simp only [if_true]
      exact ⟨hL, hR, Or.inr ⟨a, c, l, r, rfl⟩⟩
    · simp only [h1, if_false]
      by_cases h2 : v < x
      · simp only [h2, if_true]
        refine find_bounds v l _ hs ?_ ?_
        · simpa [keysL] using hL
        · intro k hk
          simp only [keysR, Bool.false_eq_true, if_false, List.cons_append, List.mem_cons,
            List.mem_append] at hk
          rcases hk with rfl | hk | hk
          · exact h2
          · exact lt_trans h2 (hxr.1 k hk)
          · exact hR k hk
      · simp only [h2, if_false]
        have h3 : x < v := lt_of_le_of_ne (not_lt.1 h2) h1
        refine find_bounds v r _ ?_ ?_ ?_
        · simpa [plug, Frame.fill, mkT] using hs
        · intro k hk
          simp only [keysL, if_true, List.mem_append, List.mem_singleton] at hk
          rcases hk with hk | hk | rfl
          · exact hL k hk
          · exact lt_trans (hlx k hk x (by simp)) h3
          · exact h3
        · simpa [keysR] using hR

/-- On a search tree the search stops on a node exactly when the value is present. -/
theorem find_mem {T : Tr} (hs : T.keys.Pairwise (· < ·)) (v : Int) :
    v ∈ T.keys ↔ (find v [] T).2 ≠ nil := by
  obtain ⟨hL, hR, hf⟩ := find_bounds v T [] hs (by simp [keysL]) (by simp [keysR])
  have hk : T.keys = keysL (find v [] T).1 ++ (find v [] T).2.keys ++ keysR (find v [] T).1 := by
    rw [← keys_plug, find_plug]; rfl
  rw [hk]
  rcases hf with hf | ⟨a, c, l, r, hf⟩
  · rw [hf]
    simp only [keys_nil, List.append_nil, List.mem_append, ne_eq, not_true_eq_false, iff_false,
      not_or]
    exact ⟨fun hm => lt_irrefl _ (hL v hm), fun hm => lt_irrefl _ (hR v hm)⟩
  · rw [hf]; simp

theorem ins_found {T : Tr} {a : Nat} {v : Int} (hf : (find v [] T).2 ≠ nil) : ins T a v = T := by
  unfold ins
  split
  · rename_i ctx heq
    rw [heq] at hf; exact absurd rfl hf
  · rfl

theorem ins_absent {T : Tr} {a : Nat} {v : Int} (hf : (find v [] T).2 = nil) :
    ins T a v = (insFix (find v [] T).1 (node a RED nil v nil)).paint BLACK := by
  unfold ins
  split
  · rename_i ctx heq
    rw [heq]
  · rename_i heq
    rw [heq] at hf; cases hf

/-- `insert` of an absent value on shapes: the result is a valid red-black search tree
holding one more value. -/
theorem ins_valid {T : Tr} (a : Nat) {v : Int} (hV : Valid T) (hv : INT_MIN ≤ v ∧ v ≤ INT_MAX)
    (hf : (find v [] T).2 = nil) :
    Valid (ins T a v) ∧ (∀ w, w ∈ (ins T a v).keys ↔ w = v ∨ w ∈ T.keys) ∧
      (ins T a v).keys.length = T.keys.length + 1 := by
  obtain ⟨hL, hR, -⟩ := find_bounds v T [] hV.sorted (by simp [keysL]) (by simp [keysR])
  have hp : plug (find v [] T).1 nil = T := by
    have := find_plug v T []
    rwa [hf] at this
  have hk : T.keys = keysL (find v [] T).1 ++ keysR (find v [] T).1 := by
    have := congrArg Tr.keys hp
    rw [keys_plug] at this
    simpa using this.symm
  have hk1 : (ins T a v).keys = keysL (find v [] T).1 ++ v :: keysR (find v [] T).1 := by
    rw [ins_absent hf, keys_paint, insFix_keys _ _ (by simp), keys_plug]; simp
  have hbal : BalC (find v [] T).1 0 := by
    have := hV.bal
    rw [← hp, Bal_plug] at this
    exact this.2
  have hnorr : NoRRC (find v [] T).1 := by
    have := hV.norr
    rw [← hp, NoRR_plug] at this
    exact this.2.1
  have hlast : lastBlack (find v [] T).1 := by
    by_cases hc : (find v [] T).1 = []
    · rw [hc]; trivial
    · exact lastBlack_of_plug _ nil (by rw [hp]; exact hV.root) hc
  obtain ⟨h1, h2⟩ := insFix_valid (find v [] T).1 (node a RED nil v nil) rfl (by simp)
    (by simp) (by simpa using hbal) hnorr hlast
  refine ⟨⟨?_, ?_, ?_, ?_, ?_⟩, ?_, ?_⟩
  · rw [ins_absent hf]; exact color_paint _ _ (insFix_ptr _ _ (by simp))
  · rw [ins_absent hf, Bal_paint]; exact h1
  · rw [ins_absent hf]; exact h2
  · rw [hk1]
    have hs := hV.sorted
    rw [hk, List.pairwise_append] at hs
    rw [List.pairwise_append]
    refine ⟨hs.1, List.pairwise_cons.2 ⟨hR, hs.2.1⟩, ?_⟩
    intro x hx y hy
    rcases List.mem_cons.1 hy with rfl | hy
    · exact hL x hx
    · exact hs.2.2 x hx y hy
  · intro k hk2
    rw [hk1] at hk2
    rcases List.mem_append.1 hk2 with hk2 | hk2
    · exact hV.range k (by rw [hk]; exact List.mem_append_left _ hk2)
    · rcases List.mem_cons.1 hk2 with rfl | hk2
      · exact hv
      · exact hV.range k (by rw [hk]; exact List.mem_append_right _ hk2)
  · intro w
    rw [hk1, hk]
    simp only [List.mem_append, List.mem_cons]
    tauto
  · rw [hk1, hk]
    simp only [List.length_append, List.length_cons]
    omega

/-! # `lookup` and `insert` on a represented tree -/

theorem sentinel_child {h : Heap} {sen : Nat} {T : Tr} (hz : RepZ h sen [] T) :
    ∃ sn, h sen = some sn ∧ sn.m_child0 = T.ptr ∧ sn.m_color = BLACK := by
  have := RepC_top hz.hc
  simp only [hp_nil, topNode] at this
  exact ⟨_, this, rfl, rfl⟩

/-- The loop of `lookup` follows the search path. -/
theorem lookupLoop_spec {h : Heap} (v : Int) : ∀ (t : Tr) (ctx : List Frame)
    (p : Option Nat) (d : Bool) (fuel : Nat), Rep h p d t → t.depth < fuel →
    lookupLoop h v fuel t.ptr = some (find v ctx t).2.ptr.isSome
  | nil, ctx, p, d, fuel, hr, hf => by
    obtain ⟨f, rfl⟩ : ∃ f, fuel = f + 1 := ⟨fuel - 1, by simp [depth] at hf; omega⟩
    simp [lookupLoop, find]
  | node a c l x r, ctx, p, d, fuel, hr, hf => by
    obtain ⟨f, rfl⟩ : ∃ f, fuel = f + 1 := ⟨fuel - 1, by simp [depth] at hf; omega⟩
    simp only [depth] at hf
    have hn := hr.1
    unfold find
    by_cases h1 : x = v
    · simp [lookupLoop, hn, h1]
    · by_cases h2 : v < x
      · have := lookupLoop_spec v l (⟨a, c, x, false, r⟩ :: ctx) _ _ f hr.2.1 (by omega)
        simp [lookupLoop, hn, h1, h2, RBNode.child, this]
      · have := lookupLoop_spec v r (⟨a, c, x, true, l⟩ :: ctx) _ _ f hr.2.2 (by omega)
        simp [lookupLoop, hn, h1, h2, RBNode.child, this]

theorem lookup_spec {t : RBTree} {T : Tr} (hz : RepZ t.heap t.sentinel [] T) (v : Int)
    (fuel : Nat) (hf : T.depth < fuel) :
    lookup fuel t v = some (find v [] T).2.ptr.isSome := by
  obtain ⟨sn, h1, h2, -⟩ := sentinel_child hz
  simp only [lookup, rd_some, h1, andThen_some, h2]
  exact lookupLoop_spec v T [] _ _ fuel hz.hs hf

theorem insert_found {t : RBTree} {T : Tr} (hz : RepZ t.heap t.sentinel [] T) (a : Nat)
    {v : Int} {fuel : Nat} (hf : T.depth < fuel) (hv : (find v [] T).2 ≠ nil) :
    insert fuel t a v = some (t, false) := by
  obtain ⟨sn, h1, h2, -⟩ := sentinel_child hz
  have h3 := insertFind_spec v T [] fuel hz hf
  simp only [hp_nil, hd_nil, toID_false] at h3
  simp only [insert, rd_some, h1, andThen_some, h2, h3]
  cases hft : (find v [] T).2 with
  | nil => exact absurd hft hv
  | node _ _ _ _ _ => rfl

theorem insert_absent {t : RBTree} {T : Tr} (hz : RepZ t.heap t.sentinel [] T) {a : Nat}
    (ha : t.heap a = none) {v : Int} {fuel : Nat} (hf : T.depth + 1 < fuel)
    (hv : (find v [] T).2 = nil) :
    ∃ h1, insert fuel t a v = some (⟨t.sentinel, h1⟩, true) ∧
      RepZ h1 t.sentinel [] (ins T a v) := by
  obtain ⟨sn, h1, h2, -⟩ := sentinel_child hz
  have h3 := insertFind_spec v T [] fuel hz (by omega)
  simp only [hp_nil, hd_nil, toID_false, hv] at h3
  have z1 := RepZ_find v T [] hz
  rw [hv] at z1
  obtain ⟨h4, e4, z4⟩ := attach_spec v z1 ha
  have hlen := find_length v T []
  simp only [List.length_nil, zero_add] at hlen
  obtain ⟨h5, e5, z5⟩ := @insertFix_spec t.sentinel _ _ _ _ _ (le_refl _) (ptr_node a RED nil v nil)
    z4 fuel (by omega)
  obtain ⟨sn5, k1, k2, -⟩ := sentinel_child z5
  obtain ⟨rn, k3, h6, e6, z6⟩ := blacken_spec (insFix_ptr _ _ (by simp)) z5
  refine ⟨h6, ?_, ?_⟩
  · simp only [insert, rd_some, h1, andThen_some, h2, h3, e4, e5, k1, k2]
    rw [k3]
    simp only [andThen_some, ptr_node] at e6 ⊢
    rw [e6]
    rfl
  · rw [ins_absent hv]; exact z6

/-! # The rotations of `remove` on a represented tree -/

theorem siblingRed_spec {h : Heap} {sen : Nat} {p s n : Nat} {cp cs cn : Color}
    {vp sv nv : Int} {d : Bool} {nl nr F t : Tr} {rest : List Frame}
    (hz : RepZ h sen (⟨p, cp, vp, d, mkT d s cs sv (node n cn nl nv nr) F⟩ :: rest) t) :
    ∃ h1, siblingRed h (some p) (some s) (toID d) = some (h1, some n) ∧
      RepZ h1 sen (⟨p, RED, vp, d, node n cn nl nv nr⟩ :: ⟨s, BLACK, sv, d, F⟩ :: rest) t ∧
      ∀ b, b ∉ ({sen} : Multiset Nat) +
        addrsC (⟨p, cp, vp, d, mkT d s cs sv (node n cn nl nv nr) F⟩ :: rest) → h1 b = h b := by
  obtain ⟨⟨hP, hPs, hR⟩, hX, hnd⟩ := hz
  simp only [topNode_cons, hp_cons, hd_cons, ptr_mk] at hP hPs hR hX
  obtain ⟨hS, hN, hF⟩ := Rep_mk.1 hPs
  obtain ⟨hNn, hNl, hNr⟩ := hN
  simp only [Bool.not_not, ptr_node] at hS hNn
  have hT := RepC_top hR
  have hnd0 := hnd
  simp only [addrsC_cons, addrs_mk, addrs_node, addrs_nil, Multiset.nodup_add, Multiset.nodup_singleton,
      Multiset.singleton_disjoint, Multiset.disjoint_singleton, Multiset.disjoint_add_right,
      Multiset.disjoint_add_left, Multiset.mem_add, Multiset.mem_singleton, not_or, true_and,
      Multiset.nodup_zero, Multiset.not_mem_zero, not_false_eq_true, and_true,
      add_zero, zero_add] at hnd
  casesm* _ ∧ _
  have d_0_1 : p ≠ s := by omega
  have d_0_2 : p ≠ n := by omega
  have d_0_3 : p ≠ hp sen rest := (hp_ne (by omega) (by assumption)).symm
  have d_1_2 : s ≠ n := by omega
  have d_1_3 : s ≠ hp sen rest := (hp_ne (by omega) (by assumption)).symm
  have d_2_3 : n ≠ hp sen rest := (hp_ne (by omega) (by assumption)).symm
  simp only [siblingRed, wColor, wChild, wParent, wID, wVal, rd_some,
    andThen_some, one_sub_toID, Bool.not_not,
    Heap.set_same, Heap.set_other, nodeOf_color, nodeOf_val, nodeOf_child0, nodeOf_child1,
    nodeOf_fold, nodeOf_child, nodeOf_child_not, nodeOf_setChild, nodeOf_setChild_not,
    nodeOf_parent, nodeOf_ID, topNode_setChild, ne_eq, not_false_eq_true,
    setParentOf_eq, Alloc_set, true_or, reroot_other,
    Option.some.injEq, Prod.mk.injEq, and_true, true_and, exists_eq_left', hP, hS, hNn, hT, d_0_1, d_0_1.symm, d_0_2, d_0_2.symm, d_0_3, d_0_3.symm, d_1_2, d_1_2.symm, d_1_3, d_1_3.symm, d_2_3, d_2_3.symm]
  refine ⟨⟨RepC_cons.2 ⟨?_, ⟨?_, ?_, ?_⟩, RepC_cons.2 ⟨?_, ?_, ?_⟩⟩, ?_, ?_⟩, ?_⟩
  · simp only [Heap.set_same, Heap.set_other, reroot_other, ne_eq, not_false_eq_true, ptr_mk, ptr_node,
      hp_cons, hd_cons, Bool.not_not, d_0_1, d_0_1.symm, d_0_2, d_0_2.symm, d_0_3, d_0_3.symm, d_1_2, d_1_2.symm, d_1_3, d_1_3.symm, d_2_3, d_2_3.symm]
  · simp only [Heap.set_same, Heap.set_other, reroot_other, ne_eq, not_false_eq_true, ptr_mk, ptr_node,
      hp_cons, hd_cons, Bool.not_not, d_0_1, d_0_1.symm, d_0_2, d_0_2.symm, d_0_3, d_0_3.symm, d_1_2, d_1_2.symm, d_1_3, d_1_3.symm, d_2_3, d_2_3.symm]
  · refine Rep_congr (fun b hb => ?_) hNl
    have k0 : b ≠ p := ne_of_mem_of_not_mem hb (by assumption)
    have k1 : b ≠ s := ne_of_mem_of_not_mem hb (by assumption)
    have k2 : b ≠ n := ne_of_mem_of_not_mem hb (by assumption)
    have k3 : b ≠ hp sen rest := ne_of_mem_of_not_mem hb (hp_not_mem (by assumption) (by first | assumption | exact Disjoint.symm (by assumption)))
    simp only [Heap.set_other _ _ k0, Heap.set_other _ _ k1, Heap.set_other _ _ k2, Heap.set_other _ _ k3]
  · refine Rep_congr (fun b hb => ?_) hNr
    have k0 : b ≠ p := ne_of_mem_of_not_mem hb (by assumption)
    have k1 : b ≠ s := ne_of_mem_of_not_mem hb (by assumption)
    have k2 : b ≠ n := ne_of_mem_of_not_mem hb (by assumption)
    have k3 : b ≠ hp sen rest := ne_of_mem_of_not_mem hb (hp_not_mem (by assumption) (by first | assumption | exact Disjoint.symm (by assumption)))
    simp only [Heap.set_other _ _ k0, Heap.set_other _ _ k1, Heap.set_other _ _ k2, Heap.set_other _ _ k3]
  · simp only [Heap.set_same, Heap.set_other, reroot_other, ne_eq, not_false_eq_true, ptr_mk, ptr_node,
      hp_cons, hd_cons, Bool.not_not, d_0_1, d_0_1.symm, d_0_2, d_0_2.symm, d_0_3, d_0_3.symm, d_1_2, d_1_2.symm, d_1_3, d_1_3.symm, d_2_3, d_2_3.symm]
  · refine Rep_congr (fun b hb => ?_) hF
    have k0 : b ≠ p := ne_of_mem_of_not_mem hb (by assumption)
    have k1 : b ≠ s := ne_of_mem_of_not_mem hb (by assumption)
    have k2 : b ≠ n := ne_of_mem_of_not_mem hb (by assumption)
    have k3 : b ≠ hp sen rest := ne_of_mem_of_not_mem hb (hp_not_mem (by assumption) (by first | assumption | exact Disjoint.symm (by assumption)))
    simp only [Heap.set_other _ _ k0, Heap.set_other _ _ k1, Heap.set_other _ _ k2, Heap.set_other _ _ k3]
  · simp only [hp_cons]
    refine RepC_congr (fun b hb => ?_) (RepC_hole (some s)
      (nodup_ctx (by assumption) (by assumption)) hR)
    have k0 : b ≠ p := ne_of_mem_ctx hb (by omega) (by assumption)
    have k1 : b ≠ s := ne_of_mem_ctx hb (by omega) (by assumption)
    have k2 : b ≠ n := ne_of_mem_ctx hb (by omega) (by assumption)
    by_cases h3 : b = hp sen rest
    · subst h3
      simp only [Heap.set_same, Heap.set_other _ _ k0, Heap.set_other _ _ k1, Heap.set_other _ _ k2]
    · simp only [Heap.set_other _ _ k0, Heap.set_other _ _ k1, Heap.set_other _ _ k2, Heap.set_other _ _ h3]
  · refine Rep_congr (fun b hb => ?_) hX
    have k0 : b ≠ p := ne_of_mem_of_not_mem hb (by assumption)
    have k1 : b ≠ s := ne_of_mem_of_not_mem hb (by assumption)
    have k2 : b ≠ n := ne_of_mem_of_not_mem hb (by assumption)
    have k3 : b ≠ hp sen rest := ne_of_mem_of_not_mem hb (hp_not_mem (by assumption) (by first | assumption | exact Disjoint.symm (by assumption)))
    simp only [Heap.set_other _ _ k0, Heap.set_other _ _ k1, Heap.set_other _ _ k2, Heap.set_other _ _ k3]
  · convert hnd0 using 1
    simp only [addrsC_cons, addrs_mk, addrs_node]
    abel
  · clear hnd0
    intro b hb
    simp only [addrsC_cons, addrs_mk, addrs_node, Multiset.mem_add, Multiset.mem_singleton, not_or] at hb
    casesm* _ ∧ _
    have k0 : b ≠ p := by omega
    have k1 : b ≠ s := by omega
    have k2 : b ≠ n := by omega
    have k3 : b ≠ hp sen rest := (hp_ne (by omega) (by assumption)).symm
    simp only [Heap.set_other _ _ k0, Heap.set_other _ _ k1, Heap.set_other _ _ k2, Heap.set_other _ _ k3]

theorem farNephewRed_spec {h : Heap} {sen : Nat} {p s f : Nat} {cp cs cf : Color}
    {vp sv fv : Int} {d e : Bool} {N fx fy t : Tr} {rest : List Frame}
    (hz : RepZ h sen (⟨p, cp, vp, d, mkT d s cs sv N (mkT e f cf fv fx fy)⟩ :: rest) t) :
    ∃ h1, farNephewRed h (some p) (some s) (some f) (toID d) = some h1 ∧
      RepZ h1 sen rest (mkT d s cp sv (mkT d p BLACK vp t N) (mkT e f BLACK fv fx fy)) ∧
      ∀ b, b ∉ ({sen} : Multiset Nat) +
        addrsC (⟨p, cp, vp, d, mkT d s cs sv N (mkT e f cf fv fx fy)⟩ :: rest) → h1 b = h b := by
  obtain ⟨⟨hP, hPs, hR⟩, hX, hnd⟩ := hz
  simp only [topNode_cons, hp_cons, hd_cons, ptr_mk] at hP hPs hR hX
  obtain ⟨hS, hN, hF⟩ := Rep_mk.1 hPs
  obtain ⟨hFn, hFx, hFy⟩ := Rep_mk.1 hF
  simp only [Bool.not_not, ptr_mk] at hS hFn
  have hT := RepC_top hR
  have hnd0 := hnd
  simp only [addrsC_cons, addrs_mk, addrs_node, addrs_nil, Multiset.nodup_add, Multiset.nodup_singleton,
      Multiset.singleton_disjoint, Multiset.disjoint_singleton, Multiset.disjoint_add_right,
      Multiset.disjoint_add_left, Multiset.mem_add, Multiset.mem_singleton, not_or, true_and,
      Multiset.nodup_zero, Multiset.not_mem_zero, not_false_eq_true, and_true,
      add_zero, zero_add] at hnd
  casesm* _ ∧ _
  have d_0_1 : p ≠ s := by omega
  have d_0_2 : p ≠ f := by omega
  have d_0_3 : p ≠ hp sen rest := (hp_ne (by omega) (by assumption)).symm
  have d_1_2 : s ≠ f := by omega
  have d_1_3 : s ≠ hp sen rest := (hp_ne (by omega) (by assumption)).symm
  have d_2_3 : f ≠ hp sen rest := (hp_ne (by omega) (by assumption)).symm
  have p_N_0 : N.ptr ≠ some p := ptr_ne (by assumption)
  have p_N_1 : N.ptr ≠ some s := ptr_ne (by assumption)
  have p_N_2 : N.ptr ≠ some f := ptr_ne (by assumption)
  have p_N_3 : N.ptr ≠ some (hp sen rest) := ptr_ne (hp_not_mem (by assumption) (by first | assumption | exact Disjoint.symm (by assumption)))
  have hA : Alloc h N.ptr := Alloc_of_Rep hN
  simp only [farNephewRed, wColor, wChild, wParent, wID, wVal, rd_some,
    andThen_some, one_sub_toID, Bool.not_not,
    Heap.set_same, Heap.set_other, nodeOf_color, nodeOf_val, nodeOf_child0, nodeOf_child1,
    nodeOf_fold, nodeOf_child, nodeOf_child_not, nodeOf_setChild, nodeOf_setChild_not,
    nodeOf_parent, nodeOf_ID, topNode_setChild, ne_eq, not_false_eq_true,
    setParentOf_eq, Alloc_set, true_or, reroot_other,
    Option.some.injEq, Prod.mk.injEq, and_true, true_and, exists_eq_left', hP, hS, hFn, hT, hA, d_0_1, d_0_1.symm, d_0_2, d_0_2.symm, d_0_3, d_0_3.symm, d_1_2, d_1_2.symm, d_1_3, d_1_3.symm, d_2_3, d_2_3.symm, p_N_0, p_N_1, p_N_2, p_N_3]
  refine ⟨⟨?_, Rep_mk.2 ⟨?_, Rep_mk.2 ⟨?_, ?_, ?_⟩, Rep_mk.2 ⟨?_, ?_, ?_⟩⟩, ?_⟩, ?_⟩
  · rw [ptr_mk]
    refine RepC_congr (fun b hb => ?_) (RepC_hole (some s)
      (nodup_ctx (by assumption) (by assumption)) hR)
    have k0 : b ≠ p := ne_of_mem_ctx hb (by omega) (by assumption)
    have k1 : b ≠ s := ne_of_mem_ctx hb (by omega) (by assumption)
    have k2 : b ≠ f := ne_of_mem_ctx hb (by omega) (by assumption)
    have q0 : N.ptr ≠ some b := ptr_ne (fun hbs => not_mem_of_mem_ctx hb (by assumption) (by first | assumption | exact Disjoint.symm (by assumption)) hbs)
    by_cases h3 : b = hp sen rest
    · subst h3
      simp only [Heap.set_same, Heap.set_other _ _ k0, Heap.set_other _ _ k1, Heap.set_other _ _ k2]
    · simp only [Heap.set_other _ _ k0, Heap.set_other _ _ k1, Heap.set_other _ _ k2, reroot_other q0, Heap.set_other _ _ h3]
  · simp only [Heap.set_same, Heap.set_other, reroot_other, ne_eq, not_false_eq_true, ptr_mk, ptr_node,
      hp_cons, hd_cons, Bool.not_not, d_0_1, d_0_1.symm, d_0_2, d_0_2.symm, d_0_3, d_0_3.symm, d_1_2, d_1_2.symm, d_1_3, d_1_3.symm, d_2_3, d_2_3.symm]
  · simp only [Heap.set_same, Heap.set_other, reroot_other, ne_eq, not_false_eq_true, ptr_mk, ptr_node,
      hp_cons, hd_cons, Bool.not_not, d_0_1, d_0_1.symm, d_0_2, d_0_2.symm, d_0_3, d_0_3.symm, d_1_2, d_1_2.symm, d_1_3, d_1_3.symm, d_2_3, d_2_3.symm, p_N_0, p_N_1, p_N_2, p_N_3]
  · refine Rep_congr (fun b hb => ?_) hX
    have k0 : b ≠ p := ne_of_mem_of_not_mem hb (by assumption)
    have k1 : b ≠ s := ne_of_mem_of_not_mem hb (by assumption)
    have k2 : b ≠ f := ne_of_mem_of_not_mem hb (by assumption)
    have k3 : b ≠ hp sen rest := ne_of_mem_of_not_mem hb (hp_not_mem (by assumption) (by first | assumption | exact Disjoint.symm (by assumption)))
    have q0 : N.ptr ≠ some b := ptr_ne (fun hbs => Multiset.disjoint_left.1 (by first | assumption | exact Disjoint.symm (by assumption)) hbs hb)
    simp only [Heap.set_other _ _ k0, Heap.set_other _ _ k1, Heap.set_other _ _ k2, Heap.set_other _ _ k3, reroot_other q0]
  · refine Rep_congr (fun b hb => ?_) (Rep_rerooted (some p) (!d) (by assumption) hN)
    have k0 : b ≠ p := ne_of_mem_of_not_mem hb (by assumption)
    have r0 : N.ptr ≠ some p := ptr_ne (by assumption)
    have k1 : b ≠ s := ne_of_mem_of_not_mem hb (by assumption)
    have r1 : N.ptr ≠ some s := ptr_ne (by assumption)
    have k2 : b ≠ f := ne_of_mem_of_not_mem hb (by assumption)
    have r2 : N.ptr ≠ some f := ptr_ne (by assumption)
    have k3 : b ≠ hp sen rest := ne_of_mem_of_not_mem hb (hp_not_mem (by assumption) (by first | assumption | exact Disjoint.symm (by assumption)))
    have r3 : N.ptr ≠ some (hp sen rest) := ptr_ne (hp_not_mem (by assumption) (by first | assumption | exact Disjoint.symm (by assumption)))
    simp only [Heap.set_other _ _ k0, reroot_set r0, Heap.set_other _ _ k1, reroot_set r1, Heap.set_other _ _ k2, reroot_set r2, Heap.set_other _ _ k3, reroot_set r3]
  · simp only [Heap.set_same, Heap.set_other, reroot_other, ne_eq, not_false_eq_true, ptr_mk, ptr_node,
      hp_cons, hd_cons, Bool.not_not, d_0_1, d_0_1.symm, d_0_2, d_0_2.symm, d_0_3, d_0_3.symm, d_1_2, d_1_2.symm, d_1_3, d_1_3.symm, d_2_3, d_2_3.symm, p_N_0, p_N_1, p_N_2, p_N_3]
  · refine Rep_congr (fun b hb => ?_) hFx
    have k0 : b ≠ p := ne_of_mem_of_not_mem hb (by assumption)
    have k1 : b ≠ s := ne_of_mem_of_not_mem hb (by assumption)
    have k2 : b ≠ f := ne_of_mem_of_not_mem hb (by assumption)
    have k3 : b ≠ hp sen rest := ne_of_mem_of_not_mem hb (hp_not_mem (by assumption) (by first | assumption | exact Disjoint.symm (by assumption)))
    have q0 : N.ptr ≠ some b := ptr_ne (fun hbs => Multiset.disjoint_left.1 (by first | assumption | exact Disjoint.symm (by assumption)) hbs hb)
    simp only [Heap.set_other _ _ k0, Heap.set_other _ _ k1, Heap.set_other _ _ k2, Heap.set_other _ _ k3, reroot_other q0]
  · refine Rep_congr (fun b hb => ?_) hFy
    have k0 : b ≠ p := ne_of_mem_of_not_mem hb (by assumption)
    have k1 : b ≠ s := ne_of_mem_of_not_mem hb (by assumption)
    have k2 : b ≠ f := ne_of_mem_of_not_mem hb (by assumption)
    have k3 : b ≠ hp sen rest := ne_of_mem_of_not_mem hb (hp_not_mem (by assumption) (by first | assumption | exact Disjoint.symm (by assumption)))
    have q0 : N.ptr ≠ some b := ptr_ne (fun hbs => Multiset.disjoint_left.1 (by first | assumption | exact Disjoint.symm (by assumption)) hbs hb)
    simp only [Heap.set_other _ _ k0, Heap.set_other _ _ k1, Heap.set_other _ _ k2, Heap.set_other _ _ k3, reroot_other q0]
  · convert hnd0 using 1
    simp only [addrsC_cons, addrs_mk, addrs_node]
    abel
  · clear hnd0
    intro b hb
    simp only [addrsC_cons, addrs_mk, addrs_node, Multiset.mem_add, Multiset.mem_singleton, not_or] at hb
    casesm* _ ∧ _
    have k0 : b ≠ p := by omega
    have k1 : b ≠ s := by omega
    have k2 : b ≠ f := by omega
    have k3 : b ≠ hp sen rest := (hp_ne (by omega) (by assumption)).symm
    have q0 : N.ptr ≠ some b := ptr_ne (by assumption)
    simp only [Heap.set_other _ _ k0, Heap.set_other _ _ k1, Heap.set_other _ _ k2, Heap.set_other _ _ k3, reroot_other q0]

theorem nearNephewRed_spec {h : Heap} {sen : Nat} {p s n : Nat} {cp cs cn : Color}
    {vp sv nv : Int} {d : Bool} {NN NF F t : Tr} {rest : List Frame}
    (hz : RepZ h sen (⟨p, cp, vp, d, mkT d s cs sv (mkT d n cn nv NN NF) F⟩ :: rest) t) :
    ∃ h1, nearNephewRed h (some p) (some s) (some n) (toID d) = some (h1, some n, some s) ∧
      RepZ h1 sen (⟨p, cp, vp, d, mkT d n BLACK nv NN (mkT d s RED sv NF F)⟩ :: rest) t ∧
      ∀ b, b ∉ ({sen} : Multiset Nat) +
        addrsC (⟨p, cp, vp, d, mkT d s cs sv (mkT d n cn nv NN NF) F⟩ :: rest) → h1 b = h b := by
  obtain ⟨⟨hP, hPs, hR⟩, hX, hnd⟩ := hz
  simp only [topNode_cons, hp_cons, hd_cons, ptr_mk] at hP hPs hR hX
  obtain ⟨hS, hN, hF⟩ := Rep_mk.1 hPs
  obtain ⟨hNn, hNN, hNF⟩ := Rep_mk.1 hN
  simp only [Bool.not_not, ptr_mk] at hS hNn
  have hnd0 := hnd
  simp only [addrsC_cons, addrs_mk, addrs_node, addrs_nil, Multiset.nodup_add, Multiset.nodup_singleton,
      Multiset.singleton_disjoint, Multiset.disjoint_singleton, Multiset.disjoint_add_right,
      Multiset.disjoint_add_left, Multiset.mem_add, Multiset.mem_singleton, not_or, true_and,
      Multiset.nodup_zero, Multiset.not_mem_zero, not_false_eq_true, and_true,
      add_zero, zero_add] at hnd
  casesm* _ ∧ _
  have d_0_1 : p ≠ s := by omega
  have d_0_2 : p ≠ n := by omega
  have d_1_2 : s ≠ n := by omega
  have p_NF_0 : NF.ptr ≠ some p := ptr_ne (by assumption)
  have p_NF_1 : NF.ptr ≠ some s := ptr_ne (by assumption)
  have p_NF_2 : NF.ptr ≠ some n := ptr_ne (by assumption)
  have hA : Alloc h NF.ptr := Alloc_of_Rep hNF
  simp only [nearNephewRed, wColor, wChild, wParent, wID, wVal, rd_some,
    andThen_some, one_sub_toID, Bool.not_not,
    Heap.set_same, Heap.set_other, nodeOf_color, nodeOf_val, nodeOf_child0, nodeOf_child1,
    nodeOf_fold, nodeOf_child, nodeOf_child_not, nodeOf_setChild, nodeOf_setChild_not,
    nodeOf_parent, nodeOf_ID, topNode_setChild, ne_eq, not_false_eq_true,
    setParentOf_eq, Alloc_set, true_or, reroot_other,
    Option.some.injEq, Prod.mk.injEq, and_true, true_and, exists_eq_left', hP, hS, hNn, hA, d_0_1, d_0_1.symm, d_0_2, d_0_2.symm, d_1_2, d_1_2.symm, p_NF_0, p_NF_1, p_NF_2]
  refine ⟨⟨RepC_cons.2 ⟨?_, Rep_mk.2 ⟨?_, ?_, Rep_mk.2 ⟨?_, ?_, ?_⟩⟩, ?_⟩, ?_, ?_⟩, ?_⟩
  · simp only [Heap.set_same, Heap.set_other, reroot_other, ne_eq, not_false_eq_true, ptr_mk, ptr_node,
      hp_cons, hd_cons, Bool.not_not, d_0_1, d_0_1.symm, d_0_2, d_0_2.symm, d_1_2, d_1_2.symm, p_NF_0, p_NF_1, p_NF_2]
  · simp only [Heap.set_same, Heap.set_other, reroot_other, ne_eq, not_false_eq_true, ptr_mk, ptr_node,
      hp_cons, hd_cons, Bool.not_not, d_0_1, d_0_1.symm, d_0_2, d_0_2.symm, d_1_2, d_1_2.symm, p_NF_0, p_NF_1, p_NF_2]
  · refine Rep_congr (fun b hb => ?_) hNN
    have k0 : b ≠ p := ne_of_mem_of_not_mem hb (by assumption)
    have k1 : b ≠ s := ne_of_mem_of_not_mem hb (by assumption)
    have k2 : b ≠ n := ne_of_mem_of_not_mem hb (by assumption)
    have q0 : NF.ptr ≠ some b := ptr_ne (fun hbs => Multiset.disjoint_left.1 (by first | assumption | exact Disjoint.symm (by assumption)) hbs hb)
    simp only [Heap.set_other _ _ k0, Heap.set_other _ _ k1, Heap.set_other _ _ k2, reroot_other q0]
  · simp only [Heap.set_same, Heap.set_other, reroot_other, ne_eq, not_false_eq_true, ptr_mk, ptr_node,
      hp_cons, hd_cons, Bool.not_not, d_0_1, d_0_1.symm, d_0_2, d_0_2.symm, d_1_2, d_1_2.symm, p_NF_0, p_NF_1, p_NF_2]
  · refine Rep_congr (fun b hb => ?_) (Rep_rerooted (some s) d (by assumption) hNF)
    have k0 : b ≠ p := ne_of_mem_of_not_mem hb (by assumption)
    have r0 : NF.ptr ≠ some p := ptr_ne (by assumption)
    have k1 : b ≠ s := ne_of_mem_of_not_mem hb (by assumption)
    have r1 : NF.ptr ≠ some s := ptr_ne (by assumption)
    have k2 : b ≠ n := ne_of_mem_of_not_mem hb (by assumption)
    have r2 : NF.ptr ≠ some n := ptr_ne (by assumption)
    simp only [Heap.set_other _ _ k0, reroot_set r0, Heap.set_other _ _ k1, reroot_set r1, Heap.set_other _ _ k2, reroot_set r2]
  · refine Rep_congr (fun b hb => ?_) hF
    have k0 : b ≠ p := ne_of_mem_of_not_mem hb (by assumption)
    have k1 : b ≠ s := ne_of_mem_of_not_mem hb (by assumption)
    have k2 : b ≠ n := ne_of_mem_of_not_mem hb (by assumption)
    have q0 : NF.ptr ≠ some b := ptr_ne (fun hbs => Multiset.disjoint_left.1 (by first | assumption | exact Disjoint.symm (by assumption)) hbs hb)
    simp only [Heap.set_other _ _ k0, Heap.set_other _ _ k1, Heap.set_other _ _ k2, reroot_other q0]
  · simp only [hp_cons]
    refine RepC_congr (fun b hb => ?_) hR
    have k0 : b ≠ p := ne_of_mem_ctx hb (by omega) (by assumption)
    have k1 : b ≠ s := ne_of_mem_ctx hb (by omega) (by assumption)
    have k2 : b ≠ n := ne_of_mem_ctx hb (by omega) (by assumption)
    have q0 : NF.ptr ≠ some b := ptr_ne (fun hbs => not_mem_of_mem_ctx hb (by assumption) (by first | assumption | exact Disjoint.symm (by assumption)) hbs)
    simp only [Heap.set_other _ _ k0, Heap.set_other _ _ k1, Heap.set_other _ _ k2, reroot_other q0]
  · refine Rep_congr (fun b hb => ?_) hX
    have k0 : b ≠ p := ne_of_mem_of_not_mem hb (by assumption)
    have k1 : b ≠ s := ne_of_mem_of_not_mem hb (by assumption)
    have k2 : b ≠ n := ne_of_mem_of_not_mem hb (by assumption)
    have q0 : NF.ptr ≠ some b := ptr_ne (fun hbs => Multiset.disjoint_left.1 (by first | assumption | exact Disjoint.symm (by assumption)) hbs hb)
    simp only [Heap.set_other _ _ k0, Heap.set_other _ _ k1, Heap.set_other _ _ k2, reroot_other q0]
  · convert hnd0 using 1
    simp only [addrsC_cons, addrs_mk, addrs_node]
    abel
  · clear hnd0
    intro b hb
    simp only [addrsC_cons, addrs_mk, addrs_node, Multiset.mem_add, Multiset.mem_singleton, not_or] at hb
    casesm* _ ∧ _
    have k0 : b ≠ p := by omega
    have k1 : b ≠ s := by omega
    have k2 : b ≠ n := by omega
    have q0 : NF.ptr ≠ some b := ptr_ne (by assumption)
    simp only [Heap.set_other _ _ k0, Heap.set_other _ _ k1, Heap.set_other _ _ k2, reroot_other q0]

theorem siblingPaint_spec {h : Heap} {sen : Nat} {p s : Nat} {cp cs : Color}
    {vp sv : Int} {d : Bool} {sl sr t : Tr} {rest : List Frame}
    (hz : RepZ h sen (⟨p, cp, vp, d, node s cs sl sv sr⟩ :: rest) t) :
    ∃ h1, wColor h (some s) RED = some h1 ∧
      RepZ h1 sen (⟨p, cp, vp, d, node s RED sl sv sr⟩ :: rest) t ∧
      ∀ b, b ∉ ({sen} : Multiset Nat) +
        addrsC (⟨p, cp, vp, d, node s cs sl sv sr⟩ :: rest) → h1 b = h b := by
  obtain ⟨⟨hP, hPs, hR⟩, hX, hnd⟩ := hz
  simp only [topNode_cons, hp_cons, hd_cons, ptr_node] at hP hPs hR hX
  obtain ⟨hSn, hSl, hSr⟩ := hPs
  have hnd0 := hnd
  simp only [addrsC_cons, addrs_mk, addrs_node, addrs_nil, Multiset.nodup_add, Multiset.nodup_singleton,
      Multiset.singleton_disjoint, Multiset.disjoint_singleton, Multiset.disjoint_add_right,
      Multiset.disjoint_add_left, Multiset.mem_add, Multiset.mem_singleton, not_or, true_and,
      Multiset.nodup_zero, Multiset.not_mem_zero, not_false_eq_true, and_true,
      add_zero, zero_add] at hnd
  casesm* _ ∧ _
  have d_0 : p ≠ s := by omega
  simp only [wColor, hSn, Option.some.injEq, exists_eq_left']
  refine ⟨⟨RepC_cons.2 ⟨?_, ⟨?_, ?_, ?_⟩, ?_⟩, ?_, ?_⟩, ?_⟩
  · simp only [Heap.set_other _ _ d_0, hP, topNode_cons, ptr_node]
  · simp only [Heap.set_same]
  · refine Rep_congr (fun b hb => ?_) hSl
    have k0 : b ≠ s := ne_of_mem_of_not_mem hb (by assumption)
    simp only [Heap.set_other _ _ k0]
  · refine Rep_congr (fun b hb => ?_) hSr
    have k0 : b ≠ s := ne_of_mem_of_not_mem hb (by assumption)
    simp only [Heap.set_other _ _ k0]
  · simp only [hp_cons]
    refine RepC_congr (fun b hb => ?_) hR
    have k0 : b ≠ s := ne_of_mem_ctx hb (by omega) (by assumption)
    simp only [Heap.set_other _ _ k0]
  · refine Rep_congr (fun b hb => ?_) hX
    have k0 : b ≠ s := ne_of_mem_of_not_mem hb (by assumption)
    simp only [Heap.set_other _ _ k0]
  · exact hnd0
  · clear hnd0
    intro b hb
    simp only [addrsC_cons, addrs_mk, addrs_node, Multiset.mem_add, Multiset.mem_singleton, not_or] at hb
    casesm* _ ∧ _
    have k0 : b ≠ s := by omega
    simp only [Heap.set_other _ _ k0]

/-! # The rebalancing loop of `remove` -/

theorem blackSibling_spec {h : Heap} {sen : Nat} {p : Nat} {cp : Color} {vp : Int}
    {d : Bool} {S t : Tr} {rest : List Frame} (c : Nat)
    (hz : RepZ h sen (⟨p, cp, vp, d, S⟩ :: rest) t) {b : Bool} {ctx1 : List Frame} {t1 : Tr}
    (hd : delCases p cp vp d S rest t = some (b, ctx1, t1)) :
    ∃ h1, blackSibling h (some c) (some p) S.ptr (toID d) =
        some (h1, if b then some p else some c, b) ∧
      RepZ h1 sen ctx1 t1 ∧
      ∀ x, x ∉ ({sen} : Multiset Nat) + addrsC (⟨p, cp, vp, d, S⟩ :: rest) → h1 x = h x := by
  cases S with
  | nil => simp [delCases] at hd
  | node s cs sl sv sr =>
    rw [delCases] at hd
    generalize hN : (node s cs sl sv sr).side d = N at hd
    generalize hF : (node s cs sl sv sr).side (!d) = F at hd
    have hS : node s cs sl sv sr = mkT d s cs sv N F := by rw [← hN, ← hF]; exact node_eq_mkT d _ _ _ _ _
    have hz0 := hz
    rw [hS] at hz
    obtain ⟨⟨hP, hPs, hR⟩, hX, hnd⟩ := hz
    simp only [topNode_cons, hp_cons, hd_cons, ptr_mk] at hP hPs hR hX
    obtain ⟨hSn, hNr, hFr⟩ := Rep_mk.1 hPs
    have hz := hz0
    rw [hS] at hz
    have rF := isRedPtr_Rep hFr
    have rN := isRedPtr_Rep hNr
    by_cases hFc : F.color = RED
    · -- the far nephew is red
      simp only [hFc, if_true, Option.some.injEq, Prod.mk.injEq] at hd
      obtain ⟨rfl, rfl, rfl⟩ := hd
      have e0 : blackSibling h (some c) (some p) (some s) (toID d) =
          andThen (farNephewRed h (some p) (some s) F.ptr (toID d)) fun h =>
            some (h, some c, false) := by
        simp only [blackSibling, rd_some, hSn, andThen_some, one_sub_toID,
          nodeOf_child_not, nodeOf_child, rF, hFc, decide_True, if_true]
      cases F with
      | nil => simp at hFc
      | node f cf fl fv fr =>
        rw [node_eq_mk f] at hz
        obtain ⟨h1, e1, z1, f1⟩ := farNephewRed_spec hz
        refine ⟨h1, ?_, ?_, ?_⟩
        · simp only [ptr_node, e0, e1, andThen_some, Bool.false_eq_true, if_false]
        · simpa [← node_eq_mk] using z1
        · intro x hx
          exact f1 x (by rw [← node_eq_mk, ← hS]; exact hx)
    · simp only [hFc, if_false] at hd
      by_cases hNc : N.color = RED
      · -- the near nephew is red
        simp only [hNc, if_true] at hd
        have e0 : blackSibling h (some c) (some p) (some s) (toID d) =
            andThen (nearNephewRed h (some p) (some s) N.ptr (toID d)) fun r =>
              andThen (farNephewRed r.1 (some p) r.2.1 r.2.2 (toID d)) fun h =>
                some (h, some c, false) := by
          simp only [blackSibling, rd_some, hSn, andThen_some, one_sub_toID,
            nodeOf_child_not, nodeOf_child, rF, rN, hFc, hNc, decide_True, decide_False,
            if_true, Bool.false_eq_true, if_false]
        cases N with
        | nil => simp at hNc
        | node n cn nl nv nr =>
          simp only [Option.some.injEq, Prod.mk.injEq] at hd
          obtain ⟨rfl, rfl, rfl⟩ := hd
          rw [node_eq_mkT d n] at hz
          obtain ⟨h1, e1, z1, f1⟩ := nearNephewRed_spec hz
          obtain ⟨h2, e2, z2, f2⟩ := farNephewRed_spec z1
          refine ⟨h2, ?_, z2, ?_⟩
          · simp only [ptr_node, e0, e1, e2, andThen_some, Bool.false_eq_true, if_false]
          · intro x hx
            rw [f2 x, f1 x]
            · rw [← node_eq_mkT d n, ← hS]; exact hx
            · rw [hS, node_eq_mkT d n] at hx
              simp only [addrsC_cons, addrs_mk, Multiset.mem_add, Multiset.mem_singleton,
                not_or] at hx ⊢
              tauto
      · -- both nephews are black or absent
        simp only [hNc, if_false, Option.some.injEq, Prod.mk.injEq] at hd
        obtain ⟨rfl, rfl, rfl⟩ := hd
        obtain ⟨h1, e1, z1, f1⟩ := siblingPaint_spec hz0
        refine ⟨h1, ?_, RepZ_cons.1 z1, f1⟩
        simp only [blackSibling, ptr_node, rd_some, hSn, andThen_some, one_sub_toID,
          nodeOf_child_not, nodeOf_child, rF, rN, hFc, hNc,
          decide_False, e1, Bool.false_eq_true, if_false, if_true]

theorem removeFixStep_spec {h : Heap} {sen : Nat} {P : Frame} {rest : List Frame} {t : Tr}
    {c : Nat} {cn : RBNode} (hz : RepZ h sen (P :: rest) t) (hc : h c = some cn)
    (hcp : cn.m_parent = some P.a) (hci : cn.m_ID = toID P.d) (hcc : cn.m_color = BLACK)
    {b : Bool} {ctx1 : List Frame} {t1 : Tr} (hd : delStep P rest t = some (b, ctx1, t1)) :
    ∃ h1, removeFixStep sen h (some c) = some (h1, if b then some P.a else some c, b) ∧
      RepZ h1 sen ctx1 t1 ∧
      ∀ x, x ∉ ({sen} : Multiset Nat) + addrsC (P :: rest) → h1 x = h x := by
  obtain ⟨p, cp, vp, d, S⟩ := P
  simp only at hcp hci
  have hps : p ≠ sen := by
    have := hz.hn
    simp only [addrsC_cons, Multiset.nodup_add, Multiset.nodup_singleton,
      Multiset.singleton_disjoint, Multiset.mem_add, Multiset.mem_singleton, not_or,
      true_and] at this
    omega
  have hP := hz.hc.1
  simp only [topNode_cons] at hP
  cases S with
  | nil => simp [delStep] at hd
  | node s cs sl sv sr =>
    have hSn := hz.hc.2.1.1
    have e0 : removeFixStep sen h (some c) =
        andThen (if RED = cs then siblingRed h (some p) (some s) (toID d)
          else some (h, some s)) fun r => blackSibling r.1 (some c) (some p) r.2 (toID d) := by
      simp only [removeFixStep, rd_some, hc, andThen_some, hcp, Option.some.injEq, hps,
        hcc, reduceCtorEq, or_self, if_false, hP, hci, one_sub_toID, nodeOf_child_not,
        ptr_node, hSn]
    rw [e0]
    rw [delStep] at hd
    simp only at hd
    by_cases hcs : cs = RED
    · subst hcs
      simp only [if_true] at hd ⊢
      generalize hF : (node s RED sl sv sr).side (!d) = F at hd
      cases hN : (node s RED sl sv sr).side d with
      | nil => rw [hN] at hd; simp at hd
      | node n cn1 nl nv nr =>
        rw [hN] at hd
        simp only at hd
        have hS : node s RED sl sv sr = mkT d s RED sv (node n cn1 nl nv nr) F := by
          rw [← hN, ← hF]; exact node_eq_mkT d _ _ _ _ _
        have hz1 := hz
        rw [hS] at hz1
        obtain ⟨h1, e1, z1, f1⟩ := siblingRed_spec hz1
        obtain ⟨h2, e2, z2, f2⟩ := blackSibling_spec c z1 hd
        refine ⟨h2, ?_, z2, ?_⟩
        · simp only [e1, andThen_some]
          simpa using e2
        · intro x hx
          rw [f2 x, f1 x]
          · rw [← hS]; exact hx
          · rw [hS] at hx
            simp only [addrsC_cons, addrs_mk, addrs_node, Multiset.mem_add,
              Multiset.mem_singleton, not_or] at hx ⊢
            tauto
    · have hcs' : ¬ RED = cs := fun e => hcs e.symm
      simp only [hcs, if_false] at hd
      simp only [hcs', if_false, andThen_some]
      exact blackSibling_spec c hz hd

theorem addrs_sides (d : Bool) (a c l v r) :
    (node a c l v r).addrs =
      {a} + (((node a c l v r).side d).addrs + ((node a c l v r).side (!d)).addrs) := by
  cases d <;> simp [Tr.side, add_comm]

theorem delCases_addrs {p : Nat} {cp : Color} {vp : Int} {d : Bool} {S t : Tr}
    {rest : List Frame} {b : Bool} {ctx1 : List Frame} {t1 : Tr}
    (hd : delCases p cp vp d S rest t = some (b, ctx1, t1)) :
    addrsC ctx1 + t1.addrs = {p} + (S.addrs + addrsC rest) + t.addrs ∧
      (b = true → t1.ptr = some p) := by
  cases S with
  | nil => simp [delCases] at hd
  | node s cs sl sv sr =>
    rw [delCases] at hd
    rw [addrs_sides d]
    generalize hN : (node s cs sl sv sr).side d = N at hd ⊢
    generalize hF : (node s cs sl sv sr).side (!d) = F at hd ⊢
    by_cases hFc : F.color = RED
    · simp only [hFc, if_true, Option.some.injEq, Prod.mk.injEq] at hd
      obtain ⟨rfl, rfl, rfl⟩ := hd
      refine ⟨?_, by simp⟩
      simp only [addrs_mk, addrs_paint]
      abel
    · simp only [hFc, if_false] at hd
      by_cases hNc : N.color = RED
      · simp only [hNc, if_true] at hd
        cases N with
        | nil => simp at hNc
        | node n cn nl nv nr =>
          simp only [Option.some.injEq, Prod.mk.injEq] at hd
          obtain ⟨rfl, rfl, rfl⟩ := hd
          refine ⟨?_, by simp⟩
          rw [addrs_sides d n]
          simp only [addrs_mk]
          abel
      · simp only [hNc, if_false, Option.some.injEq, Prod.mk.injEq] at hd
        obtain ⟨rfl, rfl, rfl⟩ := hd
        refine ⟨?_, by simp⟩
        rw [← hN, ← hF, ← addrs_sides d s cs sl sv sr]
        simp only [addrs_mk, addrs_node]
        abel

theorem delStep_addrs {P : Frame} {rest : List Frame} {t : Tr} {b : Bool}
    {ctx1 : List Frame} {t1 : Tr} (hd : delStep P rest t = some (b, ctx1, t1)) :
    addrsC ctx1 + t1.addrs = addrsC (P :: rest) + t.addrs ∧ (b = true → t1.ptr = some P.a) := by
  rw [delStep] at hd
  cases hS : P.s with
  | nil => rw [hS] at hd; simp at hd
  | node s cs sl sv sr =>
    rw [hS] at hd
    simp only at hd
    by_cases hcs : cs = RED
    · simp only [hcs, if_true] at hd
      cases hN : (node s RED sl sv sr).side P.d with
      | nil => subst hcs; rw [hN] at hd; simp at hd
      | node n cn nl nv nr =>
        subst hcs
        rw [hN] at hd
        simp only at hd
        obtain ⟨h1, h2⟩ := delCases_addrs hd
        refine ⟨?_, h2⟩
        rw [h1, addrsC_cons, addrsC_cons, hS, addrs_sides P.d s, hN]
        simp only
        abel
    · simp only [hcs, if_false] at hd
      obtain ⟨h1, h2⟩ := delCases_addrs hd
      refine ⟨?_, h2⟩
      rw [h1, addrsC_cons, hS]

theorem RepZ_congr {h h1 : Heap} {sen : Nat} {ctx : List Frame} {t : Tr}
    (hb : ∀ b, b ∈ ({sen} : Multiset Nat) + (addrsC ctx + t.addrs) → h1 b = h b)
    (hz : RepZ h sen ctx t) : RepZ h1 sen ctx t :=
  ⟨RepC_congr (fun b hm => hb b (by
      simp only [Multiset.mem_add, Multiset.mem_singleton] at hm ⊢; tauto)) hz.hc,
    Rep_congr (fun b hm => hb b (by
      simp only [Multiset.mem_add, Multiset.mem_singleton] at hm ⊢; tauto)) hz.hs, hz.hn⟩

theorem RepZ_set {h : Heap} {sen : Nat} {ctx : List Frame} {t : Tr} {a : Nat} (n : RBNode)
    (ha : a ∉ ({sen} : Multiset Nat) + (addrsC ctx + t.addrs)) (hz : RepZ h sen ctx t) :
    RepZ (h.set a n) sen ctx t :=
  RepZ_congr (fun b hb => Heap.set_other _ _ (fun e => ha (e ▸ hb))) hz

theorem RepZ_free {h : Heap} {sen : Nat} {ctx : List Frame} {t : Tr} {a : Nat}
    (ha : a ∉ ({sen} : Multiset Nat) + (addrsC ctx + t.addrs)) (hz : RepZ h sen ctx t) :
    RepZ (h.free a) sen ctx t :=
  RepZ_congr (fun b hb => by
    have : b ≠ a := fun e => ha (e ▸ hb)
    simp [Heap.free, this]) hz

theorem ptr_mem {t : Tr} {a : Nat} (h : t.ptr = some a) : a ∈ t.addrs := by
  cases t with
  | nil => simp at h
  | node b c l v r =>
    simp only [ptr_node, Option.some.injEq] at h
    subst h; simp

/-- Painting the root of the subtree in the hole. -/
theorem paint_spec {h : Heap} {sen : Nat} {ctx : List Frame} {t : Tr} {c : Nat}
    (col : Color) (hz : RepZ h sen ctx t) (hc : t.ptr = some c) :
    ∃ h2, wColor h (some c) col = some h2 ∧ RepZ h2 sen ctx (t.paint col) ∧
      ∀ b, b ≠ c → h2 b = h b := by
  cases t with
  | nil => simp at hc
  | node a cc l v r =>
    simp only [ptr_node, Option.some.injEq] at hc
    subst hc
    obtain ⟨hC, hX, hnd⟩ := hz
    have hnd0 := hnd
    simp only [addrs_node, Multiset.nodup_add, Multiset.nodup_singleton,
      Multiset.singleton_disjoint, Multiset.disjoint_singleton, Multiset.disjoint_add_right,
      Multiset.disjoint_add_left, Multiset.mem_add, Multiset.mem_singleton, not_or,
      true_and] at hnd
    casesm* _ ∧ _
    simp only [wColor, hX.1, Option.some.injEq, exists_eq_left', paint_node]
    refine ⟨⟨?_, ⟨?_, ?_, ?_⟩, hnd0⟩, fun b hb => Heap.set_other _ _ hb⟩
    · refine RepC_set _ ?_ hC
      simp only [Multiset.mem_add, Multiset.mem_singleton, not_or]
      exact ⟨by omega, by assumption⟩
    · simp
    · exact Rep_set _ (by assumption) hX.2.1
    · exact Rep_set _ (by assumption) hX.2.2

/-- The final painting of `curr` after the rebalancing loop (line 363). -/
theorem finish_spec {h : Heap} {sen : Nat} {ctx : List Frame} {t : Tr} {c : Nat}
    {cn : RBNode} (det : Bool) (hz : RepZ h sen ctx t) (hc : h c = some cn)
    (hcx : c ∉ ({sen} : Multiset Nat) + addrsC ctx)
    (h1 : det = true → c ∉ t.addrs) (h2 : det = false → t.ptr = some c) :
    ∃ h2, wColor h (some c) BLACK = some h2 ∧
      RepZ h2 sen ctx (if det then t else t.paint BLACK) ∧
      ∀ b, h b ≠ none → h2 b ≠ none := by
  cases det with
  | true =>
    refine ⟨_, wColor_eq hc BLACK, ?_, ?_⟩
    · simp only [if_true]
      refine RepZ_set _ ?_ hz
      have := h1 rfl
      simp only [Multiset.mem_add, Multiset.mem_singleton, not_or] at hcx ⊢
      tauto
    · intro b hb
      by_cases hbc : b = c
      · subst hbc; simp
      · rwa [Heap.set_other _ _ hbc]
  | false =>
    obtain ⟨h3, e3, z3, f3⟩ := paint_spec BLACK hz (h2 rfl)
    refine ⟨h3, e3, by simpa using z3, ?_⟩
    intro b hb
    by_cases hbc : b = c
    · subst hbc
      intro hn
      exact (RepZ_alloc z3 hn).2 (by simpa using ptr_mem (h2 rfl))
    · rwa [f3 b hbc]

theorem node_with_color_self (n : RBNode) (c : Color) (h : n.m_color = c) :
    { n with m_color := c } = n := by
  cases n; simp_all

theorem removeFix_spec {sen : Nat} : ∀ (fuel : Nat) {det : Bool} {cc : Color}
    {ctx : List Frame} {t : Tr} {h : Heap} {c : Nat} {cn : RBNode} {T1 : Tr},
    RepZ h sen ctx t → h c = some cn → cn.m_parent = some (hp sen ctx) →
    cn.m_ID = toID (hd ctx) → cn.m_color = cc → c ∉ ({sen} : Multiset Nat) + addrsC ctx →
    (det = true → c ∉ t.addrs) → (det = false → t.ptr = some c) →
    delLoop fuel det cc ctx t = some T1 →
    ∃ h1 c1 h2, removeFix sen fuel h (some c) = some (h1, some c1) ∧
      wColor h1 (some c1) BLACK = some h2 ∧ RepZ h2 sen [] T1 ∧
      ∀ b, b ∉ ({sen} : Multiset Nat) + (addrsC ctx + t.addrs) → h b ≠ none → h2 b ≠ none := by
  intro fuel
  induction fuel with
  | zero => intro det cc ctx t h c cn T1 _ _ _ _ _ _ _ _ hd; simp [delLoop] at hd
  | succ fuel ih =>
    intro det cc ctx t h c cn T1 hz hc hcp hci hcc hcx hdet hndet hd
    cases ctx with
    | nil =>
      simp only [delLoop, Option.some.injEq] at hd
      subst hd
      obtain ⟨h2, e2, z2, f2⟩ := finish_spec det hz hc hcx hdet hndet
      refine ⟨h, c, h2, ?_, e2, z2, fun b _ hb => f2 b hb⟩
      simp [removeFix, removeFixStep, hc, hcp]
    | cons P rest =>
      by_cases hred : cc = RED
      · simp only [delLoop, hred, if_true, Option.some.injEq] at hd
        subst hd
        obtain ⟨h2, e2, z2, f2⟩ := finish_spec det hz hc hcx hdet hndet
        refine ⟨h, c, h2, ?_, e2, RepZ_plug.1 z2, fun b _ hb => f2 b hb⟩
        simp [removeFix, removeFixStep, hc, hcp, hcc, hred]
      · have hblk : cc = BLACK := by cases cc <;> simp_all
        subst hblk
        simp only [delLoop, reduceCtorEq, if_false] at hd
        cases hs : delStep P rest t with
        | none => rw [hs] at hd; simp at hd
        | some r =>
          obtain ⟨b, ctx1, t1⟩ := r
          rw [hs] at hd
          simp only [hp_cons, hd_cons] at hcp hci
          obtain ⟨h1, e1, z1, f1⟩ := removeFixStep_spec hz hc hcp hci hcc hs
          obtain ⟨ha1, ha2⟩ := delStep_addrs hs
          cases b with
          | false =>
            simp only [Option.some.injEq] at hd
            subst hd
            have hc1 : h1 c = some cn := by rw [f1 c hcx]; exact hc
            refine ⟨h1, c, h1, ?_, ?_, RepZ_plug.1 z1, ?_⟩
            · simp [removeFix, e1]
            · rw [wColor_eq hc1, node_with_color_self _ _ hcc, Heap.set_self hc1]
            · intro b hb hbn
              rw [f1 b]
              · exact hbn
              · simp only [Multiset.mem_add, Multiset.mem_singleton, not_or] at hb ⊢
                exact ⟨hb.1, hb.2.1⟩
          | true =>
            simp only at hd
            have hp1 := ha2 rfl
            obtain ⟨pn, k1, k2, k3, k4, -⟩ := Rep_root z1.hs hp1
            have hpx : P.a ∉ ({sen} : Multiset Nat) + addrsC ctx1 := by
              have hm := ptr_mem hp1
              have hnd := z1.hn
              simp only [Multiset.nodup_add, Multiset.nodup_singleton,
                Multiset.singleton_disjoint, Multiset.mem_add, not_or, true_and] at hnd
              simp only [Multiset.mem_add, Multiset.mem_singleton, not_or]
              refine ⟨?_, fun hm2 => Multiset.disjoint_left.1 hnd.1.2.2 hm2 hm⟩
              rintro rfl
              exact hnd.2.2 hm
            obtain ⟨h3, c1, h2, e3, e4, z4, f4⟩ := ih z1 k1 k2 k3 k4 hpx (by simp)
              (fun _ => hp1) hd
            refine ⟨h3, c1, h2, ?_, e4, z4, ?_⟩
            · simp [removeFix, e1, e3]
            · intro b hb hbn
              refine f4 b ?_ ?_
              · rw [ha1]; exact hb
              · rw [f1 b]
                · exact hbn
                · simp only [Multiset.mem_add, Multiset.mem_singleton, not_or] at hb ⊢
                  exact ⟨hb.1, hb.2.1⟩

/-! # `remove` on a represented tree -/

/-- The search loop of `remove` follows the search path. -/
theorem removeFind_spec {h : Heap} (v : Int) : ∀ (t : Tr) (ctx : List Frame)
    (p : Option Nat) (d : Bool) (fuel : Nat), Rep h p d t → t.depth < fuel →
    removeFind h v fuel t.ptr = some (find v ctx t).2.ptr
  | nil, ctx, p, d, fuel, hr, hf => by
    obtain ⟨f, rfl⟩ : ∃ f, fuel = f + 1 := ⟨fuel - 1, by simp [depth] at hf; omega⟩
    simp [removeFind, find]
  | node a c l x r, ctx, p, d, fuel, hr, hf => by
    obtain ⟨f, rfl⟩ : ∃ f, fuel = f + 1 := ⟨fuel - 1, by simp [depth] at hf; omega⟩
    simp only [depth] at hf
    have hn := hr.1
    unfold find
    by_cases h1 : x = v
    · simp [removeFind, hn, h1]
    · by_cases h2 : v < x
      · have := removeFind_spec v l (⟨a, c, x, false, r⟩ :: ctx) _ _ f hr.2.1 (by omega)
        simp [removeFind, hn, h1, h2, RBNode.child, this]
      · have := removeFind_spec v r (⟨a, c, x, true, l⟩ :: ctx) _ _ f hr.2.2 (by omega)
        simp [removeFind, hn, h1, h2, RBNode.child, this]

theorem findMin_append : ∀ (t : Tr) (ctx : List Frame),
    findMin ctx t = ((findMin [] t).1 ++ ctx, (findMin [] t).2)
  | nil, ctx => rfl
  | node a c nil v r, ctx => rfl
  | node a c (node a2 c2 l2 v2 r2) v r, ctx => by
    rw [findMin, findMin_append (node a2 c2 l2 v2 r2) (_ :: ctx), findMin,
      findMin_append (node a2 c2 l2 v2 r2) [_]]
    simp

theorem findMin_node : ∀ (t : Tr) (ctx : List Frame), t.ptr ≠ none →
    ∃ m cm mv mr, (findMin ctx t).2 = node m cm nil mv mr
  | nil, _, h => absurd rfl h
  | node a c nil v r, ctx, _ => ⟨a, c, v, r, rfl⟩
  | node a c (node a2 c2 l2 v2 r2) v r, ctx, _ => by
    rw [findMin]; exact findMin_node _ _ (by simp)

theorem findMin_length : ∀ (t : Tr) (ctx : List Frame),
    (findMin ctx t).1.length + 1 ≤ ctx.length + t.depth ∨ t = nil
  | nil, ctx => Or.inr rfl
  | node a c nil v r, ctx => by simp [findMin, depth]
  | node a c (node a2 c2 l2 v2 r2) v r, ctx => by
    rw [findMin]
    rcases findMin_length (node a2 c2 l2 v2 r2) (⟨a, c, v, false, r⟩ :: ctx) with h | h
    · left
      simp only [List.length_cons, depth] at h ⊢
      omega
    · cases h

theorem leftmost_spec {h : Heap} {sen : Nat} : ∀ (t : Tr) (ctx : List Frame) (fuel : Nat),
    RepZ h sen ctx t → t.ptr ≠ none → t.depth ≤ fuel →
    leftmost h fuel t.ptr = some (findMin ctx t).2.ptr ∧
      RepZ h sen (findMin ctx t).1 (findMin ctx t).2
  | nil, _, _, _, h, _ => absurd rfl h
  | node a c nil v r, ctx, fuel, hz, _, hf => by
    obtain ⟨f, rfl⟩ : ∃ f, fuel = f + 1 := ⟨fuel - 1, by simp [depth] at hf; omega⟩
    refine ⟨?_, hz⟩
    simp [leftmost, hz.hs.1, findMin]
  | node a c (node a2 c2 l2 v2 r2) v r, ctx, fuel, hz, _, hf => by
    obtain ⟨f, rfl⟩ : ∃ f, fuel = f + 1 := ⟨fuel - 1, by simp [depth] at hf; omega⟩
    have hz1 : RepZ h sen (⟨a, c, v, false, r⟩ :: ctx) (node a2 c2 l2 v2 r2) := RepZ_cons.2 hz
    obtain ⟨e1, z1⟩ := leftmost_spec (node a2 c2 l2 v2 r2) _ f hz1 (by simp)
      (by simp only [depth] at hf ⊢; omega)
    refine ⟨?_, by rw [findMin]; exact z1⟩
    simp only [ptr_node] at e1
    simp [leftmost, hz.hs.1, findMin, e1]

@[simp] theorem val_node (a c l v r) : (node a c l v r).val = v := rfl

/-- Line 181: the store of a value into a node on the path. -/
theorem RepZ_setVal {h : Heap} {sen : Nat} {x : Nat} {c : Color} {xv : Int} {d : Bool}
    {s : Tr} {ctx : List Frame} (v : Int) : ∀ (sp : List Frame) {t : Tr},
    RepZ h sen (sp ++ ⟨x, c, xv, d, s⟩ :: ctx) t →
    ∃ h1, wVal h (some x) v = some h1 ∧ RepZ h1 sen (sp ++ ⟨x, c, v, d, s⟩ :: ctx) t ∧
      ∀ b, b ≠ x → h1 b = h b
  | [], t, hz => by
    simp only [List.nil_append] at hz ⊢
    obtain ⟨⟨hP, hPs, hR⟩, hX, hnd⟩ := hz
    simp only [topNode_cons, hp_cons, hd_cons] at hP hPs hR hX
    have hnd0 := hnd
    simp only [addrsC_cons, addrs_mk, addrs_node, addrs_nil, Multiset.nodup_add, Multiset.nodup_singleton,
      Multiset.singleton_disjoint, Multiset.disjoint_singleton, Multiset.disjoint_add_right,
      Multiset.disjoint_add_left, Multiset.mem_add, Multiset.mem_singleton, not_or, true_and,
      Multiset.nodup_zero, Multiset.not_mem_zero, not_false_eq_true, and_true,
      add_zero, zero_add] at hnd
    casesm* _ ∧ _
    simp only [wVal, hP, Option.some.injEq, exists_eq_left', nodeOf_color, nodeOf_parent,
      nodeOf_ID, nodeOf_child0, nodeOf_child1, nodeOf_fold]
    refine ⟨⟨RepC_cons.2 ⟨?_, ?_, ?_⟩, ?_, hnd0⟩, fun b hb => Heap.set_other _ _ hb⟩
    · simp
    · exact Rep_set _ (by assumption) hPs
    · refine RepC_set _ ?_ hR
      simp only [Multiset.mem_add, Multiset.mem_singleton, not_or]
      exact ⟨by omega, by assumption⟩
    · exact Rep_set _ (by assumption) hX
  | f :: sp, t, hz => by
    rw [List.cons_append] at hz ⊢
    obtain ⟨h1, e1, z1, f1⟩ := RepZ_setVal v sp (RepZ_cons.1 hz)
    exact ⟨h1, e1, RepZ_cons.2 z1, f1⟩

theorem swapWithSuccessor_spec {h : Heap} {sen : Nat} {ctx : List Frame} {x : Nat}
    {c : Color} {l r : Tr} {xv : Int} {fuel : Nat}
    (hz : RepZ h sen ctx (node x c l xv r)) (hf : (node x c l xv r).depth ≤ fuel) :
    ∃ h1, swapWithSuccessor fuel h (some x) = some (h1, (succZ ctx x c l xv r).2.ptr) ∧
      RepZ h1 sen (succZ ctx x c l xv r).1 (succZ ctx x c l xv r).2 ∧
      (∀ b, h b ≠ none → h1 b ≠ none) := by
  have hn := hz.hs.1
  by_cases h2 : r.ptr ≠ none ∧ l.ptr ≠ none
  · have hz1 : RepZ h sen (⟨x, c, xv, true, l⟩ :: ctx) r :=
      RepZ_cons.2 (by simpa [Frame.fill, mkT] using hz)
    obtain ⟨e1, z1⟩ := leftmost_spec r _ fuel hz1 h2.1 (by simp only [depth] at hf; omega)
    rw [findMin_append] at e1 z1
    simp only at e1 z1
    obtain ⟨m, cm, mv, mr, hM⟩ := findMin_node r [] h2.1
    obtain ⟨h1, e2, z2, f2⟩ := RepZ_setVal mv _ z1
    have hs1 := z1.hs
    rw [hM] at hs1
    have hmn := hs1.1
    refine ⟨h1, ?_, ?_, ?_⟩
    · simp only [swapWithSuccessor, rd_some, hn, andThen_some, ne_eq, h2.1, h2.2,
        not_false_eq_true, and_self, if_true, e1, succZ]
      simp only [hM, ptr_node, rd_some, hmn, andThen_some, e2]
    · simp only [succZ, ne_eq, h2.1, h2.2, not_false_eq_true, and_self, if_true]
      simpa [hM] using z2
    · intro b hb
      by_cases hbx : b = x
      · subst hbx
        simp only [wVal, hn] at e2
        cases e2
        simp
      · rwa [f2 b hbx]
  · refine ⟨h, ?_, ?_, fun _ hb => hb⟩
    · simp only [swapWithSuccessor, rd_some, hn, andThen_some, h2, if_false, succZ, ptr_node]
    · simpa [succZ, h2] using hz

/-- Lines 186-196: the node at `m` leaves the tree and its child `C` takes its place. -/
theorem splice_spec {h : Heap} {sen : Nat} {ctx : List Frame} {e : Bool} {m : Nat}
    {cm : Color} {mv : Int} {C D : Tr} (hz : RepZ h sen ctx (mkT e m cm mv C D)) :
    RepZ (reroot (h.set (hp sen ctx) (topNode sen ctx C.ptr)) C.ptr (some (hp sen ctx))
        (toID (hd ctx))) sen ctx C ∧
      m ∉ ({sen} : Multiset Nat) + (addrsC ctx + C.addrs) ∧ hp sen ctx ≠ m ∧
      C.ptr ≠ some m ∧ C.ptr ≠ some (hp sen ctx) := by
  obtain ⟨hR, hX, hnd⟩ := hz
  obtain ⟨hM, hC, hD⟩ := Rep_mk.1 hX
  have hnd0 := hnd
  simp only [addrs_mk, Multiset.nodup_add, Multiset.nodup_singleton,
      Multiset.singleton_disjoint, Multiset.disjoint_singleton, Multiset.disjoint_add_right,
      Multiset.disjoint_add_left, Multiset.mem_add, Multiset.mem_singleton, not_or,
      true_and] at hnd
  casesm* _ ∧ _
  have hpm : hp sen ctx ≠ m := hp_ne (by omega) (by assumption)
  have hpC : hp sen ctx ∉ C.addrs := hp_not_mem (by assumption) (by assumption)
  have q1 : C.ptr ≠ some (hp sen ctx) := ptr_ne hpC
  have q2 : C.ptr ≠ some m := ptr_ne (by assumption)
  refine ⟨⟨?_, ?_, ?_⟩, ?_, hpm, q2, q1⟩
  · refine RepC_congr (fun b hb => ?_) (RepC_hole C.ptr
      (nodup_ctx (by assumption) (by assumption)) hR)
    have q0 : C.ptr ≠ some b :=
      ptr_ne (fun hbs => not_mem_of_mem_ctx hb (by assumption) (by assumption) hbs)
    simp only [reroot_other q0]
  · rw [reroot_set q1]
    refine Rep_set _ hpC (Rep_rerooted _ _ (by assumption) hC)
  · simp only [Multiset.nodup_add, Multiset.nodup_singleton, Multiset.singleton_disjoint,
      Multiset.mem_add, not_or, true_and]
    exact ⟨⟨by assumption, by assumption, by assumption⟩, by assumption, by assumption⟩
  · simp only [Multiset.mem_add, Multiset.mem_singleton, not_or]
    exact ⟨by omega, by assumption, by assumption⟩

theorem unlink_spec {h : Heap} {sen : Nat} {ctx : List Frame} {m : Nat}
    {cm : Color} {mv : Int} {ml mr : Tr} (hz : RepZ h sen ctx (node m cm ml mv mr)) :
    ∃ h1 mn, unlink h (some m) = some h1 ∧
      RepZ h1 sen ctx (unlinkZ (node m cm ml mv mr)).2 ∧ h1 m = some mn ∧
      mn.m_parent = some (hp sen ctx) ∧ mn.m_ID = toID (hd ctx) ∧
      mn.m_color = (unlinkZ (node m cm ml mv mr)).1 ∧
      m ∉ ({sen} : Multiset Nat) + (addrsC ctx + (unlinkZ (node m cm ml mv mr)).2.addrs) ∧
      (∀ b, h b ≠ none → h1 b ≠ none) := by
  -- the child that takes the place of `m`
  obtain ⟨e, C, D, hM, hcid, hC⟩ : ∃ (e : Bool) (C D : Tr),
      node m cm ml mv mr = mkT e m cm mv C D ∧
      (if (if e then D.ptr else C.ptr) ≠ none then (0 : Int) else 1) = toID e ∧
      C = (if ml.ptr ≠ none then ml else mr) := by
    by_cases hl : ml.ptr = none
    · refine ⟨true, mr, ml, rfl, ?_, ?_⟩ <;> simp [hl]
    · refine ⟨false, ml, mr, rfl, ?_, ?_⟩ <;> simp [hl]
  have hn := hz.hs.1
  rw [hM] at hz
  have hMn := (Rep_mk.1 hz.hs).1
  have hT := RepC_top hz.hc
  simp only [ptr_mk] at hT
  obtain ⟨z1, hm, hpm, q2, q1⟩ := splice_spec hz
  have hA : Alloc h C.ptr := Alloc_of_Rep (Rep_mk.1 hz.hs).2.1
  have e0 : unlink h (some m) =
      (if BLACK = cm ∧ C.ptr ≠ none then
        andThen (rd (reroot (h.set (hp sen ctx) (topNode sen ctx C.ptr)) C.ptr
            (some (hp sen ctx)) (toID (hd ctx))) C.ptr) fun cn =>
          if RED = cn.m_color then
            andThen (wColor (reroot (h.set (hp sen ctx) (topNode sen ctx C.ptr)) C.ptr
              (some (hp sen ctx)) (toID (hd ctx))) (some m) RED) fun h => wColor h C.ptr BLACK
          else some (reroot (h.set (hp sen ctx) (topNode sen ctx C.ptr)) C.ptr
            (some (hp sen ctx)) (toID (hd ctx)))
       else some (reroot (h.set (hp sen ctx) (topNode sen ctx C.ptr)) C.ptr
          (some (hp sen ctx)) (toID (hd ctx)))) := by
    simp only [unlink, rd_some, hMn, andThen_some, nodeOf_parent, nodeOf_child0, hcid,
      nodeOf_child, nodeOf_ID, wChild, hT, topNode_setChild, setParentOf_eq, Alloc_set, hA,
      true_or, reroot_other, q2, ne_eq, not_false_eq_true, Heap.set_other, hpm.symm,
      nodeOf_color]
  have hm1 : reroot (h.set (hp sen ctx) (topNode sen ctx C.ptr)) C.ptr (some (hp sen ctx))
      (toID (hd ctx)) m = some (nodeOf cm mv (some (hp sen ctx)) (toID (hd ctx)) e C.ptr D.ptr) := by
    rw [reroot_other q2, Heap.set_other _ _ hpm.symm, hMn]
  have hmono : ∀ b, h b ≠ none →
      reroot (h.set (hp sen ctx) (topNode sen ctx C.ptr)) C.ptr (some (hp sen ctx))
        (toID (hd ctx)) b ≠ none := by
    intro b hb
    by_cases hbC : C.ptr = some b
    · exact Rep_alloc z1.hs (ptr_mem hbC)
    · rw [reroot_other hbC]
      by_cases hbp : b = hp sen ctx
      · subst hbp; simp
      · rwa [Heap.set_other _ _ hbp]
  rw [e0]
  clear e0
  generalize reroot (h.set (hp sen ctx) (topNode sen ctx C.ptr)) C.ptr (some (hp sen ctx))
    (toID (hd ctx)) = H at z1 hm1 hmono ⊢
  simp only [unlinkZ, ← hC]
  by_cases hfix : cm = BLACK ∧ C.color = RED
  · obtain ⟨hcm, hCc⟩ := hfix
    subst hcm
    obtain ⟨cptr, hcp⟩ : ∃ a, C.ptr = some a := by
      cases C with
      | nil => simp at hCc
      | node a _ _ _ _ => exact ⟨a, rfl⟩
    obtain ⟨cn, k1, -, -, k4, -⟩ := Rep_root z1.hs hcp
    have hmc : m ≠ cptr := fun e => q2 (e ▸ hcp)
    have z2 := RepZ_set (a := m)
      (nodeOf RED mv (some (hp sen ctx)) (toID (hd ctx)) e C.ptr D.ptr) hm z1
    obtain ⟨h3, e3, z3, f3⟩ := paint_spec BLACK z2 hcp
    refine ⟨h3, nodeOf RED mv (some (hp sen ctx)) (toID (hd ctx)) e C.ptr D.ptr,
      ?_, ?_, ?_, ?_, ?_, ?_, ?_, ?_⟩
    rotate_left
    · simpa [hCc] using z3
    · rw [f3 m hmc]; exact Heap.set_same _ _ _
    · simp
    · simp
    · simp [hCc]
    · simpa [hCc] using hm
    · intro b hb
      by_cases hbc : b = cptr
      · subst hbc
        exact Rep_alloc z3.hs (by simpa using ptr_mem hcp)
      · rw [f3 b hbc]
        by_cases hbm : b = m
        · subst hbm; simp
        · rw [Heap.set_other _ _ hbm]; exact hmono b hb
    · simp only [hcp, ne_eq, reduceCtorEq, not_false_eq_true, and_self, if_true, rd_some, k1,
        andThen_some, k4, hCc, wColor, hm1, nodeOf_color, nodeOf_val, nodeOf_parent, nodeOf_ID,
        nodeOf_child0, nodeOf_child1, nodeOf_fold]
      simpa [wColor, hcp] using e3
  · have hif : (if cm = BLACK ∧ C.color = RED then (RED, C.paint BLACK) else (cm, C)) = (cm, C) :=
      if_neg hfix
    rw [hif]
    refine ⟨_, nodeOf cm mv (some (hp sen ctx)) (toID (hd ctx)) e C.ptr D.ptr,
      ?_, z1, hm1, by simp, by simp, by simp, hm, hmono⟩
    by_cases hc1 : BLACK = cm ∧ C.ptr ≠ none
    · obtain ⟨hcm, hCn⟩ := hc1
      obtain ⟨cptr, hcp⟩ : ∃ a, C.ptr = some a := Option.ne_none_iff_exists'.1 hCn
      obtain ⟨cn, k1, -, -, k4, -⟩ := Rep_root z1.hs hcp
      have hCc : ¬ RED = C.color := fun e => hfix ⟨hcm.symm, e.symm⟩
      simp only [hcm, hcp, ne_eq, reduceCtorEq, not_false_eq_true, and_self, if_true, rd_some,
        k1, andThen_some, k4, hCc, if_false]
    · simp only [hc1, if_false]

theorem plug_addrs : ∀ (ctx : List Frame) (t : Tr), (plug ctx t).addrs = addrsC ctx + t.addrs
  | [], t => by simp [plug]
  | f :: rest, t => by
    rw [plug, plug_addrs rest, Frame.fill, addrs_mk, addrsC_cons]
    abel

theorem delLoop_addrs : ∀ (fuel : Nat) {det : Bool} {cc : Color} {ctx : List Frame}
    {t T1 : Tr}, delLoop fuel det cc ctx t = some T1 → T1.addrs = addrsC ctx + t.addrs := by
  intro fuel
  induction fuel with
  | zero => intro det cc ctx t T1 hd; simp [delLoop] at hd
  | succ fuel ih =>
    intro det cc ctx t T1 hd
    cases ctx with
    | nil =>
      simp only [delLoop, Option.some.injEq] at hd
      subst hd
      cases det <;> simp
    | cons P rest =>
      by_cases hred : cc = RED
      · simp only [delLoop, hred, if_true, Option.some.injEq] at hd
        subst hd
        rw [plug_addrs]
        cases det <;> simp
      · simp only [delLoop, hred, if_false] at hd
        cases hs : delStep P rest t with
        | none => rw [hs] at hd; simp at hd
        | some r =>
          obtain ⟨b, ctx1, t1⟩ := r
          rw [hs] at hd
          obtain ⟨ha1, -⟩ := delStep_addrs hs
          cases b with
          | false =>
            simp only [Option.some.injEq] at hd
            subst hd
            rw [plug_addrs, ha1]
          | true =>
            simp only at hd
            rw [ih hd, ha1]

theorem find_depth (v : Int) : ∀ (t : Tr) (ctx : List Frame), (find v ctx t).2.depth ≤ t.depth
  | nil, ctx => le_refl _
  | node a c l x r, ctx => by
    unfold find
    split_ifs
    · exact le_refl _
    · have := find_depth v l (⟨a, c, x, false, r⟩ :: ctx)
      simp only [depth]; omega
    · have := find_depth v r (⟨a, c, x, true, l⟩ :: ctx)
      simp only [depth]; omega

theorem succZ_node (ctx : List Frame) (x : Nat) (c : Color) (l : Tr) (xv : Int) (r : Tr) :
    ∃ m cm ml mv mr, (succZ ctx x c l xv r).2 = node m cm ml mv mr := by
  by_cases h2 : r.ptr ≠ none ∧ l.ptr ≠ none
  · obtain ⟨m, cm, mv, mr, hM⟩ := findMin_node r [] h2.1
    exact ⟨m, cm, nil, mv, mr, by simp [succZ, h2.1, h2.2, hM]⟩
  · exact ⟨x, c, l, xv, r, by simp only [succZ, h2, if_false]⟩

theorem remove_absent {t : RBTree} {T : Tr} (hz : RepZ t.heap t.sentinel [] T)
    {v : Int} {fuel : Nat} (hf : T.depth < fuel) (hv : (find v [] T).2 = nil) :
    remove fuel t v = some (t, false) := by
  obtain ⟨sn, h1, h2, -⟩ := sentinel_child hz
  have h3 := removeFind_spec v T [] _ _ fuel hz.hs hf
  simp only [remove, rd_some, h1, andThen_some, h2, h3, hv, ptr_nil]

theorem remove_present {t : RBTree} {T T1 : Tr} (hz : RepZ t.heap t.sentinel [] T)
    {v : Int} {fuel : Nat} (hf : T.depth < fuel) (hv : (find v [] T).2 ≠ nil)
    (hd : del fuel T v = some T1) :
    ∃ h1, remove fuel t v = some (⟨t.sentinel, h1⟩, true) ∧ RepZ h1 t.sentinel [] T1 := by
  obtain ⟨sn, k1, k2, -⟩ := sentinel_child hz
  have k3 := removeFind_spec v T [] _ _ fuel hz.hs hf
  have z0 := RepZ_find v T [] hz
  have hdep := find_depth v T []
  rw [del] at hd
  cases hft : (find v [] T).2 with
  | nil => exact absurd hft hv
  | node x c l xv r =>
    have hfind : find v [] T = ((find v [] T).1, node x c l xv r) := by rw [← hft]
    rw [hfind] at hd
    simp only at hd
    rw [hft] at z0 k3 hdep
    obtain ⟨h1, e1, z1, m1⟩ := @swapWithSuccessor_spec _ _ _ _ _ _ _ _ fuel z0 (by omega)
    obtain ⟨m, cm, ml, mv, mr, hM⟩ := succZ_node (find v [] T).1 x c l xv r
    rw [hM] at z1 e1 hd
    obtain ⟨h2, mn, e2, z2, j1, j2, j3, j4, j5, m2⟩ := unlink_spec z1
    have j5' : m ∉ ({t.sentinel} : Multiset Nat) + addrsC (succZ (find v [] T).1 x c l xv r).1 ∧
        m ∉ (unlinkZ (node m cm ml mv mr)).2.addrs := by
      simp only [Multiset.mem_add, Multiset.mem_singleton, not_or] at j5 ⊢
      tauto
    obtain ⟨h3, c1, h4, e3, e4, z4, m4⟩ := @removeFix_spec _ fuel true _ _ _ _ _ _ _ z2 j1 j2 j3 j4
      j5'.1 (fun _ => j5'.2) (by simp) hd
    have hm4 : h4 m ≠ none := m4 m j5 (by rw [j1]; simp)
    have hma : m ∉ ({t.sentinel} : Multiset Nat) + (addrsC [] + T1.addrs) := by
      rw [delLoop_addrs fuel hd]
      simpa using j5
    refine ⟨h4.free m, ?_, RepZ_free hma z4⟩
    obtain ⟨mn4, hmn4⟩ := Option.ne_none_iff_exists'.1 hm4
    simp only [remove, rd_some, k1, andThen_some, k2, k3, ptr_node, e1, e2, e3, e4, release,
      hmn4]

/-! # The rebalancing loop of `remove` on shapes -/

theorem paint_self {t : Tr} {c : Color} (h : t.color = c) (hn : t.ptr ≠ none) :
    t.paint c = t := by
  cases t with
  | nil => simp at hn
  | node a c1 l v r => simp only [color_node] at h; subst h; rfl

theorem bh_paint_black {t : Tr} (h : t.color = RED) : (t.paint BLACK).bh = t.bh + 1 := by
  cases t with
  | nil => simp at h
  | node a c l v r => simp only [color_node] at h; subst h; simp

theorem bh_paint_red {t : Tr} (h : t.color = BLACK) (hn : t.ptr ≠ none) :
    (t.paint RED).bh + 1 = t.bh := by
  cases t with
  | nil => simp at hn
  | node a c l v r => simp only [color_node] at h; subst h; simp

theorem nil_of_bh_zero {t : Tr} (h1 : t.color = BLACK) (h2 : t.bh = 0) : t = nil := by
  cases t with
  | nil => rfl
  | node a c l v r =>
    simp only [color_node] at h1
    subst h1
    simp at h2

/-- The two children of a node, seen from the side `d`. -/
theorem side_facts {s : Nat} {cs : Color} {sl sr : Tr} {sv : Int} (d : Bool)
    (hb : (node s cs sl sv sr).Bal) (hn : (node s cs sl sv sr).NoRR) :
    ((node s cs sl sv sr).side d).Bal ∧ ((node s cs sl sv sr).side (!d)).Bal ∧
    ((node s cs sl sv sr).side d).NoRR ∧ ((node s cs sl sv sr).side (!d)).NoRR ∧
    ((node s cs sl sv sr).side d).bh = ((node s cs sl sv sr).side (!d)).bh ∧
    (node s cs sl sv sr).bh =
      ((node s cs sl sv sr).side d).bh + (if cs = BLACK then 1 else 0) ∧
    (cs = RED → ((node s cs sl sv sr).side d).color = BLACK ∧
      ((node s cs sl sv sr).side (!d)).color = BLACK) := by
  simp only [Bal_node, NoRR_node] at hb hn
  obtain ⟨b1, b2, b3⟩ := hb
  obtain ⟨n1, n2, n3⟩ := hn
  cases d
  · refine ⟨b1, b2, n1, n2, b3, ?_, n3⟩
    simp [Tr.side, b3]
  · refine ⟨b2, b1, n2, n1, b3.symm, ?_, fun h => ⟨(n3 h).2, (n3 h).1⟩⟩
    simp [Tr.side, b3]

theorem keys_sides (d : Bool) (a c l v r) :
    (node a c l v r).keys =
      if d then ((node a c l v r).side (!d)).keys ++ v :: ((node a c l v r).side d).keys
      else ((node a c l v r).side d).keys ++ v :: ((node a c l v r).side (!d)).keys := by
  cases d <;> simp [Tr.side]

theorem delCases_valid {p : Nat} {cp : Color} {vp : Int} {d : Bool} {S t : Tr}
    (rest : List Frame) (hbt : t.Bal) (hnt : t.NoRR) (hbs : S.Bal) (hns : S.NoRR)
    (hsc : S.color = BLACK) (hbh : S.bh = t.bh + 1) :
    ∃ b t1, delCases p cp vp d S rest t = some (b, rest, t1) ∧ t1.Bal ∧ t1.color = cp ∧
      t1.ptr ≠ none ∧ t1.keys = (mkT d p cp vp t S).keys ∧
      (b = false → t1.NoRR ∧ t1.bh = t.bh + 1 + (if cp = BLACK then 1 else 0)) ∧
      (b = true → (t1.paint BLACK).NoRR ∧ t1.bh = t.bh + (if cp = BLACK then 1 else 0)) := by
  cases S with
  | nil => simp at hbh
  | node s cs sl sv sr =>
    simp only [color_node] at hsc
    subst hsc
    obtain ⟨f1, f2, f3, f4, f5, f6, -⟩ := side_facts d hbs hns
    have hk := keys_sides d s BLACK sl sv sr
    have hns' := hns
    have hbs' := hbs
    simp only [NoRR_node, reduceCtorEq, false_implies, and_true] at hns'
    simp only [Bal_node] at hbs'
    have hcol : ((node s BLACK sl sv sr).side d).color = BLACK →
        ((node s BLACK sl sv sr).side (!d)).color = BLACK →
        sl.color = BLACK ∧ sr.color = BLACK := by
      cases d <;> simp [Tr.side] <;> tauto
    rw [delCases]
    generalize (node s BLACK sl sv sr).side d = N at *
    generalize (node s BLACK sl sv sr).side (!d) = F at *
    simp only [if_true] at f6
    by_cases hFc : F.color = RED
    · simp only [hFc, if_true]
      refine ⟨false, _, rfl, ?_, by simp, by simp, ?_, ?_, by simp⟩
      · simp only [Bal_mk, Bal_paint, bh_mk, if_true, bh_paint_black hFc]
        refine ⟨⟨hbt, f1, by omega⟩, f2, by omega⟩
      · simp only [keys_mk, keys_paint, hk]
        cases d <;> simp
      · intro _
        refine ⟨?_, ?_⟩
        · simp only [NoRR_mk, reduceCtorEq, false_implies, and_true, color_mk]
          refine ⟨⟨hnt, f3⟩, NoRR_paint_black f4, fun _ => ?_⟩
          exact ⟨trivial, color_paint _ _ (by cases F <;> simp at hFc ⊢)⟩
        · simp only [bh_mk, if_true, bh_paint_black hFc]
          omega
    · simp only [hFc, if_false]
      by_cases hNc : N.color = RED
      · simp only [hNc, if_true]
        cases N with
        | nil => simp at hNc
        | node n cn nl nv nr =>
          simp only [color_node] at hNc
          subst hNc
          obtain ⟨g1, g2, g3, g4, g5, g6, g7⟩ := side_facts d f1 f3
          have hk2 := keys_sides d n RED nl nv nr
          obtain ⟨g7a, g7b⟩ := g7 rfl
          dsimp only
          generalize (node n RED nl nv nr).side d = NN at *
          generalize (node n RED nl nv nr).side (!d) = NF at *
          simp only [reduceCtorEq, if_false, add_zero] at g6
          refine ⟨false, _, rfl, ?_, by simp, by simp, ?_, ?_, by simp⟩
          · simp only [Bal_mk, bh_mk, if_true]
            refine ⟨⟨hbt, g1, by omega⟩, ⟨g2, f2, by omega⟩, by omega⟩
          · simp only [keys_mk, hk, hk2]
            cases d <;> simp
          · intro _
            refine ⟨?_, ?_⟩
            · simp only [NoRR_mk, reduceCtorEq, false_implies, and_true, color_mk, implies_true]
              exact ⟨⟨hnt, g3⟩, g4, f4⟩
            · simp only [bh_mk, if_true]
              omega
      · simp only [hNc, if_false]
        simp only [not_red] at hFc hNc
        obtain ⟨c1, c2⟩ := hcol hNc hFc
        refine ⟨true, _, rfl, ?_, by simp, by simp, ?_, by simp, ?_⟩
        · simp only [Bal_mk, Bal_node, bh_node, reduceCtorEq, if_false, add_zero]
          refine ⟨hbt, hbs', ?_⟩
          simp only [bh_node, if_true] at hbh
          omega
        · simp only [keys_mk, keys_node]
        · intro _
          refine ⟨?_, ?_⟩
          · simp only [paint_mk, NoRR_mk, reduceCtorEq, false_implies, and_true, NoRR_node,
              true_implies]
            exact ⟨hnt, hns'.1, hns'.2, c1, c2⟩
          · simp only [bh_mk, bh_node, reduceCtorEq, if_false, add_zero]
            simp only [bh_node, if_true] at hbh
            omega

theorem plug_color_black : ∀ (ctx : List Frame) (t : Tr), lastBlack ctx →
    (ctx = [] → t.color = BLACK) → (plug ctx t).color = BLACK
  | [], t, _, h => h rfl
  | [f], t, h, _ => by simpa [plug, Frame.fill, lastBlack] using h
  | f :: g :: rest, t, h, _ => by
    rw [plug]
    exact plug_color_black (g :: rest) _ h (by simp)

theorem lastBlack_cons_black {f : Frame} {rest : List Frame} (hf : f.c = BLACK)
    (h : lastBlack rest) : lastBlack (f :: rest) := by
  cases rest with
  | nil => exact hf
  | cons g rest => exact h

/-- One iteration of the rebalancing loop below a BLACK subtree that is one BLACK node
short. -/
theorem delStep_valid {P : Frame} {rest : List Frame} {t : Tr} (hbt : t.Bal) (hnt : t.NoRR)
    (hbc : BalC (P :: rest) (t.bh + 1)) (hnc : NoRRC (P :: rest)) (hl : lastBlack (P :: rest)) :
    ∃ b ctx1 t1, delStep P rest t = some (b, ctx1, t1) ∧
      (plug ctx1 t1).keys = (plug (P :: rest) t).keys ∧ t1.Bal ∧ NoRRC ctx1 ∧ lastBlack ctx1 ∧
      t1.ptr ≠ none ∧
      (b = false → t1.NoRR ∧ BalC ctx1 t1.bh ∧ (topColor ctx1 = RED → t1.color = BLACK) ∧
        (ctx1 = [] → t1.color = BLACK)) ∧
      (b = true → (t1.paint BLACK).NoRR ∧ BalC ctx1 (t1.bh + 1) ∧
        (ctx1.length = rest.length ∨ (t1.color = RED ∧ ctx1.length = rest.length + 1))) := by
  obtain ⟨p, cp, vp, d, S⟩ := P
  simp only [BalC] at hbc
  simp only [NoRRC] at hnc
  obtain ⟨hbs, hbh, hbr⟩ := hbc
  obtain ⟨hns, hcr, hnr⟩ := hnc
  have hlr : lastBlack rest := lastBlack_tail hl
  rw [delStep]
  cases S with
  | nil => simp at hbh
  | node s cs sl sv sr =>
    dsimp only
    by_cases hcs : cs = RED
    · -- the sibling is red
      subst hcs
      simp only [if_true]
      have hcp : cp = BLACK := by
        rcases color_cases cp with h | h
        · have := (hcr h).1
          simp at this
        · exact h
      subst hcp
      obtain ⟨f1, f2, f3, f4, f5, f6, f7⟩ := side_facts d hbs hns
      obtain ⟨f7a, f7b⟩ := f7 rfl
      have hk := keys_sides d s RED sl sv sr
      simp only [reduceCtorEq, if_false, add_zero] at f6
      simp only [if_true] at hbr
      generalize (node s RED sl sv sr).side (!d) = F at *
      cases hN : (node s RED sl sv sr).side d with
      | nil => rw [hN, hbh] at f6; simp at f6
      | node n cn nl nv nr =>
        rw [hN] at f1 f3 f5 f6 f7a hk
        dsimp only
        obtain ⟨b, t1, e1, g1, g2, g3, g4, g5, g6⟩ :=
          @delCases_valid p RED vp d _ _
            (⟨s, BLACK, sv, d, F⟩ :: rest) hbt hnt f1 f3 f7a (by omega)
        refine ⟨b, _, t1, e1, ?_, g1, ?_, ?_, g3, ?_, ?_⟩
        · simp only [plug, keys_plug, Frame.fill, g4, keys_mk, hk]
          cases d <;> simp
        · simp only [NoRRC, reduceCtorEq, false_implies, true_and]
          exact ⟨f4, hnr⟩
        · exact lastBlack_cons_black rfl hlr
        · intro hb
          obtain ⟨k1, k2⟩ := g5 hb
          refine ⟨k1, ?_, ?_, by simp⟩
          · simp only [BalC, if_true, k2, reduceCtorEq, if_false, add_zero]
            refine ⟨f2, by omega, ?_⟩
            convert hbr using 2
          · simp [topColor]
        · intro hb
          obtain ⟨k1, k2⟩ := g6 hb
          refine ⟨k1, ?_, Or.inr ⟨g2, by simp⟩⟩
          simp only [BalC, if_true, k2, reduceCtorEq, if_false, add_zero]
          refine ⟨f2, by omega, ?_⟩
          convert hbr using 2
    · simp only [hcs, if_false]
      simp only [not_red] at hcs
      obtain ⟨b, t1, e1, g1, g2, g3, g4, g5, g6⟩ :=
        @delCases_valid p cp vp d _ _ rest hbt hnt hbs hns
          (by simpa using hcs) hbh
      refine ⟨b, _, t1, e1, ?_, g1, hnr, hlr, g3, ?_, ?_⟩
      · simp only [plug, keys_plug, Frame.fill, g4]
      · intro hb
        obtain ⟨k1, k2⟩ := g5 hb
        refine ⟨k1, ?_, ?_, ?_⟩
        · rw [k2]; exact hbr
        · intro htop
          rw [g2]
          rcases color_cases cp with h | h
          · rw [(hcr h).2] at htop; simp at htop
          · exact h
        · intro hr
          subst hr
          rw [g2]
          exact hl
      · intro hb
        obtain ⟨k1, k2⟩ := g6 hb
        refine ⟨k1, ?_, Or.inl rfl⟩
        rw [k2]
        convert hbr using 1
        omega

theorem plug_valid {ctx : List Frame} {t : Tr} (hb : t.Bal) (hn : t.NoRR)
    (hbc : BalC ctx t.bh) (hnc : NoRRC ctx) (hl : lastBlack ctx) (hc : t.color = BLACK) :
    (plug ctx t).Bal ∧ (plug ctx t).NoRR ∧ (plug ctx t).color = BLACK :=
  ⟨(Bal_plug ctx t).2 ⟨hb, hbc⟩, (NoRR_plug ctx t).2 ⟨hn, hnc, fun _ => hc⟩,
    plug_color_black ctx t hl (fun _ => hc)⟩

theorem paint_black_self {t : Tr} (h : t.color = BLACK) : t.paint BLACK = t := by
  cases t with
  | nil => rfl
  | node a c1 l v r => simp only [color_node] at h; subst h; rfl

theorem color_paint_black (t : Tr) : (t.paint BLACK).color = BLACK := by
  cases t <;> rfl

theorem keys_plug_paint (ctx : List Frame) (t : Tr) (c : Color) :
    (plug ctx (t.paint c)).keys = (plug ctx t).keys := by
  rw [keys_plug, keys_plug, keys_paint]

/-- The rebalancing loop of `remove` ends, given fuel for the length of the path, and
leaves a red-black tree with the values it started from. -/
theorem delLoop_valid : ∀ (fuel : Nat) (det : Bool) (cc : Color) (ctx : List Frame) (t : Tr),
    t.Bal → NoRRC ctx → lastBlack ctx →
    (ctx.length + 2 ≤ fuel ∨ (cc = RED ∧ 1 ≤ fuel)) →
    (det = true → t.NoRR ∧ t.color = BLACK ∧ BalC ctx (t.bh + if cc = RED then 0 else 1)) →
    (det = false → cc = t.color ∧ (t.paint BLACK).NoRR ∧ BalC ctx (t.bh + 1)) →
    ∃ T1, delLoop fuel det cc ctx t = some T1 ∧ T1.Bal ∧ T1.NoRR ∧ T1.color = BLACK ∧
      T1.keys = (plug ctx t).keys := by
  intro fuel
  induction fuel with
  | zero => intro det cc ctx t _ _ _ hf; omega
  | succ fuel ih =>
    intro det cc ctx t hbt hnc hl hf hT hF
    cases ctx with
    | nil =>
      rw [delLoop]
      refine ⟨_, rfl, ?_⟩
      cases det with
      | true =>
        obtain ⟨h1, h2, _⟩ := hT rfl
        simpa [plug] using ⟨hbt, h1, h2⟩
      | false =>
        obtain ⟨_, h1, _⟩ := hF rfl
        simpa [plug, color_paint_black] using ⟨hbt, h1⟩
    | cons P rest =>
      rw [delLoop]
      by_cases hcc : cc = RED
      · simp only [hcc, if_true]
        refine ⟨_, rfl, ?_⟩
        cases det with
        | true =>
          obtain ⟨h1, h2, h3⟩ := hT rfl
          simp only [hcc, if_true, add_zero] at h3
          simp only [if_true]
          obtain ⟨k1, k2, k3⟩ := plug_valid hbt h1 h3 hnc hl h2
          refine ⟨k1, k2, k3, ?_⟩
          first | trivial | rfl
        | false =>
          obtain ⟨h0, h1, h3⟩ := hF rfl
          simp only [Bool.false_eq_true, if_false]
          have hr : t.color = RED := by rw [← h0]; exact hcc
          obtain ⟨k1, k2, k3⟩ := plug_valid (t := t.paint BLACK) ((Bal_paint _ _).2 hbt) h1
            (by rw [bh_paint_black hr]; exact h3) hnc hl (color_paint_black t)
          exact ⟨k1, k2, k3, keys_plug_paint _ _ _⟩
      · simp only [hcc, if_false]
        have hfu : rest.length + 2 ≤ fuel := by
          rcases hf with h | h
          · simp only [List.length_cons] at h
            omega
          · exact absurd h.1 hcc
        have hpre : t.NoRR ∧ BalC (P :: rest) (t.bh + 1) := by
          cases det with
          | true =>
            obtain ⟨h1, h2, h3⟩ := hT rfl
            simp only [hcc, if_false] at h3
            exact ⟨h1, h3⟩
          | false =>
            obtain ⟨h0, h1, h3⟩ := hF rfl
            have hb : t.color = BLACK := by
              rw [← h0]
              simpa using hcc
            rw [paint_black_self hb] at h1
            exact ⟨h1, h3⟩
        obtain ⟨b, ctx1, t1, e1, g1, g2, g3, g4, g5, g6, g7⟩ :=
          delStep_valid hbt hpre.1 hpre.2 hnc hl
        rw [e1]
        cases b with
        | false =>
          dsimp only
          obtain ⟨k1, k2, k3, k4⟩ := g6 rfl
          exact ⟨_, rfl, (Bal_plug _ _).2 ⟨g2, k2⟩, (NoRR_plug _ _).2 ⟨k1, g3, k3⟩,
            plug_color_black _ _ g4 k4, g1⟩
        | true =>
          dsimp only
          obtain ⟨k1, k2, k3⟩ := g7 rfl
          obtain ⟨T1, e2, m1, m2, m3, m4⟩ := ih false t1.color ctx1 t1 g2 g3 g4
            (by
              rcases k3 with h | ⟨h1, h2⟩
              · left; omega
              · right; exact ⟨h1, by omega⟩)
            (by intro h; cases h) (fun _ => ⟨rfl, k1, k2⟩)
          exact ⟨T1, e2, m1, m2, m3, m4.trans g1⟩

/-! # `remove` on shapes -/

theorem plug_append : ∀ (sp ctx : List Frame) (t : Tr),
    plug (sp ++ ctx) t = plug ctx (plug sp t)
  | [], ctx, t => rfl
  | f :: sp, ctx, t => by
    rw [List.cons_append, plug, plug, plug_append sp]

theorem plug_color_congr : ∀ (ctx : List Frame) {t u : Tr}, t.color = u.color →
    (plug ctx t).color = (plug ctx u).color
  | [], t, u, h => h
  | f :: rest, t, u, h => by
    rw [plug, plug]
    exact plug_color_congr rest (by simp [Frame.fill])

theorem depth_plug : ∀ (ctx : List Frame) (t : Tr), ctx.length + t.depth ≤ (plug ctx t).depth
  | [], t => by simp [plug]
  | f :: rest, t => by
    have h := depth_plug rest (f.fill t)
    rw [plug]
    have h2 : t.depth + 1 ≤ (f.fill t).depth := by
      rw [Frame.fill]
      cases f.d <;> simp [mkT, depth]
    simp only [List.length_cons]
    omega

theorem findMin_plug : ∀ (t : Tr) (ctx : List Frame),
    plug (findMin ctx t).1 (findMin ctx t).2 = plug ctx t
  | nil, ctx => rfl
  | node a c nil v r, ctx => rfl
  | node a c (node a2 c2 l2 v2 r2) v r, ctx => by
    rw [findMin, findMin_plug (node a2 c2 l2 v2 r2)]
    rfl

/-- The values of a tree are the value of its leftmost node followed by the values left
once that node gives way to its right child. -/
theorem findMin_keys : ∀ (t : Tr) {m : Nat} {cm : Color} {ml : Tr} {mv : Int} {mr : Tr},
    (findMin [] t).2 = node m cm ml mv mr →
    ml = nil ∧ t.keys = mv :: (plug (findMin [] t).1 mr).keys
  | nil, _, _, _, _, _, h => by simp [findMin] at h
  | node a c nil v r, _, _, _, _, _, h => by
    simp only [findMin, node.injEq] at h
    obtain ⟨-, -, rfl, rfl, rfl⟩ := h
    simp [findMin, plug]
  | node a c (node a2 c2 l2 v2 r2) v r, m, cm, ml, mv, mr, h => by
    rw [findMin, findMin_append] at h
    obtain ⟨h1, h2⟩ := findMin_keys (node a2 c2 l2 v2 r2) h
    refine ⟨h1, ?_⟩
    rw [findMin, findMin_append, plug_append, keys_node, h2]
    simp [plug, Frame.fill, mkT]

/-- The node that `remove` takes out of the tree, with the path to it: the tree around it
has the shape of the tree before, and taking the node out leaves the values but `v`. -/
theorem succZ_facts (ctx : List Frame) (x : Nat) (c : Color) (l : Tr) (v : Int) (r : Tr) :
    ∃ m cm ml mv mr, (succZ ctx x c l v r).2 = node m cm ml mv mr ∧
      (ml.ptr = none ∨ mr.ptr = none) ∧
      ((plug (succZ ctx x c l v r).1 (succZ ctx x c l v r).2).Bal ↔
        (plug ctx (node x c l v r)).Bal) ∧
      ((plug (succZ ctx x c l v r).1 (succZ ctx x c l v r).2).NoRR ↔
        (plug ctx (node x c l v r)).NoRR) ∧
      (plug (succZ ctx x c l v r).1 (succZ ctx x c l v r).2).color =
        (plug ctx (node x c l v r)).color ∧
      (succZ ctx x c l v r).1.length + 1 ≤ ctx.length + (node x c l v r).depth ∧
      ∃ A B, (plug ctx (node x c l v r)).keys = A ++ v :: B ∧
        (plug (succZ ctx x c l v r).1 (if ml.ptr ≠ none then ml else mr)).keys = A ++ B := by
  by_cases h2 : r.ptr ≠ none ∧ l.ptr ≠ none
  · obtain ⟨m, cm, mv, mr, hM⟩ := findMin_node r [] h2.1
    have e1 : succZ ctx x c l v r =
        ((findMin [] r).1 ++ ⟨x, c, mv, true, l⟩ :: ctx, node m cm nil mv mr) := by
      simp only [succZ, if_pos h2, hM, val_node]
    have hp : plug (findMin [] r).1 (node m cm nil mv mr) = r := by
      rw [← hM]; exact findMin_plug r []
    have e2 : plug (succZ ctx x c l v r).1 (succZ ctx x c l v r).2 =
        plug ctx (node x c l mv r) := by
      rw [e1]
      simp only [plug_append, hp, plug, Frame.fill, mkT, if_true]
    refine ⟨m, cm, nil, mv, mr, by rw [e1], Or.inl rfl, ?_, ?_, ?_, ?_, ?_⟩
    · rw [e2, Bal_plug, Bal_plug]; simp
    · rw [e2, NoRR_plug, NoRR_plug]; simp
    · rw [e2]; exact plug_color_congr ctx rfl
    · rw [e1]
      have h3 := depth_plug (findMin [] r).1 (node m cm nil mv mr)
      rw [hp] at h3
      simp only [List.length_append, List.length_cons, depth] at h3 ⊢
      omega
    · refine ⟨keysL ctx ++ l.keys, r.keys ++ keysR ctx, by simp [keys_plug], ?_⟩
      obtain ⟨-, hk⟩ := findMin_keys r hM
      rw [e1]
      simp only [ptr_nil, ne_eq, not_true_eq_false, if_false, plug_append]
      simp only [plug, Frame.fill, mkT, keys_plug, keys_node, hk]
      simp [keys_plug]
  · have e1 : succZ ctx x c l v r = (ctx, node x c l v r) := by
      simp only [succZ, h2, if_false]
    refine ⟨x, c, l, v, r, by rw [e1], ?_, by rw [e1], by rw [e1], by rw [e1], ?_, ?_⟩
    · by_contra h3
      simp only [not_or] at h3
      exact h2 ⟨h3.2, h3.1⟩
    · rw [e1]; simp [depth]
    · rw [e1]
      by_cases hl : l.ptr ≠ none
      · have hr : r = nil := by
          cases r with
          | nil => rfl
          | node _ _ _ _ _ => exact absurd ⟨by simp, hl⟩ h2
        subst hr
        exact ⟨keysL ctx ++ l.keys, keysR ctx, by simp [keys_plug], by simp [keys_plug, hl]⟩
      · have hl2 : l = nil := by
          cases l with
          | nil => rfl
          | node _ _ _ _ _ => simp at hl
        subst hl2
        exact ⟨keysL ctx, r.keys ++ keysR ctx, by simp [keys_plug], by simp [keys_plug]⟩

theorem find_plug_length (v : Int) : ∀ (t : Tr) (ctx : List Frame),
    (find v ctx t).1.length + (find v ctx t).2.depth ≤ ctx.length + t.depth
  | nil, ctx => by simp [find]
  | node a c l x r, ctx => by
    unfold find
    split_ifs
    · simp
    · have := find_plug_length v l (⟨a, c, x, false, r⟩ :: ctx)
      simp only [List.length_cons, depth] at this ⊢
      omega
    · have := find_plug_length v r (⟨a, c, x, true, l⟩ :: ctx)
      simp only [List.length_cons, depth] at this ⊢
      omega

theorem mem_remove_of_sorted {A B : List Int} {v : Int}
    (hs : (A ++ v :: B).Pairwise (· < ·)) (w : Int) :
    w ∈ A ++ B ↔ w ∈ A ++ v :: B ∧ w ≠ v := by
  rw [List.pairwise_append] at hs
  obtain ⟨-, hB, hAB⟩ := hs
  rw [List.pairwise_cons] at hB
  simp only [List.mem_append, List.mem_cons]
  constructor
  · rintro (h | h)
    · exact ⟨Or.inl h, ne_of_lt (hAB w h v (by simp))⟩
    · exact ⟨Or.inr (Or.inr h), ne_of_gt (hB.1 w h)⟩
  · rintro ⟨h | h | h, hne⟩
    · exact Or.inl h
    · exact absurd h hne
    · exact Or.inr h

/-- `remove` of a present value on shapes: with fuel for the depth of the tree the
result is a valid red-black search tree holding the values before but `v`. -/
theorem del_valid {T : Tr} {v : Int} (hV : Valid T) (hf : (find v [] T).2 ≠ nil)
    {fuel : Nat} (hfu : T.depth < fuel) :
    ∃ T1, del fuel T v = some T1 ∧ Valid T1 ∧ (∀ w, w ∈ T1.keys ↔ w ∈ T.keys ∧ w ≠ v) ∧
      T1.keys.length + 1 = T.keys.length := by
  obtain ⟨-, -, hfv⟩ := find_bounds v T [] hV.sorted (by simp [keysL]) (by simp [keysR])
  rcases hfv with hfv | ⟨x, c, l, r, hX⟩
  · exact absurd hfv hf
  have hfind : find v [] T = ((find v [] T).1, node x c l v r) := by rw [← hX]
  have hT : plug (find v [] T).1 (node x c l v r) = T := by
    rw [← hX]; exact find_plug v T []
  have hlen := find_plug_length v T []
  rw [hX] at hlen
  generalize (find v [] T).1 = ctx at hfind hT hlen
  rw [del, hfind]
  dsimp only
  obtain ⟨m, cm, ml, mv, mr, hM, hone, hB, hN, hC, hL, A, B, hk1, hk2⟩ :=
    succZ_facts ctx x c l v r
  rw [hT] at hB hN hC hk1
  generalize (succZ ctx x c l v r).1 = ctx1 at *
  rw [hM] at hB hN hC ⊢
  obtain ⟨hMb, hBc⟩ := (Bal_plug _ _).1 (hB.2 hV.bal)
  obtain ⟨hMn, hNc, htop⟩ := (NoRR_plug _ _).1 (hN.2 hV.norr)
  have hlast : lastBlack ctx1 := by
    cases ctx1 with
    | nil => trivial
    | cons f rest => exact lastBlack_of_plug _ _ (hC.trans hV.root) (by simp)
  have hfuel : ctx1.length + 2 ≤ fuel := by
    simp only [List.length_nil, zero_add] at hlen
    omega
  -- the child that takes the place of the node
  have hCh : ∃ C, (if ml.ptr ≠ none then ml else mr) = C ∧ C.Bal ∧ C.NoRR ∧ C.bh = 0 ∧
      (node m cm ml mv mr).bh = (if cm = BLACK then 1 else 0) ∧ (cm = RED → C.color = BLACK) := by
    simp only [Bal_node, NoRR_node, bh_node] at hMb hMn ⊢
    obtain ⟨b1, b2, b3⟩ := hMb
    obtain ⟨n1, n2, n3⟩ := hMn
    refine ⟨_, rfl, ?_⟩
    rcases hone with h | h
    · have : ml = nil := by
        cases ml with
        | nil => rfl
        | node _ _ _ _ _ => simp at h
      subst this
      simp only [bh_nil] at b3
      simp only [ptr_nil, ne_eq, not_true_eq_false, if_false, bh_nil]
      refine ⟨b2, n2, b3.symm, ?_, fun hc => (n3 hc).2⟩
      rw [← b3]; simp
    · have : mr = nil := by
        cases mr with
        | nil => rfl
        | node _ _ _ _ _ => simp at h
      subst this
      simp only [bh_nil] at b3
      by_cases hl : ml.ptr ≠ none
      · simp only [hl, if_true, ne_eq, not_false_eq_true]
        refine ⟨b1, n1, b3, ?_, fun hc => (n3 hc).1⟩
        rw [b3]; simp
      · simp only [hl, if_false]
        refine ⟨trivial, trivial, rfl, ?_, fun _ => rfl⟩
        rw [b3]; simp
  obtain ⟨C, hCe, hCb, hCn, hC0, hMbh, hCr⟩ := hCh
  rw [hCe] at hk2
  have hloop : ∃ T1, delLoop fuel true (unlinkZ (node m cm ml mv mr)).1 ctx1
      (unlinkZ (node m cm ml mv mr)).2 = some T1 ∧ T1.Bal ∧ T1.NoRR ∧ T1.color = BLACK ∧
      T1.keys = (plug ctx1 C).keys := by
    rw [hMbh] at hBc
    rw [unlinkZ, hCe]
    by_cases hc1 : cm = BLACK ∧ C.color = RED
    · simp only [hc1, and_self, if_true]
      obtain ⟨T1, e, k1, k2, k3, k4⟩ := delLoop_valid fuel true RED ctx1 (C.paint BLACK)
        ((Bal_paint _ _).2 hCb) hNc hlast (Or.inl hfuel)
        (fun _ => ⟨NoRR_paint_black hCn, color_paint_black C, by
          rw [bh_paint_black hc1.2, hC0]
          simpa [hc1.1] using hBc⟩)
        (by intro h; cases h)
      exact ⟨T1, e, k1, k2, k3, k4.trans (keys_plug_paint _ _ _)⟩
    · simp only [hc1, if_false]
      have hCc : C.color = BLACK := by
        rcases color_cases cm with h | h
        · exact hCr h
        · rcases color_cases C.color with h3 | h3
          · exact absurd ⟨h, h3⟩ hc1
          · exact h3
      exact delLoop_valid fuel true cm ctx1 C hCb hNc hlast (Or.inl hfuel)
        (fun _ => ⟨hCn, hCc, by
          rw [hC0]
          rcases color_cases cm with h | h
          · simpa [h] using hBc
          · simpa [h] using hBc⟩)
        (by intro h; cases h)
  obtain ⟨T1, e, k1, k2, k3, k4⟩ := hloop
  rw [hk2] at k4
  have hs := hV.sorted
  rw [hk1] at hs
  refine ⟨T1, e, ⟨k3, k1, k2, ?_, ?_⟩, ?_, ?_⟩
  · rw [k4]
    exact hs.sublist (List.Sublist.append_left (List.sublist_cons_self v B) A)
  · intro k hk
    rw [k4] at hk
    exact hV.range k (by
      rw [hk1]
      simp only [List.mem_append, List.mem_cons] at hk ⊢
      tauto)
  · intro w
    rw [k4, hk1]
    exact mem_remove_of_sorted hs w
  · rw [k4, hk1]
    simp only [List.length_append, List.length_cons]
    omega

/-! # The checks of `isSane` -/

theorem wrap32_id {z : Int} (h1 : INT_MIN ≤ z) (h2 : z ≤ INT_MAX) : wrap32 z = z := by
  unfold wrap32
  unfold INT_MIN at h1
  unfold INT_MAX at h2
  omega

/-- A balanced tree of black height `n` has at least `2 ^ n - 1` nodes. -/
theorem pow_bh_le : ∀ (t : Tr), t.Bal → 2 ^ t.bh ≤ t.keys.length + 1
  | nil, _ => by simp
  | node a c l v r, hb => by
    simp only [Bal_node] at hb
    obtain ⟨b1, b2, b3⟩ := hb
    have h1 := pow_bh_le l b1
    have h2 := pow_bh_le r b2
    rw [← b3] at h2
    have h3 : 2 ^ (node a c l v r).bh ≤ 2 * 2 ^ l.bh := by
      rw [bh_node, ← b3, max_self]
      cases c
      · simp
      · simp [pow_succ]; omega
    simp only [keys_node, List.length_append, List.length_cons]
    omega

/-- An increasing list of integers between `lo` and `hi` has at most `hi - lo + 1`
elements. -/
theorem sorted_length_le : ∀ (l : List Int) (lo hi : Int), l.Pairwise (· < ·) →
    (∀ k ∈ l, lo ≤ k ∧ k ≤ hi) → lo ≤ hi + 1 → (l.length : Int) ≤ hi - lo + 1
  | [], lo, hi, _, _, h => by simp; omega
  | k :: l, lo, hi, hs, hr, _ => by
    rw [List.pairwise_cons] at hs
    have hk := hr k (by simp)
    have := sorted_length_le l (k + 1) hi hs.2
      (fun j hj => ⟨by have := hs.1 j hj; omega, (hr j (by simp [hj])).2⟩) (by omega)
    simp only [List.length_cons, Nat.cast_add, Nat.cast_one]
    omega

theorem bh_le_of_valid {T : Tr} (hV : Valid T) : T.bh ≤ 32 := by
  have h1 := pow_bh_le T hV.bal
  have h2 := sorted_length_le T.keys INT_MIN INT_MAX hV.sorted hV.range (by decide)
  have h3 : T.keys.length ≤ 4294967296 := by
    unfold INT_MIN INT_MAX at h2
    omega
  by_contra hc
  have h4 : 2 ^ 33 ≤ 2 ^ T.bh := Nat.pow_le_pow_right (by decide) (by omega)
  have h5 : (2 : Nat) ^ 33 = 8589934592 := by norm_num
  omega

theorem blackHeight_spec {h : Heap} : ∀ (t : Tr) (p : Option Nat) (d : Bool) (fuel : Nat),
    Rep h p d t → t.Bal → t.bh ≤ 32 → t.depth < fuel →
    blackHeight h fuel t.ptr = some (t.bh : Int)
  | nil, p, d, fuel, _, _, _, hf => by
    obtain ⟨n, rfl⟩ : ∃ n, fuel = n + 1 := ⟨fuel - 1, by omega⟩
    simp [blackHeight]
  | node a c l v r, p, d, fuel, hr, hb, hn, hf => by
    obtain ⟨n, rfl⟩ : ∃ n, fuel = n + 1 := ⟨fuel - 1, by omega⟩
    obtain ⟨h0, hl, hr⟩ := hr
    simp only [Bal_node] at hb
    obtain ⟨b1, b2, b3⟩ := hb
    simp only [depth] at hf
    have hbl : l.bh ≤ 32 := by
      rw [bh_node] at hn
      have := le_max_left l.bh r.bh
      omega
    have e1 := blackHeight_spec l _ _ n hl b1 hbl (by omega)
    have e2 := blackHeight_spec r _ _ n hr b2 (by omega) (by omega)
    simp only [ptr_node, blackHeight, h0, e1, e2]
    simp only [b3, ge_iff_le, Nat.cast_nonneg, and_self, if_true, bh_node, max_self]
    cases c
    · simp
    · simp only [if_true]
      rw [wrap32_id (by unfold INT_MIN; omega) (by unfold INT_MAX; omega)]
      simp only [Nat.cast_add, Nat.cast_one]
      rw [add_comm]

theorem redViolation_spec {h : Heap} : ∀ (t : Tr) (p : Nat) (d : Bool) (fuel : Nat)
    (pn : RBNode), Rep h (some p) d t → h p = some pn → t.NoRR →
    (pn.m_color = RED → t.color = BLACK) → t.depth < fuel →
    redViolation h fuel (some p) t.ptr = some false
  | nil, p, d, fuel, pn, _, _, _, _, hf => by
    obtain ⟨n, rfl⟩ : ∃ n, fuel = n + 1 := ⟨fuel - 1, by omega⟩
    simp [redViolation]
  | node a c l v r, p, d, fuel, pn, hr, hp, hn, hc, hf => by
    obtain ⟨n, rfl⟩ : ∃ n, fuel = n + 1 := ⟨fuel - 1, by omega⟩
    obtain ⟨h0, hl, hr⟩ := hr
    simp only [NoRR_node] at hn
    obtain ⟨n1, n2, n3⟩ := hn
    simp only [depth] at hf
    have e1 := redViolation_spec l a false n _ hl h0 n1 (fun hc => (n3 hc).1) (by omega)
    have e2 := redViolation_spec r a true n _ hr h0 n2 (fun hc => (n3 hc).2) (by omega)
    simp only [ptr_node, redViolation, h0, rd, hp, e1, e2]
    have : ¬ (RED = pn.m_color ∧ RED = c) := by
      rintro ⟨k1, k2⟩
      have := hc k1.symm
      simp only [color_node] at this
      rw [this] at k2
      cases k2
    simp only [this, if_false]

theorem validParents_spec {h : Heap} : ∀ (t : Tr) (p : Option Nat) (d : Bool) (fuel : Nat),
    Rep h p d t → t.depth < fuel → validParents h fuel p (toID d) t.ptr = some true
  | nil, p, d, fuel, _, hf => by
    obtain ⟨n, rfl⟩ : ∃ n, fuel = n + 1 := ⟨fuel - 1, by omega⟩
    simp [validParents]
  | node a c l v r, p, d, fuel, hr, hf => by
    obtain ⟨n, rfl⟩ : ∃ n, fuel = n + 1 := ⟨fuel - 1, by omega⟩
    obtain ⟨h0, hl, hr⟩ := hr
    simp only [depth] at hf
    have e1 := validParents_spec l _ false n hl (by omega)
    have e2 := validParents_spec r _ true n hr (by omega)
    simp only [toID_false, toID_true] at e1 e2
    simp only [ptr_node, validParents, h0, e1, e2, and_self, if_true]

theorem inOrder_spec {h : Heap} : ∀ (t : Tr) (p : Option Nat) (d : Bool) (fuel : Nat)
    (lo hi : Int), Rep h p d t → t.keys.Pairwise (· < ·) →
    (∀ k ∈ t.keys, lo ≤ k ∧ k ≤ hi) → INT_MIN ≤ lo → hi ≤ INT_MAX → t.depth < fuel →
    inOrder h fuel t.ptr lo hi = some true
  | nil, p, d, fuel, lo, hi, _, _, _, _, _, hf => by
    obtain ⟨n, rfl⟩ : ∃ n, fuel = n + 1 := ⟨fuel - 1, by omega⟩
    simp [inOrder]
  | node a c l v r, p, d, fuel, lo, hi, hr, hs, hk, hlo, hhi, hf => by
    obtain ⟨n, rfl⟩ : ∃ n, fuel = n + 1 := ⟨fuel - 1, by omega⟩
    obtain ⟨h0, hl, hr⟩ := hr
    simp only [depth] at hf
    simp only [keys_node] at hs hk
    rw [List.pairwise_append] at hs
    obtain ⟨s1, s2, s3⟩ := hs
    rw [List.pairwise_cons] at s2
    have hv := hk v (by simp)
    -- the left subtree
    have e1 : inOrder h n l.ptr lo (wrap32 (v - 1)) = some true := by
      cases l with
      | nil =>
        obtain ⟨m, rfl⟩ : ∃ m, n = m + 1 := ⟨n - 1, by omega⟩
        simp [inOrder]
      | node a1 c1 l1 v1 r1 =>
        have h1 : v1 < v := s3 v1 (by simp) v (by simp)
        have h2 := hk v1 (by simp)
        rw [wrap32_id (by omega) (by omega)]
        exact inOrder_spec _ _ _ n lo (v - 1) hl s1
          (fun k hk1 => ⟨(hk k (List.mem_append.2 (Or.inl hk1))).1, by
            have := s3 k hk1 v (by simp)
            omega⟩) hlo (by omega) (by omega)
    have e2 : inOrder h n r.ptr (wrap32 (v + 1)) hi = some true := by
      cases r with
      | nil =>
        obtain ⟨m, rfl⟩ : ∃ m, n = m + 1 := ⟨n - 1, by omega⟩
        simp [inOrder]
      | node a1 c1 l1 v1 r1 =>
        have h1 : v < v1 := s2.1 v1 (by simp)
        have h2 := hk v1 (by simp)
        rw [wrap32_id (by omega) (by omega)]
        exact inOrder_spec _ _ _ n (v + 1) hi hr s2.2
          (fun k hk1 => ⟨by
            have := s2.1 k hk1
            omega, (hk k (List.mem_append.2 (Or.inr (List.mem_cons_of_mem _ hk1)))).2⟩) (by omega) hhi (by omega)
    simp only [ptr_node, inOrder, h0, hv, and_self, if_true, e1, e2]

/-- The sanity check accepts every valid red-black search tree, given fuel for its
depth. -/
theorem isSane_spec {t : RBTree} {T : Tr} (hz : RepZ t.heap t.sentinel [] T) (hV : Valid T)
    {fuel : Nat} (hf : T.depth < fuel) : isSane fuel t = some true := by
  obtain ⟨sn, k1, k2, k3⟩ := sentinel_child hz
  have hs := hz.hs
  simp only [hp_nil, hd_nil] at hs
  cases T with
  | nil => simp [isSane, rd_some, k1, andThen_some, k2]
  | node a c l v r =>
    have h0 := hs.1
    have hc : c = BLACK := by simpa using hV.root
    subst hc
    have e1 := blackHeight_spec _ _ _ fuel hs hV.bal (bh_le_of_valid hV) hf
    have e2 := redViolation_spec _ _ _ fuel sn hs k1 hV.norr (fun _ => rfl) hf
    have e3 := validParents_spec _ _ _ fuel hs hf
    have e4 := inOrder_spec _ _ _ fuel INT_MIN INT_MAX hs hV.sorted hV.range (le_refl _)
      (le_refl _) hf
    simp only [toID_false] at e3
    simp only [ptr_node] at e1 e2 e3 e4 k2
    simp only [isSane, rd_some, k1, andThen_some, k2, rd, h0, if_true, e1, e2, e3, e4,
      ge_iff_le, Nat.cast_nonneg]

/-! # More fuel does not change a result -/

theorem andThen_mono {α β : Type} {x y : Option α} {f g : α → Option β} {b : β}
    (hx : ∀ a, x = some a → y = some a) (hf : ∀ a, f a = some b → g a = some b)
    (h : andThen x f = some b) : andThen y g = some b := by
  cases x with
  | none => simp [andThen] at h
  | some a =>
    rw [hx a rfl]
    simp only [andThen] at h ⊢
    exact hf a h

theorem mono_of_succ {α : Type} {f : Nat → Option α}
    (hs : ∀ n r, f n = some r → f (n + 1) = some r) {n m : Nat} {r : α}
    (h : f n = some r) (hnm : n ≤ m) : f m = some r := by
  induction hnm with
  | refl => exact h
  | step _ ih => exact hs _ _ ih

theorem lookupLoop_succ (h : Heap) (v : Int) : ∀ (fuel : Nat) (x : Option Nat) (r : Bool),
    lookupLoop h v fuel x = some r → lookupLoop h v (fuel + 1) x = some r := by
  intro fuel
  induction fuel with
  | zero => intro x r hr; simp [lookupLoop] at hr
  | succ n ih =>
    intro x r hr
    cases x with
    | none => simpa [lookupLoop] using hr
    | some a =>
      rw [lookupLoop] at hr ⊢
      cases hh : h a with
      | none => simp [hh] at hr
      | some xn =>
        simp only [hh] at hr ⊢
        by_cases h1 : xn.m_val = v
        · simpa only [h1, if_true] using hr
        · simp only [h1, if_false] at hr ⊢
          generalize xn.child (if v < xn.m_val then 0 else 1) = ch at hr ⊢
          cases ch with
          | none => simp at hr
          | some c =>
            dsimp only at hr ⊢
            exact ih c r hr

theorem insertFind_succ (h : Heap) (v : Int) : ∀ (fuel : Nat) (curr : Nat) (cID : Int)
    (x : Option Nat) (r : Option (Nat × Int)),
    insertFind h v fuel curr cID x = some r → insertFind h v (fuel + 1) curr cID x = some r := by
  intro fuel
  induction fuel with
  | zero => intro curr cID x r hr; simp [insertFind] at hr
  | succ n ih =>
    intro curr cID x r hr
    cases x with
    | none => simpa [insertFind] using hr
    | some a =>
      rw [insertFind] at hr ⊢
      cases hh : h a with
      | none => simp [hh] at hr
      | some xn =>
        simp only [hh] at hr ⊢
        by_cases h1 : xn.m_val = v
        · simpa only [h1, if_true] using hr
        · simp only [h1, if_false] at hr ⊢
          generalize xn.child (if v < xn.m_val then 0 else 1) = ch at hr ⊢
          cases ch with
          | none => simp at hr
          | some c =>
            dsimp only at hr ⊢
            exact ih _ _ c r hr

theorem removeFind_succ (h : Heap) (v : Int) : ∀ (fuel : Nat) (x : Option Nat)
    (r : Option Nat),
    removeFind h v fuel x = some r → removeFind h v (fuel + 1) x = some r := by
  intro fuel
  induction fuel with
  | zero => intro x r hr; simp [removeFind] at hr
  | succ n ih =>
    intro x r hr
    cases x with
    | none => simpa [removeFind] using hr
    | some a =>
      rw [removeFind] at hr ⊢
      cases hh : h a with
      | none => simp [hh] at hr
      | some xn =>
        simp only [hh] at hr ⊢
        by_cases h1 : xn.m_val = v
        · simpa only [h1, if_true] using hr
        · simp only [h1, if_false] at hr ⊢
          generalize xn.child (if v < xn.m_val then 0 else 1) = ch at hr ⊢
          cases ch with
          | none => simp at hr
          | some c =>
            dsimp only at hr ⊢
            exact ih c r hr

theorem leftmost_succ (h : Heap) : ∀ (fuel : Nat) (x : Option Nat) (r : Option Nat),
    leftmost h fuel x = some r → leftmost h (fuel + 1) x = some r := by
  intro fuel
  induction fuel with
  | zero => intro x r hr; simp [leftmost] at hr
  | succ n ih =>
    intro x r hr
    rw [leftmost] at hr ⊢
    cases hh : rd h x with
    | none => simp [hh] at hr
    | some xn =>
      simp only [hh] at hr ⊢
      cases hc : xn.m_child0 with
      | none => simpa [hc] using hr
      | some c =>
        simp only [hc] at hr ⊢
        exact ih _ r hr

theorem insertFix_succ (sen : Nat) : ∀ (fuel : Nat) (h : Heap) (x : Option Nat) (r : Heap),
    insertFix sen fuel h x = some r → insertFix sen (fuel + 1) h x = some r := by
  intro fuel
  induction fuel with
  | zero => intro h x r hr; simp [insertFix] at hr
  | succ n ih =>
    intro h x r hr
    rw [insertFix] at hr ⊢
    cases hh : insertFixStep sen h x with
    | none => simp [hh] at hr
    | some s =>
      obtain ⟨h1, c⟩ := s
      cases c with
      | none => simpa [hh] using hr
      | some c =>
        simp only [hh] at hr ⊢
        exact ih _ _ r hr

theorem removeFix_succ (sen : Nat) : ∀ (fuel : Nat) (h : Heap) (x : Option Nat)
    (r : Heap × Option Nat),
    removeFix sen fuel h x = some r → removeFix sen (fuel + 1) h x = some r := by
  intro fuel
  induction fuel with
  | zero => intro h x r hr; simp [removeFix] at hr
  | succ n ih =>
    intro h x r hr
    rw [removeFix] at hr ⊢
    cases hh : removeFixStep sen h x with
    | none => simp [hh] at hr
    | some s =>
      obtain ⟨h1, c, b⟩ := s
      cases b with
      | false => simpa [hh] using hr
      | true =>
        simp only [hh] at hr ⊢
        exact ih _ _ r hr

theorem lookup_mono {t : RBTree} {v : Int} {n m : Nat} {r : Bool}
    (h : lookup n t v = some r) (hnm : n ≤ m) : lookup m t v = some r := by
  unfold lookup at h ⊢
  exact andThen_mono (fun _ e => e)
    (fun sn e => mono_of_succ (f := fun k => lookupLoop t.heap v k sn.m_child0)
      (fun k r => lookupLoop_succ _ _ k _ r) e hnm) h

theorem insert_mono {t : RBTree} {a : Nat} {v : Int} {n m : Nat} {r : RBTree × Bool}
    (h : insert n t a v = some r) (hnm : n ≤ m) : insert m t a v = some r := by
  unfold insert at h ⊢
  refine andThen_mono (fun _ e => e) (fun sn e => ?_) h
  refine andThen_mono (fun x e => mono_of_succ
    (f := fun k => insertFind t.heap v k t.sentinel 0 sn.m_child0)
    (fun k r => insertFind_succ _ _ k _ _ _ r) e hnm) (fun found e => ?_) e
  cases found with
  | none => exact e
  | some cc =>
    obtain ⟨curr, cID⟩ := cc
    dsimp only at e ⊢
    refine andThen_mono (fun _ e => e) (fun h1 e => ?_) e
    refine andThen_mono (fun x e => mono_of_succ
      (f := fun k => insertFix t.sentinel k h1 (some a))
      (fun k r => insertFix_succ _ k _ _ r) e hnm) (fun _ e => e) e

theorem swapWithSuccessor_mono {h : Heap} {x : Option Nat} {n m : Nat}
    {r : Heap × Option Nat} (hs : swapWithSuccessor n h x = some r) (hnm : n ≤ m) :
    swapWithSuccessor m h x = some r := by
  unfold swapWithSuccessor at hs ⊢
  refine andThen_mono (fun _ e => e) (fun xn e => ?_) hs
  dsimp only at e ⊢
  split_ifs at e ⊢
  · refine andThen_mono (fun x e => mono_of_succ
      (f := fun k => leftmost h k xn.m_child1)
      (fun k r => leftmost_succ _ k _ r) e hnm) (fun _ e => e) e
  · exact e

theorem remove_mono {t : RBTree} {v : Int} {n m : Nat} {r : RBTree × Bool}
    (h : remove n t v = some r) (hnm : n ≤ m) : remove m t v = some r := by
  unfold remove at h ⊢
  refine andThen_mono (fun _ e => e) (fun sn e => ?_) h
  refine andThen_mono (fun x e => mono_of_succ
    (f := fun k => removeFind t.heap v k sn.m_child0)
    (fun k r => removeFind_succ _ _ k _ r) e hnm) (fun found e => ?_) e
  cases found with
  | none => exact e
  | some x =>
    dsimp only at e ⊢
    refine andThen_mono (fun _ e => swapWithSuccessor_mono e hnm) (fun r1 e => ?_) e
    refine andThen_mono (fun _ e => e) (fun h1 e => ?_) e
    refine andThen_mono (fun x e => mono_of_succ
      (f := fun k => removeFix t.sentinel k h1 r1.2)
      (fun k r => removeFix_succ _ k _ _ r) e hnm) (fun _ e => e) e

/-! # The operations on represented trees -/

theorem valuesFrom_spec {h : Heap} : ∀ (t : Tr) (p : Option Nat) (d : Bool) (fuel : Nat),
    Rep h p d t → t.depth < fuel → valuesFrom h fuel t.ptr = some t.keys
  | nil, p, d, fuel, _, hf => by
    obtain ⟨n, rfl⟩ : ∃ n, fuel = n + 1 := ⟨fuel - 1, by omega⟩
    simp [valuesFrom]
  | node a c l v r, p, d, fuel, hr, hf => by
    obtain ⟨n, rfl⟩ : ∃ n, fuel = n + 1 := ⟨fuel - 1, by omega⟩
    obtain ⟨h0, hl, hr⟩ := hr
    simp only [depth] at hf
    have e1 := valuesFrom_spec l _ false n hl (by omega)
    have e2 := valuesFrom_spec r _ true n hr (by omega)
    simp only [ptr_node, valuesFrom, h0, e1, e2, keys_node]

theorem storedValues_shape {t : RBTree} {T : Tr} (hz : RepZ t.heap t.sentinel [] T)
    {fuel : Nat} (hf : T.depth < fuel) : storedValues fuel t = some T.keys := by
  obtain ⟨sn, h1, h2, -⟩ := sentinel_child hz
  simp only [storedValues, rd_some, h1, andThen_some, h2]
  exact valuesFrom_spec T _ _ fuel hz.hs hf

theorem lookup_shape {t : RBTree} {T : Tr} (hz : RepZ t.heap t.sentinel [] T) (hV : Valid T)
    {fuel : Nat} (hf : T.depth < fuel) (w : Int) :
    lookup fuel t w = some (decide (w ∈ T.keys)) := by
  rw [lookup_spec hz w fuel hf]
  have := find_mem hV.sorted w
  cases hft : (find w [] T).2 with
  | nil =>
    rw [hft] at this
    simp only [ne_eq, not_true_eq_false, iff_false] at this
    simp [this]
  | node _ _ _ _ _ =>
    rw [hft] at this
    simp only [ne_eq, reduceCtorEq, not_false_eq_true, iff_true] at this
    simp [this]

theorem insert_shape_present {t : RBTree} {T : Tr} (hz : RepZ t.heap t.sentinel [] T)
    (hV : Valid T) (a : Nat) {v : Int} (hm : v ∈ T.keys) {fuel : Nat} (hf : T.depth < fuel) :
    insert fuel t a v = some (t, false) :=
  insert_found hz a hf ((find_mem hV.sorted v).1 hm)

theorem insert_shape_absent {T : Tr} (hV : Valid T) (a : Nat) {v : Int}
    (hv : INT_MIN ≤ v ∧ v ≤ INT_MAX) (hm : v ∉ T.keys) :
    ∃ T1, Valid T1 ∧ (∀ w, w ∈ T1.keys ↔ w = v ∨ w ∈ T.keys) ∧
      T1.keys.length = T.keys.length + 1 ∧
      ∀ t : RBTree, RepZ t.heap t.sentinel [] T → t.heap a = none →
        ∀ fuel, T.depth + 1 < fuel →
          ∃ h1, insert fuel t a v = some (⟨t.sentinel, h1⟩, true) ∧
            RepZ h1 t.sentinel [] T1 := by
  have hf : (find v [] T).2 = nil := by
    by_contra hc
    exact hm ((find_mem hV.sorted v).2 hc)
  obtain ⟨k1, k2, k3⟩ := ins_valid a hV hv hf
  exact ⟨ins T a v, k1, k2, k3, fun t hz ha fuel hfu => insert_absent hz ha hfu hf⟩

theorem remove_shape_absent {t : RBTree} {T : Tr} (hz : RepZ t.heap t.sentinel [] T)
    (hV : Valid T) {v : Int} (hm : v ∉ T.keys) {fuel : Nat} (hf : T.depth < fuel) :
    remove fuel t v = some (t, false) := by
  refine remove_absent hz hf ?_
  by_contra hc
  exact hm ((find_mem hV.sorted v).2 hc)

theorem remove_shape_present {T : Tr} (hV : Valid T) {v : Int} (hm : v ∈ T.keys) :
    ∃ T1, Valid T1 ∧ (∀ w, w ∈ T1.keys ↔ w ∈ T.keys ∧ w ≠ v) ∧
      T1.keys.length + 1 = T.keys.length ∧
      ∀ t : RBTree, RepZ t.heap t.sentinel [] T →
        ∀ fuel, T.depth < fuel →
          ∃ h1, remove fuel t v = some (⟨t.sentinel, h1⟩, true) ∧
            RepZ h1 t.sentinel [] T1 := by
  have hf := (find_mem hV.sorted v).1 hm
  obtain ⟨T1, e, k1, k2, k3⟩ := del_valid hV hf (Nat.lt_succ_self T.depth)
  refine ⟨T1, k1, k2, k3, fun t hz fuel hfu => ?_⟩
  obtain ⟨h1, e1, z1⟩ := remove_present hz (Nat.lt_succ_self T.depth) hf e
  exact ⟨h1, remove_mono e1 hfu, z1⟩

/-- Whatever a call of `insert` returns, the state it leaves holds a valid tree with the
values before and `v`. -/
theorem insert_result {t t1 : RBTree} {T : Tr} (hz : RepZ t.heap t.sentinel [] T)
    (hV : Valid T) {a : Nat} (ha : t.heap a = none) {v : Int}
    (hv : INT_MIN ≤ v ∧ v ≤ INT_MAX) {fuel : Nat} {r : Bool}
    (e : insert fuel t a v = some (t1, r)) :
    ∃ T1, RepZ t1.heap t1.sentinel [] T1 ∧ Valid T1 ∧
      (∀ w, w ∈ T1.keys ↔ w = v ∨ w ∈ T.keys) := by
  by_cases hm : v ∈ T.keys
  · have e1 := insert_shape_present hz hV a hm (Nat.lt_succ_self T.depth)
    have e2 := insert_mono e1 (le_max_left (T.depth + 1) fuel)
    have e3 := insert_mono e (le_max_right (T.depth + 1) fuel)
    rw [e2] at e3
    simp only [Option.some.injEq, Prod.mk.injEq] at e3
    rw [← e3.1]
    exact ⟨T, hz, hV, fun w => ⟨Or.inr, fun h => h.elim (fun h => h ▸ hm) id⟩⟩
  · obtain ⟨T1, k1, k2, -, k4⟩ := insert_shape_absent hV a hv hm
    obtain ⟨h1, e1, z1⟩ := k4 t hz ha (T.depth + 2) (by omega)
    have e2 := insert_mono e1 (le_max_left (T.depth + 2) fuel)
    have e3 := insert_mono e (le_max_right (T.depth + 2) fuel)
    rw [e2] at e3
    simp only [Option.some.injEq, Prod.mk.injEq] at e3
    rw [← e3.1]
    exact ⟨T1, z1, k1, k2⟩

/-- Whatever a call of `remove` returns, the state it leaves holds a valid tree with the
values before but `v`. -/
theorem remove_result {t t1 : RBTree} {T : Tr} (hz : RepZ t.heap t.sentinel [] T)
    (hV : Valid T) {v : Int} {fuel : Nat} {r : Bool}
    (e : remove fuel t v = some (t1, r)) :
    ∃ T1, RepZ t1.heap t1.sentinel [] T1 ∧ Valid T1 ∧
      (∀ w, w ∈ T1.keys ↔ w ∈ T.keys ∧ w ≠ v) := by
  by_cases hm : v ∈ T.keys
  · obtain ⟨T1, k1, k2, -, k4⟩ := remove_shape_present hV hm
    obtain ⟨h1, e1, z1⟩ := k4 t hz (T.depth + 1) (by omega)
    have e2 := remove_mono e1 (le_max_left (T.depth + 1) fuel)
    have e3 := remove_mono e (le_max_right (T.depth + 1) fuel)
    rw [e2] at e3
    simp only [Option.some.injEq, Prod.mk.injEq] at e3
    rw [← e3.1]
    exact ⟨T1, z1, k1, k2⟩
  · have e1 := remove_shape_absent hz hV hm (Nat.lt_succ_self T.depth)
    have e2 := remove_mono e1 (le_max_left (T.depth + 1) fuel)
    have e3 := remove_mono e (le_max_right (T.depth + 1) fuel)
    rw [e2] at e3
    simp only [Option.some.injEq, Prod.mk.injEq] at e3
    rw [← e3.1]
    exact ⟨T, hz, hV, fun w => ⟨fun h => ⟨h, fun e => hm (e ▸ h)⟩, fun h => h.1⟩⟩

/-- Every reachable tree state holds a valid red-black search tree. -/
theorem reach_shape {t : RBTree} (ht : Reach t) :
    ∃ T, RepZ t.heap t.sentinel [] T ∧ Valid T := by
  induction ht with
  | empty s =>
    refine ⟨nil, ⟨?_, trivial, ?_⟩, ⟨rfl, trivial, trivial, ?_, ?_⟩⟩
    · simp [RepC, new, topNode, nodeOf, RBNode.fresh]
    · simp
    · simp
    · simp
  | @insert t t1 fuel a v r _ ha hv e ih =>
    obtain ⟨T, hz, hV⟩ := ih
    obtain ⟨T1, z1, k1, -⟩ := insert_result hz hV ha hv e
    exact ⟨T1, z1, k1⟩
  | @remove t t1 fuel v r _ e ih =>
    obtain ⟨T, hz, hV⟩ := ih
    obtain ⟨T1, z1, k1, -⟩ := remove_result hz hV e
    exact ⟨T1, z1, k1⟩

theorem sorted_ext {L1 L2 : List Int} (h1 : L1.Pairwise (· < ·)) (h2 : L2.Pairwise (· < ·))
    (h : ∀ w, w ∈ L1 ↔ w ∈ L2) : L1 = L2 := by
  have n1 : L1.Nodup := h1.imp (fun hab => ne_of_lt hab)
  have n2 : L2.Nodup := h2.imp (fun hab => ne_of_lt hab)
  exact List.eq_of_perm_of_sorted ((List.perm_ext_iff_of_nodup n1 n2).2 h) h1 h2

theorem sample_reach : Reach sample := by
  have r1 : Reach (afterInsert (new 0) 1 2) :=
    @Reach.insert _ _ 8 1 2 true (Reach.empty 0) rfl (by decide) rfl
  have r2 : Reach (afterInsert (afterInsert (new 0) 1 2) 2 1) :=
    @Reach.insert _ _ 8 2 1 true r1 rfl (by decide) rfl
  exact @Reach.insert _ _ 8 3 3 true r2 rfl (by decide) rfl

/-- `modify` on a represented tree. -/
theorem modify_shape {T : Tr} (hV : Valid T) (a : Nat) {v : Int}
    (hv : INT_MIN ≤ v ∧ v ≤ INT_MAX) :
    ∃ T1, Valid T1 ∧ (∀ w, w ∈ T1.keys ↔ (w ≠ v ∧ w ∈ T.keys) ∨ (w = v ∧ v ∉ T.keys)) ∧
      ∀ t : RBTree, RepZ t.heap t.sentinel [] T → t.heap a = none →
        ∀ fuel, T.depth + 1 < fuel →
          ∃ h1, modify fuel t a v = some ⟨t.sentinel, h1⟩ ∧ RepZ h1 t.sentinel [] T1 := by
  by_cases hm : v ∈ T.keys
  · obtain ⟨T1, k1, k2, -, k4⟩ := remove_shape_present hV hm
    refine ⟨T1, k1, fun w => ?_, fun t hz ha fuel hf => ?_⟩
    · rw [k2]; tauto
    · obtain ⟨h1, e1, z1⟩ := k4 t hz fuel (by omega)
      refine ⟨h1, ?_, z1⟩
      simp only [modify, lookup_shape hz hV (show T.depth < fuel by omega), hm, decide_True,
        andThen_some, if_true, e1]
  · obtain ⟨T1, k1, k2, -, k4⟩ := insert_shape_absent hV a hv hm
    refine ⟨T1, k1, fun w => ?_, fun t hz ha fuel hf => ?_⟩
    · rw [k2]
      constructor
      · rintro (h | h)
        · exact Or.inr ⟨h, hm⟩
        · exact Or.inl ⟨fun e => hm (e ▸ h), h⟩
      · rintro (h | h)
        · exact Or.inr h.2
        · exact Or.inl h.1
    · obtain ⟨h1, e1, z1⟩ := k4 t hz ha fuel hf
      refine ⟨h1, ?_, z1⟩
      simp only [modify, lookup_shape hz hV (show T.depth < fuel by omega), hm, decide_False,
        andThen_some, Bool.false_eq_true, if_false, e1]

/-! # The contracts of the operations on reachable trees -/

/-- C1: `insert` preserves validity.  For every tree state reached from the empty tree by
calls of `insert` and `remove`, every address `a` that `malloc` may return and every
`int` value `v`, the call `insert(v)` returns, and in the state that it leaves `isSane()`
returns true. -/
theorem insert_preserves_isSane (t : RBTree) (ht : Reach t) (a : Nat)
    (ha : t.heap a = none) (v : Int) (hv : INT_MIN ≤ v ∧ v ≤ INT_MAX) :
    (∃ N, ∀ fuel, N ≤ fuel → ∃ t1 r, insert fuel t a v = some (t1, r)) ∧
      ∀ fuel t1 r, insert fuel t a v = some (t1, r) →
        ∃ N, ∀ k, N ≤ k → isSane k t1 = some true := by
  obtain ⟨T, hz, hV⟩ := reach_shape ht
  constructor
  · by_cases hm : v ∈ T.keys
    · exact ⟨T.depth + 1, fun fuel hf =>
        ⟨t, false, insert_shape_present hz hV a hm (by omega)⟩⟩
    · obtain ⟨T1, -, -, -, k4⟩ := insert_shape_absent hV a hv hm
      refine ⟨T.depth + 2, fun fuel hf => ?_⟩
      obtain ⟨h1, e1, -⟩ := k4 t hz ha fuel (by omega)
      exact ⟨_, _, e1⟩
  · intro fuel t1 r e
    obtain ⟨T1, z1, k1, -⟩ := insert_result hz hV ha hv e
    exact ⟨T1.depth + 1, fun k hk => isSane_spec z1 k1 (by omega)⟩

/-- Validity after `insert`, at the sample tree with the unused address 4 and the value 7. -/
theorem insert_preserves_isSane_witness :
    Reach sample ∧ sample.heap 4 = none ∧
      ((∃ N, ∀ fuel, N ≤ fuel → ∃ t1 r, insert fuel sample 4 7 = some (t1, r)) ∧
        ∀ fuel t1 r, insert fuel sample 4 7 = some (t1, r) →
          ∃ N, ∀ k, N ≤ k → isSane k t1 = some true) :=
  ⟨sample_reach, rfl, insert_preserves_isSane sample sample_reach 4 rfl 7 (by decide)⟩

/-- C2: `remove` preserves validity.  For every tree state reached from the empty tree by
calls of `insert` and `remove` and every value `v`, present or absent, the call
`remove(v)` returns, and in the state that it leaves `isSane()` returns true, whichever
of the four rebalance cases the call goes through: the black height is uniform and no RED
node has a RED child. -/
theorem remove_preserves_isSane (t : RBTree) (ht : Reach t) (v : Int) :
    (∃ N, ∀ fuel, N ≤ fuel → ∃ t1 r, remove fuel t v = some (t1, r)) ∧
      ∀ fuel t1 r, remove fuel t v = some (t1, r) →
        ∃ N, ∀ k, N ≤ k → isSane k t1 = some true := by
  obtain ⟨T, hz, hV⟩ := reach_shape ht
  constructor
  · by_cases hm : v ∈ T.keys
    · obtain ⟨T1, -, -, -, k4⟩ := remove_shape_present hV hm
      refine ⟨T.depth + 1, fun fuel hf => ?_⟩
      obtain ⟨h1, e1, -⟩ := k4 t hz fuel (by omega)
      exact ⟨_, _, e1⟩
    · exact ⟨T.depth + 1, fun fuel hf =>
        ⟨t, false, remove_shape_absent hz hV hm (by omega)⟩⟩
  · intro fuel t1 r e
    obtain ⟨T1, z1, k1, -⟩ := remove_result hz hV e
    exact ⟨T1.depth + 1, fun k hk => isSane_spec z1 k1 (by omega)⟩

/-- Validity after `remove`, at the sample tree for the value 2 of its root. -/
theorem remove_preserves_isSane_witness :
    Reach sample ∧
      ((∃ N, ∀ fuel, N ≤ fuel → ∃ t1 r, remove fuel sample 2 = some (t1, r)) ∧
        ∀ fuel t1 r, remove fuel sample 2 = some (t1, r) →
          ∃ N, ∀ k, N ≤ k → isSane k t1 = some true) :=
  ⟨sample_reach, remove_preserves_isSane sample sample_reach 2⟩

/-- C3: `lookup` decides membership.  For every reachable tree state and every value `v`,
`lookup(v)` returns, and it returns true exactly when `v` is among the values of the
nodes reachable from the index-0 child of the sentinel, which are in increasing order;
`lookup` yields nothing but this answer, so it leaves every node as it was. -/
theorem lookup_decides_membership (t : RBTree) (ht : Reach t) (v : Int) :
    ∃ N, ∀ fuel, N ≤ fuel →
      ∃ L, storedValues fuel t = some L ∧ L.Pairwise (· < ·) ∧
        lookup fuel t v = some (decide (v ∈ L)) := by
  obtain ⟨T, hz, hV⟩ := reach_shape ht
  exact ⟨T.depth + 1, fun fuel hf => ⟨T.keys, storedValues_shape hz (by omega), hV.sorted,
    lookup_shape hz hV (by omega) v⟩⟩

/-- Membership by `lookup`, at the sample tree for the value 3. -/
theorem lookup_decides_membership_witness :
    Reach sample ∧ ∃ N, ∀ fuel, N ≤ fuel →
      ∃ L, storedValues fuel sample = some L ∧ L.Pairwise (· < ·) ∧
        lookup fuel sample 3 = some (decide (3 ∈ L)) :=
  ⟨sample_reach, lookup_decides_membership sample sample_reach 3⟩

/-- C4: `insert` of an absent value adds exactly that value.  For every reachable tree
state, every address `a` that `malloc` may return and every `int` value `v` with
`lookup(v)` false, `insert(v)` returns true, afterwards `lookup(v)` is true, `lookup(w)`
is as before for every other `w`, the stored values are those before and `v`, and there is
one node more. -/
theorem insert_absent_adds_key (t : RBTree) (ht : Reach t) (a : Nat)
    (ha : t.heap a = none) (v : Int) (hv : INT_MIN ≤ v ∧ v ≤ INT_MAX) :
    ∃ N, ∀ fuel, N ≤ fuel → lookup fuel t v = some false →
      ∃ t1 L L1, insert fuel t a v = some (t1, true) ∧ lookup fuel t1 v = some true ∧
        (∀ w, w ≠ v → lookup fuel t1 w = lookup fuel t w) ∧
        storedValues fuel t = some L ∧ storedValues fuel t1 = some L1 ∧
        (∀ w, w ∈ L1 ↔ w = v ∨ w ∈ L) ∧ L1.length = L.length + 1 := by
  obtain ⟨T, hz, hV⟩ := reach_shape ht
  by_cases hm : v ∈ T.keys
  · refine ⟨T.depth + 1, fun fuel hf hl => ?_⟩
    rw [lookup_shape hz hV (by omega) v] at hl
    simp [hm] at hl
  · obtain ⟨T1, k1, k2, k3, k4⟩ := insert_shape_absent hV a hv hm
    refine ⟨max (T.depth + 2) (T1.depth + 1), fun fuel hf _ => ?_⟩
    have hf1 : T.depth + 2 ≤ fuel := le_trans (le_max_left _ _) hf
    have hf2 : T1.depth + 1 ≤ fuel := le_trans (le_max_right _ _) hf
    obtain ⟨h1, e1, z1⟩ := k4 t hz ha fuel (by omega)
    refine ⟨_, T.keys, T1.keys, e1, ?_, fun w hw => ?_, storedValues_shape hz (by omega),
      storedValues_shape z1 (by omega), k2, k3⟩
    · rw [lookup_shape z1 k1 (by omega) v]
      simp [k2]
    · rw [lookup_shape z1 k1 (by omega) w, lookup_shape hz hV (by omega) w]
      simp [k2, hw]

/-- An absent value added, at the sample tree with the unused address 4 and the value 7. -/
theorem insert_absent_adds_key_witness :
    Reach sample ∧ sample.heap 4 = none ∧
      ∃ N, ∀ fuel, N ≤ fuel → lookup fuel sample 7 = some false →
        ∃ t1 L L1, insert fuel sample 4 7 = some (t1, true) ∧
          lookup fuel t1 7 = some true ∧
          (∀ w, w ≠ 7 → lookup fuel t1 w = lookup fuel sample w) ∧
          storedValues fuel sample = some L ∧ storedValues fuel t1 = some L1 ∧
          (∀ w, w ∈ L1 ↔ w = 7 ∨ w ∈ L) ∧ L1.length = L.length + 1 :=
  ⟨sample_reach, rfl, insert_absent_adds_key sample sample_reach 4 rfl 7 (by decide)⟩

/-- C5: `remove` of a present value removes exactly that value.  For every reachable tree
state and every value `v` with `lookup(v)` true, `remove(v)` returns true, afterwards
`lookup(v)` is false, `lookup(w)` is as before for every other `w`, the stored values are
those before but `v`, and there is one node less; the node holding `v` may have two
children. -/
theorem remove_present_removes_key (t : RBTree) (ht : Reach t) (v : Int) :
    ∃ N, ∀ fuel, N ≤ fuel → lookup fuel t v = some true →
      ∃ t1 L L1, remove fuel t v = some (t1, true) ∧ lookup fuel t1 v = some false ∧
        (∀ w, w ≠ v → lookup fuel t1 w = lookup fuel t w) ∧
        storedValues fuel t = some L ∧ storedValues fuel t1 = some L1 ∧
        (∀ w, w ∈ L1 ↔ w ∈ L ∧ w ≠ v) ∧ L1.length + 1 = L.length := by
  obtain ⟨T, hz, hV⟩ := reach_shape ht
  by_cases hm : v ∈ T.keys
  · obtain ⟨T1, k1, k2, k3, k4⟩ := remove_shape_present hV hm
    refine ⟨max (T.depth + 1) (T1.depth + 1), fun fuel hf _ => ?_⟩
    have hf1 : T.depth + 1 ≤ fuel := le_trans (le_max_left _ _) hf
    have hf2 : T1.depth + 1 ≤ fuel := le_trans (le_max_right _ _) hf
    obtain ⟨h1, e1, z1⟩ := k4 t hz fuel (by omega)
    refine ⟨_, T.keys, T1.keys, e1, ?_, fun w hw => ?_, storedValues_shape hz (by omega),
      storedValues_shape z1 (by omega), k2, k3⟩
    · rw [lookup_shape z1 k1 (by omega) v]
      simp [k2]
    · rw [lookup_shape z1 k1 (by omega) w, lookup_shape hz hV (by omega) w]
      simp [k2, hw]
  · refine ⟨T.depth + 1, fun fuel hf hl => ?_⟩
    rw [lookup_shape hz hV (by omega) v] at hl
    simp [hm] at hl

/-- A present value removed, at the sample tree for the value 2, whose node has two children. -/
theorem remove_present_removes_key_witness :
    Reach sample ∧ ∃ N, ∀ fuel, N ≤ fuel → lookup fuel sample 2 = some true →
      ∃ t1 L L1, remove fuel sample 2 = some (t1, true) ∧
        lookup fuel t1 2 = some false ∧
        (∀ w, w ≠ 2 → lookup fuel t1 w = lookup fuel sample w) ∧
        storedValues fuel sample = some L ∧ storedValues fuel t1 = some L1 ∧
        (∀ w, w ∈ L1 ↔ w ∈ L ∧ w ≠ 2) ∧ L1.length + 1 = L.length :=
  ⟨sample_reach, remove_present_removes_key sample sample_reach 2⟩

/-- C6: duplicate `insert` is a no-op.  For every reachable tree state and every value `v`
with `lookup(v)` true, `insert(v)` returns false and the state it leaves is the state
before, heap included; and after any `insert(v)` a second `insert(v)` returns false and
leaves the state of the first. -/
theorem insert_duplicate_noop (t : RBTree) (ht : Reach t) (a : Nat)
    (ha : t.heap a = none) (v : Int) (hv : INT_MIN ≤ v ∧ v ≤ INT_MAX) :
    (∃ N, ∀ fuel, N ≤ fuel → lookup fuel t v = some true →
        insert fuel t a v = some (t, false)) ∧
      ∀ fuel t1 r, insert fuel t a v = some (t1, r) →
        ∀ b, ∃ N, ∀ k, N ≤ k → insert k t1 b v = some (t1, false) := by
  obtain ⟨T, hz, hV⟩ := reach_shape ht
  constructor
  · refine ⟨T.depth + 1, fun fuel hf hl => ?_⟩
    rw [lookup_shape hz hV (by omega) v] at hl
    have hm : v ∈ T.keys := by simpa using hl
    exact insert_shape_present hz hV a hm (by omega)
  · intro fuel t1 r e b
    obtain ⟨T1, z1, k1, k2⟩ := insert_result hz hV ha hv e
    exact ⟨T1.depth + 1, fun k hk =>
      insert_shape_present z1 k1 b ((k2 v).2 (Or.inl rfl)) (by omega)⟩

/-- A duplicate `insert`, at the sample tree for the present value 3. -/
theorem insert_duplicate_noop_witness :
    Reach sample ∧ sample.heap 4 = none ∧
      ((∃ N, ∀ fuel, N ≤ fuel → lookup fuel sample 3 = some true →
          insert fuel sample 4 3 = some (sample, false)) ∧
        ∀ fuel t1 r, insert fuel sample 4 3 = some (t1, r) →
          ∀ b, ∃ N, ∀ k, N ≤ k → insert k t1 b 3 = some (t1, false)) :=
  ⟨sample_reach, rfl, insert_duplicate_noop sample sample_reach 4 rfl 3 (by decide)⟩

/-- C7: `remove` of an absent value is a no-op.  For every reachable tree state and every
value `v` with `lookup(v)` false, `remove(v)` returns false and the state it leaves is
the state before, heap included; and after any `remove(v)` a second `remove(v)` returns
false and leaves the state of the first. -/
theorem remove_absent_noop (t : RBTree) (ht : Reach t) (v : Int) :
    (∃ N, ∀ fuel, N ≤ fuel → lookup fuel t v = some false →
        remove fuel t v = some (t, false)) ∧
      ∀ fuel t1 r, remove fuel t v = some (t1, r) →
        ∃ N, ∀ k, N ≤ k → remove k t1 v = some (t1, false) := by
  obtain ⟨T, hz, hV⟩ := reach_shape ht
  constructor
  · refine ⟨T.depth + 1, fun fuel hf hl => ?_⟩
    rw [lookup_shape hz hV (by omega) v] at hl
    have hm : v ∉ T.keys := by simpa using hl
    exact remove_shape_absent hz hV hm (by omega)
  · intro fuel t1 r e
    obtain ⟨T1, z1, k1, k2⟩ := remove_result hz hV e
    exact ⟨T1.depth + 1, fun k hk =>
      remove_shape_absent z1 k1 (fun h => ((k2 v).1 h).2 rfl) (by omega)⟩

/-- A `remove` of an absent value, at the sample tree for the value 7. -/
theorem remove_absent_noop_witness :
    Reach sample ∧
      ((∃ N, ∀ fuel, N ≤ fuel → lookup fuel sample 7 = some false →
          remove fuel sample 7 = some (sample, false)) ∧
        ∀ fuel t1 r, remove fuel sample 7 = some (t1, r) →
          ∃ N, ∀ k, N ≤ k → remove k t1 7 = some (t1, false)) :=
  ⟨sample_reach, remove_absent_noop sample sample_reach 7⟩

/-- C8: `modify` toggles presence.  For every reachable tree state, every address `a`
that `malloc` may return and every `int` value `v`, `modify(v)` returns, afterwards
`lookup(v)` is the negation of what it was, `lookup(w)` is as before for every other `w`,
and a second `modify(v)` brings back the stored values and the answers of `lookup`. -/
theorem modify_toggles (t : RBTree) (ht : Reach t) (a : Nat)
    (ha : t.heap a = none) (v : Int) (hv : INT_MIN ≤ v ∧ v ≤ INT_MAX) :
    ∃ N, ∀ fuel, N ≤ fuel →
      ∃ t1 b, modify fuel t a v = some t1 ∧ lookup fuel t v = some b ∧
        lookup fuel t1 v = some (!b) ∧
        (∀ w, w ≠ v → lookup fuel t1 w = lookup fuel t w) ∧
        ∀ c, t1.heap c = none → ∃ M, ∀ k, M ≤ k →
          ∃ t2 L, modify k t1 c v = some t2 ∧ storedValues k t = some L ∧
            storedValues k t2 = some L ∧ ∀ w, lookup k t2 w = lookup k t w := by
  obtain ⟨T, hz, hV⟩ := reach_shape ht
  obtain ⟨T1, k1, k2, k4⟩ := modify_shape hV a hv
  refine ⟨max (T.depth + 2) (T1.depth + 1), fun fuel hf => ?_⟩
  have hf1 : T.depth + 2 ≤ fuel := le_trans (le_max_left _ _) hf
  have hf2 : T1.depth + 1 ≤ fuel := le_trans (le_max_right _ _) hf
  obtain ⟨h1, e1, z1⟩ := k4 t hz ha fuel (by omega)
  refine ⟨_, decide (v ∈ T.keys), e1, lookup_shape hz hV (by omega) v, ?_, fun w hw => ?_,
    fun c hc => ?_⟩
  · rw [lookup_shape z1 k1 (by omega) v]
    simp [k2]
  · rw [lookup_shape z1 k1 (by omega) w, lookup_shape hz hV (by omega) w]
    simp [k2, hw]
  · obtain ⟨T2, m1, m2, m4⟩ := modify_shape k1 c hv
    have hk : ∀ w, w ∈ T2.keys ↔ w ∈ T.keys := by
      intro w
      rw [m2, k2, k2]
      by_cases hw : w = v
      · subst hw
        by_cases hm : w ∈ T.keys <;> simp [hm]
      · simp [hw]
    have hL : T2.keys = T.keys := sorted_ext m1.sorted hV.sorted hk
    refine ⟨max (max (T1.depth + 2) (T2.depth + 1)) (T.depth + 1), fun k hk1 => ?_⟩
    have g1 : T1.depth + 2 ≤ k :=
      le_trans (le_trans (le_max_left _ _) (le_max_left _ _)) hk1
    have g2 : T2.depth + 1 ≤ k :=
      le_trans (le_trans (le_max_right _ _) (le_max_left _ _)) hk1
    have g3 : T.depth + 1 ≤ k := le_trans (le_max_right _ _) hk1
    obtain ⟨h2, e2, z2⟩ := m4 ⟨t.sentinel, h1⟩ z1 hc k (by omega)
    refine ⟨_, T.keys, e2, storedValues_shape hz (by omega), ?_, fun w => ?_⟩
    · rw [← hL]
      exact storedValues_shape z2 (by omega)
    · rw [lookup_shape z2 m1 (by omega) w, lookup_shape hz hV (by omega) w, hL]

/-- The toggle of `modify`, at the sample tree with the unused address 4 and the value 2. -/
theorem modify_toggles_witness :
    Reach sample ∧ sample.heap 4 = none ∧
      ∃ N, ∀ fuel, N ≤ fuel →
        ∃ t1 b, modify fuel sample 4 2 = some t1 ∧ lookup fuel sample 2 = some b ∧
          lookup fuel t1 2 = some (!b) ∧
          (∀ w, w ≠ 2 → lookup fuel t1 w = lookup fuel sample w) ∧
          ∀ c, t1.heap c = none → ∃ M, ∀ k, M ≤ k →
            ∃ t2 L, modify k t1 c 2 = some t2 ∧ storedValues k sample = some L ∧
              storedValues k t2 = some L ∧ ∀ w, lookup k t2 w = lookup k sample w :=
  ⟨sample_reach, rfl, modify_toggles sample sample_reach 4 rfl 2 (by decide)⟩

/-- C9: `insert` then `remove` of an absent value restores the set.  For every reachable
tree state, every address `a` that `malloc` may return and every `int` value `v` with
`lookup(v)` false, `insert(v)` returns true, then `remove(v)` returns true, and the
stored values and the answer of `lookup(w)` for every `w` are those before the two
calls. -/
theorem insert_remove_round_trip (t : RBTree) (ht : Reach t) (a : Nat)
    (ha : t.heap a = none) (v : Int) (hv : INT_MIN ≤ v ∧ v ≤ INT_MAX) :
    ∃ N, ∀ fuel, N ≤ fuel → lookup fuel t v = some false →
      ∃ t1 t2 L, insert fuel t a v = some (t1, true) ∧
        remove fuel t1 v = some (t2, true) ∧
        storedValues fuel t = some L ∧ storedValues fuel t2 = some L ∧
        ∀ w, lookup fuel t2 w = lookup fuel t w := by
  obtain ⟨T, hz, hV⟩ := reach_shape ht
  by_cases hm : v ∈ T.keys
  · refine ⟨T.depth + 1, fun fuel hf hl => ?_⟩
    rw [lookup_shape hz hV (by omega) v] at hl
    simp [hm] at hl
  · obtain ⟨T1, k1, k2, -, k4⟩ := insert_shape_absent hV a hv hm
    obtain ⟨T2, m1, m2, -, m4⟩ := remove_shape_present k1 ((k2 v).2 (Or.inl rfl))
    have hk : ∀ w, w ∈ T2.keys ↔ w ∈ T.keys := by
      intro w
      rw [m2, k2]
      by_cases hw : w = v
      · subst hw
        simp [hm]
      · simp [hw]
    have hL : T2.keys = T.keys := sorted_ext m1.sorted hV.sorted hk
    refine ⟨max (max (T.depth + 2) (T1.depth + 1)) (T2.depth + 1), fun fuel hf _ => ?_⟩
    have g1 : T.depth + 2 ≤ fuel :=
      le_trans (le_trans (le_max_left _ _) (le_max_left _ _)) hf
    have g2 : T1.depth + 1 ≤ fuel :=
      le_trans (le_trans (le_max_right _ _) (le_max_left _ _)) hf
    have g3 : T2.depth + 1 ≤ fuel := le_trans (le_max_right _ _) hf
    obtain ⟨h1, e1, z1⟩ := k4 t hz ha fuel (by omega)
    obtain ⟨h2, e2, z2⟩ := m4 ⟨t.sentinel, h1⟩ z1 fuel (by omega)
    refine ⟨_, _, T.keys, e1, e2, storedValues_shape hz (by omega), ?_, fun w => ?_⟩
    · rw [← hL]
      exact storedValues_shape z2 (by omega)
    · rw [lookup_shape z2 m1 (by omega) w, lookup_shape hz hV (by omega) w, hL]

/-- The round trip, at the sample tree with the unused address 4 and the absent value 7. -/
theorem insert_remove_round_trip_witness :
    Reach sample ∧ sample.heap 4 = none ∧
      ∃ N, ∀ fuel, N ≤ fuel → lookup fuel sample 7 = some false →
        ∃ t1 t2 L, insert fuel sample 4 7 = some (t1, true) ∧
          remove fuel t1 7 = some (t2, true) ∧
          storedValues fuel sample = some L ∧ storedValues fuel t2 = some L ∧
          ∀ w, lookup fuel t2 w = lookup fuel sample w :=
  ⟨sample_reach, rfl, insert_remove_round_trip sample sample_reach 4 rfl 7 (by decide)⟩

/-! # The black-height check -/

/-- The result of `blackHeight` is the common number of BLACK nodes of the paths, or -1
when two paths differ. -/
theorem blackHeight_counts (h : Heap) : ∀ (fuel : Nat) (x : Option Nat) (L : List Nat),
    blackCounts h fuel x = some L → (∀ k ∈ L, k ≤ 2147483647) →
    L ≠ [] ∧ ∃ n, blackHeight h fuel x = some n ∧
      ((∀ i ∈ L, (i : Int) = n) ∨ (n = -1 ∧ ∃ i ∈ L, ∃ j ∈ L, i ≠ j)) := by
  intro fuel
  induction fuel with
  | zero => intro x L hL; simp [blackCounts] at hL
  | succ fuel ih =>
    intro x L hL hb
    cases x with
    | none =>
      simp only [blackCounts, Option.some.injEq] at hL
      subst hL
      exact ⟨by simp, 0, rfl, Or.inl (by simp)⟩
    | some a =>
      rw [blackCounts] at hL
      rw [blackHeight]
      cases hh : h a with
      | none => simp [hh] at hL
      | some nd =>
        simp only [hh] at hL ⊢
        cases hl : blackCounts h fuel nd.m_child0 with
        | none => simp [hl] at hL
        | some l =>
          simp only [hl] at hL
          cases hr : blackCounts h fuel nd.m_child1 with
          | none => simp [hr] at hL
          | some r =>
            simp only [hr, Option.some.injEq] at hL
            subst hL
            generalize hc : (if nd.m_color = BLACK then 1 else 0) = c at hb ⊢
            have hbl : ∀ k ∈ l, k + c ≤ 2147483647 := fun k hk =>
              hb (k + c) (List.mem_map.2 ⟨k, List.mem_append.2 (Or.inl hk), rfl⟩)
            have hbr : ∀ k ∈ r, k + c ≤ 2147483647 := fun k hk =>
              hb (k + c) (List.mem_map.2 ⟨k, List.mem_append.2 (Or.inr hk), rfl⟩)
            obtain ⟨nl, bh0, e0, d0⟩ := ih _ l hl (fun k hk => by have := hbl k hk; omega)
            obtain ⟨nr, bh1, e1, d1⟩ := ih _ r hr (fun k hk => by have := hbr k hk; omega)
            obtain ⟨i0, l1, rfl⟩ := List.exists_cons_of_ne_nil nl
            obtain ⟨j0, r1, rfl⟩ := List.exists_cons_of_ne_nil nr
            refine ⟨by simp, ?_⟩
            simp only [e0, e1]
            have memL : ∀ {k}, k ∈ i0 :: l1 → k + c ∈ List.map (fun k => k + c) (i0 :: l1 ++ j0 :: r1) :=
              fun hk => List.mem_map.2 ⟨_, List.mem_append.2 (Or.inl hk), rfl⟩
            have memR : ∀ {k}, k ∈ j0 :: r1 → k + c ∈ List.map (fun k => k + c) (i0 :: l1 ++ j0 :: r1) :=
              fun hk => List.mem_map.2 ⟨_, List.mem_append.2 (Or.inr hk), rfl⟩
            rcases d0 with u0 | ⟨rfl, i, hi, j, hj, hij⟩
            · have hi0 : (i0 : Int) = bh0 := u0 i0 (by simp)
              rcases d1 with u1 | ⟨rfl, i, hi, j, hj, hij⟩
              · have hj0 : (j0 : Int) = bh1 := u1 j0 (by simp)
                by_cases heq : bh1 = bh0
                · have hcond : bh0 ≥ 0 ∧ bh1 = bh0 := ⟨by omega, heq⟩
                  simp only [hcond, and_self, if_true]
                  refine ⟨_, rfl, Or.inl ?_⟩
                  intro k hk
                  obtain ⟨k0, hk0, rfl⟩ := List.mem_map.1 hk
                  have hk1 : (k0 : Int) = bh0 := by
                    rcases List.mem_append.1 hk0 with h1 | h1
                    · exact u0 k0 h1
                    · rw [u1 k0 h1, heq]
                  have hbi := hbl i0 (by simp)
                  by_cases hB : nd.m_color = BLACK
                  · simp only [hB, if_true] at hc ⊢
                    subst hc
                    rw [wrap32_id (by unfold INT_MIN; omega) (by unfold INT_MAX; omega)]
                    push_cast
                    omega
                  · have hB2 : ¬ BLACK = nd.m_color := fun e => hB e.symm
                    simp only [hB, if_false] at hc
                    simp only [hB2, if_false]
                    subst hc
                    simpa using hk1
                · have hcond : ¬ (bh0 ≥ 0 ∧ bh1 = bh0) := fun hc => heq hc.2
                  simp only [hcond, if_false]
                  refine ⟨_, rfl, Or.inr ⟨rfl, i0 + c, memL (by simp), j0 + c, memR (by simp), ?_⟩⟩
                  intro e
                  apply heq
                  omega
              · have hcond : ¬ (bh0 ≥ 0 ∧ (-1 : Int) = bh0) := by omega
                simp only [hcond, if_false]
                exact ⟨_, rfl, Or.inr ⟨rfl, i + c, memR hi, j + c, memR hj, by omega⟩⟩
            · have hcond : ¬ ((-1 : Int) ≥ 0 ∧ bh1 = -1) := by omega
              simp only [hcond, if_false]
              exact ⟨_, rfl, Or.inr ⟨rfl, i + c, memL hi, j + c, memL hj, by omega⟩⟩

/-- C10: `blackHeight` detects non-uniform black height exactly.  For every finite subtree
`x` (the traversal within the fuel finds the numbers `L` of BLACK nodes of its paths down
to absent-child positions, each of them in the range of `int`), `blackHeight(x)` returns;
it returns -1 exactly when two paths pass through different numbers of BLACK nodes, and
otherwise the common, non-negative number; for an absent subtree it returns 0. -/
theorem blackHeight_exact (h : Heap) (fuel : Nat) (x : Option Nat) (L : List Nat)
    (hL : blackCounts h fuel x = some L) (hb : ∀ k ∈ L, k ≤ 2147483647) :
    ∃ n, blackHeight h fuel x = some n ∧
      (n = -1 ↔ ∃ i ∈ L, ∃ j ∈ L, i ≠ j) ∧
      ((¬ ∃ i ∈ L, ∃ j ∈ L, i ≠ j) → 0 ≤ n ∧ ∀ i ∈ L, (i : Int) = n) ∧
      (x = none → n = 0) := by
  obtain ⟨hne, n, e, d⟩ := blackHeight_counts h fuel x L hL hb
  obtain ⟨i0, l1, rfl⟩ := List.exists_cons_of_ne_nil hne
  refine ⟨n, e, ⟨fun hn => ?_, fun hd => ?_⟩, fun hu => ?_, fun hx => ?_⟩
  · rcases d with u | ⟨-, hd⟩
    · have := u i0 (by simp)
      omega
    · exact hd
  · rcases d with u | ⟨hn, -⟩
    · obtain ⟨i, hi, j, hj, hij⟩ := hd
      have h1 := u i hi
      have h2 := u j hj
      omega
    · exact hn
  · rcases d with u | ⟨-, hd⟩
    · refine ⟨?_, u⟩
      have := u i0 (by simp)
      omega
    · exact absurd hd hu
  · subst hx
    cases fuel with
    | zero => simp [blackCounts] at hL
    | succ k =>
      simp only [blackHeight, Option.some.injEq] at e
      exact e.symm

/-- The black-height check at the root of the sample tree, whose four paths each pass through
one BLACK node. -/
theorem blackHeight_exact_witness :
    blackCounts sample.heap 8 (some 1) = some [1, 1, 1, 1] ∧
      (∀ k ∈ ([1, 1, 1, 1] : List Nat), k ≤ 2147483647) ∧
      ∃ n, blackHeight sample.heap 8 (some 1) = some n ∧
        (n = -1 ↔ ∃ i ∈ ([1, 1, 1, 1] : List Nat), ∃ j ∈ ([1, 1, 1, 1] : List Nat), i ≠ j) ∧
        ((¬ ∃ i ∈ ([1, 1, 1, 1] : List Nat), ∃ j ∈ ([1, 1, 1, 1] : List Nat), i ≠ j) →
          0 ≤ n ∧ ∀ i ∈ ([1, 1, 1, 1] : List Nat), (i : Int) = n) ∧
        ((some 1 : Option Nat) = none → n = 0) :=
  ⟨rfl, by decide, blackHeight_exact sample.heap 8 (some 1) [1, 1, 1, 1] rfl (by decide)⟩

/-- C12: `redViolation` is exact.  For every node `p` and every finite subtree `x` (the
traversal within the fuel finds whether a RED node inside it has a RED child),
`redViolation(p, x)` returns, and it returns true exactly when `p` and `x` are both RED or
some node of the subtree at `x` is RED and has a RED child; for an absent `x` it returns
false. -/
theorem redViolation_exact (h : Heap) (fuel : Nat) (p : Nat) (pn : RBNode) (x : Option Nat)
    (b : Bool) (hp : h p = some pn) (hx : redRedIn h fuel x = some b) :
    ∃ r, redViolation h fuel (some p) x = some r ∧
      (r = true ↔ (pn.m_color = RED ∧ colorAt h RED x = true) ∨ b = true) ∧
      (x = none → r = false) := by
  induction fuel generalizing p pn x b with
  | zero => simp [redRedIn] at hx
  | succ fuel ih =>
    cases x with
    | none =>
      simp only [redRedIn, Option.some.injEq] at hx
      subst hx
      exact ⟨false, rfl, by simp [colorAt], fun _ => rfl⟩
    | some a =>
      rw [redRedIn] at hx
      rw [redViolation]
      cases hh : h a with
      | none => simp [hh] at hx
      | some n =>
        simp only [hh] at hx ⊢
        cases h0 : redRedIn h fuel n.m_child0 with
        | none => simp [h0] at hx
        | some b0 =>
          simp only [h0] at hx
          cases h1 : redRedIn h fuel n.m_child1 with
          | none => simp [h1] at hx
          | some b1 =>
            simp only [h1, Option.some.injEq] at hx
            obtain ⟨r0, e0, k0, -⟩ := ih a n n.m_child0 b0 hh h0
            obtain ⟨r1, e1, k1, -⟩ := ih a n n.m_child1 b1 hh h1
            simp only [rd, hp]
            have hcx : colorAt h RED (some a) = decide (n.m_color = RED) := by
              simp [colorAt, hh]
            by_cases hc : RED = pn.m_color ∧ RED = n.m_color
            · rw [if_pos hc]
              refine ⟨true, rfl, ?_, by simp⟩
              simp [hcx, ← hc.1, ← hc.2]
            · rw [if_neg hc]
              simp only [e0]
              have hc2 : ¬ (pn.m_color = RED ∧ colorAt h RED (some a) = true) := by
                rw [hcx]
                simp only [decide_eq_true_eq]
                exact fun hh2 => hc ⟨hh2.1.symm, hh2.2.symm⟩
              cases r0 with
              | true =>
                refine ⟨true, rfl, ?_, by simp⟩
                have := k0.1 rfl
                subst hx
                rcases this with ⟨g1, g2⟩ | g
                · simp [g1, g2]
                · simp [g]
              | false =>
                dsimp only
                refine ⟨r1, e1, ?_, by simp⟩
                have n0 : ¬ ((n.m_color = RED ∧ colorAt h RED n.m_child0 = true) ∨ b0 = true) :=
                  fun hh2 => by simpa using k0.2 hh2
                simp only [not_or, not_and] at n0
                rw [k1]
                subst hx
                simp only [hc2, false_or, Bool.or_eq_true, Bool.and_eq_true, decide_eq_true_eq]
                constructor
                · rintro (⟨g1, g2⟩ | g)
                  · exact Or.inl (Or.inl ⟨g1, Or.inr g2⟩)
                  · exact Or.inr g
                · rintro ((⟨g1, g2 | g2⟩ | g) | g)
                  · exact absurd g2 (n0.1 g1)
                  · exact Or.inl ⟨g1, g2⟩
                  · exact absurd g n0.2
                  · exact Or.inr g

/-- The red-violation check below the sentinel of the sample tree, at its BLACK root with
two RED children. -/
theorem redViolation_exact_witness :
    sample.heap 0 = some { RBNode.fresh with m_child0 := some 1 } ∧
      redRedIn sample.heap 8 (some 1) = some false ∧
      ∃ r, redViolation sample.heap 8 (some 0) (some 1) = some r ∧
        (r = true ↔
          (({ RBNode.fresh with m_child0 := some 1 } : RBNode).m_color = RED ∧
            colorAt sample.heap RED (some 1) = true) ∨ false = true) ∧
        ((some 1 : Option Nat) = none → r = false) :=
  ⟨rfl, rfl, redViolation_exact sample.heap 8 0 _ (some 1) false rfl rfl⟩

/-- C13, as amended: for every finite subtree `x` whose paths to absent-child positions
all pass through the same number of BLACK nodes below `x` (numbers in the range of
`int`), `blackHeight(x)` returns that number, plus one when `x` itself is BLACK: it counts
the BLACK nodes on a path with `x` included. -/
theorem blackHeight_below (h : Heap) (fuel : Nat) (x : Option Nat) (L : List Nat)
    (hL : blackCountsBelow h fuel x = some L) (hu : ∀ i ∈ L, ∀ j ∈ L, i = j)
    (hb : ∀ k ∈ L, k < 2147483647) :
    ∃ n, blackHeight h fuel x = some n ∧
      ∀ i ∈ L, n = (i : Int) + (if colorAt h BLACK x = true then 1 else 0) := by
  cases fuel with
  | zero => simp [blackCountsBelow] at hL
  | succ fuel =>
    cases x with
    | none =>
      simp only [blackCountsBelow, Option.some.injEq] at hL
      subst hL
      exact ⟨0, rfl, by simp [colorAt]⟩
    | some a =>
      rw [blackCountsBelow] at hL
      cases hh : h a with
      | none => simp [hh] at hL
      | some nd =>
        simp only [hh] at hL
        cases hl : blackCounts h fuel nd.m_child0 with
        | none => simp [hl] at hL
        | some l =>
          simp only [hl] at hL
          cases hr : blackCounts h fuel nd.m_child1 with
          | none => simp [hr] at hL
          | some r =>
            simp only [hr, Option.some.injEq] at hL
            subst hL
            have hC : blackCounts h (fuel + 1) (some a) =
                some ((l ++ r).map fun k => k + (if nd.m_color = BLACK then 1 else 0)) := by
              rw [blackCounts]
              simp only [hh, hl, hr]
            have hcx : colorAt h BLACK (some a) = decide (nd.m_color = BLACK) := by
              simp [colorAt, hh]
            rw [hcx]
            generalize hc : (if nd.m_color = BLACK then 1 else 0) = c at hC
            have hc1 : c ≤ 1 := by
              rw [← hc]; split_ifs <;> omega
            have hci : (if decide (nd.m_color = BLACK) = true then (1 : Int) else 0) = (c : Int) := by
              rw [← hc]
              by_cases hB : nd.m_color = BLACK <;> simp [hB]
            rw [hci]
            obtain ⟨-, n, e, d⟩ := blackHeight_counts h (fuel + 1) (some a) _ hC (by
              intro k hk
              obtain ⟨k0, hk0, rfl⟩ := List.mem_map.1 hk
              have := hb k0 hk0
              omega)
            refine ⟨n, e, fun i hi => ?_⟩
            rcases d with u | ⟨-, i1, hi1, j1, hj1, hij⟩
            · have := u (i + c) (List.mem_map.2 ⟨i, hi, rfl⟩)
              rw [← this]
              push_cast
              rfl
            · obtain ⟨i0, hi0, rfl⟩ := List.mem_map.1 hi1
              obtain ⟨j0, hj0, rfl⟩ := List.mem_map.1 hj1
              exact absurd (by rw [hu i0 hi0 j0 hj0]) hij

/-- The amended black-height statement at the root of the sample tree: no BLACK node
below the BLACK root, and `blackHeight` returns 1. -/
theorem blackHeight_below_witness :
    blackCountsBelow sample.heap 8 (some 1) = some [0, 0, 0, 0] ∧
      (∀ i ∈ ([0, 0, 0, 0] : List Nat), ∀ j ∈ ([0, 0, 0, 0] : List Nat), i = j) ∧
      (∀ k ∈ ([0, 0, 0, 0] : List Nat), k < 2147483647) ∧
      ∃ n, blackHeight sample.heap 8 (some 1) = some n ∧
        ∀ i ∈ ([0, 0, 0, 0] : List Nat),
          n = (i : Int) + (if colorAt sample.heap BLACK (some 1) = true then 1 else 0) :=
  ⟨rfl, by decide, by decide,
    blackHeight_below sample.heap 8 (some 1) [0, 0, 0, 0] rfl (by decide) (by decide)⟩

/-- C13 as stated fails at the root of the sample tree: every path from the BLACK root
down to an absent-child position passes through no BLACK node below the root, so the
glossary's black-height is 0, yet `blackHeight` returns 1. -/
theorem blackHeight_below_counterexample :
    ∃ (L : List Nat) (n : Int), blackCountsBelow sample.heap 8 (some 1) = some L ∧
      (∀ i ∈ L, ∀ j ∈ L, i = j) ∧ blackHeight sample.heap 8 (some 1) = some n ∧
      ∀ i ∈ L, (i : Int) ≠ n :=
  ⟨[0, 0, 0, 0], 1, rfl, by decide, rfl, by decide⟩

/-- C11 fails on the tree of `misordered`: its root holds `INT_MIN` and its index-0 child
holds 5, which is not less than `INT_MIN`, yet `inOrder(root, INT_MIN, INT_MAX)` returns
true, because the bound `m_val - 1` passed down for the index-0 subtree wraps around to
`INT_MAX`. -/
theorem inOrder_accepts_misordered :
    inOrder misordered 3 (some 1) INT_MIN INT_MAX = some true ∧
      wrap32 (INT_MIN - 1) = INT_MAX ∧
      ∃ n c, misordered 1 = some n ∧ n.m_child0 = some 2 ∧ misordered 2 = some c ∧
        INT_MIN ≤ c.m_val ∧ c.m_val ≤ INT_MAX ∧ ¬ c.m_val < n.m_val :=
  ⟨by decide, by decide, _, _, rfl, rfl, rfl, by decide, by decide, by decide⟩

/-- The empty tree holds the empty shape. -/
theorem RepZ_new (s : Nat) : RepZ (new s).heap (new s).sentinel [] nil := by
  refine ⟨?_, trivial, ?_⟩
  · simp [RepC, new, topNode, nodeOf, RBNode.fresh]
  · simp

/-- C14: the concrete insertion scenario.  Starting from the empty tree, the calls
`insert(10)`, `insert(5)`, `insert(15)`, `insert(3)`, `insert(7)` all return true, whatever
address free at the time `malloc` gives each of them and for every fuel from 5 on, and they
leave a tree in which `lookup(5)` is true, `lookup(20)` is false, the index-0 child of the
sentinel holds 10 and is BLACK, and `isSane()` is true. -/
theorem insert_scenario (s : Nat) :
    ∀ a1 f1, (new s).heap a1 = none → 5 ≤ f1 →
      ∃ t1, insert f1 (new s) a1 10 = some (t1, true) ∧
    ∀ a2 f2, t1.heap a2 = none → 5 ≤ f2 →
      ∃ t2, insert f2 t1 a2 5 = some (t2, true) ∧
    ∀ a3 f3, t2.heap a3 = none → 5 ≤ f3 →
      ∃ t3, insert f3 t2 a3 15 = some (t3, true) ∧
    ∀ a4 f4, t3.heap a4 = none → 5 ≤ f4 →
      ∃ t4, insert f4 t3 a4 3 = some (t4, true) ∧
    ∀ a5 f5, t4.heap a5 = none → 5 ≤ f5 →
      ∃ t5, insert f5 t4 a5 7 = some (t5, true) ∧
        (∀ fuel, 5 ≤ fuel → lookup fuel t5 5 = some true ∧
          lookup fuel t5 20 = some false ∧ isSane fuel t5 = some true) ∧
        ∃ sn root rn, t5.heap t5.sentinel = some sn ∧ sn.m_child0 = some root ∧
          t5.heap root = some rn ∧ rn.m_val = 10 ∧ rn.m_color = BLACK := by
  intro a1 f1 h1 hf1
  obtain ⟨g1, e1, z1⟩ := insert_absent (v := 10) (RepZ_new s) h1
    (show nil.depth + 1 < f1 by simp only [depth]; omega) rfl
  refine ⟨_, e1, fun a2 f2 h2 hf2 => ?_⟩
  obtain ⟨g2, e2, z2⟩ := insert_absent (t := ⟨(new s).sentinel, g1⟩) (v := 5) z1 h2
    (show (ins nil a1 10).depth + 1 < f2 by simp [ins, insFix, find, plug, depth]; omega) rfl
  refine ⟨_, e2, fun a3 f3 h3 hf3 => ?_⟩
  have hT2 : ins (ins nil a1 10) a2 5 = node a1 BLACK (node a2 RED nil 5 nil) 10 nil := rfl
  rw [hT2] at z2
  have d3 : (node a1 BLACK (node a2 RED nil 5 nil) 10 nil).depth + 1 < f3 := by
    simp [depth]
    omega
  obtain ⟨g3, e3, z3⟩ := insert_absent (t := ⟨(new s).sentinel, g2⟩) (v := 15) z2 h3 d3 rfl
  refine ⟨_, e3, fun a4 f4 h4 hf4 => ?_⟩
  have hT3 : ins (node a1 BLACK (node a2 RED nil 5 nil) 10 nil) a3 15 =
      node a1 BLACK (node a2 RED nil 5 nil) 10 (node a3 RED nil 15 nil) := rfl
  rw [hT3] at z3
  have d4 : (node a1 BLACK (node a2 RED nil 5 nil) 10 (node a3 RED nil 15 nil)).depth + 1 <
      f4 := by
    simp [depth]
    omega
  obtain ⟨g4, e4, z4⟩ := insert_absent (t := ⟨(new s).sentinel, g3⟩) (v := 3) z3 h4 d4 rfl
  refine ⟨_, e4, fun a5 f5 h5 hf5 => ?_⟩
  have hT4 : ins (node a1 BLACK (node a2 RED nil 5 nil) 10 (node a3 RED nil 15 nil)) a4 3 =
      node a1 BLACK (node a2 BLACK (node a4 RED nil 3 nil) 5 nil) 10
        (node a3 BLACK nil 15 nil) := rfl
  rw [hT4] at z4
  have d5 : (node a1 BLACK (node a2 BLACK (node a4 RED nil 3 nil) 5 nil) 10
      (node a3 BLACK nil 15 nil)).depth + 1 < f5 := by
    simp [depth]
    omega
  obtain ⟨g5, e5, z5⟩ := insert_absent (t := ⟨(new s).sentinel, g4⟩) (v := 7) z4 h5 d5 rfl
  have hT : ins (node a1 BLACK (node a2 BLACK (node a4 RED nil 3 nil) 5 nil) 10
      (node a3 BLACK nil 15 nil)) a5 7 =
      node a1 BLACK (node a2 BLACK (node a4 RED nil 3 nil) 5 (node a5 RED nil 7 nil)) 10
        (node a3 BLACK nil 15 nil) := rfl
  rw [hT] at z5
  have hV : Valid (node a1 BLACK (node a2 BLACK (node a4 RED nil 3 nil) 5
      (node a5 RED nil 7 nil)) 10 (node a3 BLACK nil 15 nil)) := by
    refine ⟨rfl, by simp, by simp, by simp, ?_⟩
    intro k hk
    simp only [keys_node, keys_nil, List.nil_append, List.cons_append, List.mem_cons,
      List.mem_singleton, List.not_mem_nil, or_false] at hk
    unfold INT_MIN INT_MAX
    omega
  refine ⟨_, e5, fun fuel hfu => ?_, ?_⟩
  · have hd : (node a1 BLACK (node a2 BLACK (node a4 RED nil 3 nil) 5
        (node a5 RED nil 7 nil)) 10 (node a3 BLACK nil 15 nil)).depth < fuel := by
      simp [depth]
      omega
    refine ⟨?_, ?_, isSane_spec (t := ⟨(new s).sentinel, g5⟩) z5 hV hd⟩
    · rw [lookup_shape (t := ⟨(new s).sentinel, g5⟩) z5 hV hd 5]; simp
    · rw [lookup_shape (t := ⟨(new s).sentinel, g5⟩) z5 hV hd 20]; simp
  · obtain ⟨sn, k1, k2, -⟩ := sentinel_child z5
    have k3 := z5.hs.1
    exact ⟨sn, a1, _, k1, k2, k3, rfl, rfl⟩

/-- The insertion scenario with the sentinel at address 0, the five nodes at the addresses
1 to 5 and fuel 8: the five calls return true, and the tree they leave. -/
theorem insert_scenario_witness :
    ((new 0).heap 1 = none ∧
      insert 8 (new 0) 1 10 = some (afterInserts (new 0) [(1, 10)], true) ∧
      (afterInserts (new 0) [(1, 10)]).heap 2 = none ∧
      insert 8 (afterInserts (new 0) [(1, 10)]) 2 5 =
        some (afterInserts (new 0) [(1, 10), (2, 5)], true) ∧
      (afterInserts (new 0) [(1, 10), (2, 5)]).heap 3 = none ∧
      insert 8 (afterInserts (new 0) [(1, 10), (2, 5)]) 3 15 =
        some (afterInserts (new 0) [(1, 10), (2, 5), (3, 15)], true) ∧
      (afterInserts (new 0) [(1, 10), (2, 5), (3, 15)]).heap 4 = none ∧
      insert 8 (afterInserts (new 0) [(1, 10), (2, 5), (3, 15)]) 4 3 =
        some (afterInserts (new 0) [(1, 10), (2, 5), (3, 15), (4, 3)], true) ∧
      (afterInserts (new 0) [(1, 10), (2, 5), (3, 15), (4, 3)]).heap 5 = none ∧
      insert 8 (afterInserts (new 0) [(1, 10), (2, 5), (3, 15), (4, 3)]) 5 7 =
        some (afterInserts (new 0) [(1, 10), (2, 5), (3, 15), (4, 3), (5, 7)], true) ∧
      lookup 8 (afterInserts (new 0) [(1, 10), (2, 5), (3, 15), (4, 3), (5, 7)]) 5 =
        some true ∧
      lookup 8 (afterInserts (new 0) [(1, 10), (2, 5), (3, 15), (4, 3), (5, 7)]) 20 =
        some false ∧
      isSane 8 (afterInserts (new 0) [(1, 10), (2, 5), (3, 15), (4, 3), (5, 7)]) =
        some true) ∧
    ∀ a1 f1, (new 0).heap a1 = none → 5 ≤ f1 →
      ∃ t1, insert f1 (new 0) a1 10 = some (t1, true) ∧
    ∀ a2 f2, t1.heap a2 = none → 5 ≤ f2 →
      ∃ t2, insert f2 t1 a2 5 = some (t2, true) ∧
    ∀ a3 f3, t2.heap a3 = none → 5 ≤ f3 →
      ∃ t3, insert f3 t2 a3 15 = some (t3, true) ∧
    ∀ a4 f4, t3.heap a4 = none → 5 ≤ f4 →
      ∃ t4, insert f4 t3 a4 3 = some (t4, true) ∧
    ∀ a5 f5, t4.heap a5 = none → 5 ≤ f5 →
      ∃ t5, insert f5 t4 a5 7 = some (t5, true) ∧
        (∀ fuel, 5 ≤ fuel → lookup fuel t5 5 = some true ∧
          lookup fuel t5 20 = some false ∧ isSane fuel t5 = some true) ∧
        ∃ sn root rn, t5.heap t5.sentinel = some sn ∧ sn.m_child0 = some root ∧
          t5.heap root = some rn ∧ rn.m_val = 10 ∧ rn.m_color = BLACK :=
  ⟨⟨rfl, rfl, rfl, rfl, rfl, rfl, rfl, rfl, rfl, rfl, rfl, rfl, rfl⟩, insert_scenario 0⟩

/-! # The sentinel -/

theorem andThen_eq_some {α β : Type} {x : Option α} {f : α → Option β} {b : β}
    (h : andThen x f = some b) : ∃ a, x = some a ∧ f a = some b := by
  cases x with
  | none => simp [andThen] at h
  | some a => exact ⟨a, rfl, h⟩

/-- A call of `insert` leaves the sentinel pointer of the tree object as it is. -/
theorem insert_sentinel {t t1 : RBTree} {fuel a : Nat} {v : Int} {r : Bool}
    (e : insert fuel t a v = some (t1, r)) : t1.sentinel = t.sentinel := by
  unfold insert at e
  obtain ⟨sn, -, e⟩ := andThen_eq_some e
  obtain ⟨found, -, e⟩ := andThen_eq_some e
  cases found with
  | none =>
    simp only [Option.some.injEq, Prod.mk.injEq] at e
    rw [← e.1]
  | some cc =>
    obtain ⟨curr, cID⟩ := cc
    dsimp only at e
    obtain ⟨h1, -, e⟩ := andThen_eq_some e
    obtain ⟨h2, -, e⟩ := andThen_eq_some e
    obtain ⟨s2, -, e⟩ := andThen_eq_some e
    obtain ⟨rn, -, e⟩ := andThen_eq_some e
    obtain ⟨h3, -, e⟩ := andThen_eq_some e
    simp only [Option.some.injEq, Prod.mk.injEq] at e
    rw [← e.1]

/-- A call of `remove` leaves the sentinel pointer of the tree object as it is. -/
theorem remove_sentinel {t t1 : RBTree} {fuel : Nat} {v : Int} {r : Bool}
    (e : remove fuel t v = some (t1, r)) : t1.sentinel = t.sentinel := by
  unfold remove at e
  obtain ⟨sn, -, e⟩ := andThen_eq_some e
  obtain ⟨found, -, e⟩ := andThen_eq_some e
  cases found with
  | none =>
    simp only [Option.some.injEq, Prod.mk.injEq] at e
    rw [← e.1]
  | some x =>
    dsimp only at e
    obtain ⟨r1, -, e⟩ := andThen_eq_some e
    obtain ⟨h2, -, e⟩ := andThen_eq_some e
    obtain ⟨r3, -, e⟩ := andThen_eq_some e
    obtain ⟨h4, -, e⟩ := andThen_eq_some e
    obtain ⟨h5, -, e⟩ := andThen_eq_some e
    simp only [Option.some.injEq, Prod.mk.injEq] at e
    rw [← e.1]

/-- C20: the sentinel is stable.  In every state reached from a freshly constructed tree by
calls of `insert` and `remove`, the sentinel node is the node that the constructor built
but for its index-0 child: its colour (BLACK), value, parent, index and (absent) index-1
child are those of the new node; the root, when present, has the sentinel as its parent
and index 0; and a call of `insert` or `remove` leaves the sentinel pointer as it is. -/
theorem sentinel_stable (t : RBTree) (ht : Reach t) :
    (∃ root, t.heap t.sentinel = some { RBNode.fresh with m_child0 := root } ∧
        ({ RBNode.fresh with m_child0 := root } : RBNode).m_color = BLACK ∧
        ({ RBNode.fresh with m_child0 := root } : RBNode).m_child1 = none ∧
        ∀ a, root = some a →
          ∃ n, t.heap a = some n ∧ n.m_parent = some t.sentinel ∧ n.m_ID = 0) ∧
      (∀ fuel a v t1 r, insert fuel t a v = some (t1, r) → t1.sentinel = t.sentinel) ∧
      ∀ fuel v t1 r, remove fuel t v = some (t1, r) → t1.sentinel = t.sentinel := by
  obtain ⟨T, hz, -⟩ := reach_shape ht
  refine ⟨⟨T.ptr, ?_, rfl, rfl, fun a ha => ?_⟩, fun _ _ _ _ _ e => insert_sentinel e,
    fun _ _ _ _ e => remove_sentinel e⟩
  · have := RepC_top hz.hc
    simpa [hp_nil, topNode, nodeOf, RBNode.fresh] using this
  · obtain ⟨n, g1, g2, g3, -⟩ := Rep_root hz.hs ha
    exact ⟨n, g1, by simpa using g2, by simpa using g3⟩

/-- The sentinel of the sample tree. -/
theorem sentinel_stable_witness :
    Reach sample ∧
      ((∃ root, sample.heap sample.sentinel = some { RBNode.fresh with m_child0 := root } ∧
          ({ RBNode.fresh with m_child0 := root } : RBNode).m_color = BLACK ∧
          ({ RBNode.fresh with m_child0 := root } : RBNode).m_child1 = none ∧
          ∀ a, root = some a →
            ∃ n, sample.heap a = some n ∧ n.m_parent = some sample.sentinel ∧ n.m_ID = 0) ∧
        (∀ fuel a v t1 r, insert fuel sample a v = some (t1, r) →
          t1.sentinel = sample.sentinel) ∧
        ∀ fuel v t1 r, remove fuel sample v = some (t1, r) → t1.sentinel = sample.sentinel) :=
  ⟨sample_reach, sentinel_stable sample sample_reach⟩

@[simp] theorem pairs_nil : Tr.nil.pairs = 0 := rfl

@[simp] theorem pairs_node (a c l v r) :
    (node a c l v r).pairs = {(a, v)} + (l.pairs + r.pairs) := rfl

@[simp] theorem pairs_paint (t : Tr) (c : Color) : (t.paint c).pairs = t.pairs := by
  cases t <;> rfl

theorem pairs_mk (d a c v x y) :
    (mkT d a c v x y).pairs = {(a, v)} + (x.pairs + y.pairs) := by
  cases d <;> simp [mkT, Tr.pairs, add_comm]

@[simp] theorem pairsC_nil : pairsC [] = 0 := rfl

@[simp] theorem pairsC_cons (f : Frame) (rest : List Frame) :
    pairsC (f :: rest) = {(f.a, f.v)} + (f.s.pairs + pairsC rest) := rfl

theorem pairs_sides (d : Bool) (a c l v r) :
    (node a c l v r).pairs =
      {(a, v)} + (((node a c l v r).side d).pairs + ((node a c l v r).side (!d)).pairs) := by
  cases d <;> simp [Tr.side, add_comm]

theorem plug_pairs : ∀ (ctx : List Frame) (t : Tr), (plug ctx t).pairs = pairsC ctx + t.pairs
  | [], t => by simp [plug]
  | f :: rest, t => by
    rw [plug, plug_pairs rest, Frame.fill, pairs_mk, pairsC_cons]
    abel

theorem pairsC_append : ∀ (sp ctx : List Frame), pairsC (sp ++ ctx) = pairsC sp + pairsC ctx
  | [], ctx => by simp
  | f :: sp, ctx => by
    rw [List.cons_append, pairsC_cons, pairsC_cons, pairsC_append sp]
    abel

theorem delCases_pairs {p : Nat} {cp : Color} {vp : Int} {d : Bool} {S t : Tr}
    {rest : List Frame} {b : Bool} {ctx1 : List Frame} {t1 : Tr}
    (hd : delCases p cp vp d S rest t = some (b, ctx1, t1)) :
    pairsC ctx1 + t1.pairs = {(p, vp)} + (S.pairs + pairsC rest) + t.pairs := by
  cases S with
  | nil => simp [delCases] at hd
  | node s cs sl sv sr =>
    rw [delCases] at hd
    rw [pairs_sides d]
    generalize hN : (node s cs sl sv sr).side d = N at hd ⊢
    generalize hF : (node s cs sl sv sr).side (!d) = F at hd ⊢
    by_cases hFc : F.color = RED
    · simp only [hFc, if_true, Option.some.injEq, Prod.mk.injEq] at hd
      obtain ⟨rfl, rfl, rfl⟩ := hd
      simp only [pairs_mk, pairs_paint]
      abel
    · simp only [hFc, if_false] at hd
      by_cases hNc : N.color = RED
      · simp only [hNc, if_true] at hd
        cases N with
        | nil => simp at hNc
        | node n cn nl nv nr =>
          simp only [Option.some.injEq, Prod.mk.injEq] at hd
          obtain ⟨rfl, rfl, rfl⟩ := hd
          rw [pairs_sides d n]
          simp only [pairs_mk]
          abel
      · simp only [hNc, if_false, Option.some.injEq, Prod.mk.injEq] at hd
        obtain ⟨rfl, rfl, rfl⟩ := hd
        rw [← hN, ← hF, ← pairs_sides d s cs sl sv sr]
        simp only [pairs_mk, pairs_node]
        abel

theorem delStep_pairs {P : Frame} {rest : List Frame} {t : Tr} {b : Bool}
    {ctx1 : List Frame} {t1 : Tr} (hd : delStep P rest t = some (b, ctx1, t1)) :
    pairsC ctx1 + t1.pairs = pairsC (P :: rest) + t.pairs := by
  rw [delStep] at hd
  cases hS : P.s with
  | nil => rw [hS] at hd; simp at hd
  | node s cs sl sv sr =>
    rw [hS] at hd
    simp only at hd
    by_cases hcs : cs = RED
    · simp only [hcs, if_true] at hd
      cases hN : (node s RED sl sv sr).side P.d with
      | nil => subst hcs; rw [hN] at hd; simp at hd
      | node n cn nl nv nr =>
        subst hcs
        rw [hN] at hd
        simp only at hd
        have h1 := delCases_pairs hd
        rw [h1, pairsC_cons, pairsC_cons, hS, pairs_sides P.d s, hN]
        simp only
        abel
    · simp only [hcs, if_false] at hd
      have h1 := delCases_pairs hd
      rw [h1, pairsC_cons, hS]

theorem delLoop_pairs : ∀ (fuel : Nat) {det : Bool} {cc : Color} {ctx : List Frame}
    {t T1 : Tr}, delLoop fuel det cc ctx t = some T1 → T1.pairs = pairsC ctx + t.pairs := by
  intro fuel
  induction fuel with
  | zero => intro det cc ctx t T1 hd; simp [delLoop] at hd
  | succ fuel ih =>
    intro det cc ctx t T1 hd
    cases ctx with
    | nil =>
      simp only [delLoop, Option.some.injEq] at hd
      subst hd
      cases det <;> simp
    | cons P rest =>
      by_cases hred : cc = RED
      · simp only [delLoop, hred, if_true, Option.some.injEq] at hd
        subst hd
        rw [plug_pairs]
        cases det <;> simp
      · simp only [delLoop, hred, if_false] at hd
        cases hs : delStep P rest t with
        | none => rw [hs] at hd; simp at hd
        | some r =>
          obtain ⟨b, ctx1, t1⟩ := r
          rw [hs] at hd
          have ha1 := delStep_pairs hs
          cases b with
          | false =>
            simp only [Option.some.injEq] at hd
            subst hd
            rw [plug_pairs, ha1]
          | true =>
            simp only at hd
            rw [ih hd, ha1]

/-- The record of a node of a represented subtree holds the value that the shape gives. -/
theorem Rep_pairs {h : Heap} : ∀ (t : Tr) (p : Option Nat) (d : Bool) {a : Nat} {v : Int},
    Rep h p d t → (a, v) ∈ t.pairs → ∃ n, h a = some n ∧ n.m_val = v
  | nil, _, _, _, _, _, hm => by simp at hm
  | node b c l w r, p, d, a, v, hr, hm => by
    obtain ⟨h0, hl, hr⟩ := hr
    simp only [pairs_node, Multiset.mem_add, Multiset.mem_singleton, Prod.mk.injEq] at hm
    rcases hm with ⟨rfl, rfl⟩ | hm | hm
    · exact ⟨_, h0, rfl⟩
    · exact Rep_pairs l _ _ hl hm
    · exact Rep_pairs r _ _ hr hm

/-- The parent field of a node of a represented subtree refers to the node above the
subtree or to a node of the subtree. -/
theorem Rep_parent {h : Heap} : ∀ (t : Tr) (p : Option Nat) (d : Bool) {b : Nat},
    Rep h p d t → b ∈ t.addrs →
    ∃ n, h b = some n ∧ (n.m_parent = p ∨ ∃ q ∈ t.addrs, n.m_parent = some q)
  | nil, _, _, _, _, hm => by simp at hm
  | node a c l w r, p, d, b, hr, hm => by
    obtain ⟨h0, hl, hr⟩ := hr
    simp only [addrs_node, Multiset.mem_add, Multiset.mem_singleton] at hm
    rcases hm with rfl | hm | hm
    · exact ⟨_, h0, Or.inl rfl⟩
    · obtain ⟨n, g1, g2⟩ := Rep_parent l _ _ hl hm
      refine ⟨n, g1, Or.inr ?_⟩
      rcases g2 with g2 | ⟨q, hq, g2⟩
      · exact ⟨a, by simp, g2⟩
      · exact ⟨q, by simp [hq], g2⟩
    · obtain ⟨n, g1, g2⟩ := Rep_parent r _ _ hr hm
      refine ⟨n, g1, Or.inr ?_⟩
      rcases g2 with g2 | ⟨q, hq, g2⟩
      · exact ⟨a, by simp, g2⟩
      · exact ⟨q, by simp [hq], g2⟩

theorem mem_nodes : ∀ (t : Tr) (a : Nat), a ∈ t.nodes ↔ a ∈ t.addrs
  | nil, a => by simp [Tr.nodes]
  | node b c l w r, a => by
    simp only [Tr.nodes, List.mem_append, List.mem_cons, addrs_node, Multiset.mem_add,
      Multiset.mem_singleton, mem_nodes l, mem_nodes r]
    tauto

theorem nodesFrom_spec {h : Heap} : ∀ (t : Tr) (p : Option Nat) (d : Bool) (fuel : Nat),
    Rep h p d t → t.depth < fuel → nodesFrom h fuel t.ptr = some t.nodes
  | nil, p, d, fuel, _, hf => by
    obtain ⟨n, rfl⟩ : ∃ n, fuel = n + 1 := ⟨fuel - 1, by omega⟩
    simp [nodesFrom, Tr.nodes]
  | node a c l v r, p, d, fuel, hr, hf => by
    obtain ⟨n, rfl⟩ : ∃ n, fuel = n + 1 := ⟨fuel - 1, by omega⟩
    obtain ⟨h0, hl, hr⟩ := hr
    simp only [depth] at hf
    have e1 := nodesFrom_spec l _ false n hl (by omega)
    have e2 := nodesFrom_spec r _ true n hr (by omega)
    simp only [ptr_node, nodesFrom, h0, e1, e2, Tr.nodes]

theorem andThen_assoc {α β γ : Type} (x : Option α) (f : α → Option β) (g : β → Option γ) :
    andThen (andThen x f) g = andThen x fun a => andThen (f a) g := by
  cases x <;> rfl

/-- A call of `remove` is the call up to the point where it frees a node, followed by
the release of that node. -/
theorem remove_unlinked (fuel : Nat) (t : RBTree) (v : Int) :
    remove fuel t v =
      andThen (removeUnlinked fuel t v) fun u =>
        match u with
        | none => some (t, false)
        | some (h, x_rw) =>
          andThen (release h x_rw) fun h => some ({ t with heap := h }, true) := by
  unfold remove removeUnlinked
  simp only [andThen_assoc]
  congr 1
  funext sentinel_r
  congr 1
  funext x_r
  cases x_r with
  | none => rfl
  | some x =>
    simp only [andThen_assoc]
    rfl

theorem pairs_addrs : ∀ (t : Tr) {a : Nat} {v : Int}, (a, v) ∈ t.pairs → a ∈ t.addrs
  | nil, _, _, hm => by simp at hm
  | node b c l w r, a, v, hm => by
    simp only [pairs_node, Multiset.mem_add, Multiset.mem_singleton, Prod.mk.injEq] at hm
    simp only [addrs_node, Multiset.mem_add, Multiset.mem_singleton]
    rcases hm with ⟨rfl, -⟩ | hm | hm
    · exact Or.inl rfl
    · exact Or.inr (Or.inl (pairs_addrs l hm))
    · exact Or.inr (Or.inr (pairs_addrs r hm))

theorem delLoop_succ : ∀ (fuel : Nat) (det : Bool) (cc : Color) (ctx : List Frame)
    (t T1 : Tr), delLoop fuel det cc ctx t = some T1 →
    delLoop (fuel + 1) det cc ctx t = some T1 := by
  intro fuel
  induction fuel with
  | zero => intro det cc ctx t T1 hd; simp [delLoop] at hd
  | succ fuel ih =>
    intro det cc ctx t T1 hd
    cases ctx with
    | nil => simpa [delLoop] using hd
    | cons P rest =>
      rw [delLoop] at hd ⊢
      by_cases hred : cc = RED
      · simpa only [hred, if_true] using hd
      · simp only [hred, if_false] at hd ⊢
        cases hs : delStep P rest t with
        | none => rw [hs] at hd; simp at hd
        | some r =>
          obtain ⟨b, ctx1, t1⟩ := r
          rw [hs] at hd
          cases b with
          | false => exact hd
          | true => exact ih _ _ _ _ _ hd

theorem del_mono {T T1 : Tr} {v : Int} {n m : Nat} (h : del n T v = some T1) (hnm : n ≤ m) :
    del m T v = some T1 := by
  unfold del at h ⊢
  split at h
  · exact h
  · rename_i ctx x c l xv r heq
    exact mono_of_succ (f := fun k => delLoop k true (unlinkZ (succZ ctx x c l xv r).2).1
      (succZ ctx x c l xv r).1 (unlinkZ (succZ ctx x c l xv r).2).2)
      (fun k r => delLoop_succ k _ _ _ _ r) h hnm

/-- The call `remove(v)` for a present value, up to the point where it frees a node: the
heap at that point holds the tree after the removal, and the node to be freed is the node
that the search and the successor step settle on, no longer in the tree. -/
theorem remove_present_detail {t : RBTree} {T T1 : Tr}
    (hz : RepZ t.heap t.sentinel [] T) {v : Int} {fuel : Nat} (hf : T.depth < fuel)
    {ctx : List Frame} {x : Nat} {c : Color} {l r : Tr} {xv : Int}
    (hfind : find v [] T = (ctx, node x c l xv r)) (hd : del fuel T v = some T1) :
    ∃ h4 m, removeUnlinked fuel t v = some (some (h4, some m)) ∧
      RepZ h4 t.sentinel [] T1 ∧ m ∉ ({t.sentinel} : Multiset Nat) + T1.addrs ∧
      h4 m ≠ none ∧ (succZ ctx x c l xv r).2.ptr = some m ∧
      T1.pairs = pairsC (succZ ctx x c l xv r).1 +
        (unlinkZ (succZ ctx x c l xv r).2).2.pairs := by
  obtain ⟨sn, k1, k2, -⟩ := sentinel_child hz
  have k3 := removeFind_spec v T [] _ _ fuel hz.hs hf
  have z0 := RepZ_find v T [] hz
  have hdep := find_depth v T []
  rw [del, hfind] at hd
  simp only at hd
  rw [hfind] at z0 k3 hdep
  simp only at z0 k3 hdep
  obtain ⟨h1, e1, z1, m1⟩ := @swapWithSuccessor_spec _ _ _ _ _ _ _ _ fuel z0 (by omega)
  obtain ⟨m, cm, ml, mv, mr, hM⟩ := succZ_node ctx x c l xv r
  have hp := delLoop_pairs fuel hd
  rw [hM] at z1 e1 hd hp ⊢
  obtain ⟨h2, mn, e2, z2, j1, j2, j3, j4, j5, m2⟩ := unlink_spec z1
  have j6 : m ∉ ({t.sentinel} : Multiset Nat) + addrsC (succZ ctx x c l xv r).1 ∧
      m ∉ (unlinkZ (node m cm ml mv mr)).2.addrs := by
    simp only [Multiset.mem_add, Multiset.mem_singleton, not_or] at j5 ⊢
    tauto
  obtain ⟨h3, c1, h4, e3, e4, z4, m4⟩ := @removeFix_spec _ fuel true _ _ _ _ _ _ _ z2 j1 j2 j3 j4
    j6.1 (fun _ => j6.2) (by simp) hd
  have hm4 : h4 m ≠ none := m4 m j5 (by rw [j1]; simp)
  have hma : m ∉ ({t.sentinel} : Multiset Nat) + T1.addrs := by
    rw [delLoop_addrs fuel hd]
    simpa using j5
  refine ⟨h4, m, ?_, z4, hma, hm4, rfl, hp⟩
  simp only [removeUnlinked, rd_some, k1, andThen_some, k2, k3, ptr_node, e1, e2, e3, e4]

/-- The nodes reachable from the sentinel of a represented tree. -/
theorem nodesFrom_sentinel {h : Heap} {sen : Nat} {T : Tr} (hz : RepZ h sen [] T)
    {fuel : Nat} (hf : T.depth + 1 < fuel) :
    nodesFrom h fuel (some sen) = some (T.nodes ++ [sen]) := by
  obtain ⟨n, rfl⟩ : ∃ n, fuel = n + 1 := ⟨fuel - 1, by omega⟩
  have hT := RepC_top hz.hc
  simp only [hp_nil, topNode, nodeOf_false] at hT
  have e1 := nodesFrom_spec T _ _ n hz.hs (by omega)
  obtain ⟨k, rfl⟩ : ∃ k, n = k + 1 := ⟨n - 1, by omega⟩
  rw [nodesFrom]
  simp only [hT]
  simp [nodesFrom, e1]

theorem pairs_keys : ∀ (t : Tr) {a : Nat} {v : Int}, (a, v) ∈ t.pairs → v ∈ t.keys
  | nil, _, _, hm => by simp at hm
  | node b c l w r, a, v, hm => by
    simp only [pairs_node, Multiset.mem_add, Multiset.mem_singleton, Prod.mk.injEq] at hm
    simp only [keys_node, List.mem_append, List.mem_cons]
    rcases hm with ⟨-, rfl⟩ | hm | hm
    · exact Or.inr (Or.inl rfl)
    · exact Or.inl (pairs_keys l hm)
    · exact Or.inr (Or.inr (pairs_keys r hm))

/-- The record of a node of a represented subtree. -/
theorem Rep_record {h : Heap} : ∀ (t : Tr) (p : Option Nat) (d : Bool) {b : Nat},
    Rep h p d t → b ∈ t.addrs → ∃ n, h b = some n ∧ (b, n.m_val) ∈ t.pairs
  | nil, _, _, _, _, hm => by simp at hm
  | node a c l w r, p, d, b, hr, hm => by
    obtain ⟨h0, hl, hr⟩ := hr
    simp only [addrs_node, Multiset.mem_add, Multiset.mem_singleton] at hm
    simp only [pairs_node, Multiset.mem_add, Multiset.mem_singleton]
    rcases hm with rfl | hm | hm
    · exact ⟨_, h0, Or.inl rfl⟩
    · obtain ⟨n, g1, g2⟩ := Rep_record l _ _ hl hm
      exact ⟨n, g1, Or.inr (Or.inl g2)⟩
    · obtain ⟨n, g1, g2⟩ := Rep_record r _ _ hr hm
      exact ⟨n, g1, Or.inr (Or.inr g2)⟩

/-- The leftmost node of an ordered subtree is one of its nodes, and every other node of
the subtree holds a greater value. -/
theorem findMin_min : ∀ (t : Tr) {m : Nat} {cm : Color} {ml : Tr} {mv : Int} {mr : Tr},
    t.keys.Pairwise (· < ·) → (findMin [] t).2 = node m cm ml mv mr →
    (m, mv) ∈ t.pairs ∧ ∀ p ∈ t.pairs, p = (m, mv) ∨ mv < p.2
  | nil, _, _, _, _, _, _, h => by simp [findMin] at h
  | node a c nil v r, _, _, _, _, _, hs, h => by
    simp only [findMin, node.injEq] at h
    obtain ⟨rfl, -, -, rfl, -⟩ := h
    simp only [keys_node, keys_nil, List.nil_append, List.pairwise_cons] at hs
    refine ⟨by simp, fun p hp => ?_⟩
    simp only [pairs_node, Tr.pairs, zero_add, Multiset.mem_add, Multiset.mem_singleton] at hp
    rcases hp with rfl | hp
    · exact Or.inl rfl
    · exact Or.inr (hs.1 _ (pairs_keys r hp))
  | node a c (node a2 c2 l2 v2 r2) v r, m, cm, ml, mv, mr, hs, h => by
    rw [findMin, findMin_append] at h
    simp only [keys_node] at hs
    rw [List.pairwise_append] at hs
    obtain ⟨hs1, hs2, hs3⟩ := hs
    obtain ⟨g1, g2⟩ := findMin_min (node a2 c2 l2 v2 r2) (by simpa using hs1) h
    have hk := pairs_keys _ g1
    have hmv : mv < v := hs3 _ (by simpa using hk) _ (List.mem_cons_self _ _)
    refine ⟨by simp only [pairs_node, Multiset.mem_add] at g1 ⊢; tauto, fun p hp => ?_⟩
    rw [pairs_node] at hp
    simp only [Multiset.mem_add, Multiset.mem_singleton] at hp
    rcases hp with rfl | hp | hp
    · exact Or.inr hmv
    · exact g2 p hp
    · right
      have h1 := (List.pairwise_cons.1 hs2).1 _ (pairs_keys r hp)
      omega

/-- C19: `remove` releases only a fully unlinked node.  For every reachable tree state and
every present value `v`, at the point where `remove(v)` frees a node, that node is not
among the nodes reachable from the sentinel through child pointers, and the parent field
of no reachable node refers to it.  When the node that held `v` has two children, the
freed node is the minimum node of its index-1 subtree: it is one of the nodes reachable
from `m_child[1]` through child pointers, and every other node reachable from there holds
a greater value (it is also where the loop of lines 176-180 stops); and the node that
held `v` stays in the tree and holds the value that the freed node had.  Otherwise the
freed node is the node that held `v`. -/
theorem remove_frees_unlinked (t : RBTree) (ht : Reach t) (v : Int) :
    ∃ N, ∀ fuel, N ≤ fuel → lookup fuel t v = some true →
      ∃ sn x xn h m L,
        t.heap t.sentinel = some sn ∧
        removeFind t.heap v fuel sn.m_child0 = some (some x) ∧ t.heap x = some xn ∧
        removeUnlinked fuel t v = some (some (h, some m)) ∧
        remove fuel t v = some (⟨t.sentinel, h.free m⟩, true) ∧
        nodesFrom h fuel (some t.sentinel) = some L ∧ m ∉ L ∧
        (∀ b ∈ L, ∀ n, h b = some n → n.m_parent ≠ some m) ∧
        (xn.m_child0 ≠ none ∧ xn.m_child1 ≠ none →
          leftmost t.heap fuel xn.m_child1 = some (some m) ∧ m ≠ x ∧ x ∈ L ∧
          ∃ mn n R, t.heap m = some mn ∧ h x = some n ∧ n.m_val = mn.m_val ∧
            nodesFrom t.heap fuel xn.m_child1 = some R ∧ m ∈ R ∧
            ∀ b ∈ R, b ≠ m → ∃ bn, t.heap b = some bn ∧ mn.m_val < bn.m_val) ∧
        (¬ (xn.m_child0 ≠ none ∧ xn.m_child1 ≠ none) → m = x) := by
  obtain ⟨T, hz, hV⟩ := reach_shape ht
  by_cases hm : v ∈ T.keys
  swap
  · refine ⟨T.depth + 1, fun fuel hf hl => ?_⟩
    rw [lookup_shape hz hV (by omega) v] at hl
    simp [hm] at hl
  have hfn := (find_mem hV.sorted v).1 hm
  obtain ⟨T1, e0, hV1, -, -⟩ := del_valid hV hfn (Nat.lt_succ_self T.depth)
  refine ⟨max (T.depth + 1) (T1.depth + 2), fun fuel hf _ => ?_⟩
  have hf1 : T.depth + 1 ≤ fuel := le_trans (le_max_left _ _) hf
  have hf2 : T1.depth + 2 ≤ fuel := le_trans (le_max_right _ _) hf
  have hd := del_mono e0 hf1
  cases hft : (find v [] T).2 with
  | nil => exact absurd hft hfn
  | node x c l xv r =>
    have hfind : find v [] T = ((find v [] T).1, node x c l xv r) := by rw [← hft]
    generalize (find v [] T).1 = ctx at hfind
    have z0 := RepZ_find v T [] hz
    have k3 := removeFind_spec v T [] _ _ fuel hz.hs (show T.depth < fuel by omega)
    have hdep := find_depth v T []
    have hpl := find_plug v T []
    rw [hfind] at z0 k3 hdep hpl
    simp only [ptr_node] at z0 k3 hdep hpl
    obtain ⟨sn, k1, k2, -⟩ := sentinel_child hz
    obtain ⟨h4, m, e4, z4, hma, hm4, hsm, hp⟩ :=
      remove_present_detail hz (show T.depth < fuel by omega) hfind hd
    have hms : m ≠ t.sentinel ∧ m ∉ T1.addrs := by
      simp only [Multiset.mem_add, Multiset.mem_singleton, not_or] at hma
      exact hma
    have hx0 := z0.hs.1
    obtain ⟨mn4, hmn4⟩ := Option.ne_none_iff_exists'.1 hm4
    refine ⟨sn, x, _, h4, m, T1.nodes ++ [t.sentinel], k1, by rw [k2]; exact k3, hx0, e4, ?_,
      nodesFrom_sentinel z4 (by omega), ?_, ?_, ?_, ?_⟩
    · rw [remove_unlinked, e4]
      simp only [andThen_some, release, hmn4]
    · simp only [List.mem_append, mem_nodes, List.mem_singleton, not_or]
      exact ⟨hms.2, hms.1⟩
    · intro b hb n hn
      simp only [List.mem_append, mem_nodes, List.mem_singleton] at hb
      rcases hb with hb | rfl
      · obtain ⟨n1, g1, g2⟩ := Rep_parent T1 _ _ z4.hs hb
        rw [g1] at hn
        simp only [Option.some.injEq] at hn
        subst hn
        simp only [hp_nil] at g2
        rcases g2 with g2 | ⟨q, hq, g2⟩
        · rw [g2]
          simp only [ne_eq, Option.some.injEq]
          exact fun e => hms.1 e.symm
        · rw [g2]
          simp only [ne_eq, Option.some.injEq]
          exact fun e => hms.2 (e ▸ hq)
      · have hT := RepC_top z4.hc
        simp only [hp_nil, topNode, nodeOf_false] at hT
        rw [hT] at hn
        simp only [Option.some.injEq] at hn
        subst hn
        simp
    · intro h2
      simp only at h2
      have h2b : r.ptr ≠ none ∧ l.ptr ≠ none := ⟨h2.2, h2.1⟩
      have hz1 : RepZ t.heap t.sentinel (⟨x, c, xv, true, l⟩ :: ctx) r :=
        RepZ_cons.2 (by simpa [Frame.fill, mkT] using z0)
      obtain ⟨g1, g2⟩ := leftmost_spec r _ fuel hz1 h2b.1 (by simp only [depth] at hdep; omega)
      rw [findMin_append] at g1 g2
      simp only at g1 g2
      obtain ⟨m0, cm, mv, mr, hM⟩ := findMin_node r [] h2b.1
      have hs : succZ ctx x c l xv r =
          ((findMin [] r).1 ++ ⟨x, c, mv, true, l⟩ :: ctx, node m0 cm nil mv mr) := by
        simp only [succZ, if_pos h2b, hM, val_node]
      rw [hs] at hsm hp
      simp only [ptr_node, Option.some.injEq] at hsm
      subst hsm
      rw [hM] at g1 g2
      have hxp : (x, mv) ∈ T1.pairs := by
        rw [hp, pairsC_append, pairsC_cons]
        simp
      have hxa := pairs_addrs T1 hxp
      obtain ⟨n4, q1, q2⟩ := Rep_pairs T1 _ _ z4.hs hxp
      have hsr : r.keys.Pairwise (· < ·) := by
        have hs0 := hV.sorted
        have hT : T = plug ctx (node x c l xv r) := hpl.symm
        rw [hT, keys_plug, keys_node] at hs0
        have hs1 := (List.pairwise_append.1 (List.pairwise_append.1 hs0).1).2.1
        exact (List.pairwise_cons.1 (List.pairwise_append.1 hs1).2.1).2
      obtain ⟨w1, w2⟩ := findMin_min r hsr hM
      have hrr : Rep t.heap (some x) true r := hz1.hs
      have hnr := nodesFrom_spec r _ _ fuel hrr (by simp only [depth] at hdep; omega)
      refine ⟨g1, fun e => hms.2 (e ▸ hxa), ?_, _, n4, r.nodes, g2.hs.1, q1, q2, hnr,
        (mem_nodes r _).2 (pairs_addrs r w1), fun b hb hbm => ?_⟩
      · simp only [List.mem_append, mem_nodes, List.mem_singleton]
        exact Or.inl hxa
      · obtain ⟨bn, b1, b2⟩ := Rep_record r _ _ hrr ((mem_nodes r b).1 hb)
        refine ⟨bn, b1, ?_⟩
        rcases w2 _ b2 with e | e
        · simp only [Prod.mk.injEq] at e
          exact absurd e.1 hbm
        · exact e
    · intro h2
      simp only at h2
      have h2b : ¬ (r.ptr ≠ none ∧ l.ptr ≠ none) := fun hh => h2 ⟨hh.2, hh.1⟩
      have hs : succZ ctx x c l xv r = (ctx, node x c l xv r) := by
        simp only [succZ, h2b, if_false]
      rw [hs] at hsm
      simpa using hsm.symm

theorem fourNodes_reach : Reach fourNodes := by
  have r1 : Reach (afterInserts (new 0) [(1, 10)]) :=
    @Reach.insert _ _ 8 1 10 true (Reach.empty 0) rfl (by decide) rfl
  have r2 : Reach (afterInserts (new 0) [(1, 10), (2, 5)]) :=
    @Reach.insert _ _ 8 2 5 true r1 rfl (by decide) rfl
  have r3 : Reach (afterInserts (new 0) [(1, 10), (2, 5), (3, 15)]) :=
    @Reach.insert _ _ 8 3 15 true r2 rfl (by decide) rfl
  exact @Reach.insert _ _ 8 4 12 true r3 rfl (by decide) rfl

/-- The removal of the value 10 from the tree holding 10, 5, 15 and 12: the node of 10, at
the address 1, has two children; the node freed is the node of 12, at the address 4, not
the index-1 child, which holds 15; the node at the address 1 holds 12 afterwards. -/
theorem remove_frees_unlinked_witness :
    Reach fourNodes ∧
      (∃ h n, removeUnlinked 8 fourNodes 10 = some (some (h, some 4)) ∧
        fourNodes.heap 4 = some ⟨RED, 12, some 3, 0, none, none⟩ ∧
        nodesFrom fourNodes.heap 8 (some 3) = some [4, 3] ∧
        h 1 = some n ∧ n.m_val = 12) ∧
      ∃ N, ∀ fuel, N ≤ fuel → lookup fuel fourNodes 10 = some true →
        ∃ sn x xn h m L,
          fourNodes.heap fourNodes.sentinel = some sn ∧
          removeFind fourNodes.heap 10 fuel sn.m_child0 = some (some x) ∧
          fourNodes.heap x = some xn ∧
          removeUnlinked fuel fourNodes 10 = some (some (h, some m)) ∧
          remove fuel fourNodes 10 = some (⟨fourNodes.sentinel, h.free m⟩, true) ∧
          nodesFrom h fuel (some fourNodes.sentinel) = some L ∧ m ∉ L ∧
          (∀ b ∈ L, ∀ n, h b = some n → n.m_parent ≠ some m) ∧
          (xn.m_child0 ≠ none ∧ xn.m_child1 ≠ none →
            leftmost fourNodes.heap fuel xn.m_child1 = some (some m) ∧ m ≠ x ∧ x ∈ L ∧
            ∃ mn n R, fourNodes.heap m = some mn ∧ h x = some n ∧ n.m_val = mn.m_val ∧
              nodesFrom fourNodes.heap fuel xn.m_child1 = some R ∧ m ∈ R ∧
              ∀ b ∈ R, b ≠ m → ∃ bn, fourNodes.heap b = some bn ∧ mn.m_val < bn.m_val) ∧
          (¬ (xn.m_child0 ≠ none ∧ xn.m_child1 ≠ none) → m = x) :=
  ⟨fourNodes_reach, ⟨_, _, rfl, rfl, rfl, rfl, rfl⟩,
    remove_frees_unlinked fourNodes fourNodes_reach 10⟩

/-- An iteration that goes on leaves the invariant at the parent. -/
theorem RemInv_step {sen : Nat} {h h1 : Heap} {c : Nat} {det : Bool} {slot c1 : Option Nat}
    (hi : RemInv sen h c det slot)
    (e : removeFixStep sen h (some c) = some (h1, c1, true)) :
    ∃ p, c1 = some p ∧ RemInv sen h1 p false (some p) := by
  obtain ⟨ctx, t, cn, hz, hc, hcp, hci, hcx, hdet, hndet, -, hbt, hnc, hl, hT, hF⟩ := hi
  cases ctx with
  | nil =>
    simp [removeFixStep, hc, hcp] at e
  | cons P rest =>
    by_cases hred : cn.m_color = RED
    · simp [removeFixStep, hc, hcp, hred] at e
    · have hblk : cn.m_color = BLACK := by simpa using hred
      have hpre : t.NoRR ∧ BalC (P :: rest) (t.bh + 1) := by
        cases det with
        | true =>
          obtain ⟨q1, q2, q3⟩ := hT rfl
          simp only [hred, if_false] at q3
          exact ⟨q1, q3⟩
        | false =>
          obtain ⟨q0, q1, q3⟩ := hF rfl
          have hb : t.color = BLACK := by rw [← q0]; exact hblk
          rw [paint_black_self hb] at q1
          exact ⟨q1, q3⟩
      obtain ⟨b, ctx1, t1, e1, -, g2, g3, g4, g5, -, g7⟩ :=
        delStep_valid hbt hpre.1 hpre.2 hnc hl
      simp only [hp_cons, hd_cons] at hcp hci
      obtain ⟨h2, e2, z1, -⟩ := removeFixStep_spec hz hc hcp hci hblk e1
      rw [e2] at e
      simp only [Option.some.injEq, Prod.mk.injEq] at e
      obtain ⟨rfl, e3, rfl⟩ := e
      simp only [if_true] at e3
      obtain ⟨-, ha2⟩ := delStep_addrs e1
      have hp1 := ha2 rfl
      obtain ⟨pn, k1, k2, k3, k4, -⟩ := Rep_root z1.hs hp1
      have hpx : P.a ∉ ({sen} : Multiset Nat) + addrsC ctx1 := by
        have hm := ptr_mem hp1
        have hnd := z1.hn
        simp only [Multiset.nodup_add, Multiset.nodup_singleton,
          Multiset.singleton_disjoint, Multiset.mem_add, not_or, true_and] at hnd
        simp only [Multiset.mem_add, Multiset.mem_singleton, not_or]
        refine ⟨?_, fun hm2 => Multiset.disjoint_left.1 hnd.1.2.2 hm2 hm⟩
        rintro rfl
        exact hnd.2.2 hm
      obtain ⟨q1, q2, -⟩ := g7 rfl
      exact ⟨P.a, e3.symm, ctx1, t1, pn, z1, k1, k2, k3, hpx, by simp, fun _ => hp1, hp1,
        g2, g3, g4, by simp, fun _ => ⟨k4, q1, q2⟩⟩

/-- Every state of the loop after the first is the top of an iteration at a node of the
tree, with the invariant. -/
theorem RemInv_states {sen : Nat} : ∀ (fuel : Nat) {h : Heap} {c : Nat} {det : Bool}
    {slot : Option Nat}, RemInv sen h c det slot →
    ∀ s ∈ (removeFixStates sen fuel h (some c)).tail,
      ∃ p, s.2 = some p ∧ RemInv sen s.1 p false (some p) := by
  intro fuel
  induction fuel with
  | zero => intro h c det slot _ s hs; simp [removeFixStates] at hs
  | succ fuel ih =>
    intro h c det slot hi s hs
    rw [removeFixStates, List.tail_cons] at hs
    cases hstep : removeFixStep sen h (some c) with
    | none => rw [hstep] at hs; simp at hs
    | some r =>
      obtain ⟨h1, c1, b⟩ := r
      rw [hstep] at hs
      cases b with
      | false => simp at hs
      | true =>
        simp only at hs
        obtain ⟨p, rfl, hi1⟩ := RemInv_step hi hstep
        cases fuel with
        | zero => simp [removeFixStates] at hs
        | succ k =>
          rw [removeFixStates] at hs
          rcases List.mem_cons.1 hs with rfl | hs
          · exact ⟨p, rfl, hi1⟩
          · have := ih hi1 s (by rw [removeFixStates, List.tail_cons]; exact hs)
            exact this

/-- Under the invariant the hole is the child of the parent at the index of `curr`. -/
theorem RemInv_slot {sen : Nat} {h : Heap} {c : Nat} {det : Bool} {slot : Option Nat}
    (hi : RemInv sen h c det slot) : SlotAt h (some c) slot := by
  obtain ⟨ctx, t, cn, hz, hc, hcp, hci, -, -, -, hs, -⟩ := hi
  have hT := RepC_top hz.hc
  refine ⟨cn, _, hc, by rw [hcp]; exact hT, ?_, ?_⟩
  · rw [hci]
    cases hd ctx <;> simp
  · rw [hci, topNode_child, hs]

/-- Under the invariant the nodes that the iteration dereferences are present. -/
theorem RemInv_sibling {sen : Nat} {h : Heap} {c : Nat} {det : Bool} {slot : Option Nat}
    (hi : RemInv sen h c det slot) : SiblingSafe sen h (some c) := by
  obtain ⟨ctx, t, cn, hz, hc, hcp, hci, hcx, hdet, hndet, -, hbt, hnc, hl, hT, hF⟩ := hi
  refine ⟨cn, hc, ?_⟩
  cases ctx with
  | nil => exact Or.inl hcp
  | cons P rest =>
    by_cases hred : cn.m_color = RED
    · exact Or.inr (Or.inl hred.symm)
    · right; right
      have hbc : BalC (P :: rest) (t.bh + 1) := by
        cases det with
        | true =>
          obtain ⟨-, -, q3⟩ := hT rfl
          simpa only [hred, if_false] using q3
        | false => exact (hF rfl).2.2
      obtain ⟨p, cp, vp, d, S⟩ := P
      simp only [BalC] at hbc
      simp only [NoRRC] at hnc
      obtain ⟨hbs, hbh, -⟩ := hbc
      obtain ⟨hns, -, -⟩ := hnc
      simp only [hp_cons, hd_cons] at hcp hci
      have hP := hz.hc.1
      simp only [topNode_cons] at hP
      cases S with
      | nil => simp at hbh
      | node s cs sl sv sr =>
        have hS := hz.hc.2.1
        simp only at hS
        have hSn := hS.1
        refine ⟨_, s, _, by rw [hcp]; exact hP, ?_, hSn, ?_⟩
        · rw [hci, one_sub_toID, nodeOf_child_not]
          rfl
        · intro hsr
          simp only at hsr
          have hcs : cs = RED := hsr.symm
          subst hcs
          obtain ⟨f1, f2, f3, f4, f5, f6, f7⟩ := side_facts d hbs hns
          obtain ⟨f7a, -⟩ := f7 rfl
          simp only [reduceCtorEq, if_false, add_zero] at f6
          have hSe := node_eq_mkT d s RED sl sv sr
          cases hN : (node s RED sl sv sr).side d with
          | nil => rw [hN, hbh] at f6; simp at f6
          | node n cn1 nl nv nr =>
            rw [hN] at hSe f7a
            simp only [color_node] at f7a
            subst f7a
            have hz2 := hz
            rw [hSe] at hz2
            obtain ⟨h1, e1, z1, -⟩ := siblingRed_spec hz2
            have hN1 := z1.hc.2.1.1
            simp only at hN1
            rw [hSe] at hS
            obtain ⟨hS1, hS2, -⟩ := Rep_mk.1 hS
            have hNn := hS2.1
            refine ⟨n, h1, _, ?_, by rw [hNn]; simp, ?_, hN1, rfl⟩
            · have hrec := hSn.symm.trans hS1
              simp only [Option.some.injEq] at hrec
              rw [hci, hrec, nodeOf_child]
              rfl
            · rw [hcp, hci]
              exact e1

/-- The shape that the rebalancing loop of `remove` starts from satisfies the conditions
of the loop: the subtree in the hole is a BLACK red-black tree, and the context is
balanced around it once the BLACK node taken out is counted. -/
theorem del_entry {T : Tr} {v : Int} (hV : Valid T) {ctx : List Frame} {x : Nat} {c : Color}
    {l r : Tr} {xv : Int} (hfind : find v [] T = (ctx, node x c l xv r)) :
    (unlinkZ (succZ ctx x c l xv r).2).2.Bal ∧ NoRRC (succZ ctx x c l xv r).1 ∧
      lastBlack (succZ ctx x c l xv r).1 ∧ (unlinkZ (succZ ctx x c l xv r).2).2.NoRR ∧
      (unlinkZ (succZ ctx x c l xv r).2).2.color = BLACK ∧
      BalC (succZ ctx x c l xv r).1 ((unlinkZ (succZ ctx x c l xv r).2).2.bh +
        if (unlinkZ (succZ ctx x c l xv r).2).1 = RED then 0 else 1) := by
  have hT : plug ctx (node x c l xv r) = T := by
    have := find_plug v T []
    rw [hfind] at this
    exact this
  obtain ⟨m, cm, ml, mv, mr, hM, hone, hB, hN, hC, -, -⟩ := succZ_facts ctx x c l xv r
  rw [hT] at hB hN hC
  generalize (succZ ctx x c l xv r).1 = ctx1 at *
  rw [hM] at hB hN hC ⊢
  obtain ⟨hMb, hBc⟩ := (Bal_plug _ _).1 (hB.2 hV.bal)
  obtain ⟨hMn, hNc, -⟩ := (NoRR_plug _ _).1 (hN.2 hV.norr)
  have hlast : lastBlack ctx1 := by
    cases ctx1 with
    | nil => trivial
    | cons f rest => exact lastBlack_of_plug _ _ (hC.trans hV.root) (by simp)
  have hCh : ∃ C, (if ml.ptr ≠ none then ml else mr) = C ∧ C.Bal ∧ C.NoRR ∧ C.bh = 0 ∧
      (node m cm ml mv mr).bh = (if cm = BLACK then 1 else 0) ∧ (cm = RED → C.color = BLACK) := by
    simp only [Bal_node, NoRR_node, bh_node] at hMb hMn ⊢
    obtain ⟨b1, b2, b3⟩ := hMb
    obtain ⟨n1, n2, n3⟩ := hMn
    refine ⟨_, rfl, ?_⟩
    rcases hone with h | h
    · have : ml = nil := by
        cases ml with
        | nil => rfl
        | node _ _ _ _ _ => simp at h
      subst this
      simp only [bh_nil] at b3
      simp only [ptr_nil, ne_eq, not_true_eq_false, if_false, bh_nil]
      refine ⟨b2, n2, b3.symm, ?_, fun hc => (n3 hc).2⟩
      rw [← b3]; simp
    · have : mr = nil := by
        cases mr with
        | nil => rfl
        | node _ _ _ _ _ => simp at h
      subst this
      simp only [bh_nil] at b3
      by_cases hl : ml.ptr ≠ none
      · simp only [hl, if_true, ne_eq, not_false_eq_true]
        refine ⟨b1, n1, b3, ?_, fun hc => (n3 hc).1⟩
        rw [b3]; simp
      · simp only [hl, if_false]
        refine ⟨trivial, trivial, rfl, ?_, fun _ => rfl⟩
        rw [b3]; simp
  obtain ⟨C, hCe, hCb, hCn, hC0, hMbh, hCr⟩ := hCh
  rw [hMbh] at hBc
  rw [unlinkZ, hCe]
  by_cases hc1 : cm = BLACK ∧ C.color = RED
  · simp only [hc1, and_self, if_true]
    refine ⟨(Bal_paint _ _).2 hCb, hNc, hlast, NoRR_paint_black hCn, color_paint_black C, ?_⟩
    rw [bh_paint_black hc1.2, hC0]
    simpa [hc1.1] using hBc
  · simp only [hc1, if_false]
    have hCc : C.color = BLACK := by
      rcases color_cases cm with h | h
      · exact hCr h
      · rcases color_cases C.color with h3 | h3
        · exact absurd ⟨h, h3⟩ hc1
        · exact h3
    refine ⟨hCb, hNc, hlast, hCn, hCc, ?_⟩
    rw [hC0]
    rcases color_cases cm with h | h
    · simpa [h] using hBc
    · simpa [h] using hBc

theorem pruned_reach : Reach pruned := by
  have r1 : Reach (afterInserts (new 0) [(1, 1)]) :=
    @Reach.insert _ _ 8 1 1 true (Reach.empty 0) rfl (by decide) rfl
  have r2 : Reach (afterInserts (new 0) [(1, 1), (2, 2)]) :=
    @Reach.insert _ _ 8 2 2 true r1 rfl (by decide) rfl
  have r3 : Reach (afterInserts (new 0) [(1, 1), (2, 2), (3, 3)]) :=
    @Reach.insert _ _ 8 3 3 true r2 rfl (by decide) rfl
  have r4 : Reach (afterInserts (new 0) [(1, 1), (2, 2), (3, 3), (4, 4)]) :=
    @Reach.insert _ _ 8 4 4 true r3 rfl (by decide) rfl
  exact @Reach.remove _ _ 8 4 true r4 rfl

/-- The call `remove(v)` for a present value up to the rebalancing loop: the search, the
successor step and the splice go through, and the loop starts with its invariant, at the
node taken out, the hole holding the child that took its place. -/
theorem remove_entry {t : RBTree} {T T1 : Tr} (hz : RepZ t.heap t.sentinel [] T)
    (hV : Valid T) {v : Int} {fuel : Nat} (hf : T.depth < fuel)
    {ctx : List Frame} {x : Nat} {c : Color} {l r : Tr} {xv : Int}
    (hfind : find v [] T = (ctx, node x c l xv r)) (hd : del fuel T v = some T1) :
    ∃ sn h1 m xn h2 q, t.heap t.sentinel = some sn ∧
      removeFind t.heap v fuel sn.m_child0 = some (some x) ∧
      swapWithSuccessor fuel t.heap (some x) = some (h1, some m) ∧ h1 m = some xn ∧
      unlink h1 (some m) = some h2 ∧ removeFix t.sentinel fuel h2 (some m) = some q ∧
      RemInv t.sentinel h2 m true
        (if xn.m_child0 ≠ none then xn.m_child0 else xn.m_child1) := by
  obtain ⟨sn, k1, k2, -⟩ := sentinel_child hz
  have k3 := removeFind_spec v T [] _ _ fuel hz.hs hf
  have z0 := RepZ_find v T [] hz
  have hdep := find_depth v T []
  obtain ⟨g1, g2, g3, g4, g5, g6⟩ := del_entry hV hfind
  rw [del, hfind] at hd
  simp only at hd
  rw [hfind] at z0 k3 hdep
  simp only at z0 k3 hdep
  obtain ⟨h1, e1, z1, m1⟩ := @swapWithSuccessor_spec _ _ _ _ _ _ _ _ fuel z0 (by omega)
  obtain ⟨m, cm, ml, mv, mr, hM⟩ := succZ_node ctx x c l xv r
  rw [hM] at z1 e1 hd g1 g4 g5 g6
  obtain ⟨h2, mn, e2, z2, j1, j2, j3, j4, j5, m2⟩ := unlink_spec z1
  have j6 : m ∉ ({t.sentinel} : Multiset Nat) + addrsC (succZ ctx x c l xv r).1 ∧
      m ∉ (unlinkZ (node m cm ml mv mr)).2.addrs := by
    simp only [Multiset.mem_add, Multiset.mem_singleton, not_or] at j5 ⊢
    tauto
  obtain ⟨h3, c1, h4, e3, -, -, -⟩ := @removeFix_spec _ fuel true _ _ _ _ _ _ _ z2 j1 j2 j3 j4
    j6.1 (fun _ => j6.2) (by simp) hd
  have hx1 := z1.hs.1
  have hslot : (unlinkZ (node m cm ml mv mr)).2.ptr =
      (if ml.ptr ≠ none then ml.ptr else mr.ptr) := by
    rw [unlinkZ]
    split_ifs <;> simp [*]
  refine ⟨sn, h1, m, _, h2, _, k1, by rw [k2]; exact k3, e1, hx1, e2, e3, ?_⟩
  refine ⟨_, _, mn, z2, j1, j2, j3, j6.1, fun _ => j6.2, by simp, hslot, g1, g2, g3, ?_,
    by simp⟩
  intro _
  rw [j4]
  exact ⟨g4, g5, g6⟩

/-- C16: the rebalancing loop of `remove` never dereferences an absent node.  For every
reachable tree state and every present value `v`, the call `remove(v)` reaches its
rebalancing loop, the loop ends, and at each of its iterations that does not leave at the
test the sibling `parent->m_child[1 - cID]`, whose colour is read, is a node; when that
sibling is RED, the near nephew `sibling->m_child[cID]`, whose parent and index are
written without a test, is a node, and after the sibling-RED case the new sibling is
that node and is BLACK. -/
theorem remove_loop_reads_present (t : RBTree) (ht : Reach t) (v : Int) :
    ∃ N, ∀ fuel, N ≤ fuel → lookup fuel t v = some true →
      ∃ sn x h1 m h2 q, t.heap t.sentinel = some sn ∧
        removeFind t.heap v fuel sn.m_child0 = some (some x) ∧
        swapWithSuccessor fuel t.heap (some x) = some (h1, some m) ∧
        unlink h1 (some m) = some h2 ∧
        removeFix t.sentinel fuel h2 (some m) = some q ∧
        ∀ s ∈ removeFixStates t.sentinel fuel h2 (some m), SiblingSafe t.sentinel s.1 s.2 := by
  obtain ⟨T, hz, hV⟩ := reach_shape ht
  by_cases hm : v ∈ T.keys
  swap
  · refine ⟨T.depth + 1, fun fuel hf hl => ?_⟩
    rw [lookup_shape hz hV (by omega) v] at hl
    simp [hm] at hl
  have hfn := (find_mem hV.sorted v).1 hm
  obtain ⟨T1, e0, -, -, -⟩ := del_valid hV hfn (Nat.lt_succ_self T.depth)
  refine ⟨T.depth + 1, fun fuel hf _ => ?_⟩
  have hd := del_mono e0 hf
  cases hft : (find v [] T).2 with
  | nil => exact absurd hft hfn
  | node x c l xv r =>
    have hfind : find v [] T = ((find v [] T).1, node x c l xv r) := by rw [← hft]
    obtain ⟨sn, h1, m, xn, h2, q, k1, k2, k3, -, k5, k6, hi⟩ :=
      remove_entry hz hV (show T.depth < fuel by omega) hfind hd
    refine ⟨sn, x, h1, m, h2, q, k1, k2, k3, k5, k6, fun s hs => ?_⟩
    obtain ⟨n, rfl⟩ : ∃ n, fuel = n + 1 := ⟨fuel - 1, by omega⟩
    have hs2 := hs
    rw [removeFixStates] at hs2
    rcases List.mem_cons.1 hs2 with rfl | hs3
    · exact RemInv_sibling hi
    · obtain ⟨p, hp2, hi2⟩ := RemInv_states (n + 1) hi s (by
        rw [removeFixStates, List.tail_cons]; exact hs3)
      have := RemInv_sibling hi2
      rw [← hp2] at this
      exact this

/-- The removal of the value 1 from the tree of three BLACK nodes, where the loop takes
two iterations. -/
theorem remove_loop_reads_present_witness :
    Reach pruned ∧
      (∃ h1 m h2, swapWithSuccessor 8 pruned.heap (some 1) = some (h1, some m) ∧
        unlink h1 (some m) = some h2 ∧
        (removeFixStates pruned.sentinel 8 h2 (some m)).length = 2) ∧
      ∃ N, ∀ fuel, N ≤ fuel → lookup fuel pruned 1 = some true →
        ∃ sn x h1 m h2 q, pruned.heap pruned.sentinel = some sn ∧
          removeFind pruned.heap 1 fuel sn.m_child0 = some (some x) ∧
          swapWithSuccessor fuel pruned.heap (some x) = some (h1, some m) ∧
          unlink h1 (some m) = some h2 ∧
          removeFix pruned.sentinel fuel h2 (some m) = some q ∧
          ∀ s ∈ removeFixStates pruned.sentinel fuel h2 (some m),
            SiblingSafe pruned.sentinel s.1 s.2 :=
  ⟨pruned_reach, ⟨_, _, _, rfl, rfl, rfl⟩, remove_loop_reads_present pruned pruned_reach 1⟩

/-- C17: the side index in the rebalancing loop of `remove` is never stale.  For every
reachable tree state and every present value `v`, at the top of every iteration of the
loop the index `cID = curr->m_ID` is 0 or 1 and `parent->m_child[cID]` is the position
being rebalanced: at the first iteration the child that took the place of the node taken
out, at every later iteration, entered after `curr` moved to its parent, `curr` itself.
The sibling `parent->m_child[1 - cID]` is therefore on the other side. -/
theorem remove_loop_side_index (t : RBTree) (ht : Reach t) (v : Int) :
    ∃ N, ∀ fuel, N ≤ fuel → lookup fuel t v = some true →
      ∃ sn x h1 m xn h2 rest, t.heap t.sentinel = some sn ∧
        removeFind t.heap v fuel sn.m_child0 = some (some x) ∧
        swapWithSuccessor fuel t.heap (some x) = some (h1, some m) ∧ h1 m = some xn ∧
        unlink h1 (some m) = some h2 ∧
        removeFixStates t.sentinel fuel h2 (some m) = (h2, some m) :: rest ∧
        SlotAt h2 (some m) (if xn.m_child0 ≠ none then xn.m_child0 else xn.m_child1) ∧
        ∀ s ∈ rest, SlotAt s.1 s.2 s.2 := by
  obtain ⟨T, hz, hV⟩ := reach_shape ht
  by_cases hm : v ∈ T.keys
  swap
  · refine ⟨T.depth + 1, fun fuel hf hl => ?_⟩
    rw [lookup_shape hz hV (by omega) v] at hl
    simp [hm] at hl
  have hfn := (find_mem hV.sorted v).1 hm
  obtain ⟨T1, e0, -, -, -⟩ := del_valid hV hfn (Nat.lt_succ_self T.depth)
  refine ⟨T.depth + 1, fun fuel hf _ => ?_⟩
  have hd := del_mono e0 hf
  cases hft : (find v [] T).2 with
  | nil => exact absurd hft hfn
  | node x c l xv r =>
    have hfind : find v [] T = ((find v [] T).1, node x c l xv r) := by rw [← hft]
    obtain ⟨sn, h1, m, xn, h2, q, k1, k2, k3, k4, k5, -, hi⟩ :=
      remove_entry hz hV (show T.depth < fuel by omega) hfind hd
    obtain ⟨n, rfl⟩ : ∃ n, fuel = n + 1 := ⟨fuel - 1, by omega⟩
    refine ⟨sn, x, h1, m, xn, h2, (removeFixStates t.sentinel (n + 1) h2 (some m)).tail,
      k1, k2, k3, k4, k5, by rw [removeFixStates, List.tail_cons], RemInv_slot hi,
      fun s hs => ?_⟩
    obtain ⟨p, hp2, hi2⟩ := RemInv_states (n + 1) hi s hs
    have := RemInv_slot hi2
    rw [← hp2] at this
    exact this

/-- The side index during the removal of the value 1 from the tree of three BLACK nodes,
where the loop moves once to the parent. -/
theorem remove_loop_side_index_witness :
    Reach pruned ∧
      ∃ N, ∀ fuel, N ≤ fuel → lookup fuel pruned 1 = some true →
        ∃ sn x h1 m xn h2 rest, pruned.heap pruned.sentinel = some sn ∧
          removeFind pruned.heap 1 fuel sn.m_child0 = some (some x) ∧
          swapWithSuccessor fuel pruned.heap (some x) = some (h1, some m) ∧
          h1 m = some xn ∧ unlink h1 (some m) = some h2 ∧
          removeFixStates pruned.sentinel fuel h2 (some m) = (h2, some m) :: rest ∧
          SlotAt h2 (some m) (if xn.m_child0 ≠ none then xn.m_child0 else xn.m_child1) ∧
          ∀ s ∈ rest, SlotAt s.1 s.2 s.2 :=
  ⟨pruned_reach, remove_loop_side_index pruned pruned_reach 1⟩

theorem insertFixBranch_break {h : Heap} {sen : Nat} {ctx : List Frame} {x : Nat} {X : Tr}
    (hx : X.ptr = some x) (hz : RepZ h sen ctx X)
    (hb : ctx.length ≤ 1 ∨ ∃ P rest, ctx = P :: rest ∧ P.c = BLACK) :
    insertFixBranch sen h (some x) = some .exit := by
  obtain ⟨hC, hX, hnd⟩ := hz
  obtain ⟨n, hXn, hnp, hni, -⟩ := Rep_root hX hx
  have hT := RepC_top hC
  match ctx, hb with
  | [], _ =>
    simp only [hp_nil, topNode] at hXn hT
    simp [insertFixBranch, hXn, hT, hnp]
  | [P], _ =>
    simp only [hp_cons, topNode_cons, hp_nil] at hXn hT
    simp [insertFixBranch, hXn, hT, hnp]
  | P :: G :: rest, Or.inr ⟨P1, rest1, he, hc⟩ =>
    simp only [List.cons.injEq] at he
    obtain ⟨rfl, rfl⟩ := he
    simp only [hp_cons, topNode_cons, hp_nil] at hXn hT
    simp [insertFixBranch, hXn, hT, hc, hnp]

theorem insertFixBranch_red {h : Heap} {sen : Nat} {p g : Nat} {cg : Color}
    {vp vg : Int} {dp dg : Bool} {sp sg X : Tr} {rest : List Frame} {x : Nat}
    (hx : X.ptr = some x)
    (hz : RepZ h sen (⟨p, RED, vp, dp, sp⟩ :: ⟨g, cg, vg, dg, sg⟩ :: rest) X) :
    insertFixBranch sen h (some x) =
      some (if sg.color = RED then .flip else .rotate (decide (dp ≠ dg))) := by
  obtain ⟨⟨hP, hPs, hG, hGs, hR⟩, hX, hnd⟩ := hz
  simp only [topNode_cons, hp_cons, hd_cons, ptr_node] at hP hPs hG hGs hR hX
  obtain ⟨n, hXn, hnp, hni, -⟩ := Rep_root hX hx
  simp only [addrsC_cons, addrs_mk, addrs_node, addrs_nil, Multiset.nodup_add, Multiset.nodup_singleton,
      Multiset.singleton_disjoint, Multiset.disjoint_singleton, Multiset.disjoint_add_right,
      Multiset.disjoint_add_left, Multiset.mem_add, Multiset.mem_singleton, not_or, true_and,
      Multiset.nodup_zero, Multiset.not_mem_zero, not_false_eq_true, and_true,
      add_zero, zero_add] at hnd
  casesm* _ ∧ _
  have hgs : g ≠ sen := by omega
  simp only [insertFixBranch, isRedPtr_Rep hGs, rd_some,
    andThen_some, one_sub_toID, Bool.not_not,
    nodeOf_color, nodeOf_val, nodeOf_child0, nodeOf_child1,
    nodeOf_fold, nodeOf_child, nodeOf_child_not,
    nodeOf_parent, nodeOf_ID, ne_eq, not_false_eq_true,
    Option.some.injEq, hP, hG, hXn, hnp, hni,
    hgs, false_or, reduceCtorEq, toID_eq_iff,
    if_false, ite_false]
  by_cases hc : sg.color = RED <;> simp [hc]

/-- The balancing loop on a represented tree: some number of aunt-RED iterations, then
either the exit, or one iteration of the other branch and the exit. -/
theorem insertFixTrace_spec {sen : Nat} : ∀ (n : Nat) {ctx : List Frame} {X : Tr} {x : Nat}
    {h : Heap}, ctx.length ≤ n → X.ptr = some x → RepZ h sen ctx X →
    ∀ fuel, n < fuel →
      ∃ k, insertFixTrace sen fuel h (some x) = List.replicate k .flip ++ [.exit] ∨
        ∃ b, insertFixTrace sen fuel h (some x) =
          List.replicate k .flip ++ [.rotate b, .exit] := by
  intro n
  induction n using Nat.strong_induction_on with
  | _ n ih =>
    intro ctx X x h hlen hx hz fuel hfuel
    obtain ⟨f, rfl⟩ : ∃ f, fuel = f + 1 := ⟨fuel - 1, by omega⟩
    match ctx, hlen with
    | [], _ =>
      refine ⟨0, Or.inl ?_⟩
      simp [insertFixTrace, insertFixStep_break hx hz (Or.inl (by simp)),
        insertFixBranch_break hx hz (Or.inl (by simp))]
    | [P], _ =>
      refine ⟨0, Or.inl ?_⟩
      simp [insertFixTrace, insertFixStep_break hx hz (Or.inl (by simp)),
        insertFixBranch_break hx hz (Or.inl (by simp))]
    | ⟨p, cp, vp, dp, sp⟩ :: ⟨g, cg, vg, dg, sg⟩ :: rest, hlen =>
      simp only [List.length_cons] at hlen
      by_cases hcp : cp = BLACK
      · refine ⟨0, Or.inl ?_⟩
        simp [insertFixTrace, insertFixStep_break hx hz (Or.inr ⟨_, _, rfl, hcp⟩),
          insertFixBranch_break hx hz (Or.inr ⟨_, _, rfl, hcp⟩)]
      · have hred : cp = RED := by cases cp <;> simp_all
        subst hred
        have hbr := insertFixBranch_red hx hz
        by_cases hsg : sg.color = RED
        · -- the aunt is red
          rw [if_pos hsg] at hbr
          cases sg with
          | nil => simp at hsg
          | node u cu ul uv ur =>
            simp only [color_node] at hsg
            subst hsg
            obtain ⟨h1, e1, z1⟩ := insertFixStep_recolor hx hz
            obtain ⟨k, e2⟩ := ih (n - 2) (by omega) (Nat.le_sub_of_add_le hlen)
              (ptr_mk _ _ _ _ _ _) z1 f (by omega)
            refine ⟨k + 1, ?_⟩
            simp only [insertFixTrace, hbr, e1, List.replicate_succ, List.cons_append,
              List.cons.injEq, true_and]
            exact e2
        · obtain ⟨f2, rfl⟩ : ∃ f2, f = f2 + 1 := ⟨f - 1, by omega⟩
          rw [if_neg hsg] at hbr
          refine ⟨0, Or.inr ⟨decide (dp ≠ dg), ?_⟩⟩
          by_cases hd : dp = dg
          · subst hd
            obtain ⟨h1, e1, z1⟩ := insertFixStep_zigzig hx hsg hz
            simp [insertFixTrace, hbr, e1,
              insertFixStep_break hx z1 (Or.inr ⟨_, _, rfl, rfl⟩),
              insertFixBranch_break hx z1 (Or.inr ⟨_, _, rfl, rfl⟩)]
          · have hdp : dp = !dg := by cases dp <;> cases dg <;> simp_all
            subst hdp
            cases X with
            | nil => simp at hx
            | node x1 cx l xv r =>
              simp only [ptr_node, Option.some.injEq] at hx
              subst hx
              rw [node_eq_mkT dg] at hz
              obtain ⟨h1, e1, z1⟩ := insertFixStep_zigzag hsg hz
              simp [insertFixTrace, hbr, e1,
                insertFixStep_break (ptr_mk _ _ _ _ _ _) z1 (Or.inr ⟨_, _, rfl, rfl⟩),
                insertFixBranch_break (ptr_mk _ _ _ _ _ _) z1 (Or.inr ⟨_, _, rfl, rfl⟩)]

theorem ladder_reach : Reach ladder := by
  have r1 : Reach (afterInserts (new 0) [(1, 1)]) :=
    @Reach.insert _ _ 8 1 1 true (Reach.empty 0) rfl (by decide) rfl
  have r2 : Reach (afterInserts (new 0) [(1, 1), (2, 2)]) :=
    @Reach.insert _ _ 8 2 2 true r1 rfl (by decide) rfl
  have r3 : Reach (afterInserts (new 0) [(1, 1), (2, 2), (3, 3)]) :=
    @Reach.insert _ _ 8 3 3 true r2 rfl (by decide) rfl
  have r4 : Reach (afterInserts (new 0) [(1, 1), (2, 2), (3, 3), (4, 4)]) :=
    @Reach.insert _ _ 8 4 4 true r3 rfl (by decide) rfl
  have r5 : Reach (afterInserts (new 0) [(1, 1), (2, 2), (3, 3), (4, 4), (5, 5)]) :=
    @Reach.insert _ _ 8 5 5 true r4 rfl (by decide) rfl
  have r6 : Reach (afterInserts (new 0) [(1, 1), (2, 2), (3, 3), (4, 4), (5, 5), (6, 6)]) :=
    @Reach.insert _ _ 8 6 6 true r5 rfl (by decide) rfl
  exact @Reach.insert _ _ 8 7 7 true r6 rfl (by decide) rfl

/-- C18: the balancing loop of `insert` restructures at most once.  For every reachable
tree state, every value `v` that is absent and every free address `a` for the new node,
the call `insert(v)` reaches its balancing loop and the loop ends; the branches its
iterations take are some number of aunt-RED colour flips followed either by the exit, or
by one iteration of the rotation branch and then the exit at the test of the very next
iteration.  So the rotation branch runs at most once per call, and the call promotes at
most twice. -/
theorem insert_fixup_one_restructuring (t : RBTree) (ht : Reach t) (a : Nat)
    (ha : t.heap a = none) (v : Int) :
    ∃ N, ∀ fuel, N ≤ fuel → lookup fuel t v = some false →
      ∃ curr cID h0 h1, insertSearch fuel t v = some (some (curr, cID)) ∧
        wChild (t.heap.set a ⟨RED, v, some curr, cID, none, none⟩) (some curr) cID (some a) =
          some h0 ∧
        insertFix t.sentinel fuel h0 (some a) = some h1 ∧
        (∃ k, insertFixTrace t.sentinel fuel h0 (some a) =
            List.replicate k FixBranch.flip ++ [FixBranch.exit] ∨
          ∃ b, insertFixTrace t.sentinel fuel h0 (some a) =
            List.replicate k FixBranch.flip ++ [FixBranch.rotate b, FixBranch.exit]) ∧
        ((insertFixTrace t.sentinel fuel h0 (some a)).map FixBranch.rotations).sum ≤ 2 := by
  obtain ⟨T, hz, hV⟩ := reach_shape ht
  refine ⟨T.depth + 2, fun fuel hf hl => ?_⟩
  rw [lookup_shape hz hV (by omega) v] at hl
  have hm : v ∉ T.keys := by simpa using hl
  have hv : (find v [] T).2 = nil := by
    by_contra hne
    exact hm ((find_mem hV.sorted v).2 hne)
  obtain ⟨sn, h1, h2, -⟩ := sentinel_child hz
  have h3 := insertFind_spec v T [] fuel hz (by omega)
  simp only [hp_nil, hd_nil, toID_false, hv] at h3
  have z1 := RepZ_find v T [] hz
  rw [hv] at z1
  obtain ⟨h4, e4, z4⟩ := attach_spec v z1 ha
  have hlen := find_length v T []
  simp only [List.length_nil, zero_add] at hlen
  obtain ⟨h5, e5, -⟩ := @insertFix_spec t.sentinel _ _ _ _ _ (le_refl _)
    (ptr_node a RED nil v nil) z4 fuel (by omega)
  obtain ⟨k, e6⟩ := @insertFixTrace_spec t.sentinel _ _ _ _ _ (le_refl _)
    (ptr_node a RED nil v nil) z4 fuel (by omega)
  refine ⟨_, _, h4, h5, ?_, e4, e5, ⟨k, e6⟩, ?_⟩
  · simp only [insertSearch, rd_some, h1, andThen_some, h2, h3]
  · rcases e6 with e | ⟨b, e⟩
    · rw [e]
      simp [FixBranch.rotations]
    · rw [e]
      cases b <;> simp [FixBranch.rotations]

/-- The call `insert(8)` on the tree holding 1 to 7, where the loop flips colours once and
then rotates. -/
theorem insert_fixup_one_restructuring_witness :
    (Reach ladder ∧ ladder.heap 8 = none) ∧
      (∃ h0, wChild (ladder.heap.set 8 ⟨RED, 8, some 7, 1, none, none⟩) (some 7) 1 (some 8) =
          some h0 ∧
        insertFixTrace ladder.sentinel 8 h0 (some 8) =
          [FixBranch.flip, FixBranch.rotate false, FixBranch.exit]) ∧
      ∃ N, ∀ fuel, N ≤ fuel → lookup fuel ladder 8 = some false →
        ∃ curr cID h0 h1, insertSearch fuel ladder 8 = some (some (curr, cID)) ∧
          wChild (ladder.heap.set 8 ⟨RED, 8, some curr, cID, none, none⟩) (some curr) cID
            (some 8) = some h0 ∧
          insertFix ladder.sentinel fuel h0 (some 8) = some h1 ∧
          (∃ k, insertFixTrace ladder.sentinel fuel h0 (some 8) =
              List.replicate k FixBranch.flip ++ [FixBranch.exit] ∨
            ∃ b, insertFixTrace ladder.sentinel fuel h0 (some 8) =
              List.replicate k FixBranch.flip ++ [FixBranch.rotate b, FixBranch.exit]) ∧
          ((insertFixTrace ladder.sentinel fuel h0 (some 8)).map FixBranch.rotations).sum ≤ 2 :=
  ⟨⟨ladder_reach, rfl⟩, ⟨_, rfl, rfl⟩,
    insert_fixup_one_restructuring ladder ladder_reach 8 rfl 8⟩

end RBTree

namespace DisjointBench

/-! # The action chosen in `r_rw_transaction` -/

theorem should_write_zero (d : Disjoint) (writes reads : Nat) :
    should_write d 0 writes reads = !decide (reads < d.reads_per_ten) := by
  simp [should_write]

theorem should_write_pos (d : Disjoint) {i : Nat} (hi : i ≠ 0) (writes reads : Nat) :
    should_write d i writes reads = decide (writes < d.writes_per_ten) := by
  simp [should_write, hi]

/-- An iteration keeps the execution parameters and leaves `index` inside the buffer. -/
theorem r_rw_body_spec (d : Disjoint) (id i : Nat) (s : Locals) (hs : s.index < DJBUFFER_SIZE) :
    ∃ d1 s1 dec, r_rw_body d id i s = some (d1, s1, dec) ∧
      d1.reads_per_ten = d.reads_per_ten ∧ d1.writes_per_ten = d.writes_per_ten ∧
      s1.index < DJBUFFER_SIZE ∧ dec.i = i ∧
      dec.should_write = should_write d i dec.writes dec.reads := by
  have hm : ∀ x, x % DJBUFFER_SIZE < DJBUFFER_SIZE := fun x => Nat.mod_lt _ (by decide)
  unfold r_rw_body
  simp only [if_pos hs]
  split_ifs <;> exact ⟨_, _, _, rfl, rfl, rfl, hm _, rfl, rfl⟩

/-- The loop runs all its iterations; the decision of each is that of lines 113-120 at its
loop counter. -/
theorem r_rw_loop_spec (id R W : Nat) : ∀ (n i : Nat) (d : Disjoint) (s : Locals),
    s.index < DJBUFFER_SIZE → d.reads_per_ten = R → d.writes_per_ten = W →
    ∃ d1 s1 tr, r_rw_loop id n i d s = some (d1, s1, tr) ∧ tr.length = n ∧
      ∀ k (hk : k < tr.length), (tr.get ⟨k, hk⟩).i = i + k ∧
        ((tr.get ⟨k, hk⟩).should_write = true ↔
          if i + k = 0 then ¬ (tr.get ⟨k, hk⟩).reads < R else (tr.get ⟨k, hk⟩).writes < W)
  | 0, i, d, s, _, _, _ => ⟨d, s, [], rfl, rfl, fun k hk => absurd hk (by simp)⟩
  | n + 1, i, d, s, hs, hR, hW => by
    obtain ⟨d1, s1, dec, e1, k1, k2, k3, k4, k5⟩ := r_rw_body_spec d id i s hs
    obtain ⟨d2, s2, tr, e2, hl, ht⟩ := r_rw_loop_spec id R W n (i + 1) d1 s1 k3
      (k1.trans hR) (k2.trans hW)
    refine ⟨d2, s2, dec :: tr, by simp [r_rw_loop, e1, e2], by simp [hl], fun k hk => ?_⟩
    cases k with
    | zero =>
      refine ⟨k4, ?_⟩
      simp only [List.get_eq_getElem, List.getElem_cons_zero, add_zero]
      rw [k5]
      by_cases hi : i = 0
      · subst hi
        simp [should_write_zero, hR]
      · simp [should_write_pos d hi, hW, hi]
    | succ k =>
      have hk1 : k < tr.length := by simpa using hk
      have := ht k hk1
      simp only [List.get_eq_getElem, List.getElem_cons_succ] at this ⊢
      rw [show i + (k + 1) = i + 1 + k by omega]
      exact this

/-- C21: how `Disjoint::r_rw_transaction` chooses its action.  For every transaction id
inside `privateBuffers` and every start point inside the buffer, the loop runs its
`locations_per_transaction` iterations, and the value of `should_write` at the iteration
with the loop counter `i` is `!(reads < reads_per_ten)` at `i = 0` only; at every `i` other
than 0, odd or even, it is `writes < writes_per_ten`, the test `i && 0x1` of line 117 being
true for every nonzero `i`.  So the action does not go by the parity of `i`. -/
theorem r_rw_action_by_nonzero (d : Disjoint) (id startpoint : Nat) (hid : id < BUFFER_COUNT)
    (hsp : startpoint < DJBUFFER_SIZE) :
    ∃ d1 s1 tr, r_rw_run d id startpoint = some (d1, s1, tr) ∧
      tr.length = d.locations_per_transaction ∧
      ∀ k (hk : k < tr.length), (tr.get ⟨k, hk⟩).i = k ∧
        ((tr.get ⟨k, hk⟩).should_write = true ↔
          if k = 0 then ¬ (tr.get ⟨k, hk⟩).reads < d.reads_per_ten
          else (tr.get ⟨k, hk⟩).writes < d.writes_per_ten) := by
  obtain ⟨d1, s1, tr, e, hl, ht⟩ := r_rw_loop_spec id d.reads_per_ten d.writes_per_ten
    d.locations_per_transaction 0 d ⟨startpoint, 0, 0, 0⟩ hsp rfl rfl
  refine ⟨d1, s1, tr, by simp [r_rw_run, hid, e], hl, fun k hk => ?_⟩
  simpa using ht k hk

/-- The run on `threeLocations`: at the even loop counter 2 one read is done and
`reads_per_ten` is 8, yet the iteration writes. -/
theorem r_rw_action_by_nonzero_witness :
    (0 < BUFFER_COUNT ∧ 0 < DJBUFFER_SIZE) ∧
      (∃ d1 s1, r_rw_run threeLocations 0 0 =
        some (d1, s1, [⟨0, 0, 0, false⟩, ⟨1, 0, 1, true⟩, ⟨2, 1, 1, true⟩])) ∧
      (1 < threeLocations.reads_per_ten ∧ should_write threeLocations 2 1 1 = true) ∧
      ∃ d1 s1 tr, r_rw_run threeLocations 0 0 = some (d1, s1, tr) ∧
        tr.length = threeLocations.locations_per_transaction ∧
        ∀ k (hk : k < tr.length), (tr.get ⟨k, hk⟩).i = k ∧
          ((tr.get ⟨k, hk⟩).should_write = true ↔
            if k = 0 then ¬ (tr.get ⟨k, hk⟩).reads < threeLocations.reads_per_ten
            else (tr.get ⟨k, hk⟩).writes < threeLocations.writes_per_ten) :=
  ⟨⟨by decide, by decide⟩, ⟨_, _, rfl⟩, ⟨by decide, by decide⟩,
    r_rw_action_by_nonzero threeLocations 0 0 (by decide) (by decide)⟩

end DisjointBench

namespace HashTable

/-! # The bucket index and the sanity check -/

theorem tmod_neg_left (a b : Int) : Int.tmod (-a) b = -Int.tmod a b := by
  rw [Int.tmod_def, Int.tmod_def, Int.neg_tdiv]
  ring

/-- The remainder of a negative key. -/
theorem bucketIndex_neg {val : Int} (h0 : val < 0) :
    bucketIndex val = -((-val) % 256) := by
  unfold bucketIndex N_BUCKETS
  have h1 : Int.tmod (-val) 256 = (-val) % 256 := Int.tmod_eq_emod (by omega) (by decide)
  rw [tmod_neg_left] at h1
  omega

/-- The remainder of a key that is not negative. -/
theorem bucketIndex_nonneg {val : Int} (h0 : 0 ≤ val) : bucketIndex val = val % 256 :=
  Int.tmod_eq_emod h0 (by decide)

/-- The subscript is inside the array exactly for the keys that are not negative or are
multiples of `N_BUCKETS`. -/
theorem bucketIndex_range (val : Int) :
    (0 ≤ bucketIndex val ∧ bucketIndex val < N_BUCKETS) ↔ (0 ≤ val ∨ N_BUCKETS ∣ val) := by
  have hN : N_BUCKETS = 256 := rfl
  by_cases h0 : 0 ≤ val
  · rw [bucketIndex_nonneg h0, hN]
    simp only [h0, true_or, iff_true]
    omega
  · rw [bucketIndex_neg (by omega), hN]
    simp only [h0, false_or]
    constructor
    · intro h
      omega
    · intro h
      omega

theorem verify_iff (val : Int) :
    verify_hash_function (toUInt32 val) (toUInt32 (bucketIndex val)) = true ↔
      (0 ≤ val ∨ N_BUCKETS ∣ val) := by
  have hN : N_BUCKETS.toNat = 256 := rfl
  have hN2 : N_BUCKETS = 256 := rfl
  have ha : (((val % 4294967296).toNat : Nat) : Int) = val % 4294967296 :=
    Int.toNat_of_nonneg (Int.emod_nonneg _ (by decide))
  have hb : (((bucketIndex val % 4294967296).toNat : Nat) : Int) =
      bucketIndex val % 4294967296 :=
    Int.toNat_of_nonneg (Int.emod_nonneg _ (by decide))
  simp only [verify_hash_function, toUInt32, decide_eq_true_eq, hN]
  rw [← Int.ofNat_inj]
  push_cast
  rw [ha, hb, hN2]
  by_cases h0 : 0 ≤ val
  · rw [bucketIndex_nonneg h0]
    simp only [h0, true_or, iff_true]
    omega
  · rw [bucketIndex_neg (by omega)]
    simp only [h0, false_or]
    constructor
    · intro h
      omega
    · intro h
      omega

/-- C22: the bucket index and the sanity check.  For an `int` key `val`, the subscript
`val % N_BUCKETS` used by `insert`, `lookup` and `remove` lies in `[0, N_BUCKETS)` exactly
when `val` is not negative or is a multiple of `N_BUCKETS`, and
`verify_hash_function(val, index)` is true for exactly the same keys.  For every other key,
a negative one that is not a multiple of 256, the subscript is negative, the three
operations access `bucket` outside the array, and the sanity check fails for the index. -/
theorem bucket_index_valid_iff (val : Int) (hv : -2147483648 ≤ val ∧ val ≤ 2147483647) :
    ((0 ≤ bucketIndex val ∧ bucketIndex val < N_BUCKETS) ↔ (0 ≤ val ∨ N_BUCKETS ∣ val)) ∧
      (verify_hash_function (toUInt32 val) (toUInt32 (bucketIndex val)) = true ↔
        (0 ≤ val ∨ N_BUCKETS ∣ val)) ∧
      (∀ (L : Type) (t : Table L) (ins : L → Int → L) (look : L → Int → Bool),
        ((insert ins t val).isSome = true ↔ (0 ≤ val ∨ N_BUCKETS ∣ val)) ∧
        ((lookup look t val).isSome = true ↔ (0 ≤ val ∨ N_BUCKETS ∣ val)) ∧
        ((remove ins t val).isSome = true ↔ (0 ≤ val ∨ N_BUCKETS ∣ val))) := by
  refine ⟨bucketIndex_range val, verify_iff val, fun L t ins look => ?_⟩
  have hr := bucketIndex_range val
  by_cases h : 0 ≤ bucketIndex val ∧ bucketIndex val < N_BUCKETS
  · have h2 := hr.1 h
    simp [insert, lookup, remove, Table.bucketAt, h, h2]
  · have h2 : ¬ (0 ≤ val ∨ N_BUCKETS ∣ val) := fun k => h (hr.2 k)
    simp [insert, lookup, remove, Table.bucketAt, h, h2]

/-- The key -1: the subscript is -1, outside the array, and the sanity check is false for
it. -/
theorem bucket_index_valid_iff_witness :
    ((-2147483648 : Int) ≤ -1 ∧ (-1 : Int) ≤ 2147483647) ∧
      (bucketIndex (-1) = -1 ∧
        verify_hash_function (toUInt32 (-1)) (toUInt32 (bucketIndex (-1))) = false ∧
        ¬ (0 ≤ (-1 : Int) ∨ N_BUCKETS ∣ (-1 : Int))) ∧
      ((0 ≤ bucketIndex (-1) ∧ bucketIndex (-1) < N_BUCKETS) ↔
        (0 ≤ (-1 : Int) ∨ N_BUCKETS ∣ (-1 : Int))) ∧
      (verify_hash_function (toUInt32 (-1)) (toUInt32 (bucketIndex (-1))) = true ↔
        (0 ≤ (-1 : Int) ∨ N_BUCKETS ∣ (-1 : Int))) ∧
      (∀ (L : Type) (t : Table L) (ins : L → Int → L) (look : L → Int → Bool),
        ((insert ins t (-1)).isSome = true ↔ (0 ≤ (-1 : Int) ∨ N_BUCKETS ∣ (-1 : Int))) ∧
        ((lookup look t (-1)).isSome = true ↔ (0 ≤ (-1 : Int) ∨ N_BUCKETS ∣ (-1 : Int))) ∧
        ((remove ins t (-1)).isSome = true ↔ (0 ≤ (-1 : Int) ∨ N_BUCKETS ∣ (-1 : Int)))) :=
  ⟨⟨by decide, by decide⟩, ⟨by decide, by decide, by decide⟩,
    bucket_index_valid_iff (-1) ⟨by decide, by decide⟩⟩

end HashTable
